import Mathlib

/-! # Go_reloaded: the directive-resolution pipeline of `main.go`

A shallow embedding of `TextProcessor` and of the parts of the Go standard
library it calls (`strings`, `strconv`, `fmt`, `regexp`), followed by theorems
about the embedded functions.

Conventions of the embedding.

* A Go `string` is a `List Char` (a sequence of Unicode code points).
* A Go `int` / `int64` is an `Int`; the only place of the program where 64-bit
  wrap-around can happen (`-count` in `applyModifier`) goes through `wrap64`.
* The Unicode tables of the Go runtime (case mappings and letter/digit classes
  of non-ASCII runes) are not part of the repository; they are a parameter
  `U : UnicodeTables`. ASCII runes never consult them, exactly as in Go.
-/

namespace GoReloaded

/-! ## `unicode` -/

/-- The tables of package `unicode` for runes above `0x7F`. -/
structure UnicodeTables where
  upper : Char → Char
  lower : Char → Char
  title : Char → Char
  isLetter : Char → Bool
  isDigit : Char → Bool

/-- The tables that leave every non-ASCII rune alone and classify none of them
as a letter or digit. -/
def asciiTables : UnicodeTables :=
  ⟨fun c => c, fun c => c, fun c => c, fun _ => false, fun _ => false⟩

/-- `unicode.IsSpace`. -/
def unicodeIsSpace (c : Char) : Bool :=
  let n := c.toNat
  (9 ≤ n && n ≤ 13) || n == 32 || n == 0x85 || n == 0xA0 || n == 0x1680 ||
  (0x2000 ≤ n && n ≤ 0x200A) || n == 0x2028 || n == 0x2029 || n == 0x202F ||
  n == 0x205F || n == 0x3000

def isAsciiLower (c : Char) : Bool := 97 ≤ c.toNat && c.toNat ≤ 122

def isAsciiUpper (c : Char) : Bool := 65 ≤ c.toNat && c.toNat ≤ 90

def isAsciiDigit (c : Char) : Bool := 48 ≤ c.toNat && c.toNat ≤ 57

/-- The ASCII fast path of `unicode.ToUpper` and `unicode.ToTitle`. -/
def asciiToUpper (c : Char) : Char :=
  if isAsciiLower c then Char.ofNat (c.toNat - 32) else c

/-- The ASCII fast path of `unicode.ToLower`. -/
def asciiToLower (c : Char) : Char :=
  if isAsciiUpper c then Char.ofNat (c.toNat + 32) else c

/-- `unicode.ToUpper`: ASCII fast path, otherwise the table. -/
def unicodeToUpper (U : UnicodeTables) (c : Char) : Char :=
  if c.toNat ≤ 127 then asciiToUpper c else U.upper c

/-- `unicode.ToLower`: ASCII fast path, otherwise the table. -/
def unicodeToLower (U : UnicodeTables) (c : Char) : Char :=
  if c.toNat ≤ 127 then asciiToLower c else U.lower c

/-- `unicode.ToTitle`: ASCII fast path, otherwise the table. -/
def unicodeToTitle (U : UnicodeTables) (c : Char) : Char :=
  if c.toNat ≤ 127 then asciiToUpper c else U.title c

/-! ## `strings` -/

/-- `strings.ToUpper`. -/
def ToUpper (U : UnicodeTables) (s : List Char) : List Char := s.map (unicodeToUpper U)

/-- `strings.ToLower`. -/
def ToLower (U : UnicodeTables) (s : List Char) : List Char := s.map (unicodeToLower U)

/-- `strings.isSeparator`, the word-boundary test of `strings.Title`. -/
def isSeparator (U : UnicodeTables) (c : Char) : Bool :=
  if c.toNat ≤ 127 then
    !(isAsciiDigit c || isAsciiLower c || isAsciiUpper c || c.toNat == 95)
  else if U.isLetter c || U.isDigit c then false
  else unicodeIsSpace c

/-- The mapping closure of `strings.Title`, threaded through the string with
its captured variable `prev`. -/
def titleMap (U : UnicodeTables) : Char → List Char → List Char
  | _, [] => []
  | prev, c :: cs =>
    (if isSeparator U prev then unicodeToTitle U c else c) :: titleMap U c cs

/-- `strings.Title`. -/
def Title (U : UnicodeTables) (s : List Char) : List Char := titleMap U ' ' s

/-- The scanning loop of `strings.Fields`: `cur` is the field being read. -/
def fieldsLoop : List Char → List Char → List (List Char)
  | [], cur => if cur.isEmpty then [] else [cur]
  | c :: cs, cur =>
    if unicodeIsSpace c then
      (if cur.isEmpty then fieldsLoop cs [] else cur :: fieldsLoop cs [])
    else fieldsLoop cs (cur ++ [c])

/-- `strings.Fields`. -/
def Fields (s : List Char) : List (List Char) := fieldsLoop s []

/-- `strings.Join`. -/
def Join : List (List Char) → List Char → List Char
  | [], _ => []
  | [w], _ => w
  | w :: ws, sep => w ++ sep ++ Join ws sep

/-- `strings.TrimSpace`. -/
def TrimSpace (s : List Char) : List Char :=
  ((s.dropWhile unicodeIsSpace).reverse.dropWhile unicodeIsSpace).reverse

/-- `strings.ReplaceAll(s, " ", "")`, the only use the program makes of it. -/
def removeSpaces (s : List Char) : List Char := s.filter (fun c => c != ' ')

/-! ## `strconv` and `fmt` -/

/-- The two kinds of `strconv.NumError`. -/
inductive NumError where
  | errSyn
  | errRange
  deriving DecidableEq, Repr

/-- A Go result pair `(value, err)`. -/
structure NumResult where
  val : Int
  err : Option NumError
  deriving DecidableEq, Repr

/-- Two's-complement wrap-around of a 64-bit signed integer. -/
def wrap64 (x : Int) : Int := (x + 2 ^ 63) % 2 ^ 64 - 2 ^ 63

/-- The digit value of a byte in `strconv.ParseUint`. -/
def digitVal (c : Char) : Option Nat :=
  if isAsciiDigit c then some (c.toNat - 48)
  else if isAsciiLower c then some (c.toNat - 97 + 10)
  else if isAsciiUpper c then some (c.toNat - 65 + 10)
  else none

def maxUint64 : Nat := 2 ^ 64 - 1

/-- The digit loop of `strconv.ParseUint(s, base, 64)` for an explicit base. -/
def parseUintLoop (base : Nat) : List Char → Nat → Nat × Option NumError
  | [], n => (n, none)
  | c :: cs, n =>
    match digitVal c with
    | none => (0, some .errSyn)
    | some d =>
      if base ≤ d then (0, some .errSyn)
      else if maxUint64 / base + 1 ≤ n then (maxUint64, some .errRange)
      else if maxUint64 < n * base + d then (maxUint64, some .errRange)
      else parseUintLoop base cs (n * base + d)

/-- `strconv.ParseUint(s, base, 64)` with `2 ≤ base ≤ 36`. -/
def ParseUint (s : List Char) (base : Nat) : Nat × Option NumError :=
  if s.isEmpty then (0, some .errSyn) else parseUintLoop base s 0

/-- `strconv.ParseInt(s, base, 64)` with `2 ≤ base ≤ 36`. -/
def ParseInt (s : List Char) (base : Nat) : NumResult :=
  match s with
  | [] => ⟨0, some .errSyn⟩
  | c :: cs =>
    let neg := c == '-'
    let body := if c == '+' || c == '-' then cs else s
    let r := ParseUint body base
    if r.2 == some .errSyn then ⟨0, some .errSyn⟩
    else if !neg && 2 ^ 63 ≤ r.1 then ⟨2 ^ 63 - 1, some .errRange⟩
    else if neg && 2 ^ 63 < r.1 then ⟨-(2 ^ 63), some .errRange⟩
    else ⟨if neg then wrap64 (-(wrap64 r.1)) else wrap64 r.1, none⟩

/-- `strconv.Atoi`, which the documentation defines as `ParseInt(s, 10, 0)`
converted to `int` (a 64-bit `int`). -/
def Atoi (s : List Char) : NumResult := ParseInt s 10

/-- The character of a digit value below 16, upper case as `%X` prints it. -/
def digitChar (d : Nat) : Char :=
  if d < 10 then Char.ofNat (48 + d) else Char.ofNat (55 + d)

/-- The digits of `n` in `base`, least significant first. -/
def digitsRev (base : Nat) : Nat → Nat → List Char
  | 0, _ => []
  | fuel + 1, n =>
    digitChar (n % base) :: (if n / base = 0 then [] else digitsRev base fuel (n / base))

/-- The digits of a natural number in `base`, most significant first. -/
def fmtNat (base n : Nat) : List Char := (digitsRev base (n + 1) n).reverse

/-- An integer printed by `fmt.Sprintf` with verb `%d` (10), `%b` (2), `%X` (16). -/
def fmtInt (base : Nat) (v : Int) : List Char :=
  if v < 0 then '-' :: fmtNat base v.natAbs else fmtNat base v.natAbs

/-! ## `regexp`

Go's `regexp` returns the leftmost match and, among the matches that start
there, the one a backtracking search with Perl priorities finds first. The
matcher below is that backtracking search, written in continuation-passing
style over the syntax tree of the pattern. -/

/-- A character class: a list of inclusive code-point ranges, possibly negated. -/
structure CClass where
  neg : Bool
  ranges : List (Nat × Nat)

def CClass.test (k : CClass) (c : Char) : Bool :=
  k.neg != k.ranges.any (fun r => r.1 ≤ c.toNat && c.toNat ≤ r.2)

/-- The pattern syntax the program uses. `star true r` is `r*`, `star false r`
is the lazy `r*?`; `cap i r` is the `i`-th capturing group; `bol m` and `eol m`
are `^` and `$` with the multi-line flag `m`; `wordB` is `\b`. -/
inductive Regex where
  | eps : Regex
  | chr : Char → Regex
  | cls : CClass → Regex
  | seq : Regex → Regex → Regex
  | alt : Regex → Regex → Regex
  | star : Bool → Regex → Regex
  | cap : Nat → Regex → Regex
  | bol : Bool → Regex
  | eol : Bool → Regex
  | wordB : Regex

/-- A position of the matcher inside the subject text: the rune before it, the
text after it, its offset, and the capture spans `(group, start, stop)` closed
so far, most recent first. -/
structure MState where
  prev : Option Char
  rest : List Char
  pos : Nat
  caps : List (Nat × Nat × Nat)

/-- The class `\w` of the ASCII word characters. -/
def isWordChar (c : Char) : Bool :=
  isAsciiDigit c || isAsciiUpper c || isAsciiLower c || c.toNat == 95

def optWord : Option Char → Bool
  | none => false
  | some c => isWordChar c

/-- The iteration of `r*` (greedy) or `r*?` (lazy): `step` matches one `r`. The
counter bounds the number of iterations by the length of the remaining text;
every starred sub-pattern of the program consumes at least one rune per
iteration, so the bound is never the reason an iteration stops. -/
def starLoop (greedy : Bool) (step : MState → (MState → Option MState) → Option MState) :
    Nat → MState → (MState → Option MState) → Option MState
  | 0, s, k => k s
  | n + 1, s, k =>
    if greedy then
      match step s (fun t => starLoop greedy step n t k) with
      | some r => some r
      | none => k s
    else
      match k s with
      | some r => some r
      | none => step s (fun t => starLoop greedy step n t k)

/-- Match `re` at the position `s`, then continue with `k`; the first success in
priority order is the result. -/
def Regex.run : Regex → MState → (MState → Option MState) → Option MState
  | .eps, s, k => k s
  | .chr c, s, k =>
    match s.rest with
    | [] => none
    | d :: ds => if d = c then k ⟨some d, ds, s.pos + 1, s.caps⟩ else none
  | .cls cc, s, k =>
    match s.rest with
    | [] => none
    | d :: ds => if cc.test d then k ⟨some d, ds, s.pos + 1, s.caps⟩ else none
  | .seq a b, s, k => a.run s (fun t => b.run t k)
  | .alt a b, s, k =>
    match a.run s k with
    | some r => some r
    | none => b.run s k
  | .star g r, s, k => starLoop g r.run s.rest.length s k
  | .cap i r, s, k => r.run s (fun t => k ⟨t.prev, t.rest, t.pos, (i, s.pos, t.pos) :: t.caps⟩)
  | .bol m, s, k =>
    if s.prev.isNone || (m && s.prev == some '\n') then k s else none
  | .eol m, s, k =>
    if s.rest.isEmpty || (m && s.rest.head? == some '\n') then k s else none
  | .wordB, s, k =>
    if optWord s.prev != optWord s.rest.head? then k s else none

/-- A match: its span in the subject and its capture spans. -/
structure Match where
  start : Nat
  stop : Nat
  caps : List (Nat × Nat × Nat)

/-- The unanchored search: the leftmost position at or after `pos` where the
pattern matches. -/
def Regex.searchFrom (re : Regex) : Option Char → List Char → Nat → Option Match
  | prev, [], pos =>
    match re.run ⟨prev, [], pos, []⟩ some with
    | some t => some ⟨pos, t.pos, t.caps⟩
    | none => none
  | prev, c :: cs, pos =>
    match re.run ⟨prev, c :: cs, pos, []⟩ some with
    | some t => some ⟨pos, t.pos, t.caps⟩
    | none => re.searchFrom (some c) cs (pos + 1)

/-- The rune before offset `pos` of `src`. -/
def prevAt (src : List Char) (pos : Nat) : Option Char :=
  if pos = 0 then none else src.get? (pos - 1)

/-- The method `doExecute` of a compiled pattern: search `src` from offset `pos`, seeing
the text before `pos` as context. -/
def Regex.exec (re : Regex) (src : List Char) (pos : Nat) : Option Match :=
  re.searchFrom (prevAt src pos) (src.drop pos) pos

/-- The substring `src[a:b]`. -/
def slice (src : List Char) (a b : Nat) : List Char := (src.drop a).take (b - a)

/-- The span recorded last for group `i`. -/
def capSpan : List (Nat × Nat × Nat) → Nat → Option (Nat × Nat)
  | [], _ => none
  | (j, a, b) :: cs, i => if j = i then some (a, b) else capSpan cs i

/-- The text of group `i` of a match (empty when the group took no part). -/
def Match.group (m : Match) (src : List Char) (i : Nat) : List Char :=
  match capSpan m.caps i with
  | some (a, b) => slice src a b
  | none => []

/-- The whole matched text. -/
def Match.text (m : Match) (src : List Char) : List Char := slice src m.start m.stop

/-- The number of capturing groups of a pattern. -/
def Regex.numGroups : Regex → Nat
  | .seq a b => max a.numGroups b.numGroups
  | .alt a b => max a.numGroups b.numGroups
  | .star _ r => r.numGroups
  | .cap i r => max i r.numGroups
  | _ => 0

/-- `MatchString`. -/
def Regex.MatchString (re : Regex) (s : List Char) : Bool := (re.exec s 0).isSome

/-- `FindString`. -/
def Regex.FindString (re : Regex) (s : List Char) : List Char :=
  match re.exec s 0 with
  | some m => m.text s
  | none => []

/-- `FindStringSubmatch`: `none` is Go's `nil` slice (no match); otherwise the
matched text followed by the text of every group. -/
def Regex.FindStringSubmatch (re : Regex) (s : List Char) : Option (List (List Char)) :=
  match re.exec s 0 with
  | some m => some (m.text s :: (List.range re.numGroups).map (fun i => m.group s (i + 1)))
  | none => none

/-- The loop of `replaceAll`, the engine of `ReplaceAllString` and
`ReplaceAllStringFunc`. `repl` produces the replacement of a match and may fail
(a Go run-time panic in the callback). The first argument bounds the number of
iterations; `searchPos` grows in every iteration, so `src.length + 2` iterations
always suffice. -/
def replaceAllLoop (re : Regex) (src : List Char) (repl : Match → Option (List Char)) :
    Nat → Nat → Nat → List Char → Option (List Char)
  | 0, _, _, _ => none
  | fuel + 1, searchPos, lastMatchEnd, buf =>
    if src.length < searchPos then some (buf ++ src.drop lastMatchEnd)
    else
      match re.exec src searchPos with
      | none => some (buf ++ src.drop lastMatchEnd)
      | some a =>
        let buf1 := buf ++ slice src lastMatchEnd a.start
        let next := if a.stop < searchPos + 1 then searchPos + 1 else a.stop
        if lastMatchEnd < a.stop ∨ a.start = 0 then
          match repl a with
          | none => none
          | some r => replaceAllLoop re src repl fuel next a.stop (buf1 ++ r)
        else replaceAllLoop re src repl fuel next a.stop buf1

/-- `ReplaceAllStringFunc`: the callback receives the matched text. -/
def Regex.ReplaceAllStringFunc (re : Regex) (src : List Char)
    (f : List Char → Option (List Char)) : Option (List Char) :=
  replaceAllLoop re src (fun m => f (m.text src)) (src.length + 2) 0 0 []

/-- A piece of a replacement template: literal text or `$i`. -/
inductive TPiece where
  | text : List Char → TPiece
  | group : Nat → TPiece

/-- The method `expand` of a compiled pattern on a parsed template. -/
def expandTemplate (tpl : List TPiece) (src : List Char) (m : Match) : List Char :=
  (tpl.map (fun p => match p with
    | .text s => s
    | .group i => if i = 0 then m.text src else m.group src i)).flatten

/-- `ReplaceAllString` with a parsed template. -/
def Regex.ReplaceAllString (re : Regex) (src : List Char) (tpl : List TPiece) :
    Option (List Char) :=
  replaceAllLoop re src (fun m => some (expandTemplate tpl src m)) (src.length + 2) 0 0 []

/-- The loop of `allMatches`, the engine of `FindAllStringSubmatch(s, -1)`: the
matches in order, an empty match right after another match being skipped. -/
def allMatchesLoop (re : Regex) (s : List Char) :
    Nat → Nat → Option Nat → Option (List Match)
  | 0, _, _ => none
  | fuel + 1, pos, prevMatchEnd =>
    if s.length < pos then some []
    else
      match re.exec s pos with
      | none => some []
      | some m =>
        let accept := !(m.stop == pos && some m.start == prevMatchEnd)
        let next := if m.stop = pos then pos + 1 else m.stop
        match allMatchesLoop re s fuel next (some m.stop) with
        | none => none
        | some ms => some (if accept then m :: ms else ms)

/-- `FindAllStringSubmatch(s, -1)`: for every match, its text and group texts. -/
def Regex.FindAllStringSubmatch (re : Regex) (s : List Char) :
    Option (List (List (List Char))) :=
  (allMatchesLoop re s (s.length + 2) 0 none).map (fun ms =>
    ms.map (fun m => m.text s :: (List.range re.numGroups).map (fun i => m.group s (i + 1))))

/-! ### Pattern-building shorthands -/

/-- A literal string. -/
def Regex.lit : List Char → Regex
  | [] => .eps
  | c :: cs => .seq (.chr c) (Regex.lit cs)

/-- Concatenation of a list of patterns. -/
def Regex.cat : List Regex → Regex
  | [] => .eps
  | r :: rs => .seq r (Regex.cat rs)

/-- Greedy `r+`. -/
def Regex.plus (r : Regex) : Regex := .seq r (.star true r)

/-- Lazy `r+?`. -/
def Regex.plusLazy (r : Regex) : Regex := .seq r (.star false r)

/-- Greedy `r?`. -/
def Regex.opt (r : Regex) : Regex := .alt r .eps

/-- Lazy `r{0,n}?`: at most `n` copies, as few as possible. -/
def Regex.upToLazy (r : Regex) : Nat → Regex
  | 0 => .eps
  | n + 1 => .alt .eps (.seq r (Regex.upToLazy r n))

/-- The class `\s`, which is `[\t\n\f\r ]`. -/
def clsSpace : CClass := ⟨false, [(9, 10), (12, 13), (32, 32)]⟩

/-- The class `\S`. -/
def clsNonSpace : CClass := ⟨true, [(9, 10), (12, 13), (32, 32)]⟩

/-- The class `\w`, which is `[0-9A-Za-z_]`. -/
def clsWord : CClass := ⟨false, [(48, 57), (65, 90), (95, 95), (97, 122)]⟩

/-- The class `\d`. -/
def clsDigit : CClass := ⟨false, [(48, 57)]⟩

/-- The class `[0-9A-Fa-f]`. -/
def clsHex : CClass := ⟨false, [(48, 57), (65, 70), (97, 102)]⟩

/-- `\s*`. -/
def reSpaces : Regex := .star true (.cls clsSpace)

/-- Alternation of a non-empty list of patterns, in priority order. -/
def Regex.alts : List Regex → Regex
  | [] => .cls ⟨false, []⟩
  | [r] => r
  | r :: rs => .alt r (Regex.alts rs)

/-- `up|low|cap`. -/
def reUpLowCap : Regex :=
  Regex.alts [Regex.lit "up".toList, Regex.lit "low".toList, Regex.lit "cap".toList]

/-- `-?\d+`. -/
def reSignedDigits : Regex := .seq (Regex.opt (.chr '-')) (Regex.plus (.cls clsDigit))

/-! ## `main.go` -/

/-- A counted loop `for i := start; i < stop; i++ { body }` whose body does not
change `stop`: `forLoop body n start st` runs the `n` iterations from `start`.
The body fails on a run-time panic. -/
def forLoop {σ : Type} (body : Int → σ → Option σ) : Nat → Int → σ → Option σ
  | 0, _, st => some st
  | n + 1, i, st => (body i st).bind (forLoop body n (i + 1))

/-- The assignment `words[i] = f(words[i])`; an index outside the slice panics. -/
def updateWord (f : List Char → List Char) (i : Int) (words : List (List Char)) :
    Option (List (List Char)) :=
  if 0 ≤ i ∧ i < words.length then
    some (words.set i.toNat (f (words.getD i.toNat [])))
  else none

/-- The `switch modifier` of `applyModifier`: a modifier other than the three
known ones leaves the word alone. -/
def applyCase (U : UnicodeTables) (modifier : List Char) (w : List Char) : List Char :=
  if modifier = "cap".toList then Title U (ToLower U w)
  else if modifier = "low".toList then ToLower U w
  else if modifier = "up".toList then ToUpper U w
  else w

/-- The range `[start, end)` of word indices that `applyModifier` selects among
`n` words for a given `count`. -/
def modifierWindow (n : Int) (count : Int) : Int × Int :=
  if 0 < count then
    (if n - count < 0 then 0 else n - count, n)
  else if count < 0 then
    (0, if n < wrap64 (-count) then n else wrap64 (-count))
  else (0, n)

/-- `applyModifier` (main.go:182). -/
def applyModifier (U : UnicodeTables) (text modifier : List Char) (count : Int) :
    Option (List Char) :=
  let words := Fields text
  let w := modifierWindow words.length count
  (forLoop (updateWord (applyCase U modifier)) (w.2 - w.1).toNat w.1 words).map
    (fun ws => Join ws " ".toList)

/-- `up|low|cap|hex|bin`. -/
def reDirectiveNames : Regex :=
  Regex.alts [Regex.lit "up".toList, Regex.lit "low".toList, Regex.lit "cap".toList,
    Regex.lit "hex".toList, Regex.lit "bin".toList]

/-- `\((up|low|cap|hex|bin)\)`, the repeated group of the pattern of
`processMultipleTypes`. -/
def reChainItem : Regex := Regex.cat [.chr '(', .cap 2 reDirectiveNames, .chr ')']

/-- The pattern of `processMultipleTypes`:
`([0-9A-Fa-f]+)(?:\((up|low|cap|hex|bin)\))+`. -/
def reMultipleTypes : Regex :=
  Regex.cat [.cap 1 (Regex.plus (.cls clsHex)), Regex.plus reChainItem]

/-- `([0-9A-Fa-f]+)`. -/
def reHexRun : Regex := .cap 1 (Regex.plus (.cls clsHex))

/-- `\((\w+)\)`. -/
def reOperation : Regex := Regex.cat [.chr '(', .cap 1 (Regex.plus (.cls clsWord)), .chr ')']

/-- The first loop of the callback of `processMultipleTypes`: one case modifier. -/
def multiCaseStep (U : UnicodeTables) (value : List Char) (op : List (List Char)) :
    Option (List Char) := do
  let o ← op.get? 1
  if o = "cap".toList then pure (Title U (ToLower U value))
  else if o = "low".toList then pure (ToLower U value)
  else if o = "up".toList then pure (ToUpper U value)
  else pure value

/-- The second loop of the callback of `processMultipleTypes`: one conversion
attempt; the state is `(value, converted)`. -/
def multiConvStep (st : List Char × Bool) (op : List (List Char)) :
    Option (List Char × Bool) := do
  let o ← op.get? 1
  if !st.2 && (o = "hex".toList || o = "bin".toList) then
    if o = "hex".toList then
      let r := ParseInt st.1 16
      if r.err = none then pure (fmtInt 10 r.val, true) else pure st
    else
      let r := ParseInt st.1 2
      if r.err = none then pure (fmtInt 10 r.val, true) else pure st
  else pure st

/-- The callback of `processMultipleTypes`. -/
def multipleTypesCallback (U : UnicodeTables) (m : List Char) : Option (List Char) := do
  let value := reHexRun.FindString m
  let operations ← reOperation.FindAllStringSubmatch m
  let value ← operations.foldlM (multiCaseStep U) value
  let st ← operations.foldlM multiConvStep (value, false)
  pure st.1

/-- `processMultipleTypes` (main.go:281). -/
def processMultipleTypes (U : UnicodeTables) (text : List Char) : Option (List Char) :=
  reMultipleTypes.ReplaceAllStringFunc text (multipleTypesCallback U)

/-- The pattern of `processConversion`: `([0-9A-Fa-f]+)\s*\((\w+)\)\s*\((\w+)\)`. -/
def reConversion : Regex :=
  Regex.cat [.cap 1 (Regex.plus (.cls clsHex)), reSpaces,
    .chr '(', .cap 2 (Regex.plus (.cls clsWord)), .chr ')', reSpaces,
    .chr '(', .cap 3 (Regex.plus (.cls clsWord)), .chr ')']

/-- The callback of `processConversion`. -/
def conversionCallback (m : List Char) : Option (List Char) := do
  let parts ← reConversion.FindStringSubmatch m
  let num ← parts.get? 1
  let firstOp ← parts.get? 2
  let secondOp ← parts.get? 3
  let r : NumResult :=
    if firstOp = "bin".toList then ParseInt num 2
    else if firstOp = "hex".toList then ParseInt num 16
    else ⟨0, none⟩
  if r.err ≠ none then pure m
  else if secondOp = "bin".toList then pure (fmtInt 2 r.val)
  else if secondOp = "hex".toList then
    (if firstOp = "bin".toList then pure (fmtInt 16 r.val) else pure (fmtInt 10 r.val))
  else pure m

/-- `processConversion` (main.go:33). -/
def processConversion (text : List Char) : Option (List Char) :=
  reConversion.ReplaceAllStringFunc text conversionCallback

/-- `\(bin, (-?\d+)\)`. -/
def reBinCount : Regex := Regex.cat [Regex.lit "(bin, ".toList, .cap 1 reSignedDigits, .chr ')']

/-- `\(hex, (-?\d+)\)`. -/
def reHexCount : Regex := Regex.cat [Regex.lit "(hex, ".toList, .cap 1 reSignedDigits, .chr ')']

/-- The two callbacks of `processConversioncount`, for output base `base`. -/
def conversionCountCallback (re : Regex) (base : Nat) (m : List Char) : Option (List Char) :=
  match re.FindStringSubmatch m with
  | none => some m
  | some parts =>
    if parts.length < 2 then some m
    else do
      let p ← parts.get? 1
      let r := ParseInt p 10
      if r.err ≠ none then pure m else pure (fmtInt base r.val)

/-- `processConversioncount` (main.go:68). -/
def processConversioncount (text : List Char) : Option (List Char) := do
  let text ← reBinCount.ReplaceAllStringFunc text (conversionCountCallback reBinCount 2)
  reHexCount.ReplaceAllStringFunc text (conversionCountCallback reHexCount 16)

/-- A loop `prevText := ""; for prevText != text { prevText = text; text = step(text) }`.
The counter bounds the number of iterations. -/
def fixLoop (step : List Char → Option (List Char)) :
    Nat → List Char → List Char → Option (List Char)
  | 0, _, _ => none
  | fuel + 1, prevText, text =>
    if prevText ≠ text then (step text).bind (fixLoop step fuel text) else some text

/-- `\(\s*bin\s*\)` and `\(\s*hex\s*\)`. -/
def reMarker (name : List Char) : Regex :=
  Regex.cat [.chr '(', reSpaces, Regex.lit name, reSpaces, .chr ')']

/-- `(\d+)\s*\(\s*bin\s*\)`. -/
def reBinNum : Regex := Regex.cat [.cap 1 (Regex.plus (.cls clsDigit)), reSpaces, reMarker "bin".toList]

/-- `([0-9A-Fa-f]+)\s*\(\s*hex\s*\)`. -/
def reHexNum : Regex := Regex.cat [.cap 1 (Regex.plus (.cls clsHex)), reSpaces, reMarker "hex".toList]

/-- `(\w+)\s*\(\s*bin\s*\)` and `(\w+)\s*\(\s*hex\s*\)`. -/
def reWordMarker (name : List Char) : Regex :=
  Regex.cat [.cap 1 (Regex.plus (.cls clsWord)), reSpaces, reMarker name]

/-- The callback of the loop of `processBinaryNumbers`. -/
def binNumCallback (m : List Char) : Option (List Char) := do
  let parts ← reBinNum.FindStringSubmatch m
  let bin ← parts.get? 1
  let r := ParseInt bin 2
  if r.err ≠ none then pure m else pure (fmtInt 10 r.val)

/-- `processBinaryNumbers` (main.go:101). Every changing iteration of its loop
removes a `(`, so `text.length + 2` iterations always suffice. -/
def processBinaryNumbers (text : List Char) : Option (List Char) := do
  let text ← fixLoop (fun t => reBinNum.ReplaceAllStringFunc t binNumCallback)
    (text.length + 2) [] text
  let text ← (reMarker "bin".toList).ReplaceAllString text []
  (reWordMarker "bin".toList).ReplaceAllString text [.group 1]

/-- The callback of the loop of `processHexNumbers`. -/
def hexNumCallback (m : List Char) : Option (List Char) := do
  let parts ← reHexNum.FindStringSubmatch m
  let hex ← parts.get? 1
  let r := ParseInt hex 16
  if r.err ≠ none then pure hex else pure (fmtInt 10 r.val)

/-- `processHexNumbers` (main.go:124). Every changing iteration of its loop
removes a `(`, so `text.length + 2` iterations always suffice. -/
def processHexNumbers (text : List Char) : Option (List Char) := do
  let text ← fixLoop (fun t => reHexNum.ReplaceAllStringFunc t hexNumCallback)
    (text.length + 2) [] text
  let text ← (reMarker "hex".toList).ReplaceAllString text []
  (reWordMarker "hex".toList).ReplaceAllString text [.group 1]

/-- `(?m)^\s*\(\s*(up|low|cap)\s*\)\s*$`. -/
def reStandaloneLine : Regex :=
  Regex.cat [.bol true, reSpaces, .chr '(', reSpaces, .cap 1 reUpLowCap, reSpaces, .chr ')',
    reSpaces, .eol true]

/-- `\s*\(\s*(up|low|cap)\s*\)\s*`. -/
def reStandaloneInline : Regex :=
  Regex.cat [reSpaces, .chr '(', reSpaces, .cap 1 reUpLowCap, reSpaces, .chr ')', reSpaces]

/-- `processStandaloneModifiers` (main.go:148). -/
def processStandaloneModifiers (text : List Char) : Option (List Char) := do
  let text ← reStandaloneLine.ReplaceAllString text []
  reStandaloneInline.ReplaceAllString text []

/-- The first group of the pattern of `processNestedModifiers`:
`\s*(cap|low|up)\s*,\s*(-?\d+)\s*([^\(\)]*)\s*`. -/
def reNestedBody : Regex :=
  Regex.cat [reSpaces,
    .cap 2 (Regex.alts [Regex.lit "cap".toList, Regex.lit "low".toList, Regex.lit "up".toList]),
    reSpaces, .chr ',', reSpaces, .cap 3 reSignedDigits, reSpaces,
    .cap 4 (.star true (.cls ⟨true, [(40, 41)]⟩)), reSpaces]

/-- The pattern of `processNestedModifiers`:
`\((\s*(cap|low|up)\s*,\s*(-?\d+)\s*([^\(\)]*)\s*)\)`. -/
def reNested : Regex := Regex.cat [.chr '(', .cap 1 reNestedBody, .chr ')']

/-- The callback of `processNestedModifiers`. -/
def nestedCallback (U : UnicodeTables) (m : List Char) : Option (List Char) := do
  let parts ← reNested.FindStringSubmatch m
  let modifier ← parts.get? 2
  let p3 ← parts.get? 3
  let p4 ← parts.get? 4
  applyModifier U (TrimSpace p4) modifier (Atoi p3).val

/-- The loop `for re.MatchString(input) { input = re.ReplaceAllStringFunc(...) }`
of `processNestedModifiers`; the counter bounds the number of evaluations of the
loop condition, so `nestedLoop U (k + 1)` returns a text exactly when the loop
ends within `k` iterations. -/
def nestedLoop (U : UnicodeTables) : Nat → List Char → Option (List Char)
  | 0, _ => none
  | fuel + 1, input =>
    if reNested.MatchString input then
      (reNested.ReplaceAllStringFunc input (nestedCallback U)).bind (nestedLoop U fuel)
    else some input

/-- `processNestedModifiers` (main.go:158). When the case tables map no rune to
`(`, every iteration of its loop removes a `(` from the text (`nested_step`), so
`input.length + 1` evaluations of the loop condition always suffice
(`nestedLoop_terminates`). -/
def processNestedModifiers (U : UnicodeTables) (input : List Char) : Option (List Char) :=
  nestedLoop U (input.length + 1) input

/-- The first pattern of `processCaseModifiers`:
`((?:\w+\s+){0,10}?\w+)\s*\(\s*(up|low|cap),\s*(\d+)\s*\)`. -/
def reCaseCount : Regex :=
  Regex.cat [
    .cap 1 (.seq
      (Regex.upToLazy (.seq (Regex.plus (.cls clsWord)) (Regex.plus (.cls clsSpace))) 10)
      (Regex.plus (.cls clsWord))),
    reSpaces, .chr '(', reSpaces, .cap 2 reUpLowCap, .chr ',', reSpaces,
    .cap 3 (Regex.plus (.cls clsDigit)), reSpaces, .chr ')']

/-- The second pattern of `processCaseModifiers`: `(\w+)\s*\(\s*(up|low|cap)\s*\)`. -/
def reCaseWord : Regex :=
  Regex.cat [.cap 1 (Regex.plus (.cls clsWord)), reSpaces, .chr '(', reSpaces,
    .cap 2 reUpLowCap, reSpaces, .chr ')']

/-- The case function a `switch` over `up`, `low`, `cap` selects, if any. -/
def caseOf (U : UnicodeTables) (modifier : List Char) : Option (List Char → List Char) :=
  if modifier = "up".toList then some (ToUpper U)
  else if modifier = "low".toList then some (ToLower U)
  else if modifier = "cap".toList then some (fun w => Title U (ToLower U w))
  else none

/-- The callback of the first replacement of `processCaseModifiers`. The
`default: return match` of its `switch` is reached in the first iteration of the
loop, if at all, because the modifier does not change inside the loop. -/
def caseCountCallback (U : UnicodeTables) (m : List Char) : Option (List Char) := do
  let parts ← reCaseCount.FindStringSubmatch m
  let p1 ← parts.get? 1
  let p2 ← parts.get? 2
  let p3 ← parts.get? 3
  let words := Fields p1
  let n : Int := words.length
  let count := if n < (Atoi p3).val then n else (Atoi p3).val
  let start := n - count
  match caseOf U p2 with
  | some f =>
    (forLoop (updateWord f) (n - start).toNat start words).map (fun ws => Join ws " ".toList)
  | none => if start < n then pure m else pure (Join words " ".toList)

/-- The callback of the second replacement of `processCaseModifiers`. -/
def caseWordCallback (U : UnicodeTables) (m : List Char) : Option (List Char) := do
  let parts ← reCaseWord.FindStringSubmatch m
  let word ← parts.get? 1
  let p2 ← parts.get? 2
  match caseOf U p2 with
  | some f => pure (f word)
  | none => pure word

/-- `processCaseModifiers` (main.go:215). -/
def processCaseModifiers (U : UnicodeTables) (text : List Char) : Option (List Char) :=
  if (Atoi text).err = none then some text
  else do
    let text ← reCaseCount.ReplaceAllStringFunc text (caseCountCallback U)
    reCaseWord.ReplaceAllStringFunc text (caseWordCallback U)

/-- The pattern of `processMultiModifiers`: `(\w+)(?:\((up|low|cap)\))+(\s*)`. -/
def reMultiModifiers : Regex :=
  Regex.cat [.cap 1 (Regex.plus (.cls clsWord)),
    Regex.plus (Regex.cat [.chr '(', .cap 2 reUpLowCap, .chr ')']),
    .cap 3 reSpaces]

/-- `(\w+)`. -/
def reWordRun : Regex := .cap 1 (Regex.plus (.cls clsWord))

/-- `\((up|low|cap)\)`. -/
def reCaseOperation : Regex := Regex.cat [.chr '(', .cap 1 reUpLowCap, .chr ')']

/-- `(\s*)$`. -/
def reTrailingSpace : Regex := Regex.cat [.cap 1 reSpaces, .eol false]

/-- One modifier of the loop of the callback of `processMultiModifiers`. The
word starts with an ASCII rune there (it is a run of `\w`), so `result[0]` and
`result[1:]` are its first rune and the rest. -/
def multiModStep (U : UnicodeTables) (result : List Char) (mod : List (List Char)) :
    Option (List Char) := do
  let o ← mod.get? 1
  if o = "up".toList then pure (ToUpper U result)
  else if o = "low".toList then pure (ToLower U result)
  else if o = "cap".toList then
    match result with
    | [] => pure result
    | c :: cs => pure (unicodeToUpper U c :: ToLower U cs)
  else pure result

/-- The callback of `processMultiModifiers`. -/
def multiModifiersCallback (U : UnicodeTables) (m : List Char) : Option (List Char) := do
  let word := reWordRun.FindString m
  let modifiers ← reCaseOperation.FindAllStringSubmatch m
  let space := reTrailingSpace.FindString m
  let result ← modifiers.foldlM (multiModStep U) word
  pure (result ++ space)

/-- `processMultiModifiers` (main.go:258). -/
def processMultiModifiers (U : UnicodeTables) (text : List Char) : Option (List Char) :=
  reMultiModifiers.ReplaceAllStringFunc text (multiModifiersCallback U)

/-- `\s+`. -/
def reSpaces1 : Regex := Regex.plus (.cls clsSpace)

/-- The class `[!?]`. -/
def clsBangQuery : CClass := ⟨false, [(33, 33), (63, 63)]⟩

/-- `\s*(\.*\.)\s*`. -/
def reDots : Regex :=
  Regex.cat [reSpaces, .cap 1 (.seq (.star true (.chr '.')) (.chr '.')), reSpaces]

/-- `(\S+)\s*(!+)` for the mark `!`, `(\S+)\s*(\?+)` for the mark `?`. -/
def reAttachMark (mark : Char) : Regex :=
  Regex.cat [.cap 1 (Regex.plus (.cls clsNonSpace)), reSpaces, .cap 2 (Regex.plus (.chr mark))]

/-- `(!+)\s+(\S+)` for the mark `!`, `(\?+)\s+(\S+)` for the mark `?`. -/
def reSpaceAfterMark (mark : Char) : Regex :=
  Regex.cat [.cap 1 (Regex.plus (.chr mark)), reSpaces1, .cap 2 (Regex.plus (.cls clsNonSpace))]

/-- `\s*\!\?\s*` for the marks `!`, `?`; `\s*\?\!\s*` for the marks `?`, `!`. -/
def reMarkPair (a b : Char) : Regex := Regex.cat [reSpaces, .chr a, .chr b, reSpaces]

/-- `(![\?\!]|[\?\!]!)\s*\.\s*`. -/
def reMarksDot : Regex :=
  Regex.cat [.cap 1 (.alt (.seq (.chr '!') (.cls clsBangQuery))
    (.seq (.cls clsBangQuery) (.chr '!'))), reSpaces, .chr '.', reSpaces]

/-- `\s*([,;:])\s*`. -/
def reSeparators : Regex :=
  Regex.cat [reSpaces, .cap 1 (.cls ⟨false, [(44, 44), (58, 59)]⟩), reSpaces]

/-- `([!?])\s*([!?])`. -/
def reTwoMarks : Regex :=
  Regex.cat [.cap 1 (.cls clsBangQuery), reSpaces, .cap 2 (.cls clsBangQuery)]

/-- `([!?])\s*$`. -/
def reFinalMark : Regex := Regex.cat [.cap 1 (.cls clsBangQuery), reSpaces, .eol false]

/-- `\s{2,}`. -/
def reSpaceRun : Regex := Regex.cat [.cls clsSpace, .cls clsSpace, reSpaces]

/-- `processPunctuation` (main.go:326). -/
def processPunctuation (text : List Char) : Option (List Char) := do
  let text ← reDots.ReplaceAllStringFunc text (fun m => some (removeSpaces m ++ [' ']))
  let text ← (reAttachMark '!').ReplaceAllString text [.group 1, .group 2]
  let text ← (reSpaceAfterMark '!').ReplaceAllString text [.group 1, .text [' '], .group 2]
  let text ← (reAttachMark '?').ReplaceAllString text [.group 1, .group 2]
  let text ← (reSpaceAfterMark '?').ReplaceAllString text [.group 1, .text [' '], .group 2]
  let text ← (reMarkPair '!' '?').ReplaceAllString text [.text "!? ".toList]
  let text ← (reMarkPair '?' '!').ReplaceAllString text [.text "?! ".toList]
  let text ← reMarksDot.ReplaceAllString text [.group 1, .text ['.']]
  let text ← reSeparators.ReplaceAllStringFunc text (fun m => some (TrimSpace m ++ [' ']))
  let text ← reTwoMarks.ReplaceAllString text [.group 1, .group 2]
  let text ← reFinalMark.ReplaceAllString text [.group 1, .text [' ']]
  let text ← reSpaceRun.ReplaceAllString text [.text [' ']]
  pure (TrimSpace text)

/-- The two patterns of `processQuotes`, `'\s*([^"]+?)\s*'` and `"\s*([^"]+?)\s*"`,
for the quote rune `q`. -/
def reQuoted (q : Char) : Regex :=
  Regex.cat [.chr q, reSpaces, .cap 1 (Regex.plusLazy (.cls ⟨true, [(34, 34)]⟩)), reSpaces,
    .chr q]

/-- The two callbacks of `processQuotes`, for the quote rune `q`. -/
def quotedCallback (q : Char) (m : List Char) : Option (List Char) := do
  let parts ← (reQuoted q).FindStringSubmatch m
  let p1 ← parts.get? 1
  pure ([q] ++ TrimSpace p1 ++ [q])

/-- `processQuotes` (main.go:359). -/
def processQuotes (text : List Char) : Option (List Char) := do
  let text ← (reQuoted (Char.ofNat 39)).ReplaceAllStringFunc text (quotedCallback (Char.ofNat 39))
  (reQuoted (Char.ofNat 34)).ReplaceAllStringFunc text (quotedCallback (Char.ofNat 34))

/-- The pattern of `processArticles`: `\b([Aa][Nn]?)\s+(\w+)`. -/
def reArticle : Regex :=
  Regex.cat [.wordB,
    .cap 1 (.seq (.cls ⟨false, [(65, 65), (97, 97)]⟩)
      (Regex.opt (.cls ⟨false, [(78, 78), (110, 110)]⟩))),
    reSpaces1, .cap 2 (Regex.plus (.cls clsWord))]

/-- `^[aeiouAEIOU]`. -/
def reLeadingVowel : Regex :=
  Regex.cat [.bol false, .cls ⟨false, [(65, 65), (69, 69), (73, 73), (79, 79), (85, 85),
    (97, 97), (101, 101), (105, 105), (111, 111), (117, 117)]⟩]

/-- The callback of `processArticles`. -/
def articleCallback (U : UnicodeTables) (m : List Char) : Option (List Char) := do
  let parts := Fields m
  let article ← parts.get? 0
  let word ← parts.get? 1
  let startsWithVowel := reLeadingVowel.MatchString word
  let isUpper : Bool := article = ToUpper U article
  let newArticle :=
    if startsWithVowel then (if isUpper then "AN".toList else "an".toList)
    else (if isUpper then "A".toList else "a".toList)
  pure (newArticle ++ [' '] ++ word)

/-- `processArticles` (main.go:379). -/
def processArticles (U : UnicodeTables) (text : List Char) : Option (List Char) :=
  reArticle.ReplaceAllStringFunc text (articleCallback U)

/-- `Process` (main.go:15): the twelve passes in order. `none` stands for a
run-time panic of a pass (or an exhausted iteration bound). -/
def Process (U : UnicodeTables) (text : List Char) : Option (List Char) := do
  let text ← processMultipleTypes U text
  let text ← processConversion text
  let text ← processConversioncount text
  let text ← processHexNumbers text
  let text ← processBinaryNumbers text
  let text ← processCaseModifiers U text
  let text ← processMultiModifiers U text
  let text ← processNestedModifiers U text
  let text ← processPunctuation text
  let text ← processQuotes text
  let text ← processArticles U text
  processStandaloneModifiers text

/-! # Specification-side definitions -/

/-- Apply `f` to the elements whose index `i` (counted from `j`) satisfies `lo ≤ i < hi`. -/
def mapWindow {α : Type} (f : α → α) (lo hi : Nat) : Nat → List α → List α
  | _, [] => []
  | j, w :: ws => (if lo ≤ j ∧ j < hi then f w else w) :: mapWindow f lo hi (j + 1) ws

/-- The index range of the words a scoped modifier with a non-zero `count` is
meant to rewrite among `n` words: the last `min count n` for a positive count,
the first `min |count| n` for a negative one. -/
def windowOf (n : Nat) (count : Int) : Nat × Nat :=
  if 0 < count then (n - min count.toNat n, n) else (0, min count.natAbs n)

/-- The rune before a position reached by consuming `x` after a position whose
previous rune was `prev`. -/
def lastOr (prev : Option Char) (x : List Char) : Option Char :=
  match x.getLast? with
  | some c => some c
  | none => prev

/-- Concatenations of finitely many strings that satisfy `P`. -/
inductive StarLang (P : List Char → Prop) : List Char → Prop where
  | nil : StarLang P []
  | cons (y z : List Char) : P y → StarLang P z → StarLang P (y ++ z)

/-- The strings a pattern can match, its context assertions taken as satisfied. -/
def Regex.Lang : Regex → List Char → Prop
  | .eps, x => x = []
  | .chr c, x => x = [c]
  | .cls cc, x => ∃ d, x = [d] ∧ cc.test d = true
  | .seq a b, x => ∃ u v, x = u ++ v ∧ a.Lang u ∧ b.Lang v
  | .alt a b, x => a.Lang x ∨ b.Lang x
  | .star _ r, x => StarLang r.Lang x
  | .cap _ r, x => r.Lang x
  | .bol _, x => x = []
  | .eol _, x => x = []
  | .wordB, x => x = []

/-- The strings group `i` of a pattern can capture. -/
def Regex.GroupLang : Regex → Nat → List Char → Prop
  | .seq a b, i, y => a.GroupLang i y ∨ b.GroupLang i y
  | .alt a b, i, y => a.GroupLang i y ∨ b.GroupLang i y
  | .star _ r, i, y => r.GroupLang i y
  | .cap j r, i, y => (j = i ∧ r.Lang y) ∨ r.GroupLang i y
  | _, _, _ => False

/-- A pattern without context assertions (`^`, `$`, `\b`). -/
def Regex.plain : Regex → Bool
  | .seq a b => a.plain && b.plain
  | .alt a b => a.plain && b.plain
  | .star _ r => r.plain
  | .cap _ r => r.plain
  | .bol _ => false
  | .eol _ => false
  | .wordB => false
  | _ => true

/-- The capture list `caps2` extends `caps` by spans that lie inside the text `x`
matched from offset `pos` and hold strings of the groups of `re`. -/
def CapsExt (re : Regex) (pos : Nat) (x : List Char) (caps caps2 : List (Nat × Nat × Nat)) :
    Prop :=
  ∃ new, caps2 = new ++ caps ∧ ∀ e ∈ new, pos ≤ e.2.1 ∧ e.2.1 ≤ e.2.2 ∧
    e.2.2 ≤ pos + x.length ∧ re.GroupLang e.1 (slice x (e.2.1 - pos) (e.2.2 - pos))

/-- Iterations of a parse relation `P`: the pieces are matched one after the
other, each in the context the earlier ones leave, and their captures pile up,
the most recent first. -/
inductive StarParses (P : Option Char → List Char → List Char → Nat →
    List (Nat × Nat × Nat) → Prop) :
    Option Char → List Char → List Char → Nat → List (Nat × Nat × Nat) → Prop where
  | nil (prev : Option Char) (rest : List Char) (off : Nat) : StarParses P prev [] rest off []
  | cons (prev : Option Char) (u v rest : List Char) (off : Nat)
      (cu cv : List (Nat × Nat × Nat)) :
      P prev u (v ++ rest) off cu → StarParses P (lastOr prev u) v rest (off + u.length) cv →
      StarParses P prev (u ++ v) rest off (cv ++ cu)

/-- The ways a pattern can match: `re.Parses prev x rest off caps` says that `re`
can match the text `x` at offset `off`, after the rune `prev` and before the
text `rest`, recording the capture spans `caps` (the most recent first). -/
def Regex.Parses : Regex → Option Char → List Char → List Char → Nat →
    List (Nat × Nat × Nat) → Prop
  | .eps, _, x, _, _, caps => x = [] ∧ caps = []
  | .chr c, _, x, _, _, caps => x = [c] ∧ caps = []
  | .cls cc, _, x, _, _, caps => ∃ d, x = [d] ∧ cc.test d = true ∧ caps = []
  | .seq a b, prev, x, rest, off, caps =>
    ∃ u v cu cv, x = u ++ v ∧ a.Parses prev u (v ++ rest) off cu ∧
      b.Parses (lastOr prev u) v rest (off + u.length) cv ∧ caps = cv ++ cu
  | .alt a b, prev, x, rest, off, caps =>
    a.Parses prev x rest off caps ∨ b.Parses prev x rest off caps
  | .star _ r, prev, x, rest, off, caps => StarParses r.Parses prev x rest off caps
  | .cap i r, prev, x, rest, off, caps =>
    ∃ c, r.Parses prev x rest off c ∧ caps = (i, off, off + x.length) :: c
  | .bol m, prev, x, _, _, caps =>
    x = [] ∧ caps = [] ∧ (prev.isNone || (m && prev == some '\n')) = true
  | .eol m, _, x, rest, _, caps =>
    x = [] ∧ caps = [] ∧ (rest.isEmpty || (m && rest.head? == some '\n')) = true
  | .wordB, prev, x, rest, _, caps =>
    x = [] ∧ caps = [] ∧ (optWord prev != optWord rest.head?) = true

/-- The text `out` arises from `src` by replacing `n` disjoint substrings `x` by
strings `r` with `Q x r`, everything else being copied. -/
inductive Rewrite (Q : List Char → List Char → Prop) : Nat → List Char → List Char → Prop where
  | done (s : List Char) : Rewrite Q 0 s s
  | step (pre x r rest out : List Char) (n : Nat) : Q x r → Rewrite Q n rest out →
      Rewrite Q (n + 1) (pre ++ x ++ rest) (pre ++ r ++ out)

/-- Every rune of the class satisfies `p` (decided range by range). -/
def CClass.allSat (cc : CClass) (p : Char → Bool) : Bool :=
  !cc.neg && cc.ranges.all (fun r =>
    (List.range (r.2 - r.1 + 1)).all (fun j => p (Char.ofNat (r.1 + j))))

/-- A sufficient syntactic test that every string the pattern matches contains
a rune satisfying `p`. -/
def Regex.needs (p : Char → Bool) : Regex → Bool
  | .chr c => p c
  | .cls cc => cc.allSat p
  | .seq a b => a.needs p || b.needs p
  | .alt a b => a.needs p && b.needs p
  | .cap _ r => r.needs p
  | _ => false

/-- Matching `re` from `s` ends at `t` whenever what follows succeeds there:
the highest-priority way to match `re` at `s` leads to `t`. -/
def DetOK (re : Regex) (s t : MState) : Prop :=
  ∀ (k : MState → Option MState) (r : MState), k t = some r → re.run s k = some r

/-- Matching `re` from `s` can only end at `t`. -/
def Exact (re : Regex) (s t : MState) : Prop :=
  ∀ (k : MState → Option MState), re.run s k = k t

/-- The pattern `re` does not match at `s`. -/
def Fails (re : Regex) (s : MState) : Prop :=
  ∀ (k : MState → Option MState), re.run s k = none

/-- The greedy iteration of `r` from `s`, with iteration bound `fuel`, ends at
`u` whenever what follows succeeds there. -/
def StarOK (r : Regex) (fuel : Nat) (s u : MState) : Prop :=
  ∀ (k : MState → Option MState) (r0 : MState), k u = some r0 →
    starLoop true r.run fuel s k = some r0

/-- The text after a position does not start with a rune of the class. -/
def StopsAt (cc : CClass) (rest : List Char) : Prop := ∀ d ∈ rest.head?, cc.test d = false

/-- A rune outside `[0-9A-Za-z_]`. -/
def nonWord (c : Char) : Bool := !isWordChar c

/-- The rune `(`. -/
def isOpenParen (c : Char) : Bool := c == '('

/-- A sufficient syntactic test that no string the pattern matches contains
the rune `c0`. -/
def Regex.avoids (c0 : Char) : Regex → Bool
  | .chr c => c != c0
  | .cls cc => !cc.test c0
  | .seq a b => a.avoids c0 && b.avoids c0
  | .alt a b => a.avoids c0 && b.avoids c0
  | .star _ r => r.avoids c0
  | .cap _ r => r.avoids c0
  | _ => true

/-- A sufficient syntactic test that every rune of every string the pattern
matches satisfies `p`. -/
def Regex.allIn (p : Char → Bool) : Regex → Bool
  | .chr c => p c
  | .cls cc => cc.allSat p
  | .seq a b => a.allIn p && b.allIn p
  | .alt a b => a.allIn p && b.allIn p
  | .star _ r => r.allIn p
  | .cap _ r => r.allIn p
  | _ => true

/-- A sufficient syntactic test that every string the pattern matches ends with
a rune satisfying `q` followed by runes satisfying `p` only. -/
def Regex.endsAfter (q p : Char → Bool) : Regex → Bool
  | .chr c => q c
  | .cls cc => cc.allSat q
  | .seq a b => b.endsAfter q p || (a.endsAfter q p && (b.allIn p || b.allIn q))
  | .alt a b => a.endsAfter q p && b.endsAfter q p
  | .cap _ r => r.endsAfter q p
  | _ => false

/-- A sufficient syntactic test that every string the pattern matches begins
with runes satisfying `p` followed by the rune `c1`. -/
def Regex.startsAfter (p : Char → Bool) (c1 : Char) : Regex → Bool
  | .chr c => c == c1
  | .seq a b => a.startsAfter p c1 || (a.allIn p && b.startsAfter p c1)
  | .alt a b => a.startsAfter p c1 && b.startsAfter p c1
  | .cap _ r => r.startsAfter p c1
  | _ => false

/-- A sufficient syntactic test that every string the pattern matches contains
a rune satisfying `q`, then runes satisfying `p` only, then the rune `c1`. -/
def Regex.needsSeq (q p : Char → Bool) (c1 : Char) : Regex → Bool
  | .seq a b => a.needsSeq q p c1 || b.needsSeq q p c1 ||
      (a.endsAfter q p && b.startsAfter p c1)
  | .alt a b => a.needsSeq q p c1 && b.needsSeq q p c1
  | .cap _ r => r.needsSeq q p c1
  | _ => false

/-- The text has no rune satisfying `q` that is followed by runes satisfying `p`
only and then by the rune `c1`. -/
def NoSeq (q p : Char → Bool) (c1 : Char) (src : List Char) : Prop :=
  ∀ pre c s post, src = pre ++ c :: (s ++ c1 :: post) → q c = true →
    (∀ d ∈ s, p d = true) → False

/-- The rune `,`. -/
def isComma (c : Char) : Bool := c == ','

/-- A rune that is neither of `[0-9A-Za-z_]` nor the blank. -/
def isMark (c : Char) : Bool := !(isWordChar c || c == ' ')

/-- The pattern `r` matches exactly one rune, those that satisfy `f`. -/
def IsRune (r : Regex) (f : Char → Bool) : Prop :=
  ∀ (s : MState) (k : MState → Option MState), r.run s k =
    match s.rest with
    | [] => none
    | d :: ds => if f d then k ⟨some d, ds, s.pos + 1, s.caps⟩ else none

/-- The text `rest` does not begin with a rune satisfying `f`. -/
def HeadNot (f : Char → Bool) (rest : List Char) : Prop := ∀ d ∈ rest.head?, f d = false

/-- The position after the prefix `a` of a text `a ++ b` that starts at offset
`pos` after the rune `prev`. -/
def afterPrefix (prev : Option Char) (pos : Nat) (caps : List (Nat × Nat × Nat))
    (a b : List Char) : MState := ⟨lastOr prev a, b, pos + a.length, caps⟩

/-- The positions a greedy iteration over the runes `xs` can end at, the
longest first. -/
def greedyStates (caps : List (Nat × Nat × Nat)) :
    Option Char → Nat → List Char → List Char → List MState
  | prev, pos, [], rest => [⟨prev, rest, pos, caps⟩]
  | prev, pos, c :: cs, rest =>
    greedyStates caps (some c) (pos + 1) cs rest ++ [⟨prev, c :: (cs ++ rest), pos, caps⟩]

/-- The positions a lazy iteration over the runes `xs` can end at, the
shortest first. -/
def lazyStates (caps : List (Nat × Nat × Nat)) :
    Option Char → Nat → List Char → List Char → List MState
  | prev, pos, [], rest => [⟨prev, rest, pos, caps⟩]
  | prev, pos, c :: cs, rest =>
    ⟨prev, c :: (cs ++ rest), pos, caps⟩ :: lazyStates caps (some c) (pos + 1) cs rest

/-- One of the runes `.`, `!`, `?`. -/
def isStop (c : Char) : Bool := c == '.' || c == '!' || c == '?'

/-- One of the runes `,`, `;`, `:`. -/
def isSeparatorMark (c : Char) : Bool := c == ',' || c == ';' || c == ':'

/-- The text has no rune satisfying `f` that is directly followed by a rune
satisfying `g`. -/
def NoAdjacent (f g : Char → Bool) (t : List Char) : Prop :=
  ∀ pre c d post, t = pre ++ c :: d :: post → f c = true → g d = true → False

/-- Words one after the other, each followed by one blank. -/
def wordsSp : List (List Char) → List Char
  | [] => []
  | w :: ws => w ++ ' ' :: wordsSp ws

/-- The number a digit string denotes in `base` when read after the value `n`;
`none` when a rune is not a digit of the base. -/
def numFold (base : Nat) : List Char → Nat → Option Nat
  | [], n => some n
  | c :: cs, n =>
    match digitVal c with
    | some d => if d < base then numFold base cs (n * base + d) else none
    | none => none

/-- The number a non-empty digit string denotes in `base` (digits `0-9`,
`a-z`, `A-Z`). -/
def numeralValue (base : Nat) (s : List Char) : Option Nat :=
  if s = [] then none else numFold base s 0

/-- The directives of a chain of `processMultipleTypes`. -/
inductive Directive where
  | up
  | low
  | cap
  | hex
  | bin
  deriving DecidableEq, Repr

def Directive.name : Directive → List Char
  | .up => "up".toList
  | .low => "low".toList
  | .cap => "cap".toList
  | .hex => "hex".toList
  | .bin => "bin".toList

/-- The text of a chain: `(d1)(d2)...` with nothing in between. -/
def renderChain : List Directive → List Char
  | [] => []
  | d :: ds => ['('] ++ d.name ++ [')'] ++ renderChain ds

/-- Title case of a word: first rune upper case, the remainder lower case. -/
def capitalize (U : UnicodeTables) : List Char → List Char
  | [] => []
  | c :: cs => unicodeToUpper U c :: ToLower U cs

/-- One case modifier of a chain applied to a value; conversions do nothing. -/
def applyCaseDirective (U : UnicodeTables) (v : List Char) : Directive → List Char
  | .up => ToUpper U v
  | .low => ToLower U v
  | .cap => capitalize U v
  | _ => v

/-- The base of a conversion directive. -/
def Directive.base : Directive → Option Nat
  | .hex => some 16
  | .bin => some 2
  | _ => none

/-- The value of `v` under the first conversion directive of the chain that
parses it as a signed 64-bit number. -/
def firstParse (v : List Char) : List Directive → Option Nat
  | [] => none
  | d :: ds =>
    match d.base with
    | none => firstParse v ds
    | some b =>
      match numeralValue b v with
      | some n => if n < 2 ^ 63 then some n else firstParse v ds
      | none => firstParse v ds

/-- What the specification says a chained value resolves to: all case
modifiers first, in order; then the first conversion that parses, in decimal. -/
def chainResult (U : UnicodeTables) (v : List Char) (ds : List Directive) : List Char :=
  let v2 := ds.foldl (applyCaseDirective U) v
  match firstParse v2 ds with
  | some n => Nat.toDigits 10 n
  | none => v2

/-- The first rune of the string is not a sign. -/
def Unsigned (s : List Char) : Prop := ∀ c ∈ s.head?, c ≠ '+' ∧ c ≠ '-'

/-- The case tables never map a non-ASCII rune to `(` (the tables of package
`unicode` map letters to letters). -/
def ParenFree (U : UnicodeTables) : Prop :=
  ∀ c : Char, 127 < c.toNat → U.upper c ≠ '(' ∧ U.lower c ≠ '(' ∧ U.title c ≠ '('

/-- The words `a` and `an`, in any case. -/
def isArticle : List Char → Bool
  | [c] => c == 'a' || c == 'A'
  | [c, d] => (c == 'a' || c == 'A') && (d == 'n' || d == 'N')
  | _ => false

/-- Non-empty words of `[0-9A-Za-z_]`, none of them an article. -/
def CleanWords (ws : List (List Char)) : Prop :=
  ∀ w ∈ ws, w ≠ [] ∧ (∀ c ∈ w, isWordChar c = true) ∧ isArticle w = false

/-- The vowels `a e i o u`, in either case. -/
def isVowel (c : Char) : Bool := "aeiouAEIOU".toList.contains c

/-- The article the claims expect in front of the word `w` in place of the
article `t`: the `an` form before a vowel, upper case when `t` is `A` or `AN`. -/
def articleFor (t w : List Char) : List Char :=
  let upper : Bool := t = "A".toList ∨ t = "AN".toList
  let vowel : Bool := match w.head? with
    | some c => isVowel c
    | none => false
  if vowel then (if upper then "AN".toList else "an".toList)
  else (if upper then "A".toList else "a".toList)

/-- Runs of periods one after the other: for each entry `(s, k)` the blanks `s`
and then `k + 1` periods. -/
def dotRuns : List (List Char × Nat) → List Char
  | [] => []
  | (s, k) :: rs => s ++ (List.replicate (k + 1) '.' ++ dotRuns rs)

/-- The runs of periods of `dotRuns`, each after exactly one blank. -/
def blankDotRuns : List (List Char × Nat) → List Char
  | [] => []
  | (_, k) :: rs => ' ' :: (List.replicate (k + 1) '.' ++ blankDotRuns rs)

/-- A marker `\(\s*name\s*\)` starts the text: the pattern of the marker matches
at its first rune. -/
def markerAt (name : List Char) (s : List Char) : Bool :=
  ((reMarker name).run ⟨none, s, 0, []⟩ some).isSome

/-- The number of markers `\(\s*name\s*\)` in a text, counted by the positions at
which one starts. -/
def markerCount (name : List Char) : List Char → Nat
  | [] => 0
  | c :: cs => (if markerAt name (c :: cs) then 1 else 0) + markerCount name cs

/-- The body of the loop of `processHexNumbers`. -/
def hexStep (t : List Char) : Option (List Char) :=
  reHexNum.ReplaceAllStringFunc t hexNumCallback

/-- The body of the loop of `processBinaryNumbers`. -/
def binStep (t : List Char) : Option (List Char) :=
  reBinNum.ReplaceAllStringFunc t binNumCallback

/-- A scoped group `(modifier, count text)` starts the text: the pattern of
`processNestedModifiers` matches at its first rune. -/
def scopedGroupAt (s : List Char) : Bool :=
  (reNested.run ⟨none, s, 0, []⟩ some).isSome

/-- The number of scoped groups `(modifier, count text)` in a text, counted by
the positions at which one starts. -/
def scopedGroupCount : List Char → Nat
  | [] => 0
  | c :: cs => (if scopedGroupAt (c :: cs) then 1 else 0) + scopedGroupCount cs

/-! # Theorems -/

/-! ## The word window of `applyModifier` -/

theorem mapWindow_lo_irrel {α : Type} (f : α → α) (lo lo2 hi : Nat) :
    ∀ (ws : List α) (j : Nat), lo ≤ j → lo2 ≤ j →
      mapWindow f lo hi j ws = mapWindow f lo2 hi j ws := by
  intro ws
  induction ws with
  | nil => intro j _ _; rfl
  | cons w ws ih =>
    intro j h1 h2
    simp only [mapWindow, h1, h2, true_and]
    rw [ih (j + 1) (by omega) (by omega)]

theorem mapWindow_set {α : Type} (f : α → α) (d : α) (hi : Nat) :
    ∀ (ws : List α) (j a : Nat), j ≤ a → a < hi → a - j < ws.length →
      mapWindow f (a + 1) hi j (ws.set (a - j) (f (ws.getD (a - j) d))) =
        mapWindow f a hi j ws := by
  intro ws
  induction ws with
  | nil => intro j a _ _ h; simp at h
  | cons w ws ih =>
    intro j a hja hhi hlen
    rcases Nat.eq_or_lt_of_le hja with h | h
    · subst h
      simp only [Nat.sub_self, List.set_cons_zero, List.getD_cons_zero, mapWindow]
      have : ¬ (j + 1 ≤ j ∧ j < hi) := by omega
      rw [if_neg this, if_pos ⟨Nat.le_refl j, hhi⟩]
      rw [mapWindow_lo_irrel f (j + 1) j hi ws (j + 1) (by omega) (by omega)]
    · have e : a - j = (a - (j + 1)) + 1 := by omega
      rw [e]
      simp only [List.set_cons_succ, List.getD_cons_succ, mapWindow]
      have h1 : ¬ (a + 1 ≤ j ∧ j < hi) := by omega
      have h2 : ¬ (a ≤ j ∧ j < hi) := by omega
      rw [if_neg h1, if_neg h2]
      rw [ih (j + 1) a (by omega) hhi (by simp only [List.length_cons] at hlen; omega)]

theorem mapWindow_empty {α : Type} (f : α → α) (lo : Nat) :
    ∀ (ws : List α) (j : Nat), mapWindow f lo lo j ws = ws := by
  intro ws
  induction ws with
  | nil => intro j; rfl
  | cons w ws ih =>
    intro j
    have : ¬ (lo ≤ j ∧ j < lo) := by omega
    simp only [mapWindow, this, if_false, ih]

theorem forLoop_updateWord (f : List Char → List Char) :
    ∀ (k a : Nat) (ws : List (List Char)), a + k ≤ ws.length →
      forLoop (updateWord f) k (a : Int) ws = some (mapWindow f a (a + k) 0 ws) := by
  intro k
  induction k with
  | zero => intro a ws _; simp [forLoop, mapWindow_empty]
  | succ k ih =>
    intro a ws h
    have hlt : (a : Int) < (ws.length : Int) := by omega
    have hnn : (0 : Int) ≤ (a : Int) := by omega
    simp only [forLoop, updateWord, hnn, hlt, and_self, if_true, Option.some_bind,
      Int.toNat_ofNat]
    have := ih (a + 1) (ws.set a (f (ws.getD a []))) (by simp; omega)
    rw [show ((a : Int) + 1) = ((a + 1 : Nat) : Int) by push_cast; rfl, this]
    have e := mapWindow_set f [] (a + 1 + k) ws 0 a (by omega) (by omega) (by simp; omega)
    simp only [Nat.sub_zero] at e
    rw [e, show a + (k + 1) = a + 1 + k by omega]

theorem mapWindow_all {α : Type} (f : α → α) :
    ∀ (ws : List α) (j : Nat), mapWindow f 0 (j + ws.length) j ws = ws.map f := by
  intro ws
  induction ws with
  | nil => intro j; rfl
  | cons w ws ih =>
    intro j
    have : (0 ≤ j ∧ j < j + (w :: ws).length) := by simp
    simp only [mapWindow, this, and_self, if_true, List.map_cons]
    rw [show j + (w :: ws).length = (j + 1) + ws.length by simp; omega, ih]



theorem wrap64_of_range (x : Int) (h1 : -2 ^ 63 ≤ x) (h2 : x < 2 ^ 63) : wrap64 x = x := by
  unfold wrap64
  norm_num at h1 h2 ⊢
  omega

theorem applyModifier_window (U : UnicodeTables) (text modifier : List Char) (c : Int)
    (hc : c ≠ 0) (hlo : -2 ^ 63 < c) (hhi : c < 2 ^ 63) :
    applyModifier U text modifier c =
      some (Join (mapWindow (applyCase U modifier) (windowOf (Fields text).length c).1
        (windowOf (Fields text).length c).2 0 (Fields text)) " ".toList) := by
  unfold applyModifier
  generalize Fields text = ws
  by_cases hpos : 0 < c
  · obtain ⟨k, rfl⟩ : ∃ k : Nat, c = k := ⟨c.toNat, by omega⟩
    have hw : modifierWindow (ws.length : Int) (k : Int) =
        (((ws.length - min k ws.length : Nat) : Int), (ws.length : Int)) := by
      unfold modifierWindow
      rw [if_pos hpos]
      congr 1
      split <;> omega
    have hs : windowOf ws.length (k : Int) = (ws.length - min k ws.length, ws.length) := by
      unfold windowOf
      rw [if_pos hpos]
      simp
    simp only [hw, hs]
    have ht : ((ws.length : Int) - ((ws.length - min k ws.length : Nat) : Int)).toNat =
        min k ws.length := by omega
    rw [ht, forLoop_updateWord _ _ _ _ (by omega)]
    simp only [Option.map_some']
    congr 3
    omega
  · have hneg : c < 0 := by omega
    obtain ⟨k, rfl⟩ : ∃ k : Nat, c = -(k : Int) := ⟨c.natAbs, by omega⟩
    have hwr : wrap64 (-(-(k : Int))) = (k : Int) := by
      rw [neg_neg]
      apply wrap64_of_range <;> norm_num at hlo hhi ⊢ <;> omega
    have hw : modifierWindow (ws.length : Int) (-(k : Int)) =
        (((0 : Nat) : Int), ((min k ws.length : Nat) : Int)) := by
      unfold modifierWindow
      rw [if_neg hpos, if_pos hneg, hwr]
      congr 1
      split <;> omega
    have hs : windowOf ws.length (-(k : Int)) = (0, min k ws.length) := by
      unfold windowOf
      rw [if_neg hpos]
      simp
    simp only [hw, hs]
    have ht : (((min k ws.length : Nat) : Int) - ((0 : Nat) : Int)).toNat = min k ws.length := by
      omega
    rw [ht, forLoop_updateWord _ _ _ _ (by omega)]
    simp

theorem applyModifier_zero (U : UnicodeTables) (text modifier : List Char) :
    applyModifier U text modifier 0 =
      some (Join ((Fields text).map (applyCase U modifier)) " ".toList) := by
  unfold applyModifier
  generalize Fields text = ws
  have hw : modifierWindow (ws.length : Int) 0 = (((0 : Nat) : Int), (ws.length : Int)) := by
    unfold modifierWindow
    simp
  simp only [hw]
  have ht : ((ws.length : Int) - ((0 : Nat) : Int)).toNat = ws.length := by omega
  rw [ht, forLoop_updateWord _ _ _ _ (by omega)]
  have := mapWindow_all (applyCase U modifier) ws 0
  simp only [Nat.zero_add] at this
  simp [this]

set_option maxRecDepth 100000 in
theorem applyModifier_minInt (U : UnicodeTables) :
    applyModifier U "hello".toList "up".toList (-9223372036854775808) = some "hello".toList ∧
    applyModifier U "hello".toList "up".toList (-1) = some "HELLO".toList := by
  constructor <;> rfl

set_option maxRecDepth 100000 in
theorem applyModifier_examples (U : UnicodeTables) :
    applyModifier U "the quick brown fox".toList "up".toList 2
      = some "the quick BROWN FOX".toList ∧
    applyModifier U "the quick brown fox".toList "up".toList (-2)
      = some "THE QUICK brown fox".toList := by
  constructor <;> rfl

/-! ## Soundness and completeness of the matcher -/

theorem lastOr_nil (prev : Option Char) : lastOr prev [] = prev := rfl

theorem lastOr_singleton (prev : Option Char) (d : Char) : lastOr prev [d] = some d := rfl

theorem lastOr_append (prev : Option Char) (x y : List Char) :
    lastOr prev (x ++ y) = lastOr (lastOr prev x) y := by
  unfold lastOr
  rcases List.eq_nil_or_concat y with rfl | ⟨y0, c, rfl⟩
  · simp
  · simp [← List.append_assoc, List.getLast?_concat]

theorem slice_zero_length (x : List Char) : slice x 0 x.length = x := by
  simp [slice]

theorem slice_append_left (u v : List Char) (a b : Nat) (hb : b ≤ u.length) :
    slice (u ++ v) a b = slice u a b := by
  unfold slice
  by_cases hab : a ≤ b
  · rw [List.drop_append_of_le_length (by omega), List.take_append_of_le_length]
    simp; omega
  · have : b - a = 0 := by omega
    simp [this]

theorem slice_append_right (u v : List Char) (a b : Nat) (ha : u.length ≤ a) :
    slice (u ++ v) a b = slice v (a - u.length) (b - u.length) := by
  unfold slice
  obtain ⟨d, rfl⟩ : ∃ d, a = u.length + d := ⟨a - u.length, by omega⟩
  rw [List.drop_append, Nat.add_sub_cancel_left]
  congr 1
  omega

theorem CapsExt_refl (re : Regex) (pos : Nat) (x : List Char) (caps : List (Nat × Nat × Nat)) :
    CapsExt re pos x caps caps := ⟨[], rfl, by simp⟩

theorem starLoop_sound (g : Bool) (r : Regex)
    (ih : ∀ (s : MState) (k : MState → Option MState) (res : MState), r.run s k = some res →
      ∃ x rest caps2, s.rest = x ++ rest ∧ r.Lang x ∧
        k ⟨lastOr s.prev x, rest, s.pos + x.length, caps2⟩ = some res ∧
        CapsExt r s.pos x s.caps caps2) :
    ∀ (fuel : Nat) (s : MState) (k : MState → Option MState) (res : MState),
      starLoop g r.run fuel s k = some res →
      ∃ x rest caps2, s.rest = x ++ rest ∧ StarLang r.Lang x ∧
        k ⟨lastOr s.prev x, rest, s.pos + x.length, caps2⟩ = some res ∧
        CapsExt (.star g r) s.pos x s.caps caps2 := by
  intro fuel
  induction fuel with
  | zero =>
    intro s k res h
    exact ⟨[], s.rest, s.caps, rfl, StarLang.nil, by simpa [starLoop, lastOr] using h,
      CapsExt_refl _ _ _ _⟩
  | succ n ihn =>
    intro s k res h
    have stop : k s = some res →
        ∃ x rest caps2, s.rest = x ++ rest ∧ StarLang r.Lang x ∧
          k ⟨lastOr s.prev x, rest, s.pos + x.length, caps2⟩ = some res ∧
          CapsExt (.star g r) s.pos x s.caps caps2 := fun hk =>
      ⟨[], s.rest, s.caps, rfl, StarLang.nil, by simpa [lastOr] using hk, CapsExt_refl _ _ _ _⟩
    have iter : r.run s (fun t => starLoop g r.run n t k) = some res →
        ∃ x rest caps2, s.rest = x ++ rest ∧ StarLang r.Lang x ∧
          k ⟨lastOr s.prev x, rest, s.pos + x.length, caps2⟩ = some res ∧
          CapsExt (.star g r) s.pos x s.caps caps2 := by
      intro hrun
      obtain ⟨x, rest, caps2, hx, hl, hk, new, hnew, hcaps⟩ := ih s _ res hrun
      obtain ⟨y, rest2, caps3, hy, hl2, hk2, new2, hnew2, hcaps2⟩ := ihn _ k res hk
      simp only at hy hk2 hnew2 hcaps2
      refine ⟨x ++ y, rest2, caps3, by rw [hx, hy, List.append_assoc],
        StarLang.cons x y hl hl2, ?_, new2 ++ new, by rw [hnew2, hnew, List.append_assoc], ?_⟩
      · rw [lastOr_append, List.length_append, ← Nat.add_assoc]; exact hk2
      · intro e he
        rcases List.mem_append.1 he with h2 | h1
        · obtain ⟨a1, a2, a3, a4⟩ := hcaps2 e h2
          refine ⟨by omega, a2, by rw [List.length_append]; omega, ?_⟩
          have := slice_append_right x y (e.2.1 - s.pos) (e.2.2 - s.pos) (by omega)
          rw [this]
          have e1 : e.2.1 - s.pos - x.length = e.2.1 - (s.pos + x.length) := by omega
          have e2 : e.2.2 - s.pos - x.length = e.2.2 - (s.pos + x.length) := by omega
          rw [e1, e2]
          exact a4
        · obtain ⟨a1, a2, a3, a4⟩ := hcaps e h1
          refine ⟨a1, a2, by rw [List.length_append]; omega, ?_⟩
          rw [slice_append_left x y _ _ (by omega)]
          exact a4
    cases g with
    | true =>
      simp only [starLoop, if_true] at h
      cases hrun : r.run s (fun t => starLoop true r.run n t k) with
      | some r2 =>
        rw [hrun] at h
        simp only [Option.some.injEq] at h
        subst h
        exact iter hrun
      | none =>
        rw [hrun] at h
        exact stop h
    | false =>
      simp only [starLoop, Bool.false_eq_true, if_false] at h
      cases hk : k s with
      | some r2 =>
        rw [hk] at h
        simp only [Option.some.injEq] at h
        subst h
        exact stop hk
      | none =>
        rw [hk] at h
        exact iter h

theorem Regex.run_sound (re : Regex) :
    ∀ (s : MState) (k : MState → Option MState) (res : MState), re.run s k = some res →
      ∃ x rest caps2, s.rest = x ++ rest ∧ re.Lang x ∧
        k ⟨lastOr s.prev x, rest, s.pos + x.length, caps2⟩ = some res ∧
        CapsExt re s.pos x s.caps caps2 := by
  induction re with
  | eps =>
    intro s k res h
    exact ⟨[], s.rest, s.caps, rfl, rfl, by simpa [Regex.run, lastOr] using h, CapsExt_refl _ _ _ _⟩
  | chr c =>
    intro s k res h
    simp only [Regex.run] at h
    split at h
    · exact absurd h (by simp)
    · rename_i d ds hrest
      split at h
      · rename_i hd
        subst hd
        exact ⟨[d], ds, s.caps, by simp [hrest], rfl, by simpa [lastOr] using h,
          CapsExt_refl _ _ _ _⟩
      · exact absurd h (by simp)
  | cls cc =>
    intro s k res h
    simp only [Regex.run] at h
    split at h
    · exact absurd h (by simp)
    · rename_i d ds hrest
      split at h
      · rename_i hd
        exact ⟨[d], ds, s.caps, by simp [hrest], ⟨d, rfl, hd⟩, by simpa [lastOr] using h,
          CapsExt_refl _ _ _ _⟩
      · exact absurd h (by simp)
  | seq a b iha ihb =>
    intro s k res h
    simp only [Regex.run] at h
    obtain ⟨x, rest, caps2, hx, hl, hk, new, hnew, hcaps⟩ := iha s _ res h
    obtain ⟨y, rest2, caps3, hy, hl2, hk2, new2, hnew2, hcaps2⟩ := ihb _ k res hk
    simp only at hy hk2 hnew2 hcaps2
    refine ⟨x ++ y, rest2, caps3, by rw [hx, hy, List.append_assoc],
      ⟨x, y, rfl, hl, hl2⟩, ?_, new2 ++ new, by rw [hnew2, hnew, List.append_assoc], ?_⟩
    · rw [lastOr_append, List.length_append, ← Nat.add_assoc]; exact hk2
    · intro e he
      rcases List.mem_append.1 he with h2 | h1
      · obtain ⟨a1, a2, a3, a4⟩ := hcaps2 e h2
        refine ⟨by omega, a2, by rw [List.length_append]; omega, Or.inr ?_⟩
        have := slice_append_right x y (e.2.1 - s.pos) (e.2.2 - s.pos) (by omega)
        rw [this]
        have e1 : e.2.1 - s.pos - x.length = e.2.1 - (s.pos + x.length) := by omega
        have e2 : e.2.2 - s.pos - x.length = e.2.2 - (s.pos + x.length) := by omega
        rw [e1, e2]
        exact a4
      · obtain ⟨a1, a2, a3, a4⟩ := hcaps e h1
        refine ⟨a1, a2, by rw [List.length_append]; omega, Or.inl ?_⟩
        rw [slice_append_left x y _ _ (by omega)]
        exact a4
  | alt a b iha ihb =>
    intro s k res h
    simp only [Regex.run] at h
    cases hrun : a.run s k with
    | some r2 =>
      rw [hrun] at h
      simp only [Option.some.injEq] at h
      subst h
      obtain ⟨x, rest, caps2, hx, hl, hk, new, hnew, hcaps⟩ := iha s k _ hrun
      exact ⟨x, rest, caps2, hx, Or.inl hl, hk, new, hnew, fun e he =>
        ⟨(hcaps e he).1, (hcaps e he).2.1, (hcaps e he).2.2.1, Or.inl (hcaps e he).2.2.2⟩⟩
    | none =>
      rw [hrun] at h
      obtain ⟨x, rest, caps2, hx, hl, hk, new, hnew, hcaps⟩ := ihb s k _ h
      exact ⟨x, rest, caps2, hx, Or.inr hl, hk, new, hnew, fun e he =>
        ⟨(hcaps e he).1, (hcaps e he).2.1, (hcaps e he).2.2.1, Or.inr (hcaps e he).2.2.2⟩⟩
  | star g r ih =>
    intro s k res h
    simp only [Regex.run] at h
    exact starLoop_sound g r ih _ s k res h
  | cap i r ih =>
    intro s k res h
    simp only [Regex.run] at h
    obtain ⟨x, rest, caps2, hx, hl, hk, new, hnew, hcaps⟩ := ih s _ res h
    simp only at hk
    refine ⟨x, rest, (i, s.pos, s.pos + x.length) :: caps2, hx, hl, hk,
      (i, s.pos, s.pos + x.length) :: new, by rw [hnew]; rfl, ?_⟩
    intro e he
    rcases List.mem_cons.1 he with rfl | h1
    · refine ⟨Nat.le_refl _, by simp, Nat.le_refl _, Or.inl ⟨rfl, ?_⟩⟩
      simp only [Nat.sub_self, Nat.add_sub_cancel_left, slice_zero_length]
      exact hl
    · exact ⟨(hcaps e h1).1, (hcaps e h1).2.1, (hcaps e h1).2.2.1, Or.inr (hcaps e h1).2.2.2⟩
  | bol m =>
    intro s k res h
    simp only [Regex.run] at h
    split at h
    · exact ⟨[], s.rest, s.caps, rfl, rfl, by simpa [lastOr] using h, CapsExt_refl _ _ _ _⟩
    · exact absurd h (by simp)
  | eol m =>
    intro s k res h
    simp only [Regex.run] at h
    split at h
    · exact ⟨[], s.rest, s.caps, rfl, rfl, by simpa [lastOr] using h, CapsExt_refl _ _ _ _⟩
    · exact absurd h (by simp)
  | wordB =>
    intro s k res h
    simp only [Regex.run] at h
    split at h
    · exact ⟨[], s.rest, s.caps, rfl, rfl, by simpa [lastOr] using h, CapsExt_refl _ _ _ _⟩
    · exact absurd h (by simp)

theorem StarLang_nonempty_pieces {P : List Char → Prop} {x : List Char} (h : StarLang P x) :
    StarLang (fun y => P y ∧ y ≠ []) x := by
  induction h with
  | nil => exact StarLang.nil
  | cons y z hy _ ih =>
    by_cases hne : y = []
    · subst hne; simpa using ih
    · exact StarLang.cons y z ⟨hy, hne⟩ ih

theorem starLoop_complete (g : Bool) (r : Regex) (k : MState → Option MState)
    (ih : ∀ x, r.Lang x → ∀ (prev : Option Char) (rest : List Char) (pos : Nat)
      (caps : List (Nat × Nat × Nat)) (k : MState → Option MState),
      (∀ caps2, (k ⟨lastOr prev x, rest, pos + x.length, caps2⟩).isSome = true) →
      (r.run ⟨prev, x ++ rest, pos, caps⟩ k).isSome = true) :
    ∀ x, StarLang (fun y => r.Lang y ∧ y ≠ []) x →
      ∀ (fuel : Nat) (prev : Option Char) (rest : List Char) (pos : Nat)
        (caps : List (Nat × Nat × Nat)), (x ++ rest).length ≤ fuel →
        (∀ caps2, (k ⟨lastOr prev x, rest, pos + x.length, caps2⟩).isSome = true) →
        (starLoop g r.run fuel ⟨prev, x ++ rest, pos, caps⟩ k).isSome = true := by
  intro x hx
  induction hx with
  | nil =>
    intro fuel prev rest pos caps _ hk
    have hks : (k ⟨prev, [] ++ rest, pos, caps⟩).isSome = true := by
      simpa [lastOr] using hk caps
    cases fuel with
    | zero => simpa [starLoop] using hks
    | succ n =>
      cases g with
      | true =>
        simp only [starLoop, if_true]
        split
        · rfl
        · exact hks
      | false =>
        simp only [starLoop, Bool.false_eq_true, if_false]
        split
        · rfl
        · rename_i hnone
          rw [hnone] at hks
          exact absurd hks (by simp)
  | cons y z hy _ ihz =>
    intro fuel prev rest pos caps hfuel hk
    have hylen : 0 < y.length := List.length_pos.2 hy.2
    cases fuel with
    | zero => simp only [List.length_append] at hfuel; omega
    | succ n =>
      have hstep : (r.run ⟨prev, (y ++ z) ++ rest, pos, caps⟩
          (fun t => starLoop g r.run n t k)).isSome = true := by
        rw [List.append_assoc]
        apply ih y hy.1
        intro caps2
        apply ihz n _ rest _ caps2
        · simp only [List.length_append] at hfuel ⊢; omega
        · intro caps3
          have := hk caps3
          rwa [lastOr_append, List.length_append, ← Nat.add_assoc] at this
      cases g with
      | true =>
        simp only [starLoop, if_true]
        split
        · rfl
        · rename_i hnone
          rw [hnone] at hstep
          exact absurd hstep (by simp)
      | false =>
        simp only [starLoop, Bool.false_eq_true, if_false]
        split
        · rfl
        · exact hstep

theorem Regex.run_complete (re : Regex) (hp : re.plain = true) :
    ∀ x, re.Lang x → ∀ (prev : Option Char) (rest : List Char) (pos : Nat)
      (caps : List (Nat × Nat × Nat)) (k : MState → Option MState),
      (∀ caps2, (k ⟨lastOr prev x, rest, pos + x.length, caps2⟩).isSome = true) →
      (re.run ⟨prev, x ++ rest, pos, caps⟩ k).isSome = true := by
  induction re with
  | eps =>
    intro x hx prev rest pos caps k hk
    simp only [Regex.Lang] at hx
    subst hx
    simpa [Regex.run, lastOr] using hk caps
  | chr c =>
    intro x hx prev rest pos caps k hk
    simp only [Regex.Lang] at hx
    subst hx
    simpa [Regex.run, lastOr] using hk caps
  | cls cc =>
    intro x hx prev rest pos caps k hk
    obtain ⟨d, rfl, hd⟩ := hx
    simpa [Regex.run, lastOr, hd] using hk caps
  | seq a b iha ihb =>
    intro x hx prev rest pos caps k hk
    simp only [Regex.plain, Bool.and_eq_true] at hp
    obtain ⟨u, v, rfl, hu, hv⟩ := hx
    simp only [Regex.run]
    rw [List.append_assoc]
    apply iha hp.1 u hu
    intro caps2
    apply ihb hp.2 v hv
    intro caps3
    have := hk caps3
    rwa [lastOr_append, List.length_append, ← Nat.add_assoc] at this
  | alt a b iha ihb =>
    intro x hx prev rest pos caps k hk
    simp only [Regex.plain, Bool.and_eq_true] at hp
    simp only [Regex.run]
    rcases hx with hx | hx
    · have := iha hp.1 x hx prev rest pos caps k hk
      split
      · rfl
      · rename_i hnone
        rw [hnone] at this
        exact absurd this (by simp)
    · split
      · rfl
      · exact ihb hp.2 x hx prev rest pos caps k hk
  | star g r ih =>
    intro x hx prev rest pos caps k hk
    simp only [Regex.plain] at hp
    simp only [Regex.run]
    exact starLoop_complete g r k (ih hp) x (StarLang_nonempty_pieces hx) _ prev rest pos caps
      (Nat.le_refl _) hk
  | cap i r ih =>
    intro x hx prev rest pos caps k hk
    simp only [Regex.plain] at hp
    simp only [Regex.run]
    apply ih hp x hx
    intro caps2
    exact hk _
  | bol m => simp [Regex.plain] at hp
  | eol m => simp [Regex.plain] at hp
  | wordB => simp [Regex.plain] at hp

/-! ## Searching and replacing -/

theorem CClass.allSat_test {cc : CClass} {p : Char → Bool} (h : cc.allSat p = true)
    {d : Char} (hd : cc.test d = true) : p d = true := by
  unfold CClass.allSat at h
  unfold CClass.test at hd
  simp only [Bool.and_eq_true, Bool.not_eq_true', List.all_eq_true] at h
  rw [h.1] at hd
  simp only [Bool.false_bne, List.any_eq_true, Bool.and_eq_true, decide_eq_true_eq] at hd
  obtain ⟨r, hr, h1, h2⟩ := hd
  have := h.2 r hr (d.toNat - r.1) (by simp only [List.mem_range]; omega)
  rw [show r.1 + (d.toNat - r.1) = d.toNat by omega] at this
  simpa using this

theorem Regex.needs_sound (p : Char → Bool) (re : Regex) :
    re.needs p = true → ∀ x, re.Lang x → ∃ c ∈ x, p c = true := by
  induction re with
  | chr c => intro h x hx; simp only [Regex.Lang] at hx; subst hx; exact ⟨c, by simp, h⟩
  | cls cc =>
    intro h x hx
    obtain ⟨d, rfl, hd⟩ := hx
    exact ⟨d, by simp, CClass.allSat_test h hd⟩
  | seq a b iha ihb =>
    intro h x hx
    obtain ⟨u, v, rfl, hu, hv⟩ := hx
    simp only [Regex.needs, Bool.or_eq_true] at h
    rcases h with h | h
    · obtain ⟨c, hc, hp⟩ := iha h u hu
      exact ⟨c, List.mem_append_left _ hc, hp⟩
    · obtain ⟨c, hc, hp⟩ := ihb h v hv
      exact ⟨c, List.mem_append_right _ hc, hp⟩
  | alt a b iha ihb =>
    intro h x hx
    simp only [Regex.needs, Bool.and_eq_true] at h
    rcases hx with hx | hx
    · exact iha h.1 x hx
    · exact ihb h.2 x hx
  | cap i r ih => intro h x hx; exact ih h x hx
  | eps => intro h; simp [Regex.needs] at h
  | star g r _ => intro h; simp [Regex.needs] at h
  | bol m => intro h; simp [Regex.needs] at h
  | eol m => intro h; simp [Regex.needs] at h
  | wordB => intro h; simp [Regex.needs] at h

/-- What a successful search returns: the match lies at or after the start of
the search, its text is in the language of the pattern, and its capture spans
lie inside it. -/
theorem Regex.searchFrom_sound (re : Regex) :
    ∀ (rest : List Char) (prev : Option Char) (pos : Nat) (m : Match),
      re.searchFrom prev rest pos = some m →
      ∃ pre x rest2, rest = pre ++ x ++ rest2 ∧ m.start = pos + pre.length ∧
        m.stop = m.start + x.length ∧ re.Lang x ∧ CapsExt re m.start x [] m.caps := by
  intro rest
  induction rest with
  | nil =>
    intro prev pos m h
    simp only [Regex.searchFrom] at h
    split at h
    · rename_i t ht
      simp only [Option.some.injEq] at h
      subst h
      obtain ⟨x, rest2, caps2, hx, hl, hk, hc⟩ := re.run_sound _ _ _ ht
      simp only [Option.some.injEq] at hk
      subst hk
      exact ⟨[], x, rest2, by simpa using hx, by simp, rfl, hl, hc⟩
    · exact absurd h (by simp)
  | cons c cs ih =>
    intro prev pos m h
    simp only [Regex.searchFrom] at h
    split at h
    · rename_i t ht
      simp only [Option.some.injEq] at h
      subst h
      obtain ⟨x, rest2, caps2, hx, hl, hk, hc⟩ := re.run_sound _ _ _ ht
      simp only [Option.some.injEq] at hk
      subst hk
      exact ⟨[], x, rest2, by simpa using hx, by simp, rfl, hl, hc⟩
    · obtain ⟨pre, x, rest2, hx, h1, h2, hl, hc⟩ := ih _ _ m h
      exact ⟨c :: pre, x, rest2, by simp [hx], by simp [h1]; omega, h2, hl, hc⟩

theorem Regex.searchFrom_of_run (re : Regex) (prev : Option Char) (rest : List Char) (pos : Nat)
    (t : MState) (h : re.run ⟨prev, rest, pos, []⟩ some = some t) :
    re.searchFrom prev rest pos = some ⟨pos, t.pos, t.caps⟩ := by
  cases rest <;> simp [Regex.searchFrom, h]

theorem Regex.searchFrom_cons_of_fail (re : Regex) (prev : Option Char) (c : Char)
    (cs : List Char) (pos : Nat) (h : re.run ⟨prev, c :: cs, pos, []⟩ some = none) :
    re.searchFrom prev (c :: cs) pos = re.searchFrom (some c) cs (pos + 1) := by
  simp [Regex.searchFrom, h]

/-- A pattern that needs a rune satisfying `p` finds nothing in a text without
such a rune. -/
theorem Regex.searchFrom_none_of_needs (re : Regex) (p : Char → Bool)
    (hre : re.needs p = true) (rest : List Char) (hrest : ∀ c ∈ rest, p c = false)
    (prev : Option Char) (pos : Nat) : re.searchFrom prev rest pos = none := by
  cases h : re.searchFrom prev rest pos with
  | none => rfl
  | some m =>
    obtain ⟨pre, x, rest2, hx, _, _, hl, _⟩ := re.searchFrom_sound _ _ _ _ h
    obtain ⟨c, hc, hp⟩ := re.needs_sound p hre x hl
    have := hrest c (by rw [hx]; simp [hc])
    rw [this] at hp
    exact absurd hp (by simp)

theorem Regex.exec_none_of_needs (re : Regex) (p : Char → Bool)
    (hre : re.needs p = true) (src : List Char) (hsrc : ∀ c ∈ src, p c = false) (pos : Nat) :
    re.exec src pos = none :=
  re.searchFrom_none_of_needs p hre _ (fun c hc => hsrc c (List.mem_of_mem_drop hc)) _ _

/-- The facts about a match found in `src` from offset `p`. -/
theorem Regex.exec_sound (re : Regex) (src : List Char) (p : Nat) (m : Match)
    (h : re.exec src p = some m) (hp : p ≤ src.length) :
    p ≤ m.start ∧ m.start ≤ m.stop ∧ m.stop ≤ src.length ∧ re.Lang (m.text src) ∧
      src.drop m.start = m.text src ++ src.drop m.stop ∧
      CapsExt re m.start (m.text src) [] m.caps := by
  obtain ⟨pre, x, rest2, hx, h1, h2, hl, hc⟩ := re.searchFrom_sound _ _ _ _ h
  have hlen := congrArg List.length hx
  simp only [List.length_drop, List.length_append] at hlen
  have hd : src.drop m.start = x ++ rest2 := by
    rw [h1, ← List.drop_drop, hx, List.append_assoc, List.drop_left]
  have ht : m.text src = x := by
    unfold Match.text slice
    rw [hd, h2, Nat.add_sub_cancel_left, List.take_left]
  have hd2 : src.drop m.stop = rest2 := by
    rw [h2, ← List.drop_drop, hd, List.drop_left]
  refine ⟨by omega, by omega, by omega, by rw [ht]; exact hl, by rw [ht, hd2, hd], by rw [ht]; exact hc⟩

theorem replaceAll_of_no_match (re : Regex) (src : List Char)
    (repl : Match → Option (List Char)) (h : re.exec src 0 = none) :
    replaceAllLoop re src repl (src.length + 2) 0 0 [] = some src := by
  simp [replaceAllLoop, h]

theorem Regex.ReplaceAllStringFunc_of_no_match (re : Regex) (src : List Char)
    (f : List Char → Option (List Char)) (h : re.exec src 0 = none) :
    re.ReplaceAllStringFunc src f = some src :=
  replaceAll_of_no_match re src _ h

theorem Regex.ReplaceAllString_of_no_match (re : Regex) (src : List Char)
    (tpl : List TPiece) (h : re.exec src 0 = none) :
    re.ReplaceAllString src tpl = some src :=
  replaceAll_of_no_match re src _ h

theorem slice_self (src : List Char) (a : Nat) : slice src a a = [] := by
  simp [slice]

theorem drop_eq_slice_append (src : List Char) (a b : Nat) (hab : a ≤ b) :
    src.drop a = slice src a b ++ src.drop b := by
  unfold slice
  rw [show b = a + (b - a) by omega, ← List.drop_drop, Nat.add_sub_cancel_left,
    List.take_append_drop]

/-- The general shape of the result of `replaceAll`: when the replacement
function succeeds on every match, the loop returns the text rewritten match by
match. -/
theorem replaceAllLoop_rewrite (re : Regex) (src : List Char)
    (repl : Match → Option (List Char)) (Q : List Char → List Char → Prop)
    (hrepl : ∀ p m, p ≤ src.length → re.exec src p = some m →
      ∃ r, repl m = some r ∧ Q (m.text src) r) :
    ∀ (fuel sp lme : Nat) (buf : List Char), lme ≤ sp → sp ≤ src.length + 1 →
      src.length + 2 ≤ fuel + sp →
      ∃ out n, replaceAllLoop re src repl fuel sp lme buf = some (buf ++ out) ∧
        Rewrite Q n (src.drop lme) out ∧
        (sp = 0 → (re.exec src 0).isSome = true → 1 ≤ n) := by
  intro fuel
  induction fuel with
  | zero => intro sp lme buf _ h1 h2; omega
  | succ fuel ih =>
    intro sp lme buf hle hsp hfuel
    simp only [replaceAllLoop]
    by_cases hend : src.length < sp
    · rw [if_pos hend]
      exact ⟨src.drop lme, 0, rfl, Rewrite.done _, by omega⟩
    · rw [if_neg hend]
      cases hex : re.exec src sp with
      | none =>
        refine ⟨src.drop lme, 0, rfl, Rewrite.done _, ?_⟩
        intro h0 hs
        subst h0
        rw [hex] at hs
        exact absurd hs (by simp)
      | some a =>
        obtain ⟨b1, b2, b3, _, b5, _⟩ := re.exec_sound src sp a hex (by omega)
        obtain ⟨r, hr, hq⟩ := hrepl sp a (by omega) hex
        simp only
        have hnext : a.stop ≤ (if a.stop < sp + 1 then sp + 1 else a.stop) := by
          split <;> omega
        have hnext2 : (if a.stop < sp + 1 then sp + 1 else a.stop) ≤ src.length + 1 := by
          split <;> omega
        have hnext3 : src.length + 2 ≤ fuel + (if a.stop < sp + 1 then sp + 1 else a.stop) := by
          split <;> omega
        by_cases hc : lme < a.stop ∨ a.start = 0
        · rw [if_pos hc, hr]
          simp only
          obtain ⟨out, n, ho, hrw, _⟩ := ih _ a.stop (buf ++ slice src lme a.start ++ r)
            hnext hnext2 hnext3
          refine ⟨slice src lme a.start ++ r ++ out, n + 1, by rw [ho]; simp, ?_, by omega⟩
          have e : src.drop lme = slice src lme a.start ++ a.text src ++ src.drop a.stop := by
            rw [drop_eq_slice_append src lme a.start (by omega), b5, List.append_assoc]
          rw [e]
          exact Rewrite.step _ _ _ _ _ _ hq hrw
        · rw [if_neg hc]
          have h1 : a.stop = lme := by omega
          have h2 : a.start = lme := by omega
          obtain ⟨out, n, ho, hrw, _⟩ := ih _ a.stop (buf ++ slice src lme a.start)
            hnext hnext2 hnext3
          refine ⟨out, n, ?_, by rw [h1] at hrw; exact hrw, ?_⟩
          · rw [ho, h2, slice_self]; simp
          · intro h0
            subst h0
            omega

theorem Rewrite_eq_of_id {Q : List Char → List Char → Prop} (hQ : ∀ x r, Q x r → r = x)
    {n : Nat} {s out : List Char} (h : Rewrite Q n s out) : out = s := by
  induction h with
  | done s => rfl
  | step pre x r rest out n hq _ ih => rw [hQ x r hq, ih]

theorem Rewrite_count_le {Q : List Char → List Char → Prop} (c : Char)
    (hQ : ∀ x r, Q x r → r.count c + 1 ≤ x.count c)
    {n : Nat} {s out : List Char} (h : Rewrite Q n s out) : out.count c + n ≤ s.count c := by
  induction h with
  | done s => simp
  | step pre x r rest out n hq _ ih =>
    have := hQ x r hq
    simp only [List.count_append]
    omega

/-- `ReplaceAllStringFunc` with a callback that succeeds on every string of the
language of the pattern. -/
theorem Regex.ReplaceAllStringFunc_rewrite (re : Regex) (src : List Char)
    (f : List Char → Option (List Char)) (Q : List Char → List Char → Prop)
    (hf : ∀ x, re.Lang x → ∃ r, f x = some r ∧ Q x r) :
    ∃ out n, re.ReplaceAllStringFunc src f = some out ∧ Rewrite Q n src out ∧
      (re.MatchString src = true → 1 ≤ n) := by
  obtain ⟨out, n, h1, h2, h3⟩ := replaceAllLoop_rewrite re src (fun m => f (m.text src)) Q
    (fun p m hp hm => hf _ (re.exec_sound src p m hm hp).2.2.2.1)
    (src.length + 2) 0 0 [] (Nat.le_refl _) (by omega) (by omega)
  exact ⟨out, n, by simpa [Regex.ReplaceAllStringFunc] using h1, by simpa using h2,
    fun hm => h3 rfl hm⟩

/-! ## Following the matcher along a known text -/

theorem Exact_detOK {re : Regex} {s t : MState} (h : Exact re s t) : DetOK re s t :=
  fun k r hk => by rw [h k]; exact hk

theorem Exact_eps (s : MState) : Exact .eps s s := fun _ => rfl

theorem Exact_chr (c : Char) (prev : Option Char) (rest : List Char) (pos : Nat)
    (caps : List (Nat × Nat × Nat)) :
    Exact (.chr c) ⟨prev, c :: rest, pos, caps⟩ ⟨some c, rest, pos + 1, caps⟩ :=
  fun k => by simp [Regex.run]

theorem Exact_cls (cc : CClass) (d : Char) (hd : cc.test d = true) (prev : Option Char)
    (rest : List Char) (pos : Nat) (caps : List (Nat × Nat × Nat)) :
    Exact (.cls cc) ⟨prev, d :: rest, pos, caps⟩ ⟨some d, rest, pos + 1, caps⟩ :=
  fun k => by simp [Regex.run, hd]

theorem Exact_seq {a b : Regex} {s t u : MState} (ha : Exact a s t) (hb : Exact b t u) :
    Exact (.seq a b) s u :=
  fun k => by simp only [Regex.run]; rw [ha, hb]

theorem Exact_cap {r : Regex} {s t : MState} (i : Nat) (h : Exact r s t) :
    Exact (.cap i r) s ⟨t.prev, t.rest, t.pos, (i, s.pos, t.pos) :: t.caps⟩ :=
  fun k => by simp only [Regex.run]; rw [h]

theorem Fails_chr_nil (c : Char) (prev : Option Char) (pos : Nat)
    (caps : List (Nat × Nat × Nat)) : Fails (.chr c) ⟨prev, [], pos, caps⟩ :=
  fun k => by simp [Regex.run]

theorem Fails_chr_ne (c d : Char) (h : d ≠ c) (prev : Option Char) (rest : List Char)
    (pos : Nat) (caps : List (Nat × Nat × Nat)) :
    Fails (.chr c) ⟨prev, d :: rest, pos, caps⟩ :=
  fun k => by simp [Regex.run, h]

theorem Fails_cls_nil (cc : CClass) (prev : Option Char) (pos : Nat)
    (caps : List (Nat × Nat × Nat)) : Fails (.cls cc) ⟨prev, [], pos, caps⟩ :=
  fun k => by simp [Regex.run]

theorem Fails_cls_ne (cc : CClass) (d : Char) (h : cc.test d = false) (prev : Option Char)
    (rest : List Char) (pos : Nat) (caps : List (Nat × Nat × Nat)) :
    Fails (.cls cc) ⟨prev, d :: rest, pos, caps⟩ :=
  fun k => by simp [Regex.run, h]

theorem Fails_seq_left {a : Regex} (b : Regex) {s : MState} (h : Fails a s) :
    Fails (.seq a b) s :=
  fun k => by simp only [Regex.run]; rw [h]

theorem Fails_seq_right {a b : Regex} {s t : MState} (ha : Exact a s t) (hb : Fails b t) :
    Fails (.seq a b) s :=
  fun k => by simp only [Regex.run]; rw [ha, hb]

theorem Fails_cap {r : Regex} {s : MState} (i : Nat) (h : Fails r s) : Fails (.cap i r) s :=
  fun k => by simp only [Regex.run]; rw [h]

theorem Fails_alt {a b : Regex} {s : MState} (ha : Fails a s) (hb : Fails b s) :
    Fails (.alt a b) s :=
  fun k => by simp only [Regex.run]; rw [ha, hb]

theorem Exact_alt_right {a b : Regex} {s t : MState} (ha : Fails a s) (hb : Exact b s t) :
    Exact (.alt a b) s t :=
  fun k => by simp only [Regex.run]; rw [ha, hb]

theorem Exact_alt_left {a b : Regex} {s t : MState} (ha : Exact a s t) (hb : Fails b s) :
    Exact (.alt a b) s t :=
  fun k => by
    simp only [Regex.run]; rw [ha, hb]
    cases k t <;> rfl

theorem Exact_lit (l : List Char) : ∀ (prev : Option Char) (rest : List Char) (pos : Nat)
    (caps : List (Nat × Nat × Nat)),
    Exact (Regex.lit l) ⟨prev, l ++ rest, pos, caps⟩
      ⟨lastOr prev l, rest, pos + l.length, caps⟩ := by
  induction l with
  | nil => intro prev rest pos caps; exact Exact_eps _
  | cons c cs ih =>
    intro prev rest pos caps
    have h1 := Exact_chr c prev (cs ++ rest) pos caps
    have h2 := ih (some c) rest (pos + 1) caps
    have := Exact_seq h1 h2
    have e : lastOr prev (c :: cs) = lastOr (some c) cs := by
      rw [show c :: cs = [c] ++ cs from rfl, lastOr_append, lastOr_singleton]
    rw [e, show pos + (c :: cs).length = pos + 1 + cs.length by simp; omega]
    exact this

theorem Fails_lit_ne (c d : Char) (cs : List Char) (h : d ≠ c) (prev : Option Char)
    (rest : List Char) (pos : Nat) (caps : List (Nat × Nat × Nat)) :
    Fails (Regex.lit (c :: cs)) ⟨prev, d :: rest, pos, caps⟩ :=
  Fails_seq_left _ (Fails_chr_ne c d h prev rest pos caps)

theorem DetOK_seq {a b : Regex} {s t u : MState} (ha : DetOK a s t) (hb : DetOK b t u) :
    DetOK (.seq a b) s u :=
  fun k r hk => by
    simp only [Regex.run]
    exact ha _ r (hb k r hk)

theorem DetOK_cap {r : Regex} {s t : MState} (i : Nat) (h : DetOK r s t) :
    DetOK (.cap i r) s ⟨t.prev, t.rest, t.pos, (i, s.pos, t.pos) :: t.caps⟩ :=
  fun k r0 hk => by
    simp only [Regex.run]
    exact h _ r0 hk

theorem DetOK_alt_left {a : Regex} (b : Regex) {s t : MState} (ha : DetOK a s t) :
    DetOK (.alt a b) s t :=
  fun k r hk => by simp only [Regex.run]; rw [ha k r hk]

theorem DetOK_alt_right {a b : Regex} {s t : MState} (ha : Fails a s) (hb : DetOK b s t) :
    DetOK (.alt a b) s t :=
  fun k r hk => by simp only [Regex.run]; rw [ha k]; exact hb k r hk

/-- `r*` over a class stops where the class stops. -/
theorem Exact_star_cls_nil (g : Bool) (cc : CClass) (prev : Option Char) (pos : Nat)
    (caps : List (Nat × Nat × Nat)) :
    Exact (.star g (.cls cc)) ⟨prev, [], pos, caps⟩ ⟨prev, [], pos, caps⟩ :=
  fun k => by simp [Regex.run, starLoop]

theorem Exact_star_cls_stop (g : Bool) (cc : CClass) (d : Char) (hd : cc.test d = false)
    (prev : Option Char) (rest : List Char) (pos : Nat) (caps : List (Nat × Nat × Nat)) :
    Exact (.star g (.cls cc)) ⟨prev, d :: rest, pos, caps⟩ ⟨prev, d :: rest, pos, caps⟩ :=
  fun k => by
    cases g
    · simp only [Regex.run, List.length_cons, starLoop, Bool.false_eq_true, if_false, hd]
      cases k _ <;> rfl
    · simp [Regex.run, starLoop, hd]

theorem Exact_star_cls_stops (g : Bool) (cc : CClass) (rest : List Char)
    (h : StopsAt cc rest) (prev : Option Char) (pos : Nat) (caps : List (Nat × Nat × Nat)) :
    Exact (.star g (.cls cc)) ⟨prev, rest, pos, caps⟩ ⟨prev, rest, pos, caps⟩ := by
  cases rest with
  | nil => exact Exact_star_cls_nil g cc prev pos caps
  | cons d ds => exact Exact_star_cls_stop g cc d (h d (by simp)) prev ds pos caps

theorem Regex.run_star_cls_cons (cc : CClass) (d : Char) (hd : cc.test d = true)
    (prev : Option Char) (rest : List Char) (pos : Nat) (caps : List (Nat × Nat × Nat))
    (k : MState → Option MState) :
    (Regex.star true (.cls cc)).run ⟨prev, d :: rest, pos, caps⟩ k =
      match (Regex.star true (.cls cc)).run ⟨some d, rest, pos + 1, caps⟩ k with
      | some r => some r
      | none => k ⟨prev, d :: rest, pos, caps⟩ := by
  simp only [Regex.run, List.length_cons, starLoop, hd, if_true]
  try rfl

/-- Greedy `[..]*` runs to the end of the run of class runes. -/
theorem DetOK_star_cls (cc : CClass) (xs : List Char) (hxs : ∀ c ∈ xs, cc.test c = true)
    (rest : List Char) (hrest : StopsAt cc rest) :
    ∀ (prev : Option Char) (pos : Nat) (caps : List (Nat × Nat × Nat)),
    DetOK (.star true (.cls cc)) ⟨prev, xs ++ rest, pos, caps⟩
      ⟨lastOr prev xs, rest, pos + xs.length, caps⟩ := by
  induction xs with
  | nil =>
    intro prev pos caps
    exact (Exact_detOK (Exact_star_cls_stops true cc rest hrest prev pos caps))
  | cons c cs ih =>
    intro prev pos caps k r hk
    have hc : cc.test c = true := hxs c (by simp)
    rw [List.cons_append, Regex.run_star_cls_cons cc c hc]
    have e : lastOr prev (c :: cs) = lastOr (some c) cs := by
      rw [show c :: cs = [c] ++ cs from rfl, lastOr_append, lastOr_singleton]
    rw [e, show pos + (c :: cs).length = pos + 1 + cs.length by simp; omega] at hk
    rw [ih (fun c hcs => hxs c (by simp [hcs])) (some c) (pos + 1) caps k r hk]

/-- Greedy `[..]+` runs to the end of a non-empty run of class runes. -/
theorem DetOK_plus_cls (cc : CClass) (xs : List Char) (hne : xs ≠ [])
    (hxs : ∀ c ∈ xs, cc.test c = true) (rest : List Char) (hrest : StopsAt cc rest)
    (prev : Option Char) (pos : Nat) (caps : List (Nat × Nat × Nat)) :
    DetOK (Regex.plus (.cls cc)) ⟨prev, xs ++ rest, pos, caps⟩
      ⟨lastOr prev xs, rest, pos + xs.length, caps⟩ := by
  cases xs with
  | nil => exact absurd rfl hne
  | cons c cs =>
    have hc : cc.test c = true := hxs c (by simp)
    have h1 := (Exact_detOK (Exact_cls cc c hc prev (cs ++ rest) pos caps))
    have h2 := DetOK_star_cls cc cs (fun c hcs => hxs c (by simp [hcs])) rest hrest (some c)
      (pos + 1) caps
    have e : lastOr prev (c :: cs) = lastOr (some c) cs := by
      rw [show c :: cs = [c] ++ cs from rfl, lastOr_append, lastOr_singleton]
    rw [e, show pos + (c :: cs).length = pos + 1 + cs.length by simp; omega]
    exact DetOK_seq h1 h2

theorem Fails_plus_cls (cc : CClass) (rest : List Char) (h : StopsAt cc rest)
    (prev : Option Char) (pos : Nat) (caps : List (Nat × Nat × Nat)) :
    Fails (Regex.plus (.cls cc)) ⟨prev, rest, pos, caps⟩ := by
  cases rest with
  | nil => exact Fails_seq_left _ (Fails_cls_nil cc prev pos caps)
  | cons d ds => exact Fails_seq_left _ (Fails_cls_ne cc d (h d (by simp)) prev ds pos caps)

theorem StarOK_stop (r : Regex) (fuel : Nat) (s : MState) (h : Fails r s) :
    StarOK r fuel s s := by
  intro k r0 hk
  cases fuel with
  | zero => simpa [starLoop] using hk
  | succ n => simp only [starLoop, if_true]; rw [h]; exact hk

theorem StarOK_step {r : Regex} {n : Nat} {s t u : MState} (h1 : DetOK r s t)
    (h2 : StarOK r n t u) : StarOK r (n + 1) s u := by
  intro k r0 hk
  simp only [starLoop, if_true]
  rw [h1 _ r0 (h2 k r0 hk)]

theorem DetOK_of_starOK {r : Regex} {s u : MState} (h : StarOK r s.rest.length s u) :
    DetOK (.star true r) s u :=
  fun k r0 hk => by simp only [Regex.run]; exact h k r0 hk

theorem Regex.searchFrom_of_detOK (re : Regex) (prev : Option Char) (rest : List Char)
    (pos : Nat) (t : MState) (h : DetOK re ⟨prev, rest, pos, []⟩ t) :
    re.searchFrom prev rest pos = some ⟨pos, t.pos, t.caps⟩ :=
  re.searchFrom_of_run prev rest pos t (h some t rfl)

theorem Regex.searchFrom_cons_of_fails (re : Regex) (prev : Option Char) (c : Char)
    (cs : List Char) (pos : Nat) (h : Fails re ⟨prev, c :: cs, pos, []⟩) :
    re.searchFrom prev (c :: cs) pos = re.searchFrom (some c) cs (pos + 1) :=
  re.searchFrom_cons_of_fail prev c cs pos (h some)

theorem Regex.exec_zero (re : Regex) (src : List Char) :
    re.exec src 0 = re.searchFrom none src 0 := by
  simp [Regex.exec, prevAt]

/-- A pattern that needs some rune finds nothing at the very end of a text. -/
theorem Regex.exec_end_none (re : Regex) (p : Char → Bool) (hre : re.needs p = true)
    (src : List Char) : re.exec src src.length = none := by
  unfold Regex.exec
  rw [List.drop_length]
  exact re.searchFrom_none_of_needs p hre [] (by simp) _ _

/-- `replaceAll` when the first match is the only one: it spans `[a, b)` with
`a < b` and nothing matches from `b` on. -/
theorem replaceAll_single (re : Regex) (src : List Char) (repl : Match → Option (List Char))
    (m : Match) (r : List Char) (h0 : re.exec src 0 = some m) (hlt : m.start < m.stop)
    (hstop : m.stop ≤ src.length) (hrest : re.exec src m.stop = none) (hr : repl m = some r) :
    replaceAllLoop re src repl (src.length + 2) 0 0 [] =
      some (src.take m.start ++ r ++ src.drop m.stop) := by
  have h1 : ¬ (src.length < 0) := by omega
  have h2 : ¬ (m.stop < 0 + 1) := by omega
  have h3 : ¬ (src.length < m.stop) := by omega
  have h4 : (0 < m.stop ∨ m.start = 0) := Or.inl (by omega)
  simp only [replaceAllLoop, h1, if_false, h0, h2, h4, if_true, hr, h3, hrest,
    List.nil_append]
  simp [slice]

/-! ## `strconv` and `fmt` -/

theorem numFold_le (base : Nat) (hb : 1 ≤ base) :
    ∀ (s : List Char) (n m : Nat), numFold base s n = some m → n ≤ m := by
  intro s
  induction s with
  | nil => intro n m h; simp only [numFold, Option.some.injEq] at h; omega
  | cons c cs ih =>
    intro n m h
    simp only [numFold] at h
    split at h
    · rename_i d hd
      split at h
      · have := ih _ _ h
        have : n ≤ n * base := Nat.le_mul_of_pos_right n hb
        omega
      · exact absurd h (by simp)
    · exact absurd h (by simp)

theorem parseUintLoop_of_value (base : Nat) (hb : 1 ≤ base) :
    ∀ (s : List Char) (n m : Nat), numFold base s n = some m → m ≤ maxUint64 →
      parseUintLoop base s n = (m, none) := by
  intro s
  induction s with
  | nil => intro n m h _; simp only [numFold, Option.some.injEq] at h; simp [parseUintLoop, h]
  | cons c cs ih =>
    intro n m h hm
    simp only [numFold] at h
    split at h
    · rename_i d hd
      split at h
      · rename_i hlt
        have h1 := numFold_le base hb _ _ _ h
        have h2 : n ≤ maxUint64 / base := by
          rw [Nat.le_div_iff_mul_le (by omega)]
          omega
        simp only [parseUintLoop, hd]
        rw [if_neg (by omega), if_neg (by omega), if_neg (by omega)]
        exact ih _ _ h hm
      · exact absurd h (by simp)
    · exact absurd h (by simp)

theorem parseUintLoop_of_big (base : Nat) :
    ∀ (s : List Char) (n m : Nat), numFold base s n = some m → n ≤ maxUint64 →
      maxUint64 < m → parseUintLoop base s n = (maxUint64, some .errRange) := by
  intro s
  induction s with
  | nil => intro n m h h1 h2; simp only [numFold, Option.some.injEq] at h; omega
  | cons c cs ih =>
    intro n m h hn hm
    simp only [numFold] at h
    split at h
    · rename_i d hd
      split at h
      · rename_i hlt
        simp only [parseUintLoop, hd]
        rw [if_neg (by omega)]
        by_cases h1 : maxUint64 / base + 1 ≤ n
        · rw [if_pos h1]
        · rw [if_neg h1]
          by_cases h2 : maxUint64 < n * base + d
          · rw [if_pos h2]
          · rw [if_neg h2]
            exact ih _ _ h (by omega) hm
      · exact absurd h (by simp)
    · exact absurd h (by simp)

theorem parseUintLoop_of_invalid (base : Nat) :
    ∀ (s : List Char) (n : Nat), numFold base s n = none →
      parseUintLoop base s n = (0, some .errSyn) ∨
        parseUintLoop base s n = (maxUint64, some .errRange) := by
  intro s
  induction s with
  | nil => intro n h; simp [numFold] at h
  | cons c cs ih =>
    intro n h
    simp only [numFold] at h
    simp only [parseUintLoop]
    split
    · exact Or.inl rfl
    · rename_i d hd
      rw [hd] at h
      simp only at h
      by_cases h0 : base ≤ d
      · rw [if_pos h0]; exact Or.inl rfl
      · rw [if_neg h0]
        rw [if_pos (by omega)] at h
        by_cases h1 : maxUint64 / base + 1 ≤ n
        · rw [if_pos h1]; exact Or.inr rfl
        · rw [if_neg h1]
          by_cases h2 : maxUint64 < n * base + d
          · rw [if_pos h2]; exact Or.inr rfl
          · rw [if_neg h2]
            exact ih _ h

theorem ParseInt_unsigned (base : Nat) (c : Char) (cs : List Char) (h1 : c ≠ '+')
    (h2 : c ≠ '-') :
    ParseInt (c :: cs) base =
      if (parseUintLoop base (c :: cs) 0).2 = some .errSyn then ⟨0, some .errSyn⟩
      else if 2 ^ 63 ≤ (parseUintLoop base (c :: cs) 0).1 then ⟨2 ^ 63 - 1, some .errRange⟩
      else ⟨wrap64 (parseUintLoop base (c :: cs) 0).1, none⟩ := by
  simp [ParseInt, ParseUint, h1, h2]

/-- `ParseInt` succeeds on an unsigned numeral below `2^63` and returns its value. -/
theorem ParseInt_of_value (base : Nat) (hb : 1 ≤ base) (s : List Char) (hs : Unsigned s)
    (n : Nat) (hv : numeralValue base s = some n) (hn : n < 2 ^ 63) :
    ParseInt s base = ⟨n, none⟩ := by
  cases s with
  | nil => simp [numeralValue] at hv
  | cons c cs =>
    obtain ⟨h1, h2⟩ := hs c (by simp)
    simp only [numeralValue, if_neg (List.cons_ne_nil c cs)] at hv
    have hu := parseUintLoop_of_value base hb _ _ _ hv (by unfold maxUint64; omega)
    have hw : wrap64 (n : Int) = n := wrap64_of_range _ (by omega) (by exact_mod_cast hn)
    rw [ParseInt_unsigned base c cs h1 h2, hu]
    simp only [Option.some_ne_none, reduceCtorEq, if_false]
    rw [if_neg (by omega), hw]

/-- `ParseInt` reports an error on an unsigned string that is not a numeral of
the base or denotes a number from `2^63` on. -/
theorem ParseInt_err (base : Nat) (hb : 1 ≤ base) (s : List Char) (hs : Unsigned s)
    (hv : ∀ n, numeralValue base s = some n → 2 ^ 63 ≤ n) :
    (ParseInt s base).err ≠ none := by
  cases s with
  | nil => simp [ParseInt]
  | cons c cs =>
    obtain ⟨h1, h2⟩ := hs c (by simp)
    simp only [numeralValue, if_neg (List.cons_ne_nil c cs)] at hv
    rw [ParseInt_unsigned base c cs h1 h2]
    cases hf : numFold base (c :: cs) 0 with
    | none =>
      rcases parseUintLoop_of_invalid base _ _ hf with h | h
      · rw [h]; simp
      · rw [h]; simp [maxUint64]
    | some m =>
      have hm := hv m hf
      by_cases hmm : m ≤ maxUint64
      · rw [parseUintLoop_of_value base hb _ _ _ hf hmm]
        simp only [Option.some_ne_none, reduceCtorEq, if_false]
        rw [if_pos hm]
        simp
      · rw [parseUintLoop_of_big base _ _ _ hf (by unfold maxUint64; omega) (by omega)]
        simp [maxUint64]

theorem digitChar_eq (d : Nat) (hd : d < 10) : digitChar d = Nat.digitChar d := by
  interval_cases d <;> rfl

theorem digitChar_isDigit (d : Nat) (hd : d < 10) : isAsciiDigit (digitChar d) = true := by
  interval_cases d <;> rfl

theorem toDigitsCore_eq (fuel : Nat) :
    ∀ (n : Nat) (ds : List Char),
      Nat.toDigitsCore 10 fuel n ds = (digitsRev 10 fuel n).reverse ++ ds := by
  induction fuel with
  | zero => intro n ds; simp [Nat.toDigitsCore, digitsRev]
  | succ f ih =>
    intro n ds
    simp only [Nat.toDigitsCore, digitsRev]
    rw [digitChar_eq (n % 10) (Nat.mod_lt _ (by omega))]
    split
    · simp
    · rw [ih]; simp

/-- `%d` prints the decimal digits of a natural number. -/
theorem fmtNat_ten (n : Nat) : fmtNat 10 n = Nat.toDigits 10 n := by
  simp [fmtNat, Nat.toDigits, toDigitsCore_eq]

theorem fmtInt_ten_nat (n : Nat) : fmtInt 10 (n : Int) = Nat.toDigits 10 n := by
  simp [fmtInt, fmtNat_ten]

theorem digitsRev_isDigit (fuel : Nat) :
    ∀ (n : Nat), ∀ c ∈ digitsRev 10 fuel n, isAsciiDigit c = true := by
  induction fuel with
  | zero => intro n c hc; simp [digitsRev] at hc
  | succ f ih =>
    intro n c hc
    simp only [digitsRev, List.mem_cons] at hc
    rcases hc with rfl | hc
    · exact digitChar_isDigit _ (Nat.mod_lt _ (by omega))
    · split at hc
      · simp at hc
      · exact ih _ c hc

theorem toDigits_isDigit (n : Nat) : ∀ c ∈ Nat.toDigits 10 n, isAsciiDigit c = true := by
  intro c hc
  rw [← fmtNat_ten] at hc
  exact digitsRev_isDigit _ n c (by simpa [fmtNat] using hc)

theorem toDigits_ne_nil (n : Nat) : Nat.toDigits 10 n ≠ [] := by
  rw [← fmtNat_ten]
  simp [fmtNat, digitsRev]

/-! ## Text made of word characters only is left alone by every pass -/

theorem needs_reMultipleTypes : reMultipleTypes.needs nonWord = true := by rfl
theorem needs_reConversion : reConversion.needs nonWord = true := by rfl
theorem needs_reBinCount : reBinCount.needs nonWord = true := by rfl
theorem needs_reHexCount : reHexCount.needs nonWord = true := by rfl
theorem needs_reBinNum : reBinNum.needs nonWord = true := by rfl
theorem needs_reHexNum : reHexNum.needs nonWord = true := by rfl
theorem needs_reMarker (name : List Char) : (reMarker name).needs nonWord = true := by rfl
theorem needs_reWordMarker (name : List Char) : (reWordMarker name).needs nonWord = true := by
  rfl
theorem needs_reStandaloneLine : reStandaloneLine.needs nonWord = true := by rfl
theorem needs_reStandaloneInline : reStandaloneInline.needs nonWord = true := by rfl
theorem needs_reNested : reNested.needs nonWord = true := by rfl
theorem needs_reCaseCount : reCaseCount.needs nonWord = true := by rfl
theorem needs_reCaseWord : reCaseWord.needs nonWord = true := by rfl
theorem needs_reMultiModifiers : reMultiModifiers.needs nonWord = true := by rfl
theorem needs_reDots : reDots.needs nonWord = true := by rfl
theorem needs_reAttachBang : (reAttachMark '!').needs nonWord = true := by rfl
theorem needs_reAttachQuery : (reAttachMark '?').needs nonWord = true := by rfl
theorem needs_reSpaceAfterBang : (reSpaceAfterMark '!').needs nonWord = true := by rfl
theorem needs_reSpaceAfterQuery : (reSpaceAfterMark '?').needs nonWord = true := by rfl
theorem needs_reBangQuery : (reMarkPair '!' '?').needs nonWord = true := by rfl
theorem needs_reQueryBang : (reMarkPair '?' '!').needs nonWord = true := by rfl
theorem needs_reMarksDot : reMarksDot.needs nonWord = true := by rfl
theorem needs_reSeparators : reSeparators.needs nonWord = true := by rfl
theorem needs_reTwoMarks : reTwoMarks.needs nonWord = true := by rfl
theorem needs_reFinalMark : reFinalMark.needs nonWord = true := by rfl
theorem needs_reSpaceRun : reSpaceRun.needs nonWord = true := by rfl
theorem needs_reQuoted39 : (reQuoted (Char.ofNat 39)).needs nonWord = true := by rfl
theorem needs_reQuoted34 : (reQuoted (Char.ofNat 34)).needs nonWord = true := by rfl
theorem needs_reArticle : reArticle.needs nonWord = true := by rfl

/-- A text of word characters. -/
theorem nonWord_of_word {t : List Char} (ht : ∀ c ∈ t, isWordChar c = true) :
    ∀ c ∈ t, nonWord c = false := by
  intro c hc
  simp [nonWord, ht c hc]

theorem isSpace_of_word {c : Char} (h : isWordChar c = true) : unicodeIsSpace c = false := by
  simp only [isWordChar, isAsciiDigit, isAsciiUpper, isAsciiLower, Bool.or_eq_true,
    Bool.and_eq_true, decide_eq_true_eq, beq_iff_eq] at h
  simp only [unicodeIsSpace, Bool.or_eq_false_iff, Bool.and_eq_false_imp, decide_eq_true_eq,
    decide_eq_false_iff_not, beq_eq_false_iff_ne, ne_eq]
  omega

theorem TrimSpace_of_no_space (t : List Char) (ht : ∀ c ∈ t, unicodeIsSpace c = false) :
    TrimSpace t = t := by
  unfold TrimSpace
  have h1 : t.dropWhile unicodeIsSpace = t := by
    cases t with
    | nil => rfl
    | cons c cs => simp [List.dropWhile, ht c (by simp)]
  rw [h1]
  have h2 : t.reverse.dropWhile unicodeIsSpace = t.reverse := by
    cases hr : t.reverse with
    | nil => rfl
    | cons c cs =>
      have : c ∈ t := by
        have : c ∈ t.reverse := by rw [hr]; simp
        simpa using this
      simp [List.dropWhile, ht c this]
  rw [h2, List.reverse_reverse]

theorem fixLoop_of_fixed (step : List Char → Option (List Char)) (t : List Char)
    (h : step t = some t) (n : Nat) : fixLoop step (n + 2) [] t = some t := by
  by_cases ht : t = []
  · subst ht; simp [fixLoop]
  · have : ([] : List Char) ≠ t := fun e => ht e.symm
    simp [fixLoop, this, h]

theorem processMultipleTypes_word (U : UnicodeTables) (t : List Char)
    (ht : ∀ c ∈ t, nonWord c = false) : processMultipleTypes U t = some t :=
  Regex.ReplaceAllStringFunc_of_no_match _ _ _
    (Regex.exec_none_of_needs _ nonWord needs_reMultipleTypes t ht 0)

theorem processConversion_word (t : List Char) (ht : ∀ c ∈ t, nonWord c = false) :
    processConversion t = some t :=
  Regex.ReplaceAllStringFunc_of_no_match _ _ _
    (Regex.exec_none_of_needs _ nonWord needs_reConversion t ht 0)

theorem processConversioncount_word (t : List Char) (ht : ∀ c ∈ t, nonWord c = false) :
    processConversioncount t = some t := by
  unfold processConversioncount
  rw [Regex.ReplaceAllStringFunc_of_no_match _ _ _
    (Regex.exec_none_of_needs _ nonWord needs_reBinCount t ht 0)]
  exact Regex.ReplaceAllStringFunc_of_no_match _ _ _
    (Regex.exec_none_of_needs _ nonWord needs_reHexCount t ht 0)

theorem processHexNumbers_word (t : List Char) (ht : ∀ c ∈ t, nonWord c = false) :
    processHexNumbers t = some t := by
  unfold processHexNumbers
  rw [fixLoop_of_fixed _ t (Regex.ReplaceAllStringFunc_of_no_match _ _ _
    (Regex.exec_none_of_needs _ nonWord needs_reHexNum t ht 0))]
  simp only [Option.bind_eq_bind, Option.some_bind]
  rw [Regex.ReplaceAllString_of_no_match _ _ _
    (Regex.exec_none_of_needs _ nonWord (needs_reMarker _) t ht 0)]
  exact Regex.ReplaceAllString_of_no_match _ _ _
    (Regex.exec_none_of_needs _ nonWord (needs_reWordMarker _) t ht 0)

theorem processBinaryNumbers_word (t : List Char) (ht : ∀ c ∈ t, nonWord c = false) :
    processBinaryNumbers t = some t := by
  unfold processBinaryNumbers
  rw [fixLoop_of_fixed _ t (Regex.ReplaceAllStringFunc_of_no_match _ _ _
    (Regex.exec_none_of_needs _ nonWord needs_reBinNum t ht 0))]
  simp only [Option.bind_eq_bind, Option.some_bind]
  rw [Regex.ReplaceAllString_of_no_match _ _ _
    (Regex.exec_none_of_needs _ nonWord (needs_reMarker _) t ht 0)]
  exact Regex.ReplaceAllString_of_no_match _ _ _
    (Regex.exec_none_of_needs _ nonWord (needs_reWordMarker _) t ht 0)

theorem processCaseModifiers_word (U : UnicodeTables) (t : List Char)
    (ht : ∀ c ∈ t, nonWord c = false) : processCaseModifiers U t = some t := by
  unfold processCaseModifiers
  split
  · rfl
  · rw [Regex.ReplaceAllStringFunc_of_no_match _ _ _
      (Regex.exec_none_of_needs _ nonWord needs_reCaseCount t ht 0)]
    exact Regex.ReplaceAllStringFunc_of_no_match _ _ _
      (Regex.exec_none_of_needs _ nonWord needs_reCaseWord t ht 0)

theorem processMultiModifiers_word (U : UnicodeTables) (t : List Char)
    (ht : ∀ c ∈ t, nonWord c = false) : processMultiModifiers U t = some t :=
  Regex.ReplaceAllStringFunc_of_no_match _ _ _
    (Regex.exec_none_of_needs _ nonWord needs_reMultiModifiers t ht 0)

theorem processNestedModifiers_word (U : UnicodeTables) (t : List Char)
    (ht : ∀ c ∈ t, nonWord c = false) : processNestedModifiers U t = some t := by
  simp [processNestedModifiers, nestedLoop, Regex.MatchString,
    Regex.exec_none_of_needs _ nonWord needs_reNested t ht 0]

theorem processPunctuation_word (t : List Char) (ht : ∀ c ∈ t, isWordChar c = true) :
    processPunctuation t = some t := by
  have hn := nonWord_of_word ht
  unfold processPunctuation
  rw [Regex.ReplaceAllStringFunc_of_no_match _ _ _
    (Regex.exec_none_of_needs _ nonWord needs_reDots t hn 0)]
  simp only [Option.bind_eq_bind, Option.some_bind]
  rw [Regex.ReplaceAllString_of_no_match _ _ _
    (Regex.exec_none_of_needs _ nonWord needs_reAttachBang t hn 0)]
  simp only [Option.some_bind]
  rw [Regex.ReplaceAllString_of_no_match _ _ _
    (Regex.exec_none_of_needs _ nonWord needs_reSpaceAfterBang t hn 0)]
  simp only [Option.some_bind]
  rw [Regex.ReplaceAllString_of_no_match _ _ _
    (Regex.exec_none_of_needs _ nonWord needs_reAttachQuery t hn 0)]
  simp only [Option.some_bind]
  rw [Regex.ReplaceAllString_of_no_match _ _ _
    (Regex.exec_none_of_needs _ nonWord needs_reSpaceAfterQuery t hn 0)]
  simp only [Option.some_bind]
  rw [Regex.ReplaceAllString_of_no_match _ _ _
    (Regex.exec_none_of_needs _ nonWord needs_reBangQuery t hn 0)]
  simp only [Option.some_bind]
  rw [Regex.ReplaceAllString_of_no_match _ _ _
    (Regex.exec_none_of_needs _ nonWord needs_reQueryBang t hn 0)]
  simp only [Option.some_bind]
  rw [Regex.ReplaceAllString_of_no_match _ _ _
    (Regex.exec_none_of_needs _ nonWord needs_reMarksDot t hn 0)]
  simp only [Option.some_bind]
  rw [Regex.ReplaceAllStringFunc_of_no_match _ _ _
    (Regex.exec_none_of_needs _ nonWord needs_reSeparators t hn 0)]
  simp only [Option.some_bind]
  rw [Regex.ReplaceAllString_of_no_match _ _ _
    (Regex.exec_none_of_needs _ nonWord needs_reTwoMarks t hn 0)]
  simp only [Option.some_bind]
  rw [Regex.ReplaceAllString_of_no_match _ _ _
    (Regex.exec_none_of_needs _ nonWord needs_reFinalMark t hn 0)]
  simp only [Option.some_bind]
  rw [Regex.ReplaceAllString_of_no_match _ _ _
    (Regex.exec_none_of_needs _ nonWord needs_reSpaceRun t hn 0)]
  simp only [Option.some_bind]
  rw [TrimSpace_of_no_space t (fun c hc => isSpace_of_word (ht c hc))]
  rfl

theorem processQuotes_word (t : List Char) (ht : ∀ c ∈ t, nonWord c = false) :
    processQuotes t = some t := by
  unfold processQuotes
  rw [Regex.ReplaceAllStringFunc_of_no_match _ _ _
    (Regex.exec_none_of_needs _ nonWord needs_reQuoted39 t ht 0)]
  exact Regex.ReplaceAllStringFunc_of_no_match _ _ _
    (Regex.exec_none_of_needs _ nonWord needs_reQuoted34 t ht 0)

theorem processArticles_word (U : UnicodeTables) (t : List Char)
    (ht : ∀ c ∈ t, nonWord c = false) : processArticles U t = some t :=
  Regex.ReplaceAllStringFunc_of_no_match _ _ _
    (Regex.exec_none_of_needs _ nonWord needs_reArticle t ht 0)

theorem processStandaloneModifiers_word (t : List Char) (ht : ∀ c ∈ t, nonWord c = false) :
    processStandaloneModifiers t = some t := by
  unfold processStandaloneModifiers
  rw [Regex.ReplaceAllString_of_no_match _ _ _
    (Regex.exec_none_of_needs _ nonWord needs_reStandaloneLine t ht 0)]
  exact Regex.ReplaceAllString_of_no_match _ _ _
    (Regex.exec_none_of_needs _ nonWord needs_reStandaloneInline t ht 0)

/-- The pipeline leaves a text of word characters alone. -/
theorem Process_word (U : UnicodeTables) (t : List Char) (ht : ∀ c ∈ t, isWordChar c = true) :
    Process U t = some t := by
  have hn := nonWord_of_word ht
  simp [Process, processMultipleTypes_word U t hn, processConversion_word t hn,
    processConversioncount_word t hn, processHexNumbers_word t hn,
    processBinaryNumbers_word t hn, processCaseModifiers_word U t hn,
    processMultiModifiers_word U t hn, processNestedModifiers_word U t hn,
    processPunctuation_word t ht, processQuotes_word t hn, processArticles_word U t hn,
    processStandaloneModifiers_word t hn]

/-- If the first pass turns `text` into a text of word characters, that text is
the result of the pipeline. -/
theorem Process_of_first_pass (U : UnicodeTables) (text t : List Char)
    (h : processMultipleTypes U text = some t) (ht : ∀ c ∈ t, isWordChar c = true) :
    Process U text = some t := by
  have := Process_word U t ht
  simp only [Process, processMultipleTypes_word U t (nonWord_of_word ht), Option.bind_eq_bind,
    Option.some_bind] at this
  simp only [Process, h, Option.bind_eq_bind, Option.some_bind]
  exact this

/-! ## ASCII runes -/

theorem ascii_cases (P : Char → Prop) (h : ∀ n, n < 128 → P (Char.ofNat n)) (c : Char)
    (hc : c.toNat < 128) : P c := by
  have := h c.toNat hc
  rwa [Char.ofNat_toNat] at this

theorem word_lt (c : Char) (h : isWordChar c = true) : c.toNat < 128 := by
  simp only [isWordChar, isAsciiDigit, isAsciiUpper, isAsciiLower, Bool.or_eq_true,
    Bool.and_eq_true, decide_eq_true_eq, beq_iff_eq] at h
  omega

theorem hex_lt (c : Char) (h : clsHex.test c = true) : c.toNat < 128 := by
  simp only [CClass.test, clsHex, List.any_cons, List.any_nil, Bool.or_false, Bool.false_bne,
    Bool.or_eq_true, Bool.and_eq_true, decide_eq_true_eq] at h
  omega

theorem hex_word (c : Char) (h : clsHex.test c = true) : isWordChar c = true := by
  simp only [CClass.test, clsHex, List.any_cons, List.any_nil, Bool.or_false, Bool.false_bne,
    Bool.or_eq_true, Bool.and_eq_true, decide_eq_true_eq] at h
  simp only [isWordChar, isAsciiDigit, isAsciiUpper, isAsciiLower, Bool.or_eq_true,
    Bool.and_eq_true, decide_eq_true_eq, beq_iff_eq]
  omega

theorem word_test (c : Char) : clsWord.test c = isWordChar c := by
  simp only [CClass.test, clsWord, List.any_cons, List.any_nil, Bool.or_false, Bool.false_bne,
    isWordChar, isAsciiDigit, isAsciiUpper, isAsciiLower]
  rw [Bool.eq_iff_iff]
  simp only [Bool.or_eq_true, Bool.and_eq_true, decide_eq_true_eq, beq_iff_eq]
  omega

theorem unicodeToUpper_ascii (U : UnicodeTables) (c : Char) (h : c.toNat < 128) :
    unicodeToUpper U c = asciiToUpper c := by
  unfold unicodeToUpper; rw [if_pos (by omega)]

theorem unicodeToLower_ascii (U : UnicodeTables) (c : Char) (h : c.toNat < 128) :
    unicodeToLower U c = asciiToLower c := by
  unfold unicodeToLower; rw [if_pos (by omega)]

theorem unicodeToTitle_ascii (U : UnicodeTables) (c : Char) (h : c.toNat < 128) :
    unicodeToTitle U c = asciiToUpper c := by
  unfold unicodeToTitle; rw [if_pos (by omega)]

set_option maxRecDepth 100000 in
theorem ascii_hex_facts : ∀ n, n < 128 → clsHex.test (Char.ofNat n) = true →
    (clsHex.test (asciiToUpper (Char.ofNat n)) = true ∧
     clsHex.test (asciiToLower (Char.ofNat n)) = true ∧
     Char.ofNat n ≠ '+' ∧ Char.ofNat n ≠ '-' ∧ Char.ofNat n ≠ '(') := by
  decide

set_option maxRecDepth 100000 in
theorem ascii_word_facts : ∀ n, n < 128 → isWordChar (Char.ofNat n) = true →
    (isWordChar (asciiToUpper (Char.ofNat n)) = true ∧
     isWordChar (asciiToLower (Char.ofNat n)) = true ∧
     asciiToUpper (asciiToLower (Char.ofNat n)) = asciiToUpper (Char.ofNat n) ∧
     (asciiToLower (Char.ofNat n)).toNat < 128 ∧ (asciiToUpper (Char.ofNat n)).toNat < 128) := by
  decide

theorem hex_upper (U : UnicodeTables) (c : Char) (h : clsHex.test c = true) :
    clsHex.test (unicodeToUpper U c) = true := by
  rw [unicodeToUpper_ascii U c (hex_lt c h)]
  exact (ascii_cases (fun c => clsHex.test c = true → clsHex.test (asciiToUpper c) = true)
    (fun n hn hx => (ascii_hex_facts n hn hx).1) c (hex_lt c h)) h

theorem hex_lower (U : UnicodeTables) (c : Char) (h : clsHex.test c = true) :
    clsHex.test (unicodeToLower U c) = true := by
  rw [unicodeToLower_ascii U c (hex_lt c h)]
  exact (ascii_cases (fun c => clsHex.test c = true → clsHex.test (asciiToLower c) = true)
    (fun n hn hx => (ascii_hex_facts n hn hx).2.1) c (hex_lt c h)) h

theorem hex_not_sign (c : Char) (h : clsHex.test c = true) : c ≠ '+' ∧ c ≠ '-' ∧ c ≠ '(' :=
  (ascii_cases (fun c => clsHex.test c = true → (c ≠ '+' ∧ c ≠ '-' ∧ c ≠ '('))
    (fun n hn hx => (ascii_hex_facts n hn hx).2.2) c (hex_lt c h)) h

theorem word_lower (U : UnicodeTables) (c : Char) (h : isWordChar c = true) :
    isWordChar (unicodeToLower U c) = true := by
  rw [unicodeToLower_ascii U c (word_lt c h)]
  exact (ascii_cases (fun c => isWordChar c = true → isWordChar (asciiToLower c) = true)
    (fun n hn hx => (ascii_word_facts n hn hx).2.1) c (word_lt c h)) h

theorem word_upper (U : UnicodeTables) (c : Char) (h : isWordChar c = true) :
    isWordChar (unicodeToUpper U c) = true := by
  rw [unicodeToUpper_ascii U c (word_lt c h)]
  exact (ascii_cases (fun c => isWordChar c = true → isWordChar (asciiToUpper c) = true)
    (fun n hn hx => (ascii_word_facts n hn hx).1) c (word_lt c h)) h

theorem title_lower_word (U : UnicodeTables) (c : Char) (h : isWordChar c = true) :
    unicodeToTitle U (unicodeToLower U c) = unicodeToUpper U c := by
  have hl := word_lt c h
  have h4 : (asciiToLower c).toNat < 128 :=
    (ascii_cases (fun c => isWordChar c = true → (asciiToLower c).toNat < 128)
      (fun n hn hx => (ascii_word_facts n hn hx).2.2.2.1) c hl) h
  rw [unicodeToLower_ascii U c hl, unicodeToTitle_ascii U _ h4, unicodeToUpper_ascii U c hl]
  exact (ascii_cases (fun c => isWordChar c = true →
    asciiToUpper (asciiToLower c) = asciiToUpper c)
    (fun n hn hx => (ascii_word_facts n hn hx).2.2.1) c hl) h

theorem isSeparator_word (U : UnicodeTables) (c : Char) (h : isWordChar c = true) :
    isSeparator U c = false := by
  have hl := word_lt c h
  unfold isSeparator
  rw [if_pos (by omega)]
  simp only [isWordChar, Bool.or_eq_true] at h
  simp only [Bool.not_eq_false', Bool.or_eq_true]
  tauto

theorem titleMap_word (U : UnicodeTables) :
    ∀ (w : List Char) (prev : Char), isSeparator U prev = false →
      (∀ c ∈ w, isWordChar c = true) → titleMap U prev w = w := by
  intro w
  induction w with
  | nil => intro prev _ _; rfl
  | cons c cs ih =>
    intro prev hp hw
    simp only [titleMap, hp, Bool.false_eq_true, if_false]
    rw [ih c (isSeparator_word U c (hw c (by simp))) (fun d hd => hw d (by simp [hd]))]

/-- On a word of `\w` runes, `strings.Title(strings.ToLower(w))` is `w` with its
first rune in upper case and the remainder in lower case. -/
theorem Title_ToLower_word (U : UnicodeTables) (w : List Char)
    (hw : ∀ c ∈ w, isWordChar c = true) : Title U (ToLower U w) = capitalize U w := by
  cases w with
  | nil => rfl
  | cons c cs =>
    have hc := hw c (by simp)
    have hsep : isSeparator U ' ' = true := by rfl
    simp only [Title, ToLower, List.map_cons, titleMap, hsep, if_true, capitalize]
    rw [title_lower_word U c hc]
    congr 1
    apply titleMap_word U _ _ (isSeparator_word U _ (word_lower U c hc))
    intro d hd
    obtain ⟨e, he, rfl⟩ := List.mem_map.1 hd
    exact word_lower U e (hw e (by simp [he]))

/-! ## `processMultipleTypes` on a value followed by a chain of directives -/

theorem name_word (d : Directive) : ∀ c ∈ d.name, isWordChar c = true := by
  cases d <;> decide

theorem name_ne_nil (d : Directive) : d.name ≠ [] := by
  cases d <;> decide

theorem directiveNames_exact (d : Directive) (prev : Option Char) (rest : List Char) (pos : Nat)
    (caps : List (Nat × Nat × Nat)) :
    Exact reDirectiveNames ⟨prev, d.name ++ rest, pos, caps⟩
      ⟨lastOr prev d.name, rest, pos + d.name.length, caps⟩ := by
  intro k
  cases d <;>
    simp [reDirectiveNames, Regex.alts, Regex.lit, Regex.run, Directive.name, lastOr] <;>
    cases k _ <;> rfl

theorem chainItem_exact (d : Directive) (prev : Option Char) (rest : List Char) (pos : Nat)
    (caps : List (Nat × Nat × Nat)) :
    Exact reChainItem ⟨prev, '(' :: (d.name ++ ')' :: rest), pos, caps⟩
      ⟨some ')', rest, pos + 1 + d.name.length + 1,
        (2, pos + 1, pos + 1 + d.name.length) :: caps⟩ :=
  Exact_seq (Exact_chr '(' prev _ pos caps)
    (Exact_seq (Exact_cap 2 (directiveNames_exact d (some '(') (')' :: rest) (pos + 1) caps))
      (Exact_seq (Exact_chr ')' _ rest _ _) (Exact_eps _)))

theorem chainItem_fails_nil (prev : Option Char) (pos : Nat) (caps : List (Nat × Nat × Nat)) :
    Fails reChainItem ⟨prev, [], pos, caps⟩ :=
  Fails_seq_left _ (Fails_chr_nil _ _ _ _)

theorem renderChain_cons (d : Directive) (ds : List Directive) :
    renderChain (d :: ds) = '(' :: (d.name ++ ')' :: renderChain ds) := by
  simp [renderChain]

theorem renderChain_length (ds : List Directive) : ds.length ≤ (renderChain ds).length := by
  induction ds with
  | nil => simp [renderChain]
  | cons d ds ih => rw [renderChain_cons]; simp; omega

theorem chain_starOK : ∀ (ds : List Directive) (fuel : Nat) (prev : Option Char) (pos : Nat)
    (caps : List (Nat × Nat × Nat)), ds.length ≤ fuel →
    ∃ u, StarOK reChainItem fuel ⟨prev, renderChain ds, pos, caps⟩ u ∧ u.rest = [] ∧
      u.pos = pos + (renderChain ds).length := by
  intro ds
  induction ds with
  | nil =>
    intro fuel prev pos caps _
    exact ⟨_, StarOK_stop _ fuel _ (chainItem_fails_nil prev pos caps), rfl, by simp [renderChain]⟩
  | cons d ds ih =>
    intro fuel prev pos caps hf
    cases fuel with
    | zero => simp at hf
    | succ n =>
      obtain ⟨u, hu, h1, h2⟩ := ih n (some ')') (pos + 1 + d.name.length + 1)
        ((2, pos + 1, pos + 1 + d.name.length) :: caps) (by simpa using hf)
      refine ⟨u, ?_, h1, ?_⟩
      · rw [renderChain_cons]
        exact StarOK_step (Exact_detOK (chainItem_exact d prev _ pos caps)) hu
      · rw [h2, renderChain_cons]; simp; omega

theorem stopsAt_chain (cc : CClass) (h : cc.test '(' = false) (ds : List Directive) :
    StopsAt cc (renderChain ds) := by
  cases ds with
  | nil => intro d hd; simp [renderChain] at hd
  | cons d ds =>
    intro c hc
    rw [renderChain_cons] at hc
    simp only [List.head?_cons, Option.mem_def, Option.some.injEq] at hc
    subst hc
    exact h

/-- The pattern of `processMultipleTypes` matches a value with its chain as a whole. -/
theorem multipleTypes_detOK (v : List Char) (hv : v ≠ []) (hhex : ∀ c ∈ v, clsHex.test c = true)
    (ds : List Directive) (hds : ds ≠ []) :
    ∃ t, DetOK reMultipleTypes ⟨none, v ++ renderChain ds, 0, []⟩ t ∧
      t.pos = (v ++ renderChain ds).length := by
  cases ds with
  | nil => exact absurd rfl hds
  | cons d ds =>
    have h1 := DetOK_cap 1 (DetOK_plus_cls clsHex v hv hhex (renderChain (d :: ds))
      (stopsAt_chain clsHex (by decide) _) none 0 [])
    simp only at h1
    obtain ⟨u, hu, _, hpos⟩ := chain_starOK ds (renderChain ds).length (some ')')
      (0 + v.length + 1 + d.name.length + 1)
      ((2, 0 + v.length + 1, 0 + v.length + 1 + d.name.length) :: [(1, 0, 0 + v.length)])
      (renderChain_length ds)
    have h2 : DetOK (Regex.plus reChainItem)
        ⟨lastOr none v, renderChain (d :: ds), 0 + v.length, [(1, 0, 0 + v.length)]⟩ u := by
      rw [renderChain_cons]
      exact DetOK_seq (Exact_detOK (chainItem_exact d _ _ _ _)) (DetOK_of_starOK hu)
    refine ⟨u, DetOK_seq h1 (DetOK_seq h2 (Exact_detOK (Exact_eps _))), ?_⟩
    rw [hpos, renderChain_cons]
    simp
    omega

theorem slice_mid (a b c : List Char) : slice (a ++ b ++ c) a.length (a.length + b.length) = b := by
  simp [slice]

theorem slice_prefix (a b : List Char) : slice (a ++ b) 0 a.length = a := by
  simp [slice]

theorem multipleTypes_needs_paren : reMultipleTypes.needs isOpenParen = true := by rfl

/-- `ReplaceAllStringFunc` when the pattern matches the whole text at once. -/
theorem replaceAll_whole (re : Regex) (p : Char → Bool) (hre : re.needs p = true)
    (src : List Char) (hne : src ≠ []) (t : MState) (hdet : DetOK re ⟨none, src, 0, []⟩ t)
    (hpos : t.pos = src.length) (f : List Char → Option (List Char)) :
    re.ReplaceAllStringFunc src f = f src := by
  have h0 : re.exec src 0 = some ⟨0, t.pos, t.caps⟩ := by
    rw [re.exec_zero]; exact re.searchFrom_of_detOK none src 0 t hdet
  have hlen : 0 < src.length := List.length_pos.2 hne
  cases hf : f src with
  | none =>
    simp only [Regex.ReplaceAllStringFunc, replaceAllLoop, h0]
    have : ¬ (src.length < 0) := by omega
    simp [this, Match.text, hpos, slice, hf, hlen]
  | some r =>
    have := replaceAll_single re src (fun m => f (m.text src)) ⟨0, t.pos, t.caps⟩ r h0
      (by simp only; omega) (by simp only; omega)
      (by simp only; rw [hpos]; exact re.exec_end_none p hre src)
      (by simp only [Match.text, hpos, slice]; simpa using hf)
    simp only [Regex.ReplaceAllStringFunc]
    rw [this]
    simp [hpos]

theorem hexRun_findString (v : List Char) (hv : v ≠ []) (hhex : ∀ c ∈ v, clsHex.test c = true)
    (rest : List Char) (hstop : StopsAt clsHex rest) : reHexRun.FindString (v ++ rest) = v := by
  have h1 := DetOK_cap 1 (DetOK_plus_cls clsHex v hv hhex rest hstop none 0 [])
  have h0 := reHexRun.searchFrom_of_detOK none (v ++ rest) 0 _ h1
  simp only [Regex.FindString, Regex.exec_zero, h0, Match.text]
  simpa using slice_prefix v rest

theorem operation_detOK (name : List Char) (hne : name ≠ [])
    (hw : ∀ c ∈ name, isWordChar c = true) (prev : Option Char) (rest : List Char) (pos : Nat) :
    DetOK reOperation ⟨prev, '(' :: (name ++ ')' :: rest), pos, []⟩
      ⟨some ')', rest, pos + 1 + name.length + 1, [(1, pos + 1, pos + 1 + name.length)]⟩ :=
  DetOK_seq (Exact_detOK (Exact_chr '(' prev _ pos []))
    (DetOK_seq (DetOK_cap 1 (DetOK_plus_cls clsWord name hne
        (fun c hc => by rw [word_test]; exact hw c hc) (')' :: rest)
        (fun d hd => by
          simp only [List.head?_cons, Option.mem_def, Option.some.injEq] at hd
          subst hd; decide) (some '(') (pos + 1) []))
      (DetOK_seq (Exact_detOK (Exact_chr ')' _ rest _ _)) (Exact_detOK (Exact_eps _))))

theorem operation_fails (c : Char) (hc : c ≠ '(') (prev : Option Char) (rest : List Char)
    (pos : Nat) (caps : List (Nat × Nat × Nat)) :
    Fails reOperation ⟨prev, c :: rest, pos, caps⟩ :=
  Fails_seq_left _ (Fails_chr_ne _ _ hc _ _ _ _)

/-- The search walks over runes at which the pattern cannot start. -/
theorem Regex.searchFrom_skip (re : Regex) (mid : List Char)
    (hmid : ∀ c ∈ mid, ∀ prev cs pos, Fails re ⟨prev, c :: cs, pos, []⟩) (rest : List Char) :
    ∀ (prev : Option Char) (pos : Nat),
      re.searchFrom prev (mid ++ rest) pos =
        re.searchFrom (lastOr prev mid) rest (pos + mid.length) := by
  induction mid with
  | nil => intro prev pos; rfl
  | cons c cs ih =>
    intro prev pos
    rw [List.cons_append, re.searchFrom_cons_of_fails prev c _ pos (hmid c (by simp) _ _ _),
      ih (fun d hd => hmid d (by simp [hd]))]
    have e : lastOr prev (c :: cs) = lastOr (some c) cs := by
      rw [show c :: cs = [c] ++ cs from rfl, lastOr_append, lastOr_singleton]
    rw [e, show pos + (c :: cs).length = pos + 1 + cs.length by simp; omega]

theorem operation_needs_paren : reOperation.needs isOpenParen = true := by rfl

theorem capSpan_single (i a b : Nat) : capSpan [(i, a, b)] i = some (a, b) := by
  simp [capSpan]

/-- `FindAllStringSubmatch` of `\((\w+)\)` lists the directives of a chain. -/
theorem allMatches_chain : ∀ (ds : List Directive) (pre mid : List Char) (fuel : Nat)
    (pm : Option Nat), (∀ c ∈ mid, c ≠ '(') → ds.length + 1 ≤ fuel →
    ∃ ms, allMatchesLoop reOperation (pre ++ mid ++ renderChain ds) fuel pre.length pm = some ms ∧
      ms.map (fun m => [m.text (pre ++ mid ++ renderChain ds),
          m.group (pre ++ mid ++ renderChain ds) 1]) =
        ds.map (fun d => [['('] ++ d.name ++ [')'], d.name]) := by
  intro ds
  induction ds with
  | nil =>
    intro pre mid fuel pm hmid hf
    cases fuel with
    | zero => omega
    | succ n =>
      have hex : reOperation.exec (pre ++ mid ++ renderChain []) pre.length = none := by
        unfold Regex.exec
        apply Regex.searchFrom_none_of_needs _ isOpenParen operation_needs_paren
        intro c hc
        simp only [renderChain, List.append_nil, List.append_assoc, List.drop_left] at hc
        simp [isOpenParen, hmid c hc]
      refine ⟨[], ?_, rfl⟩
      simp only [allMatchesLoop, hex]
      split <;> rfl
  | cons d ds ih =>
    intro pre mid fuel pm hmid hf
    cases fuel with
    | zero => omega
    | succ n =>
      have hsrc : pre ++ mid ++ renderChain (d :: ds) =
          (pre ++ mid) ++ (['('] ++ d.name ++ [')']) ++ renderChain ds := by
        simp [renderChain]
      have hex : reOperation.exec (pre ++ mid ++ renderChain (d :: ds)) pre.length =
          some ⟨pre.length + mid.length, pre.length + mid.length + 1 + d.name.length + 1,
            [(1, pre.length + mid.length + 1, pre.length + mid.length + 1 + d.name.length)]⟩ := by
        unfold Regex.exec
        rw [List.append_assoc, List.drop_left, renderChain_cons,
          Regex.searchFrom_skip _ mid (fun c hc _ _ _ => operation_fails c (hmid c hc) _ _ _ _)]
        exact Regex.searchFrom_of_detOK _ _ _ _ _
          (operation_detOK d.name (name_ne_nil d) (name_word d) _ _ _)
      obtain ⟨ms, hms, hmap⟩ := ih ((pre ++ mid) ++ (['('] ++ d.name ++ [')'])) [] n
        (some (pre.length + mid.length + 1 + d.name.length + 1)) (by simp)
        (by simp only [List.length_cons] at hf; omega)
      rw [List.append_nil] at hms hmap
      have hlen : ((pre ++ mid) ++ (['('] ++ d.name ++ [')'])).length =
          pre.length + mid.length + 1 + d.name.length + 1 := by
        simp; omega
      rw [hlen, ← hsrc] at hms
      rw [← hsrc] at hmap
      refine ⟨⟨pre.length + mid.length, pre.length + mid.length + 1 + d.name.length + 1,
            [(1, pre.length + mid.length + 1, pre.length + mid.length + 1 + d.name.length)]⟩
          :: ms, ?_, ?_⟩
      · simp only [allMatchesLoop, hex]
        have h1 : ¬ ((pre ++ mid ++ renderChain (d :: ds)).length < pre.length) := by
          simp
        have h2 : ¬ (pre.length + mid.length + 1 + d.name.length + 1 = pre.length) := by omega
        simp only [h1, if_false, h2, hms]
        have h3 : (pre.length + mid.length + 1 + d.name.length + 1 == pre.length) = false := by
          simpa using h2
        simp [h3]
      · simp only [List.map_cons, hmap]
        congr 1
        have e1 : slice (pre ++ mid ++ renderChain (d :: ds)) (pre.length + mid.length)
            (pre.length + mid.length + 1 + d.name.length + 1) = ['('] ++ d.name ++ [')'] := by
          rw [hsrc, show pre.length + mid.length + 1 + d.name.length + 1 =
              (pre ++ mid).length + (['('] ++ d.name ++ [')']).length by simp; omega,
            show pre.length + mid.length = (pre ++ mid).length by simp]
          exact slice_mid _ _ _
        have e2 : slice (pre ++ mid ++ renderChain (d :: ds)) (pre.length + mid.length + 1)
            (pre.length + mid.length + 1 + d.name.length) = d.name := by
          have : pre ++ mid ++ renderChain (d :: ds) =
              (pre ++ mid ++ ['(']) ++ d.name ++ ([')'] ++ renderChain ds) := by
            simp [renderChain]
          rw [this]
          have := slice_mid (pre ++ mid ++ ['(']) d.name ([')'] ++ renderChain ds)
          simp only [List.length_append, List.length_cons, List.length_nil] at this
          simpa using this
        simp only [Match.text, Match.group, capSpan_single, e1, e2]

theorem operation_findAll (v : List Char) (hv : ∀ c ∈ v, c ≠ '(') (ds : List Directive) :
    reOperation.FindAllStringSubmatch (v ++ renderChain ds) =
      some (ds.map (fun d => [['('] ++ d.name ++ [')'], d.name])) := by
  obtain ⟨ms, hms, hmap⟩ := allMatches_chain ds [] v ((v ++ renderChain ds).length + 2) none hv
    (by have := renderChain_length ds; simp; omega)
  simp only [List.nil_append, List.length_nil] at hms hmap
  simp only [Regex.FindAllStringSubmatch, hms, Option.map_some', Option.some.injEq]
  rw [← hmap]
  apply List.map_congr_left
  intro m _
  rfl

theorem hexAll_applyCase (U : UnicodeTables) (v : List Char)
    (hv : ∀ c ∈ v, clsHex.test c = true) (d : Directive) :
    ∀ c ∈ applyCaseDirective U v d, clsHex.test c = true := by
  cases d with
  | up =>
    intro c hc
    obtain ⟨e, he, rfl⟩ := List.mem_map.1 hc
    exact hex_upper U e (hv e he)
  | low =>
    intro c hc
    obtain ⟨e, he, rfl⟩ := List.mem_map.1 hc
    exact hex_lower U e (hv e he)
  | cap =>
    cases v with
    | nil => intro c hc; simp [applyCaseDirective, capitalize] at hc
    | cons a as =>
      intro c hc
      simp only [applyCaseDirective, capitalize, List.mem_cons] at hc
      rcases hc with rfl | hc
      · exact hex_upper U a (hv a (by simp))
      · obtain ⟨e, he, rfl⟩ := List.mem_map.1 hc
        exact hex_lower U e (hv e (by simp [he]))
  | hex => exact hv
  | bin => exact hv

theorem multiCaseStep_eq (U : UnicodeTables) (v x : List Char)
    (hv : ∀ c ∈ v, clsHex.test c = true) (d : Directive) :
    multiCaseStep U v [x, d.name] = some (applyCaseDirective U v d) := by
  have hw : ∀ c ∈ v, isWordChar c = true := fun c hc => hex_word c (hv c hc)
  cases d <;>
    simp [multiCaseStep, Directive.name, applyCaseDirective, Title_ToLower_word U v hw]

theorem multiCase_fold (U : UnicodeTables) : ∀ (ds : List Directive) (v : List Char),
    (∀ c ∈ v, clsHex.test c = true) →
    (ds.map (fun d => [['('] ++ d.name ++ [')'], d.name])).foldlM (multiCaseStep U) v =
      some (ds.foldl (applyCaseDirective U) v) := by
  intro ds
  induction ds with
  | nil => intro v _; rfl
  | cons d ds ih =>
    intro v hv
    simp only [List.map_cons, List.foldlM_cons, multiCaseStep_eq U v _ hv d, Option.bind_eq_bind,
      Option.some_bind, List.foldl_cons]
    exact ih _ (hexAll_applyCase U v hv d)

theorem hexAll_fold (U : UnicodeTables) : ∀ (ds : List Directive) (v : List Char),
    (∀ c ∈ v, clsHex.test c = true) →
    ∀ c ∈ ds.foldl (applyCaseDirective U) v, clsHex.test c = true := by
  intro ds
  induction ds with
  | nil => intro v hv; exact hv
  | cons d ds ih => intro v hv; exact ih _ (hexAll_applyCase U v hv d)

theorem unsigned_of_hex (v : List Char) (hv : ∀ c ∈ v, clsHex.test c = true) : Unsigned v := by
  intro c hc
  have : c ∈ v := by
    cases v with
    | nil => simp at hc
    | cons a as => simp only [List.head?_cons, Option.mem_def, Option.some.injEq] at hc; simp [hc]
  exact ⟨(hex_not_sign c (hv c this)).1, (hex_not_sign c (hv c this)).2.1⟩

/-- One conversion attempt of `processMultipleTypes` on a not yet converted value. -/
theorem multiConvStep_eq (v x : List Char) (hv : Unsigned v) (d : Directive) :
    multiConvStep (v, false) [x, d.name] =
      some (match d.base with
        | none => (v, false)
        | some b =>
          match numeralValue b v with
          | some n => if n < 2 ^ 63 then (Nat.toDigits 10 n, true) else (v, false)
          | none => (v, false)) := by
  have key : ∀ b : Nat, 1 ≤ b →
      (if (ParseInt v b).err = none then
        (some (fmtInt 10 (ParseInt v b).val, true) : Option (List Char × Bool))
        else some (v, false)) =
      some (match numeralValue b v with
          | some n => if n < 2 ^ 63 then (Nat.toDigits 10 n, true) else (v, false)
          | none => (v, false)) := by
    intro b hb
    cases hn : numeralValue b v with
    | none =>
      have := ParseInt_err b hb v hv (fun n h => by rw [hn] at h; exact absurd h (by simp))
      simp [this]
    | some n =>
      by_cases hlt : n < 2 ^ 63
      · rw [ParseInt_of_value b hb v hv n hn hlt]
        dsimp only
        rw [if_pos rfl, if_pos hlt, fmtInt_ten_nat]
      · have := ParseInt_err b hb v hv (fun m h => by
          rw [hn] at h; simp only [Option.some.injEq] at h; omega)
        dsimp only
        rw [if_neg this, if_neg hlt]
  cases d
  · simp [multiConvStep, Directive.name, Directive.base]
  · simp [multiConvStep, Directive.name, Directive.base]
  · simp [multiConvStep, Directive.name, Directive.base]
  · have := key 16 (by omega)
    simp only [multiConvStep, Directive.name, Directive.base, List.get?_cons_succ,
      List.get?_cons_zero, Option.bind_eq_bind, Option.some_bind, Bool.not_false, Bool.true_and,
      Option.pure_def]
    simpa using this
  · have := key 2 (by omega)
    simp only [multiConvStep, Directive.name, Directive.base, List.get?_cons_succ,
      List.get?_cons_zero, Option.bind_eq_bind, Option.some_bind, Bool.not_false, Bool.true_and,
      Option.pure_def]
    simpa using this

theorem multiConvStep_done (v x : List Char) (d : Directive) :
    multiConvStep (v, true) [x, d.name] = some (v, true) := by
  simp [multiConvStep]

theorem multiConv_fold_done : ∀ (ds : List Directive) (v : List Char),
    (ds.map (fun d => [['('] ++ d.name ++ [')'], d.name])).foldlM multiConvStep (v, true) =
      some (v, true) := by
  intro ds
  induction ds with
  | nil => intro v; rfl
  | cons d ds ih =>
    intro v
    simp only [List.map_cons, List.foldlM_cons, multiConvStep_done, Option.bind_eq_bind,
      Option.some_bind]
    exact ih v

theorem multiConv_fold : ∀ (ds : List Directive) (v : List Char), Unsigned v →
    ((ds.map (fun d => [['('] ++ d.name ++ [')'], d.name])).foldlM multiConvStep (v, false)).map
        Prod.fst =
      some (match firstParse v ds with
        | some n => Nat.toDigits 10 n
        | none => v) := by
  intro ds
  induction ds with
  | nil => intro v _; rfl
  | cons d ds ih =>
    intro v hv
    simp only [List.map_cons, List.foldlM_cons, multiConvStep_eq v _ hv d, Option.bind_eq_bind,
      Option.some_bind, firstParse]
    cases hb : d.base with
    | none => exact ih v hv
    | some b =>
      dsimp only
      cases hn : numeralValue b v with
      | none => exact ih v hv
      | some n =>
        dsimp only
        by_cases hlt : n < 2 ^ 63
        · rw [if_pos hlt, if_pos hlt, multiConv_fold_done]
          rfl
        · rw [if_neg hlt, if_neg hlt]
          exact ih v hv

/-- The callback of `processMultipleTypes` on a value with its chain. -/
theorem multipleTypesCallback_chain (U : UnicodeTables) (v : List Char) (hv : v ≠ [])
    (hhex : ∀ c ∈ v, clsHex.test c = true) (ds : List Directive) :
    multipleTypesCallback U (v ++ renderChain ds) = some (chainResult U v ds) := by
  have h1 := hexRun_findString v hv hhex (renderChain ds) (stopsAt_chain clsHex (by decide) ds)
  have h2 := operation_findAll v (fun c hc => (hex_not_sign c (hhex c hc)).2.2) ds
  have h3 := multiCase_fold U ds v hhex
  have h4 := multiConv_fold ds (ds.foldl (applyCaseDirective U) v)
    (unsigned_of_hex _ (hexAll_fold U ds v hhex))
  simp only [multipleTypesCallback, h1, h2, h3, Option.bind_eq_bind, Option.some_bind,
    chainResult]
  refine Eq.trans ?_ h4
  cases (ds.map (fun d => [['('] ++ d.name ++ [')'], d.name])).foldlM multiConvStep
    (ds.foldl (applyCaseDirective U) v, false) <;> rfl

/-- `processMultipleTypes` resolves a value with its chain to what the
specification of the composite resolver says. -/
theorem processMultipleTypes_chain (U : UnicodeTables) (v : List Char) (hv : v ≠ [])
    (hhex : ∀ c ∈ v, clsHex.test c = true) (ds : List Directive) (hds : ds ≠ []) :
    processMultipleTypes U (v ++ renderChain ds) = some (chainResult U v ds) := by
  obtain ⟨t, hdet, hpos⟩ := multipleTypes_detOK v hv hhex ds hds
  unfold processMultipleTypes
  rw [replaceAll_whole reMultipleTypes isOpenParen multipleTypes_needs_paren _ (by simp [hv]) t
    hdet hpos]
  exact multipleTypesCallback_chain U v hv hhex ds

/-! ## `processConversion` on a number followed by two operators -/

theorem slice_at (src pre x post : List Char) (a b : Nat) (hsrc : src = pre ++ x ++ post)
    (ha : a = pre.length) (hb : b = pre.length + x.length) : slice src a b = x := by
  subst hsrc ha hb
  exact slice_mid _ _ _

theorem stopsAt_cons (cc : CClass) (c : Char) (rest : List Char) (h : cc.test c = false) :
    StopsAt cc (c :: rest) := by
  intro d hd
  simp only [List.head?_cons, Option.mem_def, Option.some.injEq] at hd
  subst hd
  exact h

theorem stopsAt_spaces_paren (cc : CClass) (hsp : ∀ c, clsSpace.test c = true → cc.test c = false)
    (hp : cc.test '(' = false) (sp : List Char) (hs : ∀ c ∈ sp, clsSpace.test c = true)
    (rest : List Char) : StopsAt cc (sp ++ '(' :: rest) := by
  cases sp with
  | nil => exact stopsAt_cons cc _ _ hp
  | cons a as => exact stopsAt_cons cc _ _ (hsp a (hs a (by simp)))

theorem space_not_hex (c : Char) (h : clsSpace.test c = true) : clsHex.test c = false := by
  simp only [CClass.test, clsSpace, List.any_cons, List.any_nil, Bool.or_false, Bool.false_bne,
    Bool.or_eq_true, Bool.and_eq_true, decide_eq_true_eq] at h
  simp only [CClass.test, clsHex, List.any_cons, List.any_nil, Bool.or_false, Bool.false_bne,
    Bool.or_eq_false_iff, Bool.and_eq_false_imp, decide_eq_true_eq, decide_eq_false_iff_not]
  omega

/-- The text `v sp1 (op1) sp2 (op2)`. -/
theorem conversion_detOK (v sp1 op1 sp2 op2 : List Char) (hv : v ≠ [])
    (hhex : ∀ c ∈ v, clsHex.test c = true) (hs1 : ∀ c ∈ sp1, clsSpace.test c = true)
    (h1 : op1 ≠ []) (hw1 : ∀ c ∈ op1, isWordChar c = true)
    (hs2 : ∀ c ∈ sp2, clsSpace.test c = true)
    (h2 : op2 ≠ []) (hw2 : ∀ c ∈ op2, isWordChar c = true) :
    DetOK reConversion
      ⟨none, v ++ (sp1 ++ '(' :: (op1 ++ ')' :: (sp2 ++ '(' :: (op2 ++ [')'])))), 0, []⟩
      ⟨some ')', [], 0 + v.length + sp1.length + 1 + op1.length + 1 + sp2.length + 1 +
          op2.length + 1,
        [(3, 0 + v.length + sp1.length + 1 + op1.length + 1 + sp2.length + 1,
            0 + v.length + sp1.length + 1 + op1.length + 1 + sp2.length + 1 + op2.length),
          (2, 0 + v.length + sp1.length + 1, 0 + v.length + sp1.length + 1 + op1.length),
          (1, 0, 0 + v.length)]⟩ := by
  have a1 := DetOK_cap 1 (DetOK_plus_cls clsHex v hv hhex _
    (stopsAt_spaces_paren clsHex space_not_hex (by decide) sp1 hs1
      (op1 ++ ')' :: (sp2 ++ '(' :: (op2 ++ [')'])))) none 0 [])
  have a2 := DetOK_star_cls clsSpace sp1 hs1 ('(' :: (op1 ++ ')' :: (sp2 ++ '(' :: (op2 ++ [')']))))
    (stopsAt_cons _ _ _ (by decide)) (lastOr none v) (0 + v.length) [(1, 0, 0 + v.length)]
  have a3 := (Exact_detOK (Exact_chr '(' (lastOr (lastOr none v) sp1)
    (op1 ++ ')' :: (sp2 ++ '(' :: (op2 ++ [')']))) (0 + v.length + sp1.length)
    [(1, 0, 0 + v.length)]))
  have a4 := DetOK_cap 2 (DetOK_plus_cls clsWord op1 h1
    (fun c hc => by rw [word_test]; exact hw1 c hc) (')' :: (sp2 ++ '(' :: (op2 ++ [')'])))
    (stopsAt_cons _ _ _ (by decide)) (some '(') (0 + v.length + sp1.length + 1)
    [(1, 0, 0 + v.length)])
  have a5 := (Exact_detOK (Exact_chr ')' (lastOr (some '(') op1) (sp2 ++ '(' :: (op2 ++ [')']))
    (0 + v.length + sp1.length + 1 + op1.length)
    [(2, 0 + v.length + sp1.length + 1, 0 + v.length + sp1.length + 1 + op1.length),
      (1, 0, 0 + v.length)]))
  have a6 := DetOK_star_cls clsSpace sp2 hs2 ('(' :: (op2 ++ [')']))
    (stopsAt_cons _ _ _ (by decide)) (some ')') (0 + v.length + sp1.length + 1 + op1.length + 1)
    [(2, 0 + v.length + sp1.length + 1, 0 + v.length + sp1.length + 1 + op1.length),
      (1, 0, 0 + v.length)]
  have a7 := (Exact_detOK (Exact_chr '(' (lastOr (some ')') sp2) (op2 ++ [')'])
    (0 + v.length + sp1.length + 1 + op1.length + 1 + sp2.length)
    [(2, 0 + v.length + sp1.length + 1, 0 + v.length + sp1.length + 1 + op1.length),
      (1, 0, 0 + v.length)]))
  have a8 := DetOK_cap 3 (DetOK_plus_cls clsWord op2 h2
    (fun c hc => by rw [word_test]; exact hw2 c hc) [')']
    (stopsAt_cons _ _ _ (by decide)) (some '(')
    (0 + v.length + sp1.length + 1 + op1.length + 1 + sp2.length + 1)
    [(2, 0 + v.length + sp1.length + 1, 0 + v.length + sp1.length + 1 + op1.length),
      (1, 0, 0 + v.length)])
  have a9 := (Exact_detOK (Exact_chr ')' (lastOr (some '(') op2) []
    (0 + v.length + sp1.length + 1 + op1.length + 1 + sp2.length + 1 + op2.length)
    [(3, 0 + v.length + sp1.length + 1 + op1.length + 1 + sp2.length + 1,
        0 + v.length + sp1.length + 1 + op1.length + 1 + sp2.length + 1 + op2.length),
      (2, 0 + v.length + sp1.length + 1, 0 + v.length + sp1.length + 1 + op1.length),
      (1, 0, 0 + v.length)]))
  exact DetOK_seq a1 (DetOK_seq a2 (DetOK_seq a3 (DetOK_seq a4 (DetOK_seq a5 (DetOK_seq a6
    (DetOK_seq a7 (DetOK_seq a8 (DetOK_seq a9 (Exact_detOK (Exact_eps _))))))))))

theorem conversion_needs_paren : reConversion.needs isOpenParen = true := by rfl

/-- What `FindStringSubmatch` of the pattern of `processConversion` returns on
the text `v sp1 (op1) sp2 (op2)`. -/
theorem conversion_submatch (v sp1 op1 sp2 op2 : List Char) (hv : v ≠ [])
    (hhex : ∀ c ∈ v, clsHex.test c = true) (hs1 : ∀ c ∈ sp1, clsSpace.test c = true)
    (h1 : op1 ≠ []) (hw1 : ∀ c ∈ op1, isWordChar c = true)
    (hs2 : ∀ c ∈ sp2, clsSpace.test c = true)
    (h2 : op2 ≠ []) (hw2 : ∀ c ∈ op2, isWordChar c = true) :
    reConversion.FindStringSubmatch
        (v ++ (sp1 ++ '(' :: (op1 ++ ')' :: (sp2 ++ '(' :: (op2 ++ [')']))))) =
      some [v ++ (sp1 ++ '(' :: (op1 ++ ')' :: (sp2 ++ '(' :: (op2 ++ [')'])))), v, op1, op2] := by
  have hd := conversion_detOK v sp1 op1 sp2 op2 hv hhex hs1 h1 hw1 hs2 h2 hw2
  have h0 := reConversion.searchFrom_of_detOK none _ 0 _ hd
  dsimp only at h0
  have hn : reConversion.numGroups = 3 := by rfl
  have e0 : slice (v ++ (sp1 ++ '(' :: (op1 ++ ')' :: (sp2 ++ '(' :: (op2 ++ [')'])))))
      0 (0 + v.length + sp1.length + 1 + op1.length + 1 + sp2.length + 1 + op2.length + 1) =
      v ++ (sp1 ++ '(' :: (op1 ++ ')' :: (sp2 ++ '(' :: (op2 ++ [')'])))) :=
    slice_at _ [] (v ++ (sp1 ++ '(' :: (op1 ++ ')' :: (sp2 ++ '(' :: (op2 ++ [')']))))) [] _ _
      (by simp) (by simp) (by simp; omega)
  have e1 : slice (v ++ (sp1 ++ '(' :: (op1 ++ ')' :: (sp2 ++ '(' :: (op2 ++ [')'])))))
      0 (0 + v.length) = v :=
    slice_at _ [] v (sp1 ++ '(' :: (op1 ++ ')' :: (sp2 ++ '(' :: (op2 ++ [')'])))) _ _
      (by simp) (by simp) (by simp)
  have e2 : slice (v ++ (sp1 ++ '(' :: (op1 ++ ')' :: (sp2 ++ '(' :: (op2 ++ [')'])))))
      (0 + v.length + sp1.length + 1) (0 + v.length + sp1.length + 1 + op1.length) = op1 :=
    slice_at _ (v ++ sp1 ++ ['(']) op1 (')' :: (sp2 ++ '(' :: (op2 ++ [')']))) _ _ (by simp)
      (by simp; omega) (by simp; omega)
  have e3 : slice (v ++ (sp1 ++ '(' :: (op1 ++ ')' :: (sp2 ++ '(' :: (op2 ++ [')'])))))
      (0 + v.length + sp1.length + 1 + op1.length + 1 + sp2.length + 1)
      (0 + v.length + sp1.length + 1 + op1.length + 1 + sp2.length + 1 + op2.length) = op2 :=
    slice_at _ (v ++ sp1 ++ ['('] ++ op1 ++ [')'] ++ sp2 ++ ['(']) op2 [')'] _ _ (by simp)
      (by simp; omega) (by simp; omega)
  simp only [Regex.FindStringSubmatch, Regex.exec_zero, h0, hn, Option.some.injEq, Match.text,
    Match.group, capSpan, List.range, List.range.loop, List.map_cons, List.map_nil]
  simp only [Nat.zero_add] at e0 e1 e2 e3
  simp
  exact ⟨e0, e1, e2, e3⟩

/-- `ReplaceAllStringFunc` of `processConversion` on the text `v sp1 (op1) sp2 (op2)`
is the callback applied to the whole text. -/
theorem processConversion_whole (v sp1 op1 sp2 op2 : List Char) (hv : v ≠ [])
    (hhex : ∀ c ∈ v, clsHex.test c = true) (hs1 : ∀ c ∈ sp1, clsSpace.test c = true)
    (h1 : op1 ≠ []) (hw1 : ∀ c ∈ op1, isWordChar c = true)
    (hs2 : ∀ c ∈ sp2, clsSpace.test c = true)
    (h2 : op2 ≠ []) (hw2 : ∀ c ∈ op2, isWordChar c = true) :
    processConversion (v ++ (sp1 ++ '(' :: (op1 ++ ')' :: (sp2 ++ '(' :: (op2 ++ [')']))))) =
      conversionCallback (v ++ (sp1 ++ '(' :: (op1 ++ ')' :: (sp2 ++ '(' :: (op2 ++ [')']))))) := by
  have hd := conversion_detOK v sp1 op1 sp2 op2 hv hhex hs1 h1 hw1 hs2 h2 hw2
  exact replaceAll_whole reConversion isOpenParen conversion_needs_paren _ (by simp [hv]) _ hd
    (by simp; omega) _

/-! ## Numerals, and the conversions of a binary numeral -/

theorem numFold_digits (base : Nat) : ∀ (s : List Char) (n m : Nat), numFold base s n = some m →
    ∀ c ∈ s, ∃ d, digitVal c = some d ∧ d < base := by
  intro s
  induction s with
  | nil => intro n m _ c hc; simp at hc
  | cons a as ih =>
    intro n m h c hc
    simp only [numFold] at h
    split at h
    · rename_i d hd
      split at h
      · rename_i hlt
        rcases List.mem_cons.1 hc with rfl | hc
        · exact ⟨d, hd, hlt⟩
        · exact ih _ _ h c hc
      · exact absurd h (by simp)
    · exact absurd h (by simp)

theorem hex_of_digitVal (c : Char) (d : Nat) (h : digitVal c = some d) (hd : d < 16) :
    clsHex.test c = true := by
  simp only [CClass.test, clsHex, List.any_cons, List.any_nil, Bool.or_false, Bool.false_bne,
    Bool.or_eq_true, Bool.and_eq_true, decide_eq_true_eq]
  unfold digitVal at h
  split at h
  · rename_i h1
    simp only [isAsciiDigit, Bool.and_eq_true, decide_eq_true_eq] at h1
    exact Or.inl h1
  · split at h
    · rename_i h1 h2
      simp only [isAsciiLower, Bool.and_eq_true, decide_eq_true_eq] at h2
      simp only [Option.some.injEq] at h
      exact Or.inr (Or.inr ⟨h2.1, by omega⟩)
    · split at h
      · rename_i h1 h2 h3
        simp only [isAsciiUpper, Bool.and_eq_true, decide_eq_true_eq] at h3
        simp only [Option.some.injEq] at h
        exact Or.inr (Or.inl ⟨h3.1, by omega⟩)
      · exact absurd h (by simp)

/-- A numeral of a base up to 16 is a non-empty string of hexadecimal digits. -/
theorem hex_of_numeral (base : Nat) (hb : base ≤ 16) (s : List Char) (n : Nat)
    (h : numeralValue base s = some n) : s ≠ [] ∧ ∀ c ∈ s, clsHex.test c = true := by
  unfold numeralValue at h
  split at h
  · exact absurd h (by simp)
  · rename_i hne
    refine ⟨hne, fun c hc => ?_⟩
    obtain ⟨d, h1, h2⟩ := numFold_digits base s 0 n h c hc
    exact hex_of_digitVal c d h1 (by omega)

theorem numFold_none_of_bad (base : Nat) (c : Char) (hc : ∀ d, digitVal c = some d → base ≤ d) :
    ∀ (s : List Char) (n : Nat), c ∈ s → numFold base s n = none := by
  intro s
  induction s with
  | nil => intro n h; simp at h
  | cons a as ih =>
    intro n h
    simp only [numFold]
    split
    · rename_i d hd
      split
      · rename_i hlt
        rcases List.mem_cons.1 h with rfl | h
        · have := hc d hd; omega
        · exact ih _ h
      · rfl
    · rfl

theorem renderChain_hex : renderChain [.hex] = "(hex)".toList := by rfl

theorem renderChain_bin : renderChain [.bin] = "(bin)".toList := by rfl

theorem renderChain_bin_hex : renderChain [.bin, .hex] = "(bin)(hex)".toList := by rfl

theorem isWord_of_digit (c : Char) (h : isAsciiDigit c = true) : isWordChar c = true := by
  simp [isWordChar, h]

/-- Once the first pass has produced a decimal number, that number is the
result of the pipeline. -/
theorem Process_of_first_pass_number (U : UnicodeTables) (text : List Char) (n : Nat)
    (h : processMultipleTypes U text = some (Nat.toDigits 10 n)) :
    Process U text = some (Nat.toDigits 10 n) :=
  Process_of_first_pass U text _ h (fun c hc => isWord_of_digit c (toDigits_isDigit n c hc))

theorem Process_hex_numeral (U : UnicodeTables) (s : List Char) (n : Nat) (hn : n < 2 ^ 63)
    (hs : numeralValue 16 s = some n) :
    Process U (s ++ "(hex)".toList) = some (Nat.toDigits 10 n) := by
  obtain ⟨hne, hhex⟩ := hex_of_numeral 16 (by omega) s n hs
  have h1 := processMultipleTypes_chain U s hne hhex [.hex] (by simp)
  rw [renderChain_hex] at h1
  apply Process_of_first_pass_number
  rw [h1]
  simp only [chainResult, List.foldl_cons, List.foldl_nil, applyCaseDirective, firstParse,
    Directive.base, hs]
  rw [if_pos hn]

theorem Process_bin_numeral (U : UnicodeTables) (s : List Char) (n : Nat) (hn : n < 2 ^ 63)
    (hs : numeralValue 2 s = some n) :
    Process U (s ++ "(bin)".toList) = some (Nat.toDigits 10 n) := by
  obtain ⟨hne, hhex⟩ := hex_of_numeral 2 (by omega) s n hs
  have h1 := processMultipleTypes_chain U s hne hhex [.bin] (by simp)
  rw [renderChain_bin] at h1
  apply Process_of_first_pass_number
  rw [h1]
  simp only [chainResult, List.foldl_cons, List.foldl_nil, applyCaseDirective, firstParse,
    Directive.base, hs]
  rw [if_pos hn]

theorem Process_bin_hex_numeral (U : UnicodeTables) (s : List Char) (n : Nat) (hn : n < 2 ^ 63)
    (hs : numeralValue 2 s = some n) :
    Process U (s ++ "(bin)(hex)".toList) = some (Nat.toDigits 10 n) := by
  obtain ⟨hne, hhex⟩ := hex_of_numeral 2 (by omega) s n hs
  have h1 := processMultipleTypes_chain U s hne hhex [.bin, .hex] (by simp)
  rw [renderChain_bin_hex] at h1
  apply Process_of_first_pass_number
  rw [h1]
  simp only [chainResult, List.foldl_cons, List.foldl_nil, applyCaseDirective, firstParse,
    Directive.base, hs]
  rw [if_pos hn]

theorem digitChar_hex (d : Nat) (hd : d < 16) : digitChar d = (Nat.digitChar d).toUpper := by
  interval_cases d <;> rfl

theorem toDigitsCore_hex (fuel : Nat) :
    ∀ (n : Nat) (ds : List Char),
      (Nat.toDigitsCore 16 fuel n ds).map Char.toUpper =
        (digitsRev 16 fuel n).reverse ++ ds.map Char.toUpper := by
  induction fuel with
  | zero => intro n ds; simp [Nat.toDigitsCore, digitsRev]
  | succ f ih =>
    intro n ds
    simp only [Nat.toDigitsCore, digitsRev]
    rw [digitChar_hex (n % 16) (Nat.mod_lt _ (by omega))]
    split
    · simp
    · rw [ih]; simp

/-- `%X` prints the upper-case hexadecimal digits of a natural number. -/
theorem fmtInt_hex_nat (n : Nat) :
    fmtInt 16 (n : Int) = (Nat.toDigits 16 n).map Char.toUpper := by
  simp [fmtInt, fmtNat, Nat.toDigits, toDigitsCore_hex]

theorem bin_hex_text (v : List Char) :
    v ++ "(bin)(hex)".toList =
      v ++ ([] ++ '(' :: ("bin".toList ++ ')' :: ([] ++ '(' :: ("hex".toList ++ [')'])))) := by
  rfl

theorem bin_word : ∀ c ∈ "bin".toList, isWordChar c = true := by decide

theorem hex_word_name : ∀ c ∈ "hex".toList, isWordChar c = true := by decide

theorem hex_ne_bin : ¬ ("hex".toList = "bin".toList) := by decide

/-- The callback of `processConversion` once its submatches are known. -/
theorem conversionCallback_of_parts (m num op1 op2 : List Char)
    (h : reConversion.FindStringSubmatch m = some [m, num, op1, op2]) :
    conversionCallback m =
      some (if (if op1 = "bin".toList then ParseInt num 2
            else if op1 = "hex".toList then ParseInt num 16 else ⟨0, none⟩).err ≠ none then m
        else if op2 = "bin".toList then
          fmtInt 2 (if op1 = "bin".toList then ParseInt num 2
            else if op1 = "hex".toList then ParseInt num 16 else ⟨0, none⟩).val
        else if op2 = "hex".toList then
          (if op1 = "bin".toList then
            fmtInt 16 (if op1 = "bin".toList then ParseInt num 2
              else if op1 = "hex".toList then ParseInt num 16 else ⟨0, none⟩).val
          else fmtInt 10 (if op1 = "bin".toList then ParseInt num 2
              else if op1 = "hex".toList then ParseInt num 16 else ⟨0, none⟩).val)
        else m) := by
  unfold conversionCallback
  generalize reConversion.FindStringSubmatch m = q at h ⊢
  subst h
  change (if (if op1 = "bin".toList then ParseInt num 2
            else if op1 = "hex".toList then ParseInt num 16 else ⟨0, none⟩).err ≠ none then some m
        else if op2 = "bin".toList then
          some (fmtInt 2 (if op1 = "bin".toList then ParseInt num 2
            else if op1 = "hex".toList then ParseInt num 16 else ⟨0, none⟩).val)
        else if op2 = "hex".toList then
          (if op1 = "bin".toList then
            some (fmtInt 16 (if op1 = "bin".toList then ParseInt num 2
              else if op1 = "hex".toList then ParseInt num 16 else ⟨0, none⟩).val)
          else some (fmtInt 10 (if op1 = "bin".toList then ParseInt num 2
              else if op1 = "hex".toList then ParseInt num 16 else ⟨0, none⟩).val))
        else some m) = _
  split_ifs <;> rfl

/-- The callback of `processConversion` on `v(bin)(hex)`. -/
theorem conversionCallback_bin_hex (v : List Char) (hv : v ≠ [])
    (hhex : ∀ c ∈ v, clsHex.test c = true) :
    conversionCallback (v ++ "(bin)(hex)".toList) =
      some (if (ParseInt v 2).err ≠ none then v ++ "(bin)(hex)".toList
        else fmtInt 16 (ParseInt v 2).val) := by
  have hsub := conversion_submatch v [] "bin".toList [] "hex".toList hv hhex (by simp)
    (by decide) bin_word (by simp) (by decide) hex_word_name
  rw [← bin_hex_text] at hsub
  rw [conversionCallback_of_parts _ _ _ _ hsub, if_pos rfl, if_neg hex_ne_bin, if_pos rfl,
    if_pos rfl]

theorem processConversion_bin_hex (v : List Char) (hv : v ≠ [])
    (hhex : ∀ c ∈ v, clsHex.test c = true) :
    processConversion (v ++ "(bin)(hex)".toList) =
      some (if (ParseInt v 2).err ≠ none then v ++ "(bin)(hex)".toList
        else fmtInt 16 (ParseInt v 2).val) := by
  have h := processConversion_whole v [] "bin".toList [] "hex".toList hv hhex (by simp)
    (by decide) bin_word (by simp) (by decide) hex_word_name
  rw [← bin_hex_text] at h
  rw [h, conversionCallback_bin_hex v hv hhex]

/-! ## `processNestedModifiers` -/

theorem Regex.avoids_sound (c0 : Char) (re : Regex) :
    re.avoids c0 = true → ∀ x, re.Lang x → c0 ∉ x := by
  induction re with
  | eps => intro _ x hx; simp only [Regex.Lang] at hx; subst hx; simp
  | chr c =>
    intro h x hx
    simp only [Regex.Lang] at hx
    subst hx
    simp only [Regex.avoids, bne_iff_ne, ne_eq] at h
    simpa using fun e => h e.symm
  | cls cc =>
    intro h x hx
    obtain ⟨d, rfl, hd⟩ := hx
    simp only [Regex.avoids, Bool.not_eq_true'] at h
    intro hm
    simp only [List.mem_singleton] at hm
    subst hm
    rw [h] at hd
    exact absurd hd (by simp)
  | seq a b iha ihb =>
    intro h x hx
    obtain ⟨u, v, rfl, hu, hv⟩ := hx
    simp only [Regex.avoids, Bool.and_eq_true] at h
    intro hm
    rcases List.mem_append.1 hm with h1 | h1
    · exact iha h.1 u hu h1
    · exact ihb h.2 v hv h1
  | alt a b iha ihb =>
    intro h x hx
    simp only [Regex.avoids, Bool.and_eq_true] at h
    rcases hx with hx | hx
    · exact iha h.1 x hx
    · exact ihb h.2 x hx
  | star g r ih =>
    intro h x hx
    simp only [Regex.avoids] at h
    simp only [Regex.Lang] at hx
    induction hx with
    | nil => simp
    | cons y z hy _ ihz =>
      intro hm
      rcases List.mem_append.1 hm with h1 | h1
      · exact ih h y hy h1
      · exact ihz h1
  | cap i r ih => intro h x hx; exact ih h x hx
  | bol m => intro _ x hx; simp only [Regex.Lang] at hx; subst hx; simp
  | eol m => intro _ x hx; simp only [Regex.Lang] at hx; subst hx; simp
  | wordB => intro _ x hx; simp only [Regex.Lang] at hx; subst hx; simp

theorem Regex.avoids_group (c0 : Char) (re : Regex) :
    re.avoids c0 = true → ∀ i y, re.GroupLang i y → c0 ∉ y := by
  induction re with
  | seq a b iha ihb =>
    intro h i y hy
    simp only [Regex.avoids, Bool.and_eq_true] at h
    rcases hy with hy | hy
    · exact iha h.1 i y hy
    · exact ihb h.2 i y hy
  | alt a b iha ihb =>
    intro h i y hy
    simp only [Regex.avoids, Bool.and_eq_true] at h
    rcases hy with hy | hy
    · exact iha h.1 i y hy
    · exact ihb h.2 i y hy
  | star g r ih => intro h i y hy; exact ih h i y hy
  | cap j r ih =>
    intro h i y hy
    rcases hy with ⟨_, hy⟩ | hy
    · exact Regex.avoids_sound c0 r h y hy
    · exact ih h i y hy
  | eps => intro _ i y hy; exact absurd hy (by simp [Regex.GroupLang])
  | chr c => intro _ i y hy; exact absurd hy (by simp [Regex.GroupLang])
  | cls cc => intro _ i y hy; exact absurd hy (by simp [Regex.GroupLang])
  | bol m => intro _ i y hy; exact absurd hy (by simp [Regex.GroupLang])
  | eol m => intro _ i y hy; exact absurd hy (by simp [Regex.GroupLang])
  | wordB => intro _ i y hy; exact absurd hy (by simp [Regex.GroupLang])

theorem capSpan_mem (caps : List (Nat × Nat × Nat)) (i a b : Nat)
    (h : capSpan caps i = some (a, b)) : (i, a, b) ∈ caps := by
  induction caps with
  | nil => simp [capSpan] at h
  | cons e es ih =>
    obtain ⟨j, a2, b2⟩ := e
    simp only [capSpan] at h
    split at h
    · rename_i hj
      simp only [Option.some.injEq, Prod.mk.injEq] at h
      obtain ⟨rfl, rfl⟩ := h
      subst hj
      simp
    · exact List.mem_cons_of_mem _ (ih h)

/-- The text of a group of a match is empty or a string of that group. -/
theorem Regex.exec_group (re : Regex) (src : List Char) (p : Nat) (m : Match)
    (h : re.exec src p = some m) (hp : p ≤ src.length) (i : Nat) :
    m.group src i = [] ∨ re.GroupLang i (m.group src i) := by
  obtain ⟨_, _, _, _, hd, new, hnew, hcaps⟩ := re.exec_sound src p m h hp
  unfold Match.group
  cases hc : capSpan m.caps i with
  | none => exact Or.inl rfl
  | some ab =>
    obtain ⟨a, b⟩ := ab
    right
    have hmem := capSpan_mem _ _ _ _ hc
    rw [hnew, List.append_nil] at hmem
    obtain ⟨h1, h2, h3, h4⟩ := hcaps _ hmem
    simp only at h1 h2 h3 h4 ⊢
    have e : slice src a b = slice (m.text src) (a - m.start) (b - m.start) := by
      have e1 : slice src a b = slice (src.drop m.start) (a - m.start) (b - m.start) := by
        unfold slice
        rw [List.drop_drop, show (b - m.start) - (a - m.start) = b - a by omega]
        congr 2
        omega
      rw [e1, hd, slice_append_left _ _ _ _ (by omega)]
    rw [e]
    exact h4

/-- Re-matching a pattern without context assertions on a text of its language
finds a match at offset 0. -/
theorem Regex.exec_of_lang (re : Regex) (hp : re.plain = true) (x : List Char)
    (hx : re.Lang x) : ∃ m, re.exec x 0 = some m ∧ m.start = 0 := by
  have h := re.run_complete hp x hx none [] 0 [] some (fun _ => rfl)
  rw [List.append_nil] at h
  cases hr : re.run ⟨none, x, 0, []⟩ some with
  | none => rw [hr] at h; exact absurd h (by simp)
  | some t =>
    exact ⟨⟨0, t.pos, t.caps⟩, by rw [re.exec_zero]; exact re.searchFrom_of_run _ _ _ _ hr, rfl⟩

theorem Regex.FindStringSubmatch_of_lang (re : Regex) (hp : re.plain = true) (x : List Char)
    (hx : re.Lang x) :
    ∃ m, re.exec x 0 = some m ∧
      re.FindStringSubmatch x =
        some (m.text x :: (List.range re.numGroups).map (fun i => m.group x (i + 1))) := by
  obtain ⟨m, hm, _⟩ := re.exec_of_lang hp x hx
  exact ⟨m, hm, by simp [Regex.FindStringSubmatch, hm]⟩

set_option maxRecDepth 100000 in
theorem ascii_open_facts : ∀ n, n < 128 → Char.ofNat n ≠ '(' →
    (asciiToUpper (Char.ofNat n) ≠ '(' ∧ asciiToLower (Char.ofNat n) ≠ '(') := by
  decide

theorem caseChar_noOpen (U : UnicodeTables) (hU : ParenFree U) (c : Char) (hc : c ≠ '(') :
    unicodeToUpper U c ≠ '(' ∧ unicodeToLower U c ≠ '(' ∧ unicodeToTitle U c ≠ '(' := by
  by_cases h : c.toNat ≤ 127
  · have := ascii_cases (fun c => c ≠ '(' → (asciiToUpper c ≠ '(' ∧ asciiToLower c ≠ '('))
      (fun n hn hx => ascii_open_facts n hn hx) c (by omega) hc
    simp only [unicodeToUpper, unicodeToLower, unicodeToTitle, if_pos h]
    exact ⟨this.1, this.2, this.1⟩
  · simp only [unicodeToUpper, unicodeToLower, unicodeToTitle, if_neg h]
    exact hU c (by omega)

theorem ToUpper_noOpen (U : UnicodeTables) (hU : ParenFree U) (w : List Char)
    (hw : '(' ∉ w) : '(' ∉ ToUpper U w := by
  intro h
  obtain ⟨c, hc, he⟩ := List.mem_map.1 h
  exact (caseChar_noOpen U hU c (fun e => hw (e ▸ hc))).1 he

theorem ToLower_noOpen (U : UnicodeTables) (hU : ParenFree U) (w : List Char)
    (hw : '(' ∉ w) : '(' ∉ ToLower U w := by
  intro h
  obtain ⟨c, hc, he⟩ := List.mem_map.1 h
  exact (caseChar_noOpen U hU c (fun e => hw (e ▸ hc))).2.1 he

theorem titleMap_noOpen (U : UnicodeTables) (hU : ParenFree U) :
    ∀ (w : List Char) (prev : Char), '(' ∉ w → '(' ∉ titleMap U prev w := by
  intro w
  induction w with
  | nil => intro prev _; simp [titleMap]
  | cons c cs ih =>
    intro prev hw
    have hc : c ≠ '(' := fun e => hw (by simp [e])
    have hcs : '(' ∉ cs := fun h => hw (by simp [h])
    simp only [titleMap, List.mem_cons, not_or]
    refine ⟨?_, ih c hcs⟩
    split
    · exact fun e => (caseChar_noOpen U hU c hc).2.2 e.symm
    · exact fun e => hc e.symm

theorem applyCase_noOpen (U : UnicodeTables) (hU : ParenFree U) (modifier w : List Char)
    (hw : '(' ∉ w) : '(' ∉ applyCase U modifier w := by
  unfold applyCase
  split
  · exact titleMap_noOpen U hU _ _ (ToLower_noOpen U hU w hw)
  · split
    · exact ToLower_noOpen U hU w hw
    · split
      · exact ToUpper_noOpen U hU w hw
      · exact hw

theorem mem_fieldsLoop : ∀ (s cur : List Char) (w : List Char), w ∈ fieldsLoop s cur →
    ∀ c ∈ w, c ∈ cur ∨ c ∈ s := by
  intro s
  induction s with
  | nil =>
    intro cur w hw c hc
    simp only [fieldsLoop] at hw
    split at hw
    · simp at hw
    · simp only [List.mem_singleton] at hw
      subst hw
      exact Or.inl hc
  | cons a as ih =>
    intro cur w hw c hc
    simp only [fieldsLoop] at hw
    split at hw
    · split at hw
      · rcases ih [] w hw c hc with h | h
        · simp at h
        · exact Or.inr (List.mem_cons_of_mem _ h)
      · rcases List.mem_cons.1 hw with rfl | hw
        · exact Or.inl hc
        · rcases ih [] w hw c hc with h | h
          · simp at h
          · exact Or.inr (List.mem_cons_of_mem _ h)
    · rcases ih (cur ++ [a]) w hw c hc with h | h
      · rcases List.mem_append.1 h with h | h
        · exact Or.inl h
        · simp only [List.mem_singleton] at h
          subst h
          exact Or.inr (by simp)
      · exact Or.inr (List.mem_cons_of_mem _ h)

theorem mem_Fields (t w : List Char) (hw : w ∈ Fields t) : ∀ c ∈ w, c ∈ t := by
  intro c hc
  rcases mem_fieldsLoop t [] w hw c hc with h | h
  · simp at h
  · exact h

theorem mem_TrimSpace (t : List Char) : ∀ c ∈ TrimSpace t, c ∈ t := by
  intro c hc
  unfold TrimSpace at hc
  rw [List.mem_reverse] at hc
  have h1 := (List.dropWhile_sublist unicodeIsSpace).subset hc
  rw [List.mem_reverse] at h1
  exact (List.dropWhile_sublist unicodeIsSpace).subset h1

theorem mapWindow_mem {α : Type} (f : α → α) (lo hi : Nat) :
    ∀ (ws : List α) (j : Nat), ∀ w2 ∈ mapWindow f lo hi j ws, ∃ w ∈ ws, w2 = f w ∨ w2 = w := by
  intro ws
  induction ws with
  | nil => intro j w2 h; simp [mapWindow] at h
  | cons w ws ih =>
    intro j w2 h
    simp only [mapWindow, List.mem_cons] at h
    rcases h with rfl | h
    · refine ⟨w, by simp, ?_⟩
      split
      · exact Or.inl rfl
      · exact Or.inr rfl
    · obtain ⟨w3, h3, h4⟩ := ih (j + 1) w2 h
      exact ⟨w3, List.mem_cons_of_mem _ h3, h4⟩

theorem Join_noOpen : ∀ (ws : List (List Char)), (∀ w ∈ ws, '(' ∉ w) →
    '(' ∉ Join ws " ".toList := by
  intro ws
  induction ws with
  | nil => intro _; simp [Join]
  | cons w ws ih =>
    intro h
    cases ws with
    | nil => simpa [Join] using h w (by simp)
    | cons w2 ws2 =>
      simp only [Join, List.mem_append, not_or]
      refine ⟨⟨h w (by simp), by decide⟩, ih (fun x hx => h x (List.mem_cons_of_mem _ hx))⟩

/-- `applyModifier` never panics: for every count, also the least 64-bit one, it
returns the words of the text joined by single spaces, those of some index
window rewritten. -/
theorem applyModifier_total (U : UnicodeTables) (text modifier : List Char) (c : Int) :
    ∃ lo hi, applyModifier U text modifier c =
      some (Join (mapWindow (applyCase U modifier) lo hi 0 (Fields text)) " ".toList) := by
  unfold applyModifier
  generalize Fields text = ws
  have key : ∀ (a b : Int), 0 ≤ a → b ≤ ws.length →
      ∃ lo hi, (forLoop (updateWord (applyCase U modifier)) (b - a).toNat a ws).map
        (fun ws => Join ws " ".toList) =
        some (Join (mapWindow (applyCase U modifier) lo hi 0 ws) " ".toList) := by
    intro a b ha hb
    obtain ⟨a2, rfl⟩ : ∃ a2 : Nat, a = a2 := ⟨a.toNat, by omega⟩
    by_cases hab : b ≤ (a2 : Int)
    · refine ⟨0, 0, ?_⟩
      rw [show (b - (a2 : Int)).toNat = 0 by omega, mapWindow_empty]
      rfl
    · refine ⟨a2, a2 + (b - (a2 : Int)).toNat, ?_⟩
      rw [forLoop_updateWord _ _ _ _ (by omega)]
      rfl
  apply key
  · unfold modifierWindow
    split
    · dsimp only; split <;> omega
    · split <;> simp
  · unfold modifierWindow
    split
    · simp
    · split
      · dsimp only; split <;> omega
      · simp

theorem applyModifier_noOpen (U : UnicodeTables) (hU : ParenFree U) (text modifier : List Char)
    (c : Int) (ht : '(' ∉ text) :
    ∃ r, applyModifier U text modifier c = some r ∧ '(' ∉ r := by
  obtain ⟨lo, hi, h⟩ := applyModifier_total U text modifier c
  refine ⟨_, h, Join_noOpen _ ?_⟩
  intro w2 hw2
  obtain ⟨w, hw, h2⟩ := mapWindow_mem _ lo hi _ 0 w2 hw2
  have hwt : '(' ∉ w := fun hm => ht (mem_Fields text w hw _ hm)
  rcases h2 with rfl | rfl
  · exact applyCase_noOpen U hU modifier w hwt
  · exact hwt

/-- A text the pattern of `processNestedModifiers` matches is `(`, a body
without `(`, and `)`. -/
theorem nested_lang_shape (x : List Char) (hx : reNested.Lang x) :
    ∃ b, x = '(' :: (b ++ [')']) ∧ reNestedBody.Lang b ∧ '(' ∉ b ∧ ')' ∉ b := by
  simp only [reNested, Regex.cat, Regex.Lang] at hx
  obtain ⟨u, v, rfl, rfl, b, w, rfl, hb, e, n, rfl, rfl, rfl⟩ := hx
  exact ⟨b, by simp, hb, Regex.avoids_sound '(' reNestedBody rfl b hb,
    Regex.avoids_sound ')' reNestedBody rfl b hb⟩

theorem nested_count (x : List Char) (hx : reNested.Lang x) : x.count '(' = 1 := by
  obtain ⟨b, rfl, _, hb, _⟩ := nested_lang_shape x hx
  rw [List.count_cons_self, List.count_append, List.count_eq_zero_of_not_mem hb]
  rfl

theorem nested_group4 (y : List Char) (hy : reNested.GroupLang 4 y) : '(' ∉ y := by
  have hy2 : False ∨ ((1 = 4 ∧ reNestedBody.Lang y) ∨ reNestedBody.GroupLang 4 y) ∨
      (False ∨ False) := hy
  rcases hy2 with hy | (⟨h, _⟩ | hy) | hy | hy
  · exact absurd hy id
  · exact absurd h (by decide)
  · exact Regex.avoids_group '(' reNestedBody rfl 4 y hy
  · exact absurd hy id
  · exact absurd hy id

/-- The callback of `processNestedModifiers` succeeds on every text the pattern
matches, and its result has no `(`. -/
theorem nestedCallback_of_lang (U : UnicodeTables) (hU : ParenFree U) (x : List Char)
    (hx : reNested.Lang x) : ∃ r, nestedCallback U x = some r ∧ '(' ∉ r := by
  obtain ⟨m, hm, hf⟩ := Regex.FindStringSubmatch_of_lang reNested rfl x hx
  have h4 : '(' ∉ m.group x 4 := by
    rcases Regex.exec_group reNested x 0 m hm (Nat.zero_le _) 4 with h | h
    · rw [h]; simp
    · exact nested_group4 _ h
  have ht : '(' ∉ TrimSpace (m.group x 4) := fun h => h4 (mem_TrimSpace _ _ h)
  obtain ⟨r, hr, hr2⟩ := applyModifier_noOpen U hU (TrimSpace (m.group x 4)) (m.group x 2)
    (Atoi (m.group x 3)).val ht
  refine ⟨r, ?_, hr2⟩
  unfold nestedCallback
  rw [hf]
  exact hr

/-- The search finds a match in every text that has a substring of the language
of a pattern without context assertions. -/
theorem Regex.searchFrom_complete (re : Regex) (hp : re.plain = true) (x post : List Char)
    (hx : re.Lang x) : ∀ (pre : List Char) (prev : Option Char) (pos : Nat),
      (re.searchFrom prev (pre ++ x ++ post) pos).isSome = true := by
  intro pre
  induction pre with
  | nil =>
    intro prev pos
    have h := re.run_complete hp x hx prev post pos [] some (fun _ => rfl)
    cases hr : re.run ⟨prev, x ++ post, pos, []⟩ some with
    | none => rw [hr] at h; exact absurd h (by simp)
    | some t =>
      rw [List.nil_append, re.searchFrom_of_run _ _ _ _ hr]
      rfl
  | cons c pre ih =>
    intro prev pos
    simp only [List.cons_append, Regex.searchFrom]
    split
    · rfl
    · exact ih (some c) (pos + 1)

theorem Regex.MatchString_of_substring (re : Regex) (hp : re.plain = true)
    (pre x post : List Char) (hx : re.Lang x) : re.MatchString (pre ++ x ++ post) = true := by
  unfold Regex.MatchString
  rw [re.exec_zero]
  exact re.searchFrom_complete hp x post hx pre none 0

/-- One iteration of the loop of `processNestedModifiers` never panics and
removes at least as many `(` as it replaces matches, at least one when the
pattern matches. -/
theorem nested_step (U : UnicodeTables) (hU : ParenFree U) (input : List Char) :
    ∃ next n, reNested.ReplaceAllStringFunc input (nestedCallback U) = some next ∧
      next.count '(' + n ≤ input.count '(' ∧ (reNested.MatchString input = true → 1 ≤ n) := by
  obtain ⟨out, n, h1, h2, h3⟩ := Regex.ReplaceAllStringFunc_rewrite reNested input
    (nestedCallback U) (fun x r => r.count '(' + 1 ≤ x.count '(')
    (fun x hx => by
      obtain ⟨r, hr, hr2⟩ := nestedCallback_of_lang U hU x hx
      exact ⟨r, hr, by
        show r.count '(' + 1 ≤ x.count '('
        rw [List.count_eq_zero_of_not_mem hr2, nested_count x hx]⟩)
  exact ⟨out, n, h1, Rewrite_count_le '(' (fun _ _ h => h) h2, h3⟩

theorem nestedLoop_terminates (U : UnicodeTables) (hU : ParenFree U) :
    ∀ (fuel : Nat) (input : List Char), input.count '(' < fuel →
      ∃ out, nestedLoop U fuel input = some out ∧ reNested.MatchString out = false := by
  intro fuel
  induction fuel with
  | zero => intro input h; omega
  | succ fuel ih =>
    intro input h
    unfold nestedLoop
    by_cases hm : reNested.MatchString input = true
    · obtain ⟨next, n, h1, h2, h3⟩ := nested_step U hU input
      have := h3 hm
      obtain ⟨out, ho, ho2⟩ := ih next (by omega)
      exact ⟨out, by rw [if_pos hm, h1]; exact ho, ho2⟩
    · exact ⟨input, by rw [if_neg hm], by simpa using hm⟩

theorem nestedLoop_mono (U : UnicodeTables) :
    ∀ (fuel : Nat) (input out : List Char), nestedLoop U fuel input = some out →
      ∀ fuel2, fuel ≤ fuel2 → nestedLoop U fuel2 input = some out := by
  intro fuel
  induction fuel with
  | zero => intro input out h; simp [nestedLoop] at h
  | succ fuel ih =>
    intro input out h fuel2 hle
    obtain ⟨g, rfl⟩ : ∃ g, fuel2 = g + 1 := ⟨fuel2 - 1, by omega⟩
    unfold nestedLoop at h ⊢
    by_cases hm : reNested.MatchString input = true
    · rw [if_pos hm] at h ⊢
      cases hr : reNested.ReplaceAllStringFunc input (nestedCallback U) with
      | none => rw [hr] at h; simp at h
      | some next =>
        rw [hr] at h
        exact ih next out h g (by omega)
    · rw [if_neg hm] at h ⊢
      exact h

theorem asciiTables_parenFree : ParenFree asciiTables := by
  intro c hc
  have : c ≠ '(' := by
    intro e
    subst e
    revert hc
    decide
  exact ⟨this, this, this⟩

/-! ## `processNestedModifiers` on a single scoped group -/

theorem nestedName_detOK (m : List Char)
    (hm : m = "cap".toList ∨ m = "low".toList ∨ m = "up".toList) (prev : Option Char)
    (rest : List Char) (pos : Nat) (caps : List (Nat × Nat × Nat)) :
    DetOK (Regex.alts [Regex.lit "cap".toList, Regex.lit "low".toList, Regex.lit "up".toList])
      ⟨prev, m ++ rest, pos, caps⟩ ⟨lastOr prev m, rest, pos + m.length, caps⟩ := by
  rcases hm with rfl | rfl | rfl
  · exact DetOK_alt_left _ (Exact_detOK (Exact_lit _ prev rest pos caps))
  · exact DetOK_alt_right (Fails_lit_ne 'c' 'l' _ (by decide) prev _ pos caps)
      (DetOK_alt_left _ (Exact_detOK (Exact_lit _ prev rest pos caps)))
  · exact DetOK_alt_right (Fails_lit_ne 'c' 'u' _ (by decide) prev _ pos caps)
      (DetOK_alt_right (Fails_lit_ne 'l' 'u' _ (by decide) prev _ pos caps)
        (Exact_detOK (Exact_lit _ prev rest pos caps)))

theorem signedDigits_detOK (sg d : List Char) (hsg : sg = [] ∨ sg = ['-']) (hd : d ≠ [])
    (hdig : ∀ c ∈ d, clsDigit.test c = true) (rest : List Char) (hstop : StopsAt clsDigit rest)
    (prev : Option Char) (pos : Nat) (caps : List (Nat × Nat × Nat)) :
    DetOK reSignedDigits ⟨prev, sg ++ (d ++ rest), pos, caps⟩
      ⟨lastOr (lastOr prev sg) d, rest, pos + sg.length + d.length, caps⟩ := by
  rcases hsg with rfl | rfl
  · cases d with
    | nil => exact absurd rfl hd
    | cons c cs =>
      have hc : c ≠ '-' := by
        intro e
        subst e
        exact absurd (hdig '-' (by simp)) (by decide)
      exact DetOK_seq
        (DetOK_alt_right (Fails_chr_ne '-' c hc prev _ pos caps) (Exact_detOK (Exact_eps _)))
        (DetOK_plus_cls clsDigit (c :: cs) hd hdig rest hstop prev pos caps)
  · exact DetOK_seq (DetOK_alt_left _ (Exact_detOK (Exact_chr '-' prev (d ++ rest) pos caps)))
      (DetOK_plus_cls clsDigit d hd hdig rest hstop (some '-') (pos + 1) caps)

/-- The pattern of `processNestedModifiers` on the text
`( sp0 m sp1 , sp2 sg d sp3 q )`: blanks `sp0` to `sp3`, a modifier `m`, an
optional sign `sg`, digits `d` and a text `q` without parentheses that does not
begin with a blank. -/
theorem nested_detOK (sp0 m sp1 sp2 sg d sp3 q : List Char)
    (hs0 : ∀ c ∈ sp0, clsSpace.test c = true)
    (hm : m = "cap".toList ∨ m = "low".toList ∨ m = "up".toList)
    (hs1 : ∀ c ∈ sp1, clsSpace.test c = true) (hs2 : ∀ c ∈ sp2, clsSpace.test c = true)
    (hsg : sg = [] ∨ sg = ['-']) (hd : d ≠ []) (hdig : ∀ c ∈ d, clsDigit.test c = true)
    (hs3 : ∀ c ∈ sp3, clsSpace.test c = true)
    (hstop3 : StopsAt clsDigit (sp3 ++ (q ++ [')'])))
    (hq : ∀ c ∈ q, CClass.test ⟨true, [(40, 41)]⟩ c = true)
    (hstopq : StopsAt clsSpace (q ++ [')'])) :
    ∃ t, DetOK reNested
        ⟨none, '(' :: (sp0 ++ (m ++ (sp1 ++ ',' :: (sp2 ++ (sg ++ (d ++ (sp3 ++ (q ++ [')'])))))))),
          0, []⟩ t ∧
      t.pos = 1 + sp0.length + m.length + sp1.length + 1 + sp2.length + sg.length + d.length +
        sp3.length + q.length + 1 ∧
      capSpan t.caps 2 = some (1 + sp0.length, 1 + sp0.length + m.length) ∧
      capSpan t.caps 3 = some (1 + sp0.length + m.length + sp1.length + 1 + sp2.length,
        1 + sp0.length + m.length + sp1.length + 1 + sp2.length + sg.length + d.length) ∧
      capSpan t.caps 4 = some (1 + sp0.length + m.length + sp1.length + 1 + sp2.length +
          sg.length + d.length + sp3.length,
        1 + sp0.length + m.length + sp1.length + 1 + sp2.length + sg.length + d.length +
          sp3.length + q.length) := by
  have hstop0 : StopsAt clsSpace
      (m ++ (sp1 ++ ',' :: (sp2 ++ (sg ++ (d ++ (sp3 ++ (q ++ [')']))))))) := by
    rcases hm with rfl | rfl | rfl <;> exact stopsAt_cons _ _ _ (by decide)
  have hstop2 : StopsAt clsSpace (sg ++ (d ++ (sp3 ++ (q ++ [')'])))) := by
    rcases hsg with rfl | rfl
    · cases d with
      | nil => exact absurd rfl hd
      | cons c cs =>
        refine stopsAt_cons _ _ _ ?_
        have := hdig c (by simp)
        simp only [CClass.test, clsDigit, List.any_cons, List.any_nil, Bool.or_false,
          Bool.false_bne, Bool.and_eq_true, decide_eq_true_eq] at this
        simp only [CClass.test, clsSpace, List.any_cons, List.any_nil, Bool.or_false,
          Bool.false_bne, Bool.or_eq_false_iff, Bool.and_eq_false_imp, decide_eq_true_eq,
          decide_eq_false_iff_not]
        omega
    · exact stopsAt_cons _ _ _ (by decide)
  refine ⟨_, DetOK_seq (Exact_detOK (Exact_chr '(' none _ 0 []))
    (DetOK_seq (DetOK_cap 1
      (DetOK_seq (DetOK_star_cls clsSpace sp0 hs0 _ hstop0 _ _ _)
      (DetOK_seq (DetOK_cap 2 (nestedName_detOK m hm _ _ _ _))
      (DetOK_seq (DetOK_star_cls clsSpace sp1 hs1 _ (stopsAt_cons _ _ _ (by decide)) _ _ _)
      (DetOK_seq (Exact_detOK (Exact_chr ',' _ _ _ _))
      (DetOK_seq (DetOK_star_cls clsSpace sp2 hs2 _ hstop2 _ _ _)
      (DetOK_seq (DetOK_cap 3 (signedDigits_detOK sg d hsg hd hdig _ hstop3 _ _ _))
      (DetOK_seq (DetOK_star_cls clsSpace sp3 hs3 _ hstopq _ _ _)
      (DetOK_seq (DetOK_cap 4
        (DetOK_star_cls _ q hq [')'] (stopsAt_cons _ _ _ (by decide)) _ _ _))
      (DetOK_seq (Exact_detOK (Exact_star_cls_stops true clsSpace [')']
          (stopsAt_cons _ _ _ (by decide)) _ _ _))
        (Exact_detOK (Exact_eps _))))))))))))
    (DetOK_seq (Exact_detOK (Exact_chr ')' _ [] _ _)) (Exact_detOK (Exact_eps _)))),
    ?_, ?_, ?_, ?_⟩
  · simp only [Nat.zero_add]
  · simp only [capSpan, Nat.zero_add]
    rfl
  · simp only [capSpan, Nat.zero_add]
    rfl
  · simp only [capSpan, Nat.zero_add]
    rfl

theorem nested_needs_paren : reNested.needs isOpenParen = true := by rfl

theorem nestedCallback_of_parts (U : UnicodeTables) (x : List Char) (p0 p1 p2 p3 p4 : List Char)
    (h : reNested.FindStringSubmatch x = some [p0, p1, p2, p3, p4]) :
    nestedCallback U x = applyModifier U (TrimSpace p4) p2 (Atoi p3).val := by
  unfold nestedCallback
  rw [h]
  rfl

/-- What `FindStringSubmatch` of the pattern of `processNestedModifiers` returns
on the text `( sp0 m sp1 , sp2 sg d sp3 q )`. -/
theorem nested_submatch (sp0 m sp1 sp2 sg d sp3 q : List Char)
    (hs0 : ∀ c ∈ sp0, clsSpace.test c = true)
    (hm : m = "cap".toList ∨ m = "low".toList ∨ m = "up".toList)
    (hs1 : ∀ c ∈ sp1, clsSpace.test c = true) (hs2 : ∀ c ∈ sp2, clsSpace.test c = true)
    (hsg : sg = [] ∨ sg = ['-']) (hd : d ≠ []) (hdig : ∀ c ∈ d, clsDigit.test c = true)
    (hs3 : ∀ c ∈ sp3, clsSpace.test c = true)
    (hstop3 : StopsAt clsDigit (sp3 ++ (q ++ [')'])))
    (hq : ∀ c ∈ q, CClass.test ⟨true, [(40, 41)]⟩ c = true)
    (hstopq : StopsAt clsSpace (q ++ [')'])) :
    ∃ p0 p1, reNested.FindStringSubmatch
        ('(' :: (sp0 ++ (m ++ (sp1 ++ ',' :: (sp2 ++ (sg ++ (d ++ (sp3 ++ (q ++ [')'])))))))))
      = some [p0, p1, m, sg ++ d, q] := by
  obtain ⟨t, hdet, _, c2, c3, c4⟩ :=
    nested_detOK sp0 m sp1 sp2 sg d sp3 q hs0 hm hs1 hs2 hsg hd hdig hs3 hstop3 hq hstopq
  have h0 := reNested.searchFrom_of_detOK none _ 0 _ hdet
  have hn : reNested.numGroups = 4 := by rfl
  have e2 : slice ('(' :: (sp0 ++ (m ++ (sp1 ++ ',' :: (sp2 ++ (sg ++ (d ++ (sp3 ++
      (q ++ [')'])))))))))
      (1 + sp0.length) (1 + sp0.length + m.length) = m :=
    slice_at _ ('(' :: sp0) m (sp1 ++ ',' :: (sp2 ++ (sg ++ (d ++ (sp3 ++ (q ++ [')']))))))
      _ _ (by simp) (by simp; omega) (by simp; omega)
  have e3 : slice ('(' :: (sp0 ++ (m ++ (sp1 ++ ',' :: (sp2 ++ (sg ++ (d ++ (sp3 ++
      (q ++ [')'])))))))))
      (1 + sp0.length + m.length + sp1.length + 1 + sp2.length)
      (1 + sp0.length + m.length + sp1.length + 1 + sp2.length + sg.length + d.length) =
      sg ++ d :=
    slice_at _ ('(' :: (sp0 ++ m ++ sp1 ++ [','] ++ sp2)) (sg ++ d) (sp3 ++ (q ++ [')']))
      _ _ (by simp) (by simp; omega) (by simp; omega)
  have e4 : slice ('(' :: (sp0 ++ (m ++ (sp1 ++ ',' :: (sp2 ++ (sg ++ (d ++ (sp3 ++
      (q ++ [')'])))))))))
      (1 + sp0.length + m.length + sp1.length + 1 + sp2.length + sg.length + d.length +
        sp3.length)
      (1 + sp0.length + m.length + sp1.length + 1 + sp2.length + sg.length + d.length +
        sp3.length + q.length) = q :=
    slice_at _ ('(' :: (sp0 ++ m ++ sp1 ++ [','] ++ sp2 ++ sg ++ d ++ sp3)) q [')']
      _ _ (by simp) (by simp; omega) (by simp; omega)
  generalize '(' :: (sp0 ++ (m ++ (sp1 ++ ',' :: (sp2 ++ (sg ++ (d ++ (sp3 ++
      (q ++ [')'])))))))) = x at h0 e2 e3 e4 ⊢
  refine ⟨Match.text ⟨0, t.pos, t.caps⟩ x, Match.group ⟨0, t.pos, t.caps⟩ x 1, ?_⟩
  simp only [Regex.FindStringSubmatch, Regex.exec_zero, h0, hn, Match.group, c2, c3, c4,
    List.range, List.range.loop, List.map_cons, List.map_nil, e2, e3, e4]
  try rfl

/-- `processNestedModifiers` on a single scoped group, for case tables that map
no rune to `(`: the result of `applyModifier` on the trimmed text of the group. -/
theorem processNested_single (U : UnicodeTables) (hU : ParenFree U)
    (sp0 m sp1 sp2 sg d sp3 q : List Char)
    (hs0 : ∀ c ∈ sp0, clsSpace.test c = true)
    (hm : m = "cap".toList ∨ m = "low".toList ∨ m = "up".toList)
    (hs1 : ∀ c ∈ sp1, clsSpace.test c = true) (hs2 : ∀ c ∈ sp2, clsSpace.test c = true)
    (hsg : sg = [] ∨ sg = ['-']) (hd : d ≠ []) (hdig : ∀ c ∈ d, clsDigit.test c = true)
    (hs3 : ∀ c ∈ sp3, clsSpace.test c = true)
    (hstop3 : StopsAt clsDigit (sp3 ++ (q ++ [')'])))
    (hq : ∀ c ∈ q, CClass.test ⟨true, [(40, 41)]⟩ c = true)
    (hstopq : StopsAt clsSpace (q ++ [')'])) :
    processNestedModifiers U
        ('(' :: (sp0 ++ (m ++ (sp1 ++ ',' :: (sp2 ++ (sg ++ (d ++ (sp3 ++ (q ++ [')'])))))))))
      = applyModifier U (TrimSpace q) m (Atoi (sg ++ d)).val := by
  obtain ⟨t, hdet, hpos, _⟩ :=
    nested_detOK sp0 m sp1 sp2 sg d sp3 q hs0 hm hs1 hs2 hsg hd hdig hs3 hstop3 hq hstopq
  obtain ⟨p0, p1, hsub⟩ :=
    nested_submatch sp0 m sp1 sp2 sg d sp3 q hs0 hm hs1 hs2 hsg hd hdig hs3 hstop3 hq hstopq
  have hcb := nestedCallback_of_parts U _ _ _ _ _ _ hsub
  have hq2 : '(' ∉ TrimSpace q := by
    intro h
    have := hq _ (mem_TrimSpace q _ h)
    revert this
    decide
  obtain ⟨r, hr, hr2⟩ := applyModifier_noOpen U hU (TrimSpace q) m (Atoi (sg ++ d)).val hq2
  have hmatch : reNested.MatchString
      ('(' :: (sp0 ++ (m ++ (sp1 ++ ',' :: (sp2 ++ (sg ++ (d ++ (sp3 ++ (q ++ [')'])))))))))
      = true := by
    unfold Regex.MatchString
    rw [reNested.exec_zero, reNested.searchFrom_of_detOK none _ 0 _ hdet]
    rfl
  have hrepl := replaceAll_whole reNested isOpenParen nested_needs_paren _ (by simp) t hdet
    (by rw [hpos]; simp; omega) (nestedCallback U)
  have hno : reNested.MatchString r = false := by
    unfold Regex.MatchString
    rw [reNested.exec_none_of_needs isOpenParen nested_needs_paren r
      (fun c hc => by
        simp only [isOpenParen, beq_eq_false_iff_ne, ne_eq]
        intro e
        exact hr2 (e ▸ hc)) 0]
    rfl
  unfold processNestedModifiers
  rw [List.length_cons]
  unfold nestedLoop
  rw [if_pos hmatch, hrepl, hcb, hr]
  show nestedLoop U _ r = some r
  cases hl : (sp0 ++ (m ++ (sp1 ++ ',' :: (sp2 ++ (sg ++ (d ++ (sp3 ++ (q ++ [')'])))))))).length
    with
  | zero => simp at hl
  | succ n =>
    unfold nestedLoop
    rw [if_neg (by simp [hno])]

theorem nonParen_test (c : Char) (h1 : c ≠ '(') (h2 : c ≠ ')') :
    CClass.test ⟨true, [(40, 41)]⟩ c = true := by
  by_cases h : c.toNat = 40 ∨ c.toNat = 41
  · exfalso
    have e := Char.ofNat_toNat c
    rcases h with h | h
    · rw [h] at e
      exact h1 e.symm
    · rw [h] at e
      exact h2 e.symm
  · simp only [CClass.test, List.any_cons, List.any_nil, Bool.or_false, Bool.true_bne,
      Bool.not_eq_true', Bool.and_eq_false_imp, decide_eq_true_eq, decide_eq_false_iff_not]
    omega

theorem stopsAt_dropWhile (cc : CClass) (rest : List Char) (h : StopsAt cc rest) :
    ∀ p : List Char, StopsAt cc (p.dropWhile cc.test ++ rest) := by
  intro p
  induction p with
  | nil => exact h
  | cons c cs ih =>
    by_cases hc : cc.test c = true
    · rw [List.dropWhile_cons_of_pos hc]
      exact ih
    · rw [List.dropWhile_cons_of_neg hc]
      exact stopsAt_cons cc c _ (by simpa using hc)

theorem isSpace_of_clsSpace (c : Char) (h : clsSpace.test c = true) :
    unicodeIsSpace c = true := by
  simp only [CClass.test, clsSpace, List.any_cons, List.any_nil, Bool.or_false, Bool.false_bne,
    Bool.or_eq_true, Bool.and_eq_true, decide_eq_true_eq] at h
  simp only [unicodeIsSpace, Bool.or_eq_true, Bool.and_eq_true, decide_eq_true_eq, beq_iff_eq]
  omega

/-- `strings.Fields` ignores leading white space. -/
theorem Fields_dropWhile (f : Char → Bool) (hf : ∀ c, f c = true → unicodeIsSpace c = true) :
    ∀ s : List Char, Fields (s.dropWhile f) = Fields s := by
  intro s
  induction s with
  | nil => rfl
  | cons c cs ih =>
    by_cases hc : f c = true
    · rw [List.dropWhile_cons_of_pos hc, ih]
      simp [Fields, fieldsLoop, hf c hc]
    · rw [List.dropWhile_cons_of_neg hc]

theorem fieldsLoop_spaces : ∀ (t cur : List Char), (∀ c ∈ t, unicodeIsSpace c = true) →
    fieldsLoop t cur = fieldsLoop [] cur := by
  intro t
  induction t with
  | nil => intro cur _; rfl
  | cons c cs ih =>
    intro cur h
    have hc := h c (by simp)
    have h2 := ih [] (fun d hd => h d (by simp [hd]))
    simp only [fieldsLoop, hc, if_true, h2]
    simp

theorem fieldsLoop_append_spaces (t : List Char) (ht : ∀ c ∈ t, unicodeIsSpace c = true) :
    ∀ (a cur : List Char), fieldsLoop (a ++ t) cur = fieldsLoop a cur := by
  intro a
  induction a with
  | nil => intro cur; exact fieldsLoop_spaces t cur ht
  | cons c cs ih =>
    intro cur
    rw [List.cons_append]
    unfold fieldsLoop
    rw [ih, ih]

/-- `strings.Fields` ignores the white space `strings.TrimSpace` removes. -/
theorem Fields_TrimSpace (s : List Char) : Fields (TrimSpace s) = Fields s := by
  rw [← Fields_dropWhile unicodeIsSpace (fun _ h => h) s]
  unfold TrimSpace
  generalize s.dropWhile unicodeIsSpace = z
  have e : z = (z.reverse.dropWhile unicodeIsSpace).reverse ++
      (z.reverse.takeWhile unicodeIsSpace).reverse := by
    rw [← List.reverse_append, List.takeWhile_append_dropWhile, List.reverse_reverse]
  conv_rhs => rw [e]
  unfold Fields
  rw [fieldsLoop_append_spaces _ (fun c hc => by
    rw [List.mem_reverse] at hc
    exact List.mem_takeWhile_imp hc)]

theorem scoped_zero_text (m p : List Char) :
    "(".toList ++ m ++ ", 0 ".toList ++ p ++ ")".toList =
      '(' :: ([] ++ (m ++ ([] ++ ',' :: ([' '] ++ ([] ++ (['0'] ++
        ((' ' :: p.takeWhile clsSpace.test) ++ (p.dropWhile clsSpace.test ++ [')'])))))))) := by
  have := List.takeWhile_append_dropWhile clsSpace.test p
  simp only [String.toList, List.nil_append, List.cons_append, List.append_assoc,
    List.singleton_append]
  rw [← List.append_assoc (List.takeWhile _ _), this]

/-- With count zero `processNestedModifiers` and `applyModifier` rewrite every
word of the phrase. -/
theorem scoped_zero (U : UnicodeTables) (hU : ParenFree U) (m : List Char)
    (hm : m = "cap".toList ∨ m = "low".toList ∨ m = "up".toList) (p : List Char)
    (h1 : '(' ∉ p) (h2 : ')' ∉ p) :
    processNestedModifiers U ("(".toList ++ m ++ ", 0 ".toList ++ p ++ ")".toList) =
      some (Join ((Fields p).map (applyCase U m)) " ".toList) := by
  rw [scoped_zero_text, processNested_single U hU [] m [] [' '] [] ['0']
    (' ' :: p.takeWhile clsSpace.test) (p.dropWhile clsSpace.test)
    (by simp) hm (by simp) (by decide) (Or.inl rfl) (by simp) (by decide)
    (fun c hc => by
      rcases List.mem_cons.1 hc with rfl | hc
      · decide
      · exact List.mem_takeWhile_imp hc)
    (stopsAt_cons _ _ _ (by decide))
    (fun c hc => by
      have hcp : c ∈ p := (List.dropWhile_sublist _).subset hc
      exact nonParen_test c (fun e => h1 (e ▸ hcp)) (fun e => h2 (e ▸ hcp)))
    (stopsAt_dropWhile clsSpace [')'] (stopsAt_cons _ _ _ (by decide)) p)]
  have e : (Atoi ([] ++ ['0'])).val = 0 := by decide
  rw [e, applyModifier_zero, Fields_TrimSpace, Fields_dropWhile _ isSpace_of_clsSpace]

/-! ## A word followed by a marker `(hex)` or `(bin)` -/

theorem Regex.allIn_sound (p : Char → Bool) (re : Regex) :
    re.allIn p = true → ∀ x, re.Lang x → ∀ c ∈ x, p c = true := by
  induction re with
  | eps => intro _ x hx; simp only [Regex.Lang] at hx; subst hx; simp
  | chr c =>
    intro h x hx
    simp only [Regex.Lang] at hx
    subst hx
    simpa using h
  | cls cc =>
    intro h x hx
    obtain ⟨d, rfl, hd⟩ := hx
    simpa using CClass.allSat_test h hd
  | seq a b iha ihb =>
    intro h x hx
    obtain ⟨u, v, rfl, hu, hv⟩ := hx
    simp only [Regex.allIn, Bool.and_eq_true] at h
    intro c hc
    rcases List.mem_append.1 hc with h1 | h1
    · exact iha h.1 u hu c h1
    · exact ihb h.2 v hv c h1
  | alt a b iha ihb =>
    intro h x hx
    simp only [Regex.allIn, Bool.and_eq_true] at h
    rcases hx with hx | hx
    · exact iha h.1 x hx
    · exact ihb h.2 x hx
  | star g r ih =>
    intro h x hx
    simp only [Regex.allIn] at h
    simp only [Regex.Lang] at hx
    induction hx with
    | nil => simp
    | cons y z hy _ ihz =>
      intro c hc
      rcases List.mem_append.1 hc with h1 | h1
      · exact ih h y hy c h1
      · exact ihz c h1
  | cap i r ih => intro h x hx; exact ih h x hx
  | bol m => intro _ x hx; simp only [Regex.Lang] at hx; subst hx; simp
  | eol m => intro _ x hx; simp only [Regex.Lang] at hx; subst hx; simp
  | wordB => intro _ x hx; simp only [Regex.Lang] at hx; subst hx; simp

theorem Regex.endsAfter_sound (q p : Char → Bool) (re : Regex) :
    re.endsAfter q p = true → ∀ x, re.Lang x →
      ∃ pre c s, x = pre ++ c :: s ∧ q c = true ∧ ∀ d ∈ s, p d = true := by
  induction re with
  | chr c =>
    intro h x hx
    simp only [Regex.Lang] at hx
    subst hx
    exact ⟨[], c, [], rfl, h, by simp⟩
  | cls cc =>
    intro h x hx
    obtain ⟨d, rfl, hd⟩ := hx
    exact ⟨[], d, [], rfl, CClass.allSat_test h hd, by simp⟩
  | seq a b iha ihb =>
    intro h x hx
    obtain ⟨u, v, rfl, hu, hv⟩ := hx
    simp only [Regex.endsAfter, Bool.or_eq_true, Bool.and_eq_true] at h
    rcases h with h | h
    · obtain ⟨pre, c, s, rfl, hq, hs⟩ := ihb h v hv
      exact ⟨u ++ pre, c, s, by simp, hq, hs⟩
    · obtain ⟨pre, c, s, rfl, hq, hs⟩ := iha h.1 u hu
      rcases h.2 with h2 | h2
      · refine ⟨pre, c, s ++ v, by simp, hq, ?_⟩
        intro d hd
        rcases List.mem_append.1 hd with h1 | h1
        · exact hs d h1
        · exact b.allIn_sound p h2 v hv d h1
      · rcases List.eq_nil_or_concat v with rfl | ⟨v2, d, rfl⟩
        · exact ⟨pre, c, s, by simp, hq, hs⟩
        · exact ⟨pre ++ c :: s ++ v2, d, [], by simp,
            b.allIn_sound q h2 _ hv d (by simp), by simp⟩
  | alt a b iha ihb =>
    intro h x hx
    simp only [Regex.endsAfter, Bool.and_eq_true] at h
    rcases hx with hx | hx
    · exact iha h.1 x hx
    · exact ihb h.2 x hx
  | cap i r ih => intro h x hx; exact ih h x hx
  | eps => intro h; simp [Regex.endsAfter] at h
  | star g r _ => intro h; simp [Regex.endsAfter] at h
  | bol m => intro h; simp [Regex.endsAfter] at h
  | eol m => intro h; simp [Regex.endsAfter] at h
  | wordB => intro h; simp [Regex.endsAfter] at h

theorem Regex.startsAfter_sound (p : Char → Bool) (c1 : Char) (re : Regex) :
    re.startsAfter p c1 = true → ∀ x, re.Lang x →
      ∃ s post, x = s ++ c1 :: post ∧ ∀ d ∈ s, p d = true := by
  induction re with
  | chr c =>
    intro h x hx
    simp only [Regex.Lang] at hx
    subst hx
    simp only [Regex.startsAfter, beq_iff_eq] at h
    subst h
    exact ⟨[], [], rfl, by simp⟩
  | seq a b iha ihb =>
    intro h x hx
    obtain ⟨u, v, rfl, hu, hv⟩ := hx
    simp only [Regex.startsAfter, Bool.or_eq_true, Bool.and_eq_true] at h
    rcases h with h | h
    · obtain ⟨s, post, rfl, hs⟩ := iha h u hu
      exact ⟨s, post ++ v, by simp, hs⟩
    · obtain ⟨s, post, rfl, hs⟩ := ihb h.2 v hv
      refine ⟨u ++ s, post, by simp, ?_⟩
      intro d hd
      rcases List.mem_append.1 hd with h1 | h1
      · exact a.allIn_sound p h.1 u hu d h1
      · exact hs d h1
  | alt a b iha ihb =>
    intro h x hx
    simp only [Regex.startsAfter, Bool.and_eq_true] at h
    rcases hx with hx | hx
    · exact iha h.1 x hx
    · exact ihb h.2 x hx
  | cap i r ih => intro h x hx; exact ih h x hx
  | eps => intro h; simp [Regex.startsAfter] at h
  | cls cc => intro h; simp [Regex.startsAfter] at h
  | star g r _ => intro h; simp [Regex.startsAfter] at h
  | bol m => intro h; simp [Regex.startsAfter] at h
  | eol m => intro h; simp [Regex.startsAfter] at h
  | wordB => intro h; simp [Regex.startsAfter] at h

theorem Regex.needsSeq_sound (q p : Char → Bool) (c1 : Char) (re : Regex) :
    re.needsSeq q p c1 = true → ∀ x, re.Lang x →
      ∃ pre c s post, x = pre ++ c :: (s ++ c1 :: post) ∧ q c = true ∧
        ∀ d ∈ s, p d = true := by
  induction re with
  | seq a b iha ihb =>
    intro h x hx
    obtain ⟨u, v, rfl, hu, hv⟩ := hx
    simp only [Regex.needsSeq, Bool.or_eq_true, Bool.and_eq_true] at h
    rcases h with (h | h) | h
    · obtain ⟨pre, c, s, post, rfl, hq, hs⟩ := iha h u hu
      exact ⟨pre, c, s, post ++ v, by simp, hq, hs⟩
    · obtain ⟨pre, c, s, post, rfl, hq, hs⟩ := ihb h v hv
      exact ⟨u ++ pre, c, s, post, by simp, hq, hs⟩
    · obtain ⟨pre, c, s, rfl, hq, hs⟩ := a.endsAfter_sound q p h.1 u hu
      obtain ⟨s2, post, rfl, hs2⟩ := b.startsAfter_sound p c1 h.2 v hv
      refine ⟨pre, c, s ++ s2, post, by simp, hq, ?_⟩
      intro d hd
      rcases List.mem_append.1 hd with h1 | h1
      · exact hs d h1
      · exact hs2 d h1
  | alt a b iha ihb =>
    intro h x hx
    simp only [Regex.needsSeq, Bool.and_eq_true] at h
    rcases hx with hx | hx
    · exact iha h.1 x hx
    · exact ihb h.2 x hx
  | cap i r ih => intro h x hx; exact ih h x hx
  | eps => intro h; simp [Regex.needsSeq] at h
  | chr c => intro h; simp [Regex.needsSeq] at h
  | cls cc => intro h; simp [Regex.needsSeq] at h
  | star g r _ => intro h; simp [Regex.needsSeq] at h
  | bol m => intro h; simp [Regex.needsSeq] at h
  | eol m => intro h; simp [Regex.needsSeq] at h
  | wordB => intro h; simp [Regex.needsSeq] at h

/-- A pattern whose matches all contain a certain sequence finds nothing in a
text without that sequence. -/
theorem Regex.exec_none_of_needsSeq (re : Regex) (q p : Char → Bool) (c1 : Char)
    (hre : re.needsSeq q p c1 = true) (src : List Char) (hsrc : NoSeq q p c1 src) :
    re.exec src 0 = none := by
  cases h : re.exec src 0 with
  | none => rfl
  | some m =>
    exfalso
    obtain ⟨_, _, _, hl, hd, _⟩ := re.exec_sound src 0 m h (Nat.zero_le _)
    obtain ⟨pre, c, s, post, hx, hq, hs⟩ := re.needsSeq_sound q p c1 hre _ hl
    have e : src = (src.take m.start ++ pre) ++ c :: (s ++ c1 :: (post ++ src.drop m.stop)) := by
      conv_lhs => rw [← List.take_append_drop m.start src, hd, hx]
      simp
    exact hsrc _ c s _ e hq hs

/-- The place of a rune that occurs once. -/
theorem split_unique (c0 : Char) : ∀ (w t a b : List Char), c0 ∉ w → c0 ∉ t →
    w ++ c0 :: t = a ++ c0 :: b → a = w ∧ b = t := by
  intro w
  induction w with
  | nil =>
    intro t a b _ ht h
    cases a with
    | nil => simp at h; exact ⟨rfl, h.symm⟩
    | cons x xs =>
      simp only [List.nil_append, List.cons_append, List.cons.injEq] at h
      exact absurd (by rw [h.2]; simp) ht
  | cons y ys ih =>
    intro t a b hw ht h
    cases a with
    | nil =>
      simp only [List.nil_append, List.cons_append, List.cons.injEq] at h
      exact absurd (by simp [h.1]) hw
    | cons x xs =>
      simp only [List.cons_append, List.cons.injEq] at h
      obtain ⟨h1, h2⟩ := ih t xs b (fun hm => hw (by simp [hm])) ht h.2
      exact ⟨by rw [h.1, h1], h2⟩

theorem needsSeq_reMultipleTypes :
    reMultipleTypes.needsSeq clsHex.test clsSpace.test '(' = true := by rfl
theorem needsSeq_reConversion :
    reConversion.needsSeq clsHex.test clsSpace.test '(' = true := by rfl
theorem needsSeq_reHexNum : reHexNum.needsSeq clsHex.test clsSpace.test '(' = true := by rfl
theorem needsSeq_reBinNum : reBinNum.needsSeq clsHex.test clsSpace.test '(' = true := by rfl
theorem needsSeq_reMarker_hex :
    (reMarker "hex".toList).needsSeq isOpenParen clsSpace.test 'h' = true := by rfl
theorem needsSeq_reWordMarker_hex :
    (reWordMarker "hex".toList).needsSeq isOpenParen clsSpace.test 'h' = true := by rfl
theorem needsComma_reBinCount : reBinCount.needs isComma = true := by rfl
theorem needsComma_reHexCount : reHexCount.needs isComma = true := by rfl

theorem space_not_word (c : Char) (h : clsSpace.test c = true) : isWordChar c = false := by
  cases hw : isWordChar c with
  | false => rfl
  | true =>
    have := isSpace_of_word hw
    rw [isSpace_of_clsSpace c h] at this
    exact absurd this (by simp)

/-- A word that does not end with a hexadecimal digit, followed by `(` and a
text without `(`: no hexadecimal digit is followed by blanks and `(`. -/
theorem noSeq_word_paren (w tail : List Char) (hw : ∀ c ∈ w, isWordChar c = true)
    (hl : ∀ c, w.getLast? = some c → clsHex.test c = false) (ht : '(' ∉ tail) :
    NoSeq clsHex.test clsSpace.test '(' (w ++ '(' :: tail) := by
  intro pre c s post h hq hs
  have hwp : '(' ∉ w := fun hm => absurd (hw _ hm) (by decide)
  have h2 : w ++ '(' :: tail = (pre ++ c :: s) ++ '(' :: post := by rw [h]; simp
  obtain ⟨h3, _⟩ := split_unique '(' w tail _ post hwp ht h2
  rcases List.eq_nil_or_concat s with rfl | ⟨s2, d, rfl⟩
  · have := hl c (by rw [← h3]; simp)
    rw [hq] at this
    exact absurd this (by simp)
  · have h4 := hw d (by rw [← h3]; simp)
    rw [space_not_word d (hs d (by simp))] at h4
    exact absurd h4 (by simp)

/-- In a word followed by `(bin)` no `(` is followed by blanks and `h`. -/
theorem noSeq_word_bin (w : List Char) (hw : ∀ c ∈ w, isWordChar c = true) :
    NoSeq isOpenParen clsSpace.test 'h' (w ++ "(bin)".toList) := by
  intro pre c s post h hq hs
  simp only [isOpenParen, beq_iff_eq] at hq
  subst hq
  have hwp : '(' ∉ w := fun hm => absurd (hw _ hm) (by decide)
  obtain ⟨_, h3⟩ := split_unique '(' w "bin)".toList pre (s ++ 'h' :: post) hwp (by decide) h
  cases s with
  | nil =>
    simp only [List.nil_append] at h3
    exact absurd (List.head_eq_of_cons_eq h3) (by decide)
  | cons d ds =>
    have h5 := List.head_eq_of_cons_eq h3
    have := hs d (by simp)
    rw [h5] at this
    exact absurd this (by decide)

theorem marker_exact (name : List Char) (prev : Option Char) (rest : List Char)
    (hstop : StopsAt clsSpace (name ++ ')' :: rest)) (pos : Nat)
    (caps : List (Nat × Nat × Nat)) :
    Exact (reMarker name) ⟨prev, '(' :: (name ++ ')' :: rest), pos, caps⟩
      ⟨some ')', rest, pos + 1 + name.length + 1, caps⟩ :=
  Exact_seq (Exact_chr '(' prev _ pos caps)
    (Exact_seq (Exact_star_cls_stops true clsSpace _ hstop (some '(') (pos + 1) caps)
    (Exact_seq (Exact_lit name (some '(') (')' :: rest) (pos + 1) caps)
    (Exact_seq (Exact_star_cls_stops true clsSpace (')' :: rest)
      (stopsAt_cons _ _ _ (by decide)) _ _ caps)
    (Exact_seq (Exact_chr ')' _ rest _ caps) (Exact_eps _)))))

/-- Removing the marker that follows a word leaves the word. -/
theorem marker_remove (name w : List Char) (hw : ∀ c ∈ w, isWordChar c = true)
    (hstop : StopsAt clsSpace (name ++ [')'])) :
    (reMarker name).ReplaceAllString (w ++ '(' :: (name ++ [')'])) [] = some w := by
  have h0 : (reMarker name).exec (w ++ '(' :: (name ++ [')'])) 0 =
      some ⟨0 + w.length, 0 + w.length + 1 + name.length + 1, []⟩ := by
    have hskip : ∀ c ∈ w, ∀ prev cs pos, Fails (reMarker name) ⟨prev, c :: cs, pos, []⟩ :=
      fun c hc prev cs pos => Fails_seq_left _ (Fails_chr_ne '(' c
        (fun e => absurd (hw c hc) (by rw [e]; decide)) prev cs pos [])
    rw [Regex.exec_zero, Regex.searchFrom_skip (reMarker name) w hskip _ none 0]
    exact Regex.searchFrom_of_detOK _ _ _ _ _ (Exact_detOK (marker_exact name _ [] hstop _ []))
  have e : 0 + w.length + 1 + name.length + 1 = (w ++ '(' :: (name ++ [')'])).length := by
    simp
    omega
  have := replaceAll_single (reMarker name) (w ++ '(' :: (name ++ [')']))
    (fun m => some (expandTemplate [] (w ++ '(' :: (name ++ [')'])) m)) _ [] h0
    (by simp only; omega) (by simp only; omega)
    (by simp only; rw [e]; exact Regex.exec_end_none _ nonWord (needs_reMarker name) _) rfl
  unfold Regex.ReplaceAllString
  rw [this]
  simp
  omega

theorem isComma_of_word {t : List Char} (ht : ∀ c ∈ t, isWordChar c = true) :
    ∀ c ∈ t, isComma c = false := by
  intro c hc
  cases h : isComma c with
  | false => rfl
  | true =>
    simp only [isComma, beq_iff_eq] at h
    subst h
    exact absurd (ht _ hc) (by decide)

/-- The first three passes leave a word followed by a marker alone, when the
word does not end with a hexadecimal digit. -/
theorem word_marker_first_passes (U : UnicodeTables) (w name : List Char)
    (hw : ∀ c ∈ w, isWordChar c = true)
    (hl : ∀ c, w.getLast? = some c → clsHex.test c = false)
    (hname : ∀ c ∈ name, isWordChar c = true) :
    processMultipleTypes U (w ++ '(' :: (name ++ [')'])) = some (w ++ '(' :: (name ++ [')'])) ∧
    processConversion (w ++ '(' :: (name ++ [')'])) = some (w ++ '(' :: (name ++ [')'])) ∧
    processConversioncount (w ++ '(' :: (name ++ [')'])) =
      some (w ++ '(' :: (name ++ [')'])) := by
  have hno : '(' ∉ name ++ [')'] := by
    intro h
    rcases List.mem_append.1 h with h | h
    · exact absurd (hname _ h) (by decide)
    · exact absurd h (by decide)
  have hseq := noSeq_word_paren w (name ++ [')']) hw hl hno
  have hcomma : ∀ c ∈ w ++ '(' :: (name ++ [')']), isComma c = false := by
    intro c hc
    rcases List.mem_append.1 hc with h | h
    · exact isComma_of_word hw c h
    · rcases List.mem_cons.1 h with rfl | h
      · decide
      · rcases List.mem_append.1 h with h | h
        · exact isComma_of_word hname c h
        · simp only [List.mem_singleton] at h
          subst h
          decide
  refine ⟨?_, ?_, ?_⟩
  · exact Regex.ReplaceAllStringFunc_of_no_match _ _ _
      (Regex.exec_none_of_needsSeq _ _ _ _ needsSeq_reMultipleTypes _ hseq)
  · exact Regex.ReplaceAllStringFunc_of_no_match _ _ _
      (Regex.exec_none_of_needsSeq _ _ _ _ needsSeq_reConversion _ hseq)
  · unfold processConversioncount
    rw [Regex.ReplaceAllStringFunc_of_no_match _ _ _
      (Regex.exec_none_of_needs _ isComma needsComma_reBinCount _ hcomma 0)]
    exact Regex.ReplaceAllStringFunc_of_no_match _ _ _
      (Regex.exec_none_of_needs _ isComma needsComma_reHexCount _ hcomma 0)

theorem processHexNumbers_word_hex (w : List Char) (hw : ∀ c ∈ w, isWordChar c = true)
    (hl : ∀ c, w.getLast? = some c → clsHex.test c = false) :
    processHexNumbers (w ++ "(hex)".toList) = some w := by
  have hseq := noSeq_word_paren w "hex)".toList hw hl (by decide)
  unfold processHexNumbers
  rw [show w ++ "(hex)".toList = w ++ '(' :: ("hex".toList ++ [')']) from rfl,
    fixLoop_of_fixed _ (w ++ '(' :: ("hex".toList ++ [')']))
      (Regex.ReplaceAllStringFunc_of_no_match _ _ _
        (Regex.exec_none_of_needsSeq _ _ _ _ needsSeq_reHexNum _ hseq))]
  simp only [Option.bind_eq_bind, Option.some_bind]
  rw [marker_remove "hex".toList w hw (stopsAt_cons _ _ _ (by decide))]
  exact Regex.ReplaceAllString_of_no_match _ _ _
    (Regex.exec_none_of_needs _ nonWord (needs_reWordMarker _) w (nonWord_of_word hw) 0)

theorem processHexNumbers_word_bin (w : List Char) (hw : ∀ c ∈ w, isWordChar c = true)
    (hl : ∀ c, w.getLast? = some c → clsHex.test c = false) :
    processHexNumbers (w ++ "(bin)".toList) = some (w ++ "(bin)".toList) := by
  have hseq := noSeq_word_paren w "bin)".toList hw hl (by decide)
  have hseq2 := noSeq_word_bin w hw
  unfold processHexNumbers
  rw [fixLoop_of_fixed _ (w ++ "(bin)".toList) (Regex.ReplaceAllStringFunc_of_no_match _ _ _
      (Regex.exec_none_of_needsSeq _ _ _ _ needsSeq_reHexNum _ hseq))]
  simp only [Option.bind_eq_bind, Option.some_bind]
  rw [Regex.ReplaceAllString_of_no_match _ _ _
    (Regex.exec_none_of_needsSeq _ _ _ _ needsSeq_reMarker_hex _ hseq2)]
  exact Regex.ReplaceAllString_of_no_match _ _ _
    (Regex.exec_none_of_needsSeq _ _ _ _ needsSeq_reWordMarker_hex _ hseq2)

theorem processBinaryNumbers_word_bin (w : List Char) (hw : ∀ c ∈ w, isWordChar c = true)
    (hl : ∀ c, w.getLast? = some c → clsHex.test c = false) :
    processBinaryNumbers (w ++ "(bin)".toList) = some w := by
  have hseq := noSeq_word_paren w "bin)".toList hw hl (by decide)
  unfold processBinaryNumbers
  rw [show w ++ "(bin)".toList = w ++ '(' :: ("bin".toList ++ [')']) from rfl,
    fixLoop_of_fixed _ (w ++ '(' :: ("bin".toList ++ [')']))
      (Regex.ReplaceAllStringFunc_of_no_match _ _ _
        (Regex.exec_none_of_needsSeq _ _ _ _ needsSeq_reBinNum _ hseq))]
  simp only [Option.bind_eq_bind, Option.some_bind]
  rw [marker_remove "bin".toList w hw (stopsAt_cons _ _ _ (by decide))]
  exact Regex.ReplaceAllString_of_no_match _ _ _
    (Regex.exec_none_of_needs _ nonWord (needs_reWordMarker _) w (nonWord_of_word hw) 0)

/-- If the first five passes turn `text` into a text of word characters, that
text is the result of the pipeline. -/
theorem Process_of_number_passes (U : UnicodeTables) (text t1 t2 t3 t4 t : List Char)
    (h1 : processMultipleTypes U text = some t1) (h2 : processConversion t1 = some t2)
    (h3 : processConversioncount t2 = some t3) (h4 : processHexNumbers t3 = some t4)
    (h5 : processBinaryNumbers t4 = some t) (ht : ∀ c ∈ t, isWordChar c = true) :
    Process U text = some t := by
  have hn := nonWord_of_word ht
  simp only [Process, h1, h2, h3, h4, h5, Option.bind_eq_bind, Option.some_bind,
    processCaseModifiers_word U t hn, processMultiModifiers_word U t hn,
    processNestedModifiers_word U t hn, processPunctuation_word t ht, processQuotes_word t hn,
    processArticles_word U t hn, processStandaloneModifiers_word t hn]

theorem Process_word_hex (U : UnicodeTables) (w : List Char)
    (hw : ∀ c ∈ w, isWordChar c = true)
    (hl : ∀ c, w.getLast? = some c → clsHex.test c = false) :
    Process U (w ++ "(hex)".toList) = some w := by
  obtain ⟨h1, h2, h3⟩ := word_marker_first_passes U w "hex".toList hw hl (by decide)
  exact Process_of_number_passes U _ _ _ _ _ w h1 h2 h3 (processHexNumbers_word_hex w hw hl)
    (processBinaryNumbers_word w (nonWord_of_word hw)) hw

theorem Process_word_bin (U : UnicodeTables) (w : List Char)
    (hw : ∀ c ∈ w, isWordChar c = true)
    (hl : ∀ c, w.getLast? = some c → clsHex.test c = false) :
    Process U (w ++ "(bin)".toList) = some w := by
  obtain ⟨h1, h2, h3⟩ := word_marker_first_passes U w "bin".toList hw hl (by decide)
  exact Process_of_number_passes U _ _ _ _ _ w h1 h2 h3 (processHexNumbers_word_bin w hw hl)
    (processBinaryNumbers_word_bin w hw hl) hw

/-! ## Words separated by single blanks -/

theorem mark_reMultipleTypes : reMultipleTypes.needs isMark = true := by rfl
theorem mark_reConversion : reConversion.needs isMark = true := by rfl
theorem mark_reBinCount : reBinCount.needs isMark = true := by rfl
theorem mark_reHexCount : reHexCount.needs isMark = true := by rfl
theorem mark_reBinNum : reBinNum.needs isMark = true := by rfl
theorem mark_reHexNum : reHexNum.needs isMark = true := by rfl
theorem mark_reMarker (name : List Char) : (reMarker name).needs isMark = true := by rfl
theorem mark_reWordMarker (name : List Char) : (reWordMarker name).needs isMark = true := by
  rfl
theorem mark_reStandaloneLine : reStandaloneLine.needs isMark = true := by rfl
theorem mark_reStandaloneInline : reStandaloneInline.needs isMark = true := by rfl
theorem mark_reNested : reNested.needs isMark = true := by rfl
theorem mark_reCaseCount : reCaseCount.needs isMark = true := by rfl
theorem mark_reCaseWord : reCaseWord.needs isMark = true := by rfl
theorem mark_reMultiModifiers : reMultiModifiers.needs isMark = true := by rfl
theorem mark_reDots : reDots.needs isMark = true := by rfl
theorem mark_reAttachBang : (reAttachMark '!').needs isMark = true := by rfl
theorem mark_reAttachQuery : (reAttachMark '?').needs isMark = true := by rfl
theorem mark_reSpaceAfterBang : (reSpaceAfterMark '!').needs isMark = true := by rfl
theorem mark_reSpaceAfterQuery : (reSpaceAfterMark '?').needs isMark = true := by rfl
theorem mark_reBangQuery : (reMarkPair '!' '?').needs isMark = true := by rfl
theorem mark_reQueryBang : (reMarkPair '?' '!').needs isMark = true := by rfl
theorem mark_reMarksDot : reMarksDot.needs isMark = true := by rfl
theorem mark_reSeparators : reSeparators.needs isMark = true := by rfl
theorem mark_reTwoMarks : reTwoMarks.needs isMark = true := by rfl
theorem mark_reFinalMark : reFinalMark.needs isMark = true := by rfl
theorem mark_reQuoted39 : (reQuoted (Char.ofNat 39)).needs isMark = true := by rfl
theorem mark_reQuoted34 : (reQuoted (Char.ofNat 34)).needs isMark = true := by rfl

theorem mem_Join : ∀ (ws : List (List Char)) (c : Char), c ∈ Join ws " ".toList →
    c = ' ' ∨ ∃ w ∈ ws, c ∈ w := by
  intro ws
  induction ws with
  | nil => intro c h; simp [Join] at h
  | cons w ws ih =>
    intro c h
    cases ws with
    | nil => exact Or.inr ⟨w, by simp, by simpa [Join] using h⟩
    | cons w2 ws2 =>
      simp only [Join, List.mem_append] at h
      rcases h with (h | h) | h
      · exact Or.inr ⟨w, by simp, h⟩
      · left
        simpa using h
      · rcases ih c h with h1 | ⟨w3, h3, h4⟩
        · exact Or.inl h1
        · exact Or.inr ⟨w3, List.mem_cons_of_mem _ h3, h4⟩

theorem mark_of_clean (ws : List (List Char)) (h : CleanWords ws) :
    ∀ c ∈ Join ws " ".toList, isMark c = false := by
  intro c hc
  rcases mem_Join ws c hc with rfl | ⟨w, hw, hcw⟩
  · decide
  · simp [isMark, (h w hw).2.1 c hcw]

theorem CleanWords_tail {w : List Char} {ws : List (List Char)} (h : CleanWords (w :: ws)) :
    CleanWords ws := fun x hx => h x (List.mem_cons_of_mem _ hx)

theorem word_not_space (c : Char) (h : isWordChar c = true) : clsSpace.test c = false := by
  cases hs : clsSpace.test c with
  | false => rfl
  | true =>
    rw [space_not_word c hs] at h
    exact absurd h (by simp)

/-- The pattern of `processArticles` does not match where there is no word
boundary. -/
theorem article_fails_inside (prev : Option Char) (rest : List Char) (pos : Nat)
    (h : optWord prev = optWord rest.head?) : Fails reArticle ⟨prev, rest, pos, []⟩ := by
  intro k
  simp [reArticle, Regex.cat, Regex.run, h]

/-- The pattern of `processArticles` does not match before a rune other than
`a` and `A`, nor at the end of the text. -/
theorem article_fails_other (prev : Option Char) (rest : List Char) (pos : Nat)
    (h : ∀ c ∈ rest.head?, CClass.test ⟨false, [(65, 65), (97, 97)]⟩ c = false) :
    Fails reArticle ⟨prev, rest, pos, []⟩ := by
  intro k
  cases rest with
  | nil => simp [reArticle, Regex.cat, Regex.run]
  | cons c cs =>
    have hc := h c (by simp)
    simp [reArticle, Regex.cat, Regex.run, hc]

theorem article_test_a (c : Char) :
    CClass.test ⟨false, [(65, 65), (97, 97)]⟩ c = (c == 'a' || c == 'A') := by
  have e1 : (c.toNat = 97) = (c = 'a') := by
    apply propext
    constructor
    · intro h
      have := Char.ofNat_toNat c
      rw [h] at this
      exact this.symm
    · intro h
      subst h
      rfl
  have e2 : (c.toNat = 65) = (c = 'A') := by
    apply propext
    constructor
    · intro h
      have := Char.ofNat_toNat c
      rw [h] at this
      exact this.symm
    · intro h
      subst h
      rfl
  by_cases h1 : c = 'a'
  · subst h1; rfl
  · by_cases h2 : c = 'A'
    · subst h2; rfl
    · have n1 : ¬ c.toNat = 97 := by rw [e1]; exact h1
      have n2 : ¬ c.toNat = 65 := by rw [e2]; exact h2
      have r1 : (c == 'a') = false := by simpa using h1
      have r2 : (c == 'A') = false := by simpa using h2
      rw [r1, r2]
      simp only [CClass.test, List.any_cons, List.any_nil, Bool.or_false, Bool.false_bne,
        Bool.or_self, Bool.or_eq_false_iff, Bool.and_eq_false_imp, decide_eq_true_eq,
        decide_eq_false_iff_not]
      omega

theorem article_test_n (c : Char) :
    CClass.test ⟨false, [(78, 78), (110, 110)]⟩ c = (c == 'n' || c == 'N') := by
  have e1 : (c.toNat = 110) = (c = 'n') := by
    apply propext
    constructor
    · intro h
      have := Char.ofNat_toNat c
      rw [h] at this
      exact this.symm
    · intro h
      subst h
      rfl
  have e2 : (c.toNat = 78) = (c = 'N') := by
    apply propext
    constructor
    · intro h
      have := Char.ofNat_toNat c
      rw [h] at this
      exact this.symm
    · intro h
      subst h
      rfl
  by_cases h1 : c = 'n'
  · subst h1; rfl
  · by_cases h2 : c = 'N'
    · subst h2; rfl
    · have n1 : ¬ c.toNat = 110 := by rw [e1]; exact h1
      have n2 : ¬ c.toNat = 78 := by rw [e2]; exact h2
      have r1 : (c == 'n') = false := by simpa using h1
      have r2 : (c == 'N') = false := by simpa using h2
      rw [r1, r2]
      simp only [CClass.test, List.any_cons, List.any_nil, Bool.or_false, Bool.false_bne,
        Bool.or_self, Bool.or_eq_false_iff, Bool.and_eq_false_imp, decide_eq_true_eq,
        decide_eq_false_iff_not]
      omega

/-- The pattern of `processArticles` does not match at the start of a word
that is no article. -/
theorem article_fails_word (w rest : List Char) (hne : w ≠ [])
    (hw : ∀ c ∈ w, isWordChar c = true) (hart : isArticle w = false) (prev : Option Char) (pos : Nat) :
    Fails reArticle ⟨prev, w ++ rest, pos, []⟩ := by
  cases w with
  | nil => exact absurd rfl hne
  | cons c cs =>
    by_cases hc : CClass.test ⟨false, [(65, 65), (97, 97)]⟩ c = true
    · cases cs with
      | nil =>
        exfalso
        rw [article_test_a] at hc
        simp only [isArticle] at hart
        rw [hc] at hart
        exact absurd hart (by simp)
      | cons d ds =>
        have hd := word_not_space d (hw d (by simp))
        by_cases hn : CClass.test ⟨false, [(78, 78), (110, 110)]⟩ d = true
        · cases ds with
          | nil =>
            exfalso
            rw [article_test_a] at hc
            rw [article_test_n] at hn
            simp only [isArticle] at hart
            rw [hc, hn] at hart
            exact absurd hart (by simp)
          | cons e es =>
            have he := word_not_space e (hw e (by simp))
            intro k
            simp [reArticle, Regex.cat, Regex.run, Regex.opt, reSpaces1, Regex.plus, hc, hn,
              hd, he]
        · intro k
          simp [reArticle, Regex.cat, Regex.run, Regex.opt, reSpaces1, Regex.plus, hc, hn, hd]
    · exact article_fails_other _ _ _ (fun x hx => by
        simp only [List.cons_append, List.head?_cons, Option.mem_def, Option.some.injEq] at hx
        subst hx
        simpa using hc)

theorem Regex.searchFrom_nil_of_fails (re : Regex) (prev : Option Char) (pos : Nat)
    (h : Fails re ⟨prev, [], pos, []⟩) : re.searchFrom prev [] pos = none := by
  simp [Regex.searchFrom, h some]

theorem lastOr_cons (prev : Option Char) (c : Char) (cs : List Char) :
    lastOr prev (c :: cs) = lastOr (some c) cs := by
  rw [show c :: cs = [c] ++ cs from rfl, lastOr_append, lastOr_singleton]

theorem optWord_lastOr (p : Char) (hp : isWordChar p = true) :
    ∀ (cs : List Char), (∀ c ∈ cs, isWordChar c = true) →
      optWord (lastOr (some p) cs) = true := by
  intro cs
  induction cs generalizing p with
  | nil => intro _; simpa [lastOr, optWord] using hp
  | cons c cs ih =>
    intro h
    rw [lastOr_cons]
    exact ih c (h c (by simp)) (fun d hd => h d (by simp [hd]))

/-- The search for an article walks over the inside of a word. -/
theorem article_search_inside : ∀ (cs : List Char), (∀ c ∈ cs, isWordChar c = true) →
    ∀ (p : Char), isWordChar p = true → ∀ (rest : List Char) (pos : Nat),
      reArticle.searchFrom (some p) (cs ++ rest) pos =
        reArticle.searchFrom (lastOr (some p) cs) rest (pos + cs.length) := by
  intro cs
  induction cs with
  | nil => intro _ p _ rest pos; rfl
  | cons c cs ih =>
    intro h p hp rest pos
    have hc := h c (by simp)
    rw [List.cons_append, reArticle.searchFrom_cons_of_fails (some p) c _ pos
      (article_fails_inside _ _ _ (by simp [optWord, hp, hc])),
      ih (fun d hd => h d (by simp [hd])) c hc, lastOr_cons,
      show pos + (c :: cs).length = pos + 1 + cs.length by simp; omega]

/-- The pattern of `processArticles` finds nothing in words separated by single
blanks when no word is an article. -/
theorem article_search_clean : ∀ (ws : List (List Char)), CleanWords ws →
    ∀ (prev : Option Char) (pos : Nat), optWord prev = false →
      reArticle.searchFrom prev (Join ws " ".toList) pos = none := by
  intro ws
  induction ws with
  | nil =>
    intro _ prev pos hp
    exact reArticle.searchFrom_nil_of_fails prev pos
      (article_fails_inside _ _ _ (by rw [hp]; rfl))
  | cons w ws ih =>
    intro h prev pos hp
    obtain ⟨hne, hw, hart⟩ := h w (by simp)
    cases w with
    | nil => exact absurd rfl hne
    | cons c cs =>
      have hc := hw c (by simp)
      have hcs : ∀ d ∈ cs, isWordChar d = true := fun d hd => hw d (by simp [hd])
      cases ws with
      | nil =>
        have hf := article_fails_word (c :: cs) [] hne hw hart prev pos
        rw [List.append_nil] at hf
        have h2 := article_search_inside cs hcs c hc [] (pos + 1)
        rw [List.append_nil] at h2
        rw [show Join [c :: cs] " ".toList = c :: cs from rfl,
          reArticle.searchFrom_cons_of_fails prev c cs pos hf, h2]
        exact reArticle.searchFrom_nil_of_fails _ _ (article_fails_other _ _ _ (by simp))
      | cons w2 ws2 =>
        have hf := article_fails_word (c :: cs) (' ' :: Join (w2 :: ws2) " ".toList) hne hw hart
          prev pos
        rw [List.cons_append] at hf
        rw [show Join ((c :: cs) :: w2 :: ws2) " ".toList =
            c :: (cs ++ ' ' :: Join (w2 :: ws2) " ".toList) by simp [Join],
          reArticle.searchFrom_cons_of_fails prev c _ pos hf,
          article_search_inside cs hcs c hc _ (pos + 1),
          reArticle.searchFrom_cons_of_fails _ ' ' _ _
            (article_fails_other _ _ _ (fun x hx => by
              simp only [List.head?_cons, Option.mem_def, Option.some.injEq] at hx
              subst hx
              decide))]
        exact ih (CleanWords_tail h) _ _ rfl

theorem Join_head (d : Char) (ds : List Char) (ws : List (List Char)) :
    ∃ t, Join ((d :: ds) :: ws) " ".toList = d :: t := by
  cases ws with
  | nil => exact ⟨ds, rfl⟩
  | cons w ws => exact ⟨ds ++ " ".toList ++ Join (w :: ws) " ".toList, by simp [Join]⟩

/-- The pattern `\s{2,}` finds nothing in words separated by single blanks. -/
theorem spaceRun_search_clean : ∀ (ws : List (List Char)), CleanWords ws →
    ∀ (prev : Option Char) (pos : Nat),
      reSpaceRun.searchFrom prev (Join ws " ".toList) pos = none := by
  intro ws
  induction ws with
  | nil =>
    intro _ prev pos
    exact reSpaceRun.searchFrom_nil_of_fails prev pos (Fails_seq_left _ (Fails_cls_nil _ _ _ _))
  | cons w ws ih =>
    intro h prev pos
    obtain ⟨hne, hw, _⟩ := h w (by simp)
    have hskip : ∀ c ∈ w, ∀ prev cs pos, Fails reSpaceRun ⟨prev, c :: cs, pos, []⟩ :=
      fun c hc prev cs pos =>
        Fails_seq_left _ (Fails_cls_ne _ c (word_not_space c (hw c hc)) prev cs pos [])
    cases ws with
    | nil =>
      have := reSpaceRun.searchFrom_skip w hskip [] prev pos
      rw [List.append_nil] at this
      rw [show Join [w] " ".toList = w from by cases w <;> rfl, this]
      exact reSpaceRun.searchFrom_nil_of_fails _ _ (Fails_seq_left _ (Fails_cls_nil _ _ _ _))
    | cons w2 ws2 =>
      obtain ⟨hne2, hw2, _⟩ := h w2 (by simp)
      cases w2 with
      | nil => exact absurd rfl hne2
      | cons d ds =>
        obtain ⟨t, ht⟩ := Join_head d ds ws2
        have hd := word_not_space d (hw2 d (by simp))
        have hsp : Fails reSpaceRun
            ⟨lastOr prev w, ' ' :: Join ((d :: ds) :: ws2) " ".toList, pos + w.length, []⟩ := by
          rw [ht]
          exact Fails_seq_right (Exact_cls clsSpace ' ' (by decide) _ _ _ _)
            (Fails_seq_left _ (Fails_cls_ne _ d hd _ _ _ _))
        rw [show Join (w :: (d :: ds) :: ws2) " ".toList =
            w ++ ' ' :: Join ((d :: ds) :: ws2) " ".toList by simp [Join],
          reSpaceRun.searchFrom_skip w hskip _ prev pos,
          reSpaceRun.searchFrom_cons_of_fails _ ' ' _ _ hsp]
        exact ih (CleanWords_tail h) _ _

theorem dropWhile_of_head (p : Char → Bool) (s : List Char)
    (h : ∀ c ∈ s.head?, p c = false) : s.dropWhile p = s := by
  cases s with
  | nil => rfl
  | cons c cs => simp [List.dropWhile, h c (by simp)]

theorem TrimSpace_of_ends (s : List Char) (h1 : ∀ c ∈ s.head?, unicodeIsSpace c = false)
    (h2 : ∀ c ∈ s.getLast?, unicodeIsSpace c = false) : TrimSpace s = s := by
  unfold TrimSpace
  rw [dropWhile_of_head _ s h1, dropWhile_of_head _ s.reverse (by
    rw [List.head?_reverse]
    exact h2), List.reverse_reverse]

theorem Join_last : ∀ (ws : List (List Char)), CleanWords ws →
    ∀ c ∈ (Join ws " ".toList).getLast?, isWordChar c = true := by
  intro ws
  induction ws with
  | nil => intro _ c hc; simp [Join] at hc
  | cons w ws ih =>
    intro h c hc
    obtain ⟨hne, hw, _⟩ := h w (by simp)
    cases ws with
    | nil =>
      rw [show Join [w] " ".toList = w from by cases w <;> rfl] at hc
      exact hw c (List.mem_of_mem_getLast? hc)
    | cons w2 ws2 =>
      obtain ⟨hne2, _, _⟩ := h w2 (by simp)
      cases w2 with
      | nil => exact absurd rfl hne2
      | cons d ds =>
        obtain ⟨t, ht⟩ := Join_head d ds ws2
        rw [show Join (w :: (d :: ds) :: ws2) " ".toList =
            (w ++ " ".toList) ++ Join ((d :: ds) :: ws2) " ".toList by simp [Join],
          List.getLast?_append] at hc
        have ih2 := ih (CleanWords_tail h)
        rw [ht] at hc ih2
        cases hl : (d :: t).getLast? with
        | none => simp at hl
        | some e =>
          rw [hl] at hc
          have hc2 : some e = some c := hc
          simp only [Option.some.injEq] at hc2
          subst hc2
          exact ih2 e hl

theorem TrimSpace_clean (ws : List (List Char)) (h : CleanWords ws) :
    TrimSpace (Join ws " ".toList) = Join ws " ".toList := by
  refine TrimSpace_of_ends _ ?_ (fun c hc => isSpace_of_word (Join_last ws h c hc))
  intro c hc
  cases ws with
  | nil => simp [Join] at hc
  | cons w ws =>
    obtain ⟨hne, hw, _⟩ := h w (by simp)
    cases w with
    | nil => exact absurd rfl hne
    | cons d ds =>
      obtain ⟨t, ht⟩ := Join_head d ds ws
      rw [ht] at hc
      simp only [List.head?_cons, Option.mem_def, Option.some.injEq] at hc
      subst hc
      exact isSpace_of_word (hw d (by simp))

theorem processPunctuation_clean (ws : List (List Char)) (h : CleanWords ws) :
    processPunctuation (Join ws " ".toList) = some (Join ws " ".toList) := by
  have hn := mark_of_clean ws h
  generalize ht : Join ws " ".toList = t at hn
  unfold processPunctuation
  rw [Regex.ReplaceAllStringFunc_of_no_match _ _ _
    (Regex.exec_none_of_needs _ isMark mark_reDots t hn 0)]
  simp only [Option.bind_eq_bind, Option.some_bind]
  rw [Regex.ReplaceAllString_of_no_match _ _ _
    (Regex.exec_none_of_needs _ isMark mark_reAttachBang t hn 0)]
  simp only [Option.some_bind]
  rw [Regex.ReplaceAllString_of_no_match _ _ _
    (Regex.exec_none_of_needs _ isMark mark_reSpaceAfterBang t hn 0)]
  simp only [Option.some_bind]
  rw [Regex.ReplaceAllString_of_no_match _ _ _
    (Regex.exec_none_of_needs _ isMark mark_reAttachQuery t hn 0)]
  simp only [Option.some_bind]
  rw [Regex.ReplaceAllString_of_no_match _ _ _
    (Regex.exec_none_of_needs _ isMark mark_reSpaceAfterQuery t hn 0)]
  simp only [Option.some_bind]
  rw [Regex.ReplaceAllString_of_no_match _ _ _
    (Regex.exec_none_of_needs _ isMark mark_reBangQuery t hn 0)]
  simp only [Option.some_bind]
  rw [Regex.ReplaceAllString_of_no_match _ _ _
    (Regex.exec_none_of_needs _ isMark mark_reQueryBang t hn 0)]
  simp only [Option.some_bind]
  rw [Regex.ReplaceAllString_of_no_match _ _ _
    (Regex.exec_none_of_needs _ isMark mark_reMarksDot t hn 0)]
  simp only [Option.some_bind]
  rw [Regex.ReplaceAllStringFunc_of_no_match _ _ _
    (Regex.exec_none_of_needs _ isMark mark_reSeparators t hn 0)]
  simp only [Option.some_bind]
  rw [Regex.ReplaceAllString_of_no_match _ _ _
    (Regex.exec_none_of_needs _ isMark mark_reTwoMarks t hn 0)]
  simp only [Option.some_bind]
  rw [Regex.ReplaceAllString_of_no_match _ _ _
    (Regex.exec_none_of_needs _ isMark mark_reFinalMark t hn 0)]
  simp only [Option.some_bind]
  rw [Regex.ReplaceAllString_of_no_match _ _ _ (by
    rw [Regex.exec_zero, ← ht]
    exact spaceRun_search_clean ws h none 0)]
  simp only [Option.some_bind]
  rw [← ht, TrimSpace_clean ws h]
  rfl

/-- A text without marks passes unchanged through the passes before
`processPunctuation`. -/
theorem number_passes_of_no_mark (U : UnicodeTables) (t : List Char)
    (hn : ∀ c ∈ t, isMark c = false) :
    processMultipleTypes U t = some t ∧ processConversion t = some t ∧
    processConversioncount t = some t ∧ processHexNumbers t = some t ∧
    processBinaryNumbers t = some t ∧ processCaseModifiers U t = some t ∧
    processMultiModifiers U t = some t ∧ processNestedModifiers U t = some t := by
  refine ⟨?_, ?_, ?_, ?_, ?_, ?_, ?_, ?_⟩
  · exact Regex.ReplaceAllStringFunc_of_no_match _ _ _
      (Regex.exec_none_of_needs _ isMark mark_reMultipleTypes t hn 0)
  · exact Regex.ReplaceAllStringFunc_of_no_match _ _ _
      (Regex.exec_none_of_needs _ isMark mark_reConversion t hn 0)
  · unfold processConversioncount
    rw [Regex.ReplaceAllStringFunc_of_no_match _ _ _
      (Regex.exec_none_of_needs _ isMark mark_reBinCount t hn 0)]
    exact Regex.ReplaceAllStringFunc_of_no_match _ _ _
      (Regex.exec_none_of_needs _ isMark mark_reHexCount t hn 0)
  · unfold processHexNumbers
    rw [fixLoop_of_fixed _ t (Regex.ReplaceAllStringFunc_of_no_match _ _ _
      (Regex.exec_none_of_needs _ isMark mark_reHexNum t hn 0))]
    simp only [Option.bind_eq_bind, Option.some_bind]
    rw [Regex.ReplaceAllString_of_no_match _ _ _
      (Regex.exec_none_of_needs _ isMark (mark_reMarker _) t hn 0)]
    exact Regex.ReplaceAllString_of_no_match _ _ _
      (Regex.exec_none_of_needs _ isMark (mark_reWordMarker _) t hn 0)
  · unfold processBinaryNumbers
    rw [fixLoop_of_fixed _ t (Regex.ReplaceAllStringFunc_of_no_match _ _ _
      (Regex.exec_none_of_needs _ isMark mark_reBinNum t hn 0))]
    simp only [Option.bind_eq_bind, Option.some_bind]
    rw [Regex.ReplaceAllString_of_no_match _ _ _
      (Regex.exec_none_of_needs _ isMark (mark_reMarker _) t hn 0)]
    exact Regex.ReplaceAllString_of_no_match _ _ _
      (Regex.exec_none_of_needs _ isMark (mark_reWordMarker _) t hn 0)
  · unfold processCaseModifiers
    split
    · rfl
    · rw [Regex.ReplaceAllStringFunc_of_no_match _ _ _
        (Regex.exec_none_of_needs _ isMark mark_reCaseCount t hn 0)]
      exact Regex.ReplaceAllStringFunc_of_no_match _ _ _
        (Regex.exec_none_of_needs _ isMark mark_reCaseWord t hn 0)
  · exact Regex.ReplaceAllStringFunc_of_no_match _ _ _
      (Regex.exec_none_of_needs _ isMark mark_reMultiModifiers t hn 0)
  · simp [processNestedModifiers, nestedLoop, Regex.MatchString,
      Regex.exec_none_of_needs _ isMark mark_reNested t hn 0]

/-- The pipeline leaves words separated by single blanks alone when none of
the words is an article. -/
theorem Process_clean (U : UnicodeTables) (ws : List (List Char)) (h : CleanWords ws) :
    Process U (Join ws " ".toList) = some (Join ws " ".toList) := by
  have hn := mark_of_clean ws h
  obtain ⟨h1, h2, h3, h4, h5, h6, h7, h8⟩ := number_passes_of_no_mark U _ hn
  have h9 := processPunctuation_clean ws h
  have h10 : processQuotes (Join ws " ".toList) = some (Join ws " ".toList) := by
    unfold processQuotes
    rw [Regex.ReplaceAllStringFunc_of_no_match _ _ _
      (Regex.exec_none_of_needs _ isMark mark_reQuoted39 _ hn 0)]
    exact Regex.ReplaceAllStringFunc_of_no_match _ _ _
      (Regex.exec_none_of_needs _ isMark mark_reQuoted34 _ hn 0)
  have h11 : processArticles U (Join ws " ".toList) = some (Join ws " ".toList) :=
    Regex.ReplaceAllStringFunc_of_no_match _ _ _ (by
      rw [Regex.exec_zero]
      exact article_search_clean ws h none 0 rfl)
  have h12 : processStandaloneModifiers (Join ws " ".toList) = some (Join ws " ".toList) := by
    unfold processStandaloneModifiers
    rw [Regex.ReplaceAllString_of_no_match _ _ _
      (Regex.exec_none_of_needs _ isMark mark_reStandaloneLine _ hn 0)]
    exact Regex.ReplaceAllString_of_no_match _ _ _
      (Regex.exec_none_of_needs _ isMark mark_reStandaloneInline _ hn 0)
  simp only [Process, h1, h2, h3, h4, h5, h6, h7, h8, h9, h10, h11, h12, Option.bind_eq_bind,
    Option.some_bind]

/-! ## Iterations over single runes, with backtracking -/

theorem isRune_chr (c : Char) : IsRune (.chr c) (fun d => d == c) := by
  intro s k
  obtain ⟨prev, rest, pos, caps⟩ := s
  cases rest <;> simp [Regex.run]

theorem isRune_cls (cc : CClass) : IsRune (.cls cc) cc.test := by
  intro s k
  obtain ⟨prev, rest, pos, caps⟩ := s
  cases rest <;> simp [Regex.run]

theorem afterPrefix_nil (prev : Option Char) (pos : Nat) (caps : List (Nat × Nat × Nat))
    (b : List Char) : afterPrefix prev pos caps [] b = ⟨prev, b, pos, caps⟩ := by
  simp [afterPrefix, lastOr]

theorem afterPrefix_cons (prev : Option Char) (pos : Nat) (caps : List (Nat × Nat × Nat))
    (c : Char) (a b : List Char) :
    afterPrefix prev pos caps (c :: a) b = afterPrefix (some c) (pos + 1) caps a b := by
  unfold afterPrefix
  rw [show c :: a = [c] ++ a from rfl, lastOr_append, lastOr_singleton]
  simp only [List.singleton_append, List.length_cons, MState.mk.injEq, true_and, and_true]
  omega

theorem findSome_singleton (k : MState → Option MState) (s : MState) :
    [s].findSome? k = k s := by
  simp only [List.findSome?]
  cases k s <;> rfl

theorem findSome_append_of_none (k : MState → Option MState) (l1 l2 : List MState)
    (h : l1.findSome? k = none) : (l1 ++ l2).findSome? k = l2.findSome? k := by
  rw [List.findSome?_append, h]
  rfl

theorem findSome_append_of_some (k : MState → Option MState) (l1 l2 : List MState) (r : MState)
    (h : l1.findSome? k = some r) : (l1 ++ l2).findSome? k = some r := by
  rw [List.findSome?_append, h]
  rfl

theorem findSome_cons_of_none (k : MState → Option MState) (s : MState) (l : List MState)
    (h : k s = none) : (s :: l).findSome? k = l.findSome? k := by
  simp only [List.findSome?, h]

theorem findSome_cons_of_some (k : MState → Option MState) (s : MState) (l : List MState)
    (r : MState) (h : k s = some r) : (s :: l).findSome? k = some r := by
  simp only [List.findSome?, h]

/-- No end position of a greedy iteration lets the rest of the pattern match. -/
theorem findSome_greedyStates_none (caps : List (Nat × Nat × Nat))
    (k : MState → Option MState) : ∀ (xs rest : List Char) (prev : Option Char) (pos : Nat),
    (∀ a b, a ++ b = xs → k (afterPrefix prev pos caps a (b ++ rest)) = none) →
    (greedyStates caps prev pos xs rest).findSome? k = none := by
  intro xs
  induction xs with
  | nil =>
    intro rest prev pos h
    have := h [] [] rfl
    rw [afterPrefix_nil, List.nil_append] at this
    rw [greedyStates, findSome_singleton, this]
  | cons c cs ih =>
    intro rest prev pos h
    have h0 := h [] (c :: cs) rfl
    rw [afterPrefix_nil, List.cons_append] at h0
    have h1 := ih rest (some c) (pos + 1) (fun a b hab => by
      have := h (c :: a) b (by simp [hab])
      rwa [afterPrefix_cons] at this)
    rw [greedyStates, findSome_append_of_none k _ _ h1, findSome_singleton, h0]

/-- The rest of the pattern matches after the prefix `a` of the runes and after
no longer prefix: that is where the greedy iteration ends. -/
theorem findSome_greedyStates_split (caps : List (Nat × Nat × Nat))
    (k : MState → Option MState) (r : MState) :
    ∀ (a b rest : List Char) (prev : Option Char) (pos : Nat),
    k (afterPrefix prev pos caps a (b ++ rest)) = some r →
    (∀ a2 b2, a2 ++ b2 = a ++ b → a.length < a2.length →
      k (afterPrefix prev pos caps a2 (b2 ++ rest)) = none) →
    (greedyStates caps prev pos (a ++ b) rest).findSome? k = some r := by
  intro a
  induction a with
  | nil =>
    intro b rest prev pos hk hfail
    rw [afterPrefix_nil] at hk
    cases b with
    | nil =>
      rw [List.nil_append] at hk
      rw [List.append_nil, greedyStates, findSome_singleton, hk]
    | cons c cs =>
      rw [List.cons_append] at hk
      have h1 := findSome_greedyStates_none caps k cs rest (some c) (pos + 1) (fun a2 b2 hab => by
        have := hfail (c :: a2) b2 (by simp [hab]) (by simp)
        rwa [afterPrefix_cons] at this)
      rw [List.nil_append, greedyStates, findSome_append_of_none k _ _ h1, findSome_singleton, hk]
  | cons c cs ih =>
    intro b rest prev pos hk hfail
    rw [afterPrefix_cons] at hk
    have h1 := ih b rest (some c) (pos + 1) hk (fun a2 b2 hab hlt => by
      have := hfail (c :: a2) b2 (by simp [hab]) (by simp; omega)
      rwa [afterPrefix_cons] at this)
    rw [List.cons_append, greedyStates, findSome_append_of_some k _ _ r h1]

theorem findSome_lazyStates_none (caps : List (Nat × Nat × Nat))
    (k : MState → Option MState) : ∀ (xs rest : List Char) (prev : Option Char) (pos : Nat),
    (∀ a b, a ++ b = xs → k (afterPrefix prev pos caps a (b ++ rest)) = none) →
    (lazyStates caps prev pos xs rest).findSome? k = none := by
  intro xs
  induction xs with
  | nil =>
    intro rest prev pos h
    have := h [] [] rfl
    rw [afterPrefix_nil, List.nil_append] at this
    rw [lazyStates, findSome_singleton, this]
  | cons c cs ih =>
    intro rest prev pos h
    have h0 := h [] (c :: cs) rfl
    rw [afterPrefix_nil, List.cons_append] at h0
    have h1 := ih rest (some c) (pos + 1) (fun a b hab => by
      have := h (c :: a) b (by simp [hab])
      rwa [afterPrefix_cons] at this)
    rw [lazyStates, findSome_cons_of_none k _ _ h0, h1]

/-- The rest of the pattern matches after the prefix `a` of the runes and after
no shorter prefix: that is where the lazy iteration ends. -/
theorem findSome_lazyStates_split (caps : List (Nat × Nat × Nat))
    (k : MState → Option MState) (r : MState) :
    ∀ (a b rest : List Char) (prev : Option Char) (pos : Nat),
    k (afterPrefix prev pos caps a (b ++ rest)) = some r →
    (∀ a2 b2, a2 ++ b2 = a ++ b → a2.length < a.length →
      k (afterPrefix prev pos caps a2 (b2 ++ rest)) = none) →
    (lazyStates caps prev pos (a ++ b) rest).findSome? k = some r := by
  intro a
  induction a with
  | nil =>
    intro b rest prev pos hk hfail
    rw [afterPrefix_nil] at hk
    cases b with
    | nil =>
      rw [List.nil_append] at hk
      rw [List.append_nil, lazyStates, findSome_singleton, hk]
    | cons c cs =>
      rw [List.cons_append] at hk
      rw [List.nil_append, lazyStates, findSome_cons_of_some k _ _ r hk]
  | cons c cs ih =>
    intro b rest prev pos hk hfail
    rw [afterPrefix_cons] at hk
    have h0 := hfail [] (c :: (cs ++ b)) (by simp) (by simp)
    rw [afterPrefix_nil, List.cons_append] at h0
    have h1 := ih b rest (some c) (pos + 1) hk (fun a2 b2 hab hlt => by
      have := hfail (c :: a2) b2 (by simp [hab]) (by simp; omega)
      rwa [afterPrefix_cons] at this)
    rw [List.cons_append, lazyStates, findSome_cons_of_none k _ _ h0, h1]

theorem starLoop_greedy_rune (r : Regex) (f : Char → Bool) (hr : IsRune r f)
    (caps : List (Nat × Nat × Nat)) (k : MState → Option MState) :
    ∀ (xs : List Char), (∀ c ∈ xs, f c = true) → ∀ (rest : List Char), HeadNot f rest →
    ∀ (n : Nat), xs.length ≤ n → ∀ (prev : Option Char) (pos : Nat),
      starLoop true r.run n ⟨prev, xs ++ rest, pos, caps⟩ k =
        (greedyStates caps prev pos xs rest).findSome? k := by
  intro xs
  induction xs with
  | nil =>
    intro _ rest hrest n _ prev pos
    rw [greedyStates, findSome_singleton]
    cases n with
    | zero => rfl
    | succ n =>
      simp only [starLoop, if_true, List.nil_append]
      rw [hr]
      cases rest with
      | nil => rfl
      | cons d ds =>
        have := hrest d (by simp)
        simp [this]
  | cons c cs ih =>
    intro hxs rest hrest n hn prev pos
    cases n with
    | zero => simp at hn
    | succ n =>
      have hc := hxs c (by simp)
      have h1 := ih (fun d hd => hxs d (by simp [hd])) rest hrest n
        (by simp only [List.length_cons] at hn; omega) (some c) (pos + 1)
      simp only [starLoop, if_true, List.cons_append]
      rw [hr]
      simp only [hc, if_true]
      rw [h1, greedyStates, List.findSome?_append, findSome_singleton]
      cases (greedyStates caps (some c) (pos + 1) cs rest).findSome? k <;> rfl

/-- Greedy `r*` over a single-rune pattern tries the end positions after the
run of matching runes, the longest first. -/
theorem run_star_greedy (r : Regex) (f : Char → Bool) (hr : IsRune r f) (xs : List Char)
    (hxs : ∀ c ∈ xs, f c = true) (rest : List Char) (hrest : HeadNot f rest)
    (prev : Option Char) (pos : Nat) (caps : List (Nat × Nat × Nat))
    (k : MState → Option MState) :
    (Regex.star true r).run ⟨prev, xs ++ rest, pos, caps⟩ k =
      (greedyStates caps prev pos xs rest).findSome? k := by
  simp only [Regex.run]
  exact starLoop_greedy_rune r f hr caps k xs hxs rest hrest _ (by simp) prev pos

/-- Greedy `r+` over a single-rune pattern. -/
theorem run_plus_greedy (r : Regex) (f : Char → Bool) (hr : IsRune r f) (c : Char)
    (cs : List Char) (hxs : ∀ d ∈ c :: cs, f d = true) (rest : List Char)
    (hrest : HeadNot f rest) (prev : Option Char) (pos : Nat) (caps : List (Nat × Nat × Nat))
    (k : MState → Option MState) :
    (Regex.plus r).run ⟨prev, c :: (cs ++ rest), pos, caps⟩ k =
      (greedyStates caps (some c) (pos + 1) cs rest).findSome? k := by
  have hc := hxs c (by simp)
  simp only [Regex.plus]
  rw [Regex.run, hr]
  simp only [hc, if_true]
  exact run_star_greedy r f hr cs (fun d hd => hxs d (by simp [hd])) rest hrest _ _ _ k

theorem run_plus_none (r : Regex) (f : Char → Bool) (hr : IsRune r f) (rest : List Char)
    (hrest : HeadNot f rest) (prev : Option Char) (pos : Nat) (caps : List (Nat × Nat × Nat))
    (k : MState → Option MState) :
    (Regex.plus r).run ⟨prev, rest, pos, caps⟩ k = none := by
  simp only [Regex.plus]
  rw [Regex.run, hr]
  cases rest with
  | nil => rfl
  | cons d ds =>
    have := hrest d (by simp)
    simp [this]

theorem starLoop_lazy_rune (r : Regex) (f : Char → Bool) (hr : IsRune r f)
    (caps : List (Nat × Nat × Nat)) (k : MState → Option MState) :
    ∀ (xs : List Char), (∀ c ∈ xs, f c = true) → ∀ (rest : List Char), HeadNot f rest →
    ∀ (n : Nat), xs.length ≤ n → ∀ (prev : Option Char) (pos : Nat),
      starLoop false r.run n ⟨prev, xs ++ rest, pos, caps⟩ k =
        (lazyStates caps prev pos xs rest).findSome? k := by
  intro xs
  induction xs with
  | nil =>
    intro _ rest hrest n _ prev pos
    rw [lazyStates, findSome_singleton]
    cases n with
    | zero => rfl
    | succ n =>
      simp only [starLoop, Bool.false_eq_true, if_false, List.nil_append]
      rw [hr]
      cases rest with
      | nil => cases k _ <;> rfl
      | cons d ds =>
        have := hrest d (by simp)
        simp only [this, Bool.false_eq_true, if_false]
        cases k _ <;> rfl
  | cons c cs ih =>
    intro hxs rest hrest n hn prev pos
    cases n with
    | zero => simp at hn
    | succ n =>
      have hc := hxs c (by simp)
      have h1 := ih (fun d hd => hxs d (by simp [hd])) rest hrest n
        (by simp only [List.length_cons] at hn; omega) (some c) (pos + 1)
      simp only [starLoop, Bool.false_eq_true, if_false, List.cons_append]
      rw [hr]
      simp only [hc, if_true]
      rw [h1, lazyStates]
      simp only [List.findSome?]
      cases k _ <;> rfl

/-- Lazy `r+?` over a single-rune pattern tries the end positions after the
first rune, the shortest first. -/
theorem run_plus_lazy (r : Regex) (f : Char → Bool) (hr : IsRune r f) (c : Char)
    (cs : List Char) (hxs : ∀ d ∈ c :: cs, f d = true) (rest : List Char)
    (hrest : HeadNot f rest) (prev : Option Char) (pos : Nat) (caps : List (Nat × Nat × Nat))
    (k : MState → Option MState) :
    (Regex.plusLazy r).run ⟨prev, c :: (cs ++ rest), pos, caps⟩ k =
      (lazyStates caps (some c) (pos + 1) cs rest).findSome? k := by
  have hc := hxs c (by simp)
  simp only [Regex.plusLazy]
  rw [Regex.run, hr]
  simp only [hc, if_true]
  simp only [Regex.run]
  exact starLoop_lazy_rune r f hr caps k cs (fun d hd => hxs d (by simp [hd])) rest hrest _
    (by simp) _ _

/-! ## `processConversion` with a first operator that is no base name -/

theorem conversion_text (d op1 op2 : List Char) :
    d ++ " (".toList ++ op1 ++ ") (".toList ++ op2 ++ ")".toList =
      d ++ ([' '] ++ '(' :: (op1 ++ ')' :: ([' '] ++ '(' :: (op2 ++ [')'])))) := by
  simp [String.toList]

/-- With a first operator other than `bin` and `hex` the callback of
`processConversion` keeps the value `0` of the unassigned variable `val`: it
prints `0` when the second operator is a base name and keeps the match
otherwise. -/
theorem processConversion_unknown_first (d op1 op2 : List Char) (hd : d ≠ [])
    (hhex : ∀ c ∈ d, clsHex.test c = true)
    (h1 : op1 ≠ []) (hw1 : ∀ c ∈ op1, isWordChar c = true)
    (h2 : op2 ≠ []) (hw2 : ∀ c ∈ op2, isWordChar c = true)
    (hb : op1 ≠ "bin".toList) (hh : op1 ≠ "hex".toList) :
    processConversion (d ++ " (".toList ++ op1 ++ ") (".toList ++ op2 ++ ")".toList) =
      some (if op2 = "bin".toList ∨ op2 = "hex".toList then "0".toList
        else d ++ " (".toList ++ op1 ++ ") (".toList ++ op2 ++ ")".toList) := by
  have hs : ∀ c ∈ [' '], clsSpace.test c = true := by decide
  rw [conversion_text, processConversion_whole d [' '] op1 [' '] op2 hd hhex hs h1 hw1 hs h2 hw2,
    conversionCallback_of_parts _ d op1 op2
      (conversion_submatch d [' '] op1 [' '] op2 hd hhex hs h1 hw1 hs h2 hw2)]
  simp only [if_neg hb, if_neg hh]
  by_cases e1 : op2 = "bin".toList
  · simp only [e1, true_or, if_true]
    rfl
  · by_cases e2 : op2 = "hex".toList
    · simp only [e2, or_true, if_true]
      rfl
    · simp only [e1, e2, or_self, if_false]
      rfl

/-! ## `processConversioncount` on `(bin, N)` and `(hex, N)` -/

theorem digit_of_digitVal (c : Char) (d : Nat) (h : digitVal c = some d) (hd : d < 10) :
    clsDigit.test c = true := by
  simp only [CClass.test, clsDigit, List.any_cons, List.any_nil, Bool.or_false, Bool.false_bne,
    Bool.and_eq_true, decide_eq_true_eq]
  unfold digitVal at h
  split at h
  · rename_i h1
    simpa only [isAsciiDigit, Bool.and_eq_true, decide_eq_true_eq] using h1
  · split at h
    · simp only [Option.some.injEq] at h
      omega
    · split at h
      · simp only [Option.some.injEq] at h
        omega
      · exact absurd h (by simp)

/-- A decimal numeral is a non-empty string of decimal digits. -/
theorem digits_of_numeral (s : List Char) (n : Nat) (h : numeralValue 10 s = some n) :
    s ≠ [] ∧ ∀ c ∈ s, clsDigit.test c = true := by
  unfold numeralValue at h
  split at h
  · exact absurd h (by simp)
  · rename_i hne
    refine ⟨hne, fun c hc => ?_⟩
    obtain ⟨d, h1, h2⟩ := numFold_digits 10 s 0 n h c hc
    exact digit_of_digitVal c d h1 h2

theorem toDigitsCore_two (fuel : Nat) :
    ∀ (n : Nat) (ds : List Char),
      Nat.toDigitsCore 2 fuel n ds = (digitsRev 2 fuel n).reverse ++ ds := by
  induction fuel with
  | zero => intro n ds; simp [Nat.toDigitsCore, digitsRev]
  | succ f ih =>
    intro n ds
    simp only [Nat.toDigitsCore, digitsRev]
    rw [digitChar_eq (n % 2) (by omega)]
    split
    · simp
    · rw [ih]; simp

/-- `%b` prints the binary digits of a natural number. -/
theorem fmtNat_two (n : Nat) : fmtNat 2 n = Nat.toDigits 2 n := by
  simp [fmtNat, Nat.toDigits, toDigitsCore_two]

theorem fmtNat_hex (n : Nat) : fmtNat 16 n = (Nat.toDigits 16 n).map Char.toUpper := by
  simp [fmtNat, Nat.toDigits, toDigitsCore_hex]

theorem fmtInt_neg (base n : Nat) (hn : 0 < n) :
    fmtInt base (-(n : Int)) = '-' :: fmtNat base n := by
  unfold fmtInt
  rw [if_pos (by omega)]
  simp

theorem fmtInt_nat (base n : Nat) : fmtInt base (n : Int) = fmtNat base n := by
  unfold fmtInt
  rw [if_neg (by omega)]
  simp

/-- `ParseInt` on a minus sign followed by a numeral of a number up to `2^63`. -/
theorem ParseInt_neg_of_value (base : Nat) (hb : 1 ≤ base) (d : List Char) (n : Nat)
    (hv : numeralValue base d = some n) (hn : n ≤ 2 ^ 63) :
    ParseInt ('-' :: d) base = ⟨-(n : Int), none⟩ := by
  unfold numeralValue at hv
  split at hv
  · exact absurd hv (by simp)
  · rename_i hne
    have hl := parseUintLoop_of_value base hb d 0 n hv (by unfold maxUint64; omega)
    have he : d.isEmpty = false := by
      cases d with
      | nil => exact absurd rfl hne
      | cons _ _ => rfl
    have hw : wrap64 (-(wrap64 (n : Int))) = -(n : Int) := by
      unfold wrap64
      omega
    have h63 : ¬ ((2 : Nat) ^ 63 < n) := by omega
    simp only [ParseInt, ParseUint, he, hl, beq_self_eq_true, Bool.or_true, if_true,
      Bool.false_eq_true, if_false, Bool.not_true, Bool.false_and, Bool.true_and]
    simp only [decide_eq_true_eq]
    rw [if_neg (by simp), if_neg (by exact_mod_cast h63), hw]

theorem lit_numGroups (l : List Char) : (Regex.lit l).numGroups = 0 := by
  induction l with
  | nil => rfl
  | cons c cs ih => simp [Regex.lit, Regex.numGroups, ih]

/-- The pattern `l(-?\d+)\)` for a literal `l`, on the text `l sg d )`. -/
theorem count_detOK (l sg d : List Char) (hsg : sg = [] ∨ sg = ['-']) (hd : d ≠ [])
    (hdig : ∀ c ∈ d, clsDigit.test c = true) :
    DetOK (Regex.cat [Regex.lit l, .cap 1 reSignedDigits, .chr ')'])
      ⟨none, l ++ (sg ++ (d ++ [')'])), 0, []⟩
      ⟨some ')', [], 0 + l.length + sg.length + d.length + 1,
        [(1, 0 + l.length, 0 + l.length + sg.length + d.length)]⟩ :=
  DetOK_seq (Exact_detOK (Exact_lit l none _ 0 []))
    (DetOK_seq (DetOK_cap 1 (signedDigits_detOK sg d hsg hd hdig [')']
        (stopsAt_cons _ _ _ (by decide)) _ _ _))
      (DetOK_seq (Exact_detOK (Exact_chr ')' _ [] _ _)) (Exact_detOK (Exact_eps _))))

theorem count_submatch (l sg d : List Char) (hsg : sg = [] ∨ sg = ['-']) (hd : d ≠ [])
    (hdig : ∀ c ∈ d, clsDigit.test c = true) :
    (Regex.cat [Regex.lit l, .cap 1 reSignedDigits, .chr ')']).FindStringSubmatch
        (l ++ (sg ++ (d ++ [')']))) = some [l ++ (sg ++ (d ++ [')'])), sg ++ d] := by
  have h0 := Regex.searchFrom_of_detOK _ none _ 0 _ (count_detOK l sg d hsg hd hdig)
  have hn : (Regex.cat [Regex.lit l, .cap 1 reSignedDigits, .chr ')']).numGroups = 1 := by
    simp [Regex.cat, Regex.numGroups, reSignedDigits, Regex.opt, Regex.plus, lit_numGroups]
  have e0 : slice (l ++ (sg ++ (d ++ [')']))) 0 (0 + l.length + sg.length + d.length + 1) =
      l ++ (sg ++ (d ++ [')'])) :=
    slice_at _ [] (l ++ (sg ++ (d ++ [')']))) [] _ _ (by simp) (by simp) (by simp; omega)
  have e1 : slice (l ++ (sg ++ (d ++ [')']))) (0 + l.length)
      (0 + l.length + sg.length + d.length) = sg ++ d :=
    slice_at _ l (sg ++ d) [')'] _ _ (by simp) (by simp) (by simp; omega)
  simp only [Regex.FindStringSubmatch, Regex.exec_zero, h0, hn, Match.text, Match.group,
    capSpan, List.range, List.range.loop, List.map_cons, List.map_nil, if_true, e0, e1]
  try rfl

/-- The callback of `processConversioncount` once its submatches are known. -/
theorem conversionCountCallback_of_parts (re : Regex) (base : Nat) (m p : List Char)
    (h : re.FindStringSubmatch m = some [m, p]) :
    conversionCountCallback re base m =
      some (if (ParseInt p 10).err ≠ none then m else fmtInt base (ParseInt p 10).val) := by
  unfold conversionCountCallback
  rw [h]
  change (if (ParseInt p 10).err ≠ none then some m
    else some (fmtInt base (ParseInt p 10).val)) = _
  split_ifs <;> rfl

theorem count_needs_paren (name : List Char) :
    (Regex.cat [Regex.lit ('(' :: name), .cap 1 reSignedDigits, .chr ')']).needs isOpenParen
      = true := by rfl

/-- `ReplaceAllStringFunc` of one of the two patterns of `processConversioncount`
on a text the pattern matches as a whole. -/
theorem count_replace (name sg d : List Char) (base : Nat) (hsg : sg = [] ∨ sg = ['-'])
    (hd : d ≠ []) (hdig : ∀ c ∈ d, clsDigit.test c = true) :
    (Regex.cat [Regex.lit ('(' :: name), .cap 1 reSignedDigits, .chr ')']).ReplaceAllStringFunc
        (('(' :: name) ++ (sg ++ (d ++ [')'])))
        (conversionCountCallback
          (Regex.cat [Regex.lit ('(' :: name), .cap 1 reSignedDigits, .chr ')']) base) =
      some (if (ParseInt (sg ++ d) 10).err ≠ none then ('(' :: name) ++ (sg ++ (d ++ [')']))
        else fmtInt base (ParseInt (sg ++ d) 10).val) := by
  rw [replaceAll_whole _ isOpenParen (count_needs_paren name) _ (by simp) _
    (count_detOK ('(' :: name) sg d hsg hd hdig) (by simp; omega),
    conversionCountCallback_of_parts _ base _ (sg ++ d)
      (count_submatch ('(' :: name) sg d hsg hd hdig)]

theorem digitChar_no_paren (d : Nat) (hd : d < 16) : digitChar d ≠ '(' := by
  interval_cases d <;> decide

theorem digitsRev_no_paren (base : Nat) (hb : 0 < base) (hb2 : base ≤ 16) :
    ∀ (fuel n : Nat), '(' ∉ digitsRev base fuel n := by
  intro fuel
  induction fuel with
  | zero => intro n; simp [digitsRev]
  | succ f ih =>
    intro n
    simp only [digitsRev, List.mem_cons, not_or]
    refine ⟨fun e => digitChar_no_paren (n % base)
      (Nat.lt_of_lt_of_le (Nat.mod_lt _ hb) hb2) e.symm, ?_⟩
    split
    · simp
    · exact ih _

theorem fmtInt_no_paren (base : Nat) (hb : 0 < base) (hb2 : base ≤ 16) (v : Int) :
    ∀ c ∈ fmtInt base v, isOpenParen c = false := by
  intro c hc
  have hne : c ≠ '(' := by
    intro e
    subst e
    unfold fmtInt at hc
    split at hc
    · rcases List.mem_cons.1 hc with h | h
      · exact absurd h (by decide)
      · exact digitsRev_no_paren base hb hb2 _ _ (by simpa [fmtNat] using h)
    · exact digitsRev_no_paren base hb hb2 _ _ (by simpa [fmtNat] using hc)
  simpa [isOpenParen] using hne

theorem count_text (name sg d : List Char) :
    ('(' :: name) ++ sg ++ d ++ ")".toList = ('(' :: name) ++ (sg ++ (d ++ [')'])) := by
  simp [String.toList]

theorem digit_not_paren (c : Char) (h : clsDigit.test c = true) : isOpenParen c = false := by
  cases hp : isOpenParen c with
  | false => rfl
  | true =>
    simp only [isOpenParen, beq_iff_eq] at hp
    subst hp
    exact absurd h (by decide)

theorem signed_no_paren (sg d : List Char) (hsg : sg = [] ∨ sg = ['-'])
    (hdig : ∀ c ∈ d, clsDigit.test c = true) :
    ∀ c ∈ sg ++ (d ++ [')']), isOpenParen c = false := by
  intro c hc
  rcases List.mem_append.1 hc with h | h
  · rcases hsg with rfl | rfl
    · simp at h
    · simp only [List.mem_singleton] at h
      subst h
      decide
  · rcases List.mem_append.1 h with h | h
    · exact digit_not_paren c (hdig c h)
    · simp only [List.mem_singleton] at h
      subst h
      decide

/-- `processConversioncount` on `(bin, N)`: `N` printed with `%b`. -/
theorem processConversioncount_bin (sg d : List Char) (hsg : sg = [] ∨ sg = ['-'])
    (hd : d ≠ []) (hdig : ∀ c ∈ d, clsDigit.test c = true)
    (herr : (ParseInt (sg ++ d) 10).err = none) :
    processConversioncount ("(bin, ".toList ++ sg ++ d ++ ")".toList) =
      some (fmtInt 2 (ParseInt (sg ++ d) 10).val) := by
  have h1 : reBinCount.ReplaceAllStringFunc (('(' :: "bin, ".toList) ++ (sg ++ (d ++ [')'])))
      (conversionCountCallback reBinCount 2) = _ := count_replace "bin, ".toList sg d 2 hsg hd hdig
  rw [if_neg (by simp [herr])] at h1
  unfold processConversioncount
  rw [show "(bin, ".toList = '(' :: "bin, ".toList from rfl, count_text, h1]
  exact Regex.ReplaceAllStringFunc_of_no_match _ _ _
    (Regex.exec_none_of_needs _ isOpenParen (count_needs_paren "hex, ".toList) _
      (fmtInt_no_paren 2 (by omega) (by omega) _) 0)

/-- `processConversioncount` on `(hex, N)`: `N` printed with `%X`. -/
theorem processConversioncount_hex (sg d : List Char) (hsg : sg = [] ∨ sg = ['-'])
    (hd : d ≠ []) (hdig : ∀ c ∈ d, clsDigit.test c = true)
    (herr : (ParseInt (sg ++ d) 10).err = none) :
    processConversioncount ("(hex, ".toList ++ sg ++ d ++ ")".toList) =
      some (fmtInt 16 (ParseInt (sg ++ d) 10).val) := by
  have h1 : reHexCount.ReplaceAllStringFunc (('(' :: "hex, ".toList) ++ (sg ++ (d ++ [')'])))
      (conversionCountCallback reHexCount 16) = _ :=
    count_replace "hex, ".toList sg d 16 hsg hd hdig
  rw [if_neg (by simp [herr])] at h1
  have h0 : reBinCount.exec (('(' :: "hex, ".toList) ++ (sg ++ (d ++ [')']))) 0 = none := by
    have hf : Fails reBinCount
        ⟨none, '(' :: ('h' :: ("ex, ".toList ++ (sg ++ (d ++ [')'])))), 0, []⟩ :=
      Fails_seq_left _ (Fails_seq_right (Exact_chr '(' none _ 0 [])
        (Fails_lit_ne 'b' 'h' _ (by decide) _ _ _ _))
    rw [Regex.exec_zero]
    show reBinCount.searchFrom none
      ('(' :: ('h' :: ("ex, ".toList ++ (sg ++ (d ++ [')']))))) 0 = none
    rw [reBinCount.searchFrom_cons_of_fails none '(' _ 0 hf]
    refine reBinCount.searchFrom_none_of_needs isOpenParen (count_needs_paren "bin, ".toList) _
      ?_ _ _
    intro c hc
    rcases List.mem_cons.1 hc with rfl | hc
    · decide
    · rcases List.mem_append.1 hc with h | h
      · have hex : ∀ e ∈ "ex, ".toList, isOpenParen e = false := by decide
        exact hex c h
      · exact signed_no_paren sg d hsg hdig c h
  unfold processConversioncount
  rw [show "(hex, ".toList = '(' :: "hex, ".toList from rfl, count_text,
    Regex.ReplaceAllStringFunc_of_no_match _ _ _ h0]
  exact h1

theorem unsigned_of_digits (d : List Char) (hdig : ∀ c ∈ d, clsDigit.test c = true) :
    Unsigned d := by
  intro c hc
  have hm : c ∈ d := by
    cases d with
    | nil => simp at hc
    | cons a as => simp only [List.head?_cons, Option.mem_def, Option.some.injEq] at hc; simp [hc]
  have := hdig c hm
  constructor <;> (intro e; subst e; exact absurd this (by decide))

/-- The value `ParseInt` gives an optional minus sign followed by a decimal
numeral within the 64-bit range. -/
theorem ParseInt_signed (sg d : List Char) (n : Nat) (hsg : sg = [] ∨ sg = ['-'])
    (hv : numeralValue 10 d = some n) (hr : n < 2 ^ 63 ∨ (sg = ['-'] ∧ n ≤ 2 ^ 63)) :
    ParseInt (sg ++ d) 10 = ⟨if sg = [] then (n : Int) else -(n : Int), none⟩ := by
  obtain ⟨_, hdig⟩ := digits_of_numeral d n hv
  rcases hsg with rfl | rfl
  · have hn : n < 2 ^ 63 := by
      rcases hr with h | ⟨h, _⟩
      · exact h
      · exact absurd h (by simp)
    rw [List.nil_append, ParseInt_of_value 10 (by omega) d (unsigned_of_digits d hdig) n hv hn]
    simp
  · have hn : n ≤ 2 ^ 63 := by
      rcases hr with h | ⟨_, h⟩
      · omega
      · exact h
    rw [List.singleton_append, ParseInt_neg_of_value 10 (by omega) d n hv hn]
    simp

/-- What `processConversioncount` makes of `(bin, N)` and `(hex, N)`: the sign of
`N` and the digits of its absolute value. -/
theorem processConversioncount_signed (sg d : List Char) (n : Nat)
    (hsg : sg = [] ∨ sg = ['-']) (hv : numeralValue 10 d = some n)
    (hr : n < 2 ^ 63 ∨ (sg = ['-'] ∧ n ≤ 2 ^ 63)) :
    processConversioncount ("(bin, ".toList ++ sg ++ d ++ ")".toList) =
      some ((if sg = ['-'] ∧ 0 < n then ['-'] else []) ++ Nat.toDigits 2 n) ∧
    processConversioncount ("(hex, ".toList ++ sg ++ d ++ ")".toList) =
      some ((if sg = ['-'] ∧ 0 < n then ['-'] else []) ++
        (Nat.toDigits 16 n).map Char.toUpper) := by
  obtain ⟨hd, hdig⟩ := digits_of_numeral d n hv
  have hp := ParseInt_signed sg d n hsg hv hr
  have hf : ∀ base, fmtInt base (if sg = [] then (n : Int) else -(n : Int)) =
      (if sg = ['-'] ∧ 0 < n then ['-'] else []) ++ fmtNat base n := by
    intro base
    rcases hsg with rfl | rfl
    · simp [fmtInt_nat]
    · by_cases h0 : 0 < n
      · simp [h0, fmtInt_neg base n h0]
      · have : n = 0 := by omega
        subst this
        simp [fmtInt, fmtNat]
  constructor
  · rw [processConversioncount_bin sg d hsg hd hdig (by rw [hp]), hp]
    dsimp only
    rw [hf, fmtNat_two]
  · rw [processConversioncount_hex sg d hsg hd hdig (by rw [hp]), hp]
    dsimp only
    rw [hf, fmtNat_hex]

/-! ## `processArticles` on an article followed by a word -/

theorem Exact_wordB (s : MState) (h : (optWord s.prev != optWord s.rest.head?) = true) :
    Exact .wordB s s := fun k => by simp only [Regex.run, h, if_true]

theorem Exact_bol (m : Bool) (rest : List Char) (pos : Nat) (caps : List (Nat × Nat × Nat)) :
    Exact (.bol m) ⟨none, rest, pos, caps⟩ ⟨none, rest, pos, caps⟩ :=
  fun k => by simp [Regex.run]

theorem Fails_bol (c : Char) (rest : List Char) (pos : Nat) (caps : List (Nat × Nat × Nat)) :
    Fails (.bol false) ⟨some c, rest, pos, caps⟩ := fun k => by simp [Regex.run]

theorem fieldsLoop_run : ∀ (a rest cur : List Char), (∀ c ∈ a, unicodeIsSpace c = false) →
    fieldsLoop (a ++ rest) cur = fieldsLoop rest (cur ++ a) := by
  intro a
  induction a with
  | nil => intro rest cur _; simp
  | cons c cs ih =>
    intro rest cur h
    have hc := h c (by simp)
    rw [List.cons_append, fieldsLoop]
    simp only [hc, Bool.false_eq_true, if_false]
    rw [ih rest (cur ++ [c]) (fun d hd => h d (by simp [hd]))]
    simp

/-- `strings.Fields` on two words separated by a blank. -/
theorem Fields_two (a b : List Char) (ha : a ≠ []) (hb : b ≠ [])
    (hsa : ∀ c ∈ a, unicodeIsSpace c = false) (hsb : ∀ c ∈ b, unicodeIsSpace c = false) :
    Fields (a ++ ' ' :: b) = [a, b] := by
  unfold Fields
  rw [fieldsLoop_run a _ [] hsa, List.nil_append, fieldsLoop]
  have h1 : unicodeIsSpace ' ' = true := by decide
  have h2 : a.isEmpty = false := by cases a <;> simp_all
  simp only [h1, if_true, h2, Bool.false_eq_true, if_false]
  have := fieldsLoop_run b [] [] hsb
  rw [List.append_nil, List.nil_append] at this
  rw [this, fieldsLoop]
  have h3 : b.isEmpty = false := by cases b <;> simp_all
  simp [h3]

/-- The search finds nothing when the pattern fails at every position after the
first rune of the text. -/
theorem Regex.searchFrom_none_of_fails_after (re : Regex)
    (h : ∀ c rest pos, Fails re ⟨some c, rest, pos, []⟩) :
    ∀ (rest : List Char) (c : Char) (pos : Nat), re.searchFrom (some c) rest pos = none := by
  intro rest
  induction rest with
  | nil => intro c pos; exact re.searchFrom_nil_of_fails _ _ (h c [] pos)
  | cons d ds ih =>
    intro c pos
    rw [re.searchFrom_cons_of_fails (some c) d ds pos (h c _ pos)]
    exact ih d (pos + 1)

theorem vowel_test (c : Char) :
    CClass.test ⟨false, [(65, 65), (69, 69), (73, 73), (79, 79), (85, 85),
      (97, 97), (101, 101), (105, 105), (111, 111), (117, 117)]⟩ c = isVowel c := by
  by_cases h : c.toNat < 128
  · exact ascii_cases (fun c => CClass.test ⟨false, [(65, 65), (69, 69), (73, 73), (79, 79),
      (85, 85), (97, 97), (101, 101), (105, 105), (111, 111), (117, 117)]⟩ c = isVowel c)
      (by decide) c h
  · have h1 : CClass.test ⟨false, [(65, 65), (69, 69), (73, 73), (79, 79), (85, 85),
        (97, 97), (101, 101), (105, 105), (111, 111), (117, 117)]⟩ c = false := by
      simp only [CClass.test, List.any_cons, List.any_nil, Bool.or_false, Bool.false_bne,
        Bool.or_eq_false_iff, Bool.and_eq_false_imp, decide_eq_true_eq, decide_eq_false_iff_not]
      omega
    have h2 : isVowel c = false := by
      cases hv : isVowel c with
      | false => rfl
      | true =>
        exfalso
        simp only [isVowel, List.contains_eq_any_beq, List.any_eq_true, beq_iff_eq] at hv
        obtain ⟨x, hx, rfl⟩ := hv
        have : ∀ y ∈ "aeiouAEIOU".toList, y.toNat < 128 := by decide
        exact h (this _ hx)
    rw [h1, h2]

/-- `^[aeiouAEIOU]` matches a text exactly when its first rune is a vowel. -/
theorem leadingVowel_match (c : Char) (cs : List Char) :
    reLeadingVowel.MatchString (c :: cs) = isVowel c := by
  unfold Regex.MatchString
  rw [Regex.exec_zero]
  cases hv : isVowel c with
  | true =>
    have hd : DetOK reLeadingVowel ⟨none, c :: cs, 0, []⟩ ⟨some c, cs, 0 + 1, []⟩ :=
      Exact_detOK (Exact_seq (Exact_bol false _ _ _)
        (Exact_seq (Exact_cls _ c (by rw [vowel_test]; exact hv) none cs 0 []) (Exact_eps _)))
    rw [reLeadingVowel.searchFrom_of_detOK none _ 0 _ hd]
    rfl
  | false =>
    have hf : Fails reLeadingVowel ⟨none, c :: cs, 0, []⟩ :=
      Fails_seq_right (Exact_bol false _ _ _)
        (Fails_seq_left _ (Fails_cls_ne _ c (by rw [vowel_test]; exact hv) none cs 0 []))
    rw [reLeadingVowel.searchFrom_cons_of_fails none c cs 0 hf,
      reLeadingVowel.searchFrom_none_of_fails_after
        (fun c rest pos => Fails_seq_left _ (Fails_bol c rest pos [])) cs c 1]
    rfl

/-- The pattern of `processArticles` on an article `c o` (a rune `a` or `A`,
then nothing or a rune `n` or `N`), a blank and a word. -/
theorem article_detOK (c : Char) (o w : List Char)
    (hc : CClass.test ⟨false, [(65, 65), (97, 97)]⟩ c = true)
    (ho : o = [] ∨ ∃ d, o = [d] ∧ CClass.test ⟨false, [(78, 78), (110, 110)]⟩ d = true)
    (hne : w ≠ []) (hw : ∀ x ∈ w, isWordChar x = true) :
    ∃ t, DetOK reArticle ⟨none, c :: (o ++ ' ' :: (w ++ [])), 0, []⟩ t ∧
      t.pos = 1 + o.length + 1 + w.length := by
  have hcw : isWordChar c = true := by
    rw [article_test_a] at hc
    simp only [Bool.or_eq_true, beq_iff_eq] at hc
    rcases hc with rfl | rfl <;> decide
  have hsw : StopsAt clsSpace (w ++ []) := by
    cases w with
    | nil => exact absurd rfl hne
    | cons x xs => exact stopsAt_cons _ _ _ (word_not_space x (hw x (by simp)))
  have hb : Exact Regex.wordB ⟨none, c :: (o ++ ' ' :: (w ++ [])), 0, []⟩
      ⟨none, c :: (o ++ ' ' :: (w ++ [])), 0, []⟩ :=
    Exact_wordB _ (by simp [optWord, hcw])
  have htail : ∀ (prev : Option Char) (pos : Nat) (caps : List (Nat × Nat × Nat)),
      DetOK (Regex.cat [reSpaces1, .cap 2 (Regex.plus (.cls clsWord))])
        ⟨prev, [' '] ++ (w ++ []), pos, caps⟩
        ⟨lastOr (some ' ') w, [], pos + 1 + w.length, (2, pos + 1, pos + 1 + w.length) :: caps⟩ :=
    fun prev pos caps =>
      DetOK_seq (DetOK_plus_cls clsSpace [' '] (by simp) (by decide) (w ++ []) hsw prev pos caps)
        (DetOK_seq (DetOK_cap 2 (DetOK_plus_cls clsWord w hne
          (fun x hx => by rw [word_test]; exact hw x hx) [] (by intro d hd; simp at hd) _ _ _))
          (Exact_detOK (Exact_eps _)))
  rcases ho with rfl | ⟨d, rfl, hd⟩
  · refine ⟨_, DetOK_seq (Exact_detOK hb) (DetOK_seq (DetOK_cap 1
      (DetOK_seq (Exact_detOK (Exact_cls _ c hc none _ 0 []))
        (DetOK_alt_right (Fails_cls_ne _ ' ' (by decide) _ _ _ _) (Exact_detOK (Exact_eps _)))))
      (htail _ _ _)), ?_⟩
    simp
  · refine ⟨_, DetOK_seq (Exact_detOK hb) (DetOK_seq (DetOK_cap 1
      (DetOK_seq (Exact_detOK (Exact_cls _ c hc none _ 0 []))
        (DetOK_alt_left _ (Exact_detOK (Exact_cls _ d hd _ _ _ _)))))
      (htail _ _ _)), ?_⟩
    simp

/-- `processArticles` on an article, a blank and a word is its callback on the
whole text. -/
theorem processArticles_whole (U : UnicodeTables) (c : Char) (o w : List Char)
    (hc : CClass.test ⟨false, [(65, 65), (97, 97)]⟩ c = true)
    (ho : o = [] ∨ ∃ d, o = [d] ∧ CClass.test ⟨false, [(78, 78), (110, 110)]⟩ d = true)
    (hne : w ≠ []) (hw : ∀ x ∈ w, isWordChar x = true) :
    processArticles U (c :: (o ++ ' ' :: w)) = articleCallback U (c :: (o ++ ' ' :: w)) := by
  obtain ⟨t, hdet, hpos⟩ := article_detOK c o w hc ho hne hw
  rw [List.append_nil] at hdet
  exact replaceAll_whole reArticle nonWord needs_reArticle _ (by simp) t hdet
    (by rw [hpos]; simp; omega) _

/-- The callback of `processArticles` once the two fields of the match are known. -/
theorem articleCallback_of_fields (U : UnicodeTables) (m t : List Char) (c : Char)
    (cs : List Char) (h : Fields m = [t, c :: cs]) :
    articleCallback U m =
      some ((if isVowel c then (if t = ToUpper U t then "AN".toList else "an".toList)
        else (if t = ToUpper U t then "A".toList else "a".toList)) ++ [' '] ++ c :: cs) := by
  unfold articleCallback
  rw [h]
  simp only [List.get?_cons_zero, List.get?_cons_succ]
  change some ((if reLeadingVowel.MatchString (c :: cs) = true then
      (if decide (t = ToUpper U t) = true then "AN".toList else "an".toList)
    else (if decide (t = ToUpper U t) = true then "A".toList else "a".toList)) ++ [' '] ++
      c :: cs) = _
  rw [leadingVowel_match]
  simp only [decide_eq_true_eq]

/-- `processArticles` on an article, a blank and a word, for an article whose
upper-case form is known. -/
theorem processArticles_token (U : UnicodeTables) (c : Char) (o up : List Char)
    (hc : CClass.test ⟨false, [(65, 65), (97, 97)]⟩ c = true)
    (ho : o = [] ∨ ∃ d, o = [d] ∧ CClass.test ⟨false, [(78, 78), (110, 110)]⟩ d = true)
    (hup : ToUpper U (c :: o) = up) (hsp : ∀ x ∈ c :: o, unicodeIsSpace x = false)
    (x : Char) (xs : List Char) (hw : ∀ y ∈ x :: xs, isWordChar y = true) :
    processArticles U ((c :: o) ++ " ".toList ++ (x :: xs)) =
      some ((if isVowel x then (if c :: o = up then "AN".toList else "an".toList)
        else (if c :: o = up then "A".toList else "a".toList)) ++ " ".toList ++ (x :: xs)) := by
  have e : (c :: o) ++ " ".toList ++ (x :: xs) = c :: (o ++ ' ' :: (x :: xs)) := by
    simp [String.toList]
  have hf : Fields (c :: (o ++ ' ' :: (x :: xs))) = [c :: o, x :: xs] := by
    have := Fields_two (c :: o) (x :: xs) (by simp) (by simp) hsp
      (fun y hy => isSpace_of_word (hw y hy))
    simpa using this
  rw [e, processArticles_whole U c o (x :: xs) hc ho (by simp) hw,
    articleCallback_of_fields U _ (c :: o) x xs hf, hup]
  rfl

/-- `processArticles` replaces an article in front of a word by the form the
word asks for, in the case of the article. -/
theorem processArticles_article (U : UnicodeTables) (t w : List Char)
    (ht : t = "a".toList ∨ t = "an".toList ∨ t = "A".toList ∨ t = "An".toList ∨
      t = "aN".toList ∨ t = "AN".toList)
    (hne : w ≠ []) (hw : ∀ y ∈ w, isWordChar y = true) :
    processArticles U (t ++ " ".toList ++ w) = some (articleFor t w ++ " ".toList ++ w) := by
  cases w with
  | nil => exact absurd rfl hne
  | cons x xs =>
    rcases ht with rfl | rfl | rfl | rfl | rfl | rfl
    · rw [show "a".toList = 'a' :: [] from rfl,
        processArticles_token U 'a' [] "A".toList (by decide) (Or.inl rfl) rfl
          (by decide) x xs hw]
      cases hv : isVowel x <;> simp [articleFor, hv]
    · rw [show "an".toList = 'a' :: ['n'] from rfl,
        processArticles_token U 'a' ['n'] "AN".toList (by decide)
          (Or.inr ⟨'n', rfl, by decide⟩) rfl (by decide) x xs hw]
      cases hv : isVowel x <;> simp [articleFor, hv]
    · rw [show "A".toList = 'A' :: [] from rfl,
        processArticles_token U 'A' [] "A".toList (by decide) (Or.inl rfl) rfl
          (by decide) x xs hw]
      cases hv : isVowel x <;> simp [articleFor, hv]
    · rw [show "An".toList = 'A' :: ['n'] from rfl,
        processArticles_token U 'A' ['n'] "AN".toList (by decide)
          (Or.inr ⟨'n', rfl, by decide⟩) rfl (by decide) x xs hw]
      cases hv : isVowel x <;> simp [articleFor, hv]
    · rw [show "aN".toList = 'a' :: ['N'] from rfl,
        processArticles_token U 'a' ['N'] "AN".toList (by decide)
          (Or.inr ⟨'N', rfl, by decide⟩) rfl (by decide) x xs hw]
      cases hv : isVowel x <;> simp [articleFor, hv]
    · rw [show "AN".toList = 'A' :: ['N'] from rfl,
        processArticles_token U 'A' ['N'] "AN".toList (by decide)
          (Or.inr ⟨'N', rfl, by decide⟩) rfl (by decide) x xs hw]
      cases hv : isVowel x <;> simp [articleFor, hv]

/-! ## What a match looks like, captures included -/

theorem starLoop_parses (g : Bool) (r : Regex)
    (ih : ∀ (s : MState) (k : MState → Option MState) (res : MState), r.run s k = some res →
      ∃ x rest c, s.rest = x ++ rest ∧ r.Parses s.prev x rest s.pos c ∧
        k ⟨lastOr s.prev x, rest, s.pos + x.length, c ++ s.caps⟩ = some res) :
    ∀ (fuel : Nat) (s : MState) (k : MState → Option MState) (res : MState),
      starLoop g r.run fuel s k = some res →
      ∃ x rest c, s.rest = x ++ rest ∧ StarParses r.Parses s.prev x rest s.pos c ∧
        k ⟨lastOr s.prev x, rest, s.pos + x.length, c ++ s.caps⟩ = some res := by
  intro fuel
  induction fuel with
  | zero =>
    intro s k res h
    exact ⟨[], s.rest, [], rfl, StarParses.nil _ _ _, by simpa [starLoop, lastOr] using h⟩
  | succ n ihn =>
    intro s k res h
    have stop : k s = some res →
        ∃ x rest c, s.rest = x ++ rest ∧ StarParses r.Parses s.prev x rest s.pos c ∧
          k ⟨lastOr s.prev x, rest, s.pos + x.length, c ++ s.caps⟩ = some res := fun hk =>
      ⟨[], s.rest, [], rfl, StarParses.nil _ _ _, by simpa [lastOr] using hk⟩
    have iter : r.run s (fun t => starLoop g r.run n t k) = some res →
        ∃ x rest c, s.rest = x ++ rest ∧ StarParses r.Parses s.prev x rest s.pos c ∧
          k ⟨lastOr s.prev x, rest, s.pos + x.length, c ++ s.caps⟩ = some res := by
      intro hrun
      obtain ⟨x, rest, c, hx, hp, hk⟩ := ih s _ res hrun
      obtain ⟨y, rest2, c2, hy, hp2, hk2⟩ := ihn _ k res hk
      simp only at hy hp2 hk2
      subst hy
      refine ⟨x ++ y, rest2, c2 ++ c, by rw [hx, List.append_assoc],
        StarParses.cons _ x y rest2 _ c c2 hp hp2, ?_⟩
      rw [lastOr_append, List.length_append, ← Nat.add_assoc, List.append_assoc]
      exact hk2
    cases g with
    | true =>
      simp only [starLoop, if_true] at h
      cases hrun : r.run s (fun t => starLoop true r.run n t k) with
      | some r2 =>
        rw [hrun] at h
        simp only [Option.some.injEq] at h
        subst h
        exact iter hrun
      | none =>
        rw [hrun] at h
        exact stop h
    | false =>
      simp only [starLoop, Bool.false_eq_true, if_false] at h
      cases hk : k s with
      | some r2 =>
        rw [hk] at h
        simp only [Option.some.injEq] at h
        subst h
        exact stop hk
      | none =>
        rw [hk] at h
        exact iter h

/-- Soundness of the matcher with respect to `Parses`: a successful run has
matched a text the pattern parses, in its context, and has recorded the
captures of that parse. -/
theorem Regex.run_parses (re : Regex) :
    ∀ (s : MState) (k : MState → Option MState) (res : MState), re.run s k = some res →
      ∃ x rest c, s.rest = x ++ rest ∧ re.Parses s.prev x rest s.pos c ∧
        k ⟨lastOr s.prev x, rest, s.pos + x.length, c ++ s.caps⟩ = some res := by
  induction re with
  | eps =>
    intro s k res h
    exact ⟨[], s.rest, [], rfl, ⟨rfl, rfl⟩, by simpa [Regex.run, lastOr] using h⟩
  | chr c =>
    intro s k res h
    simp only [Regex.run] at h
    split at h
    · exact absurd h (by simp)
    · rename_i d ds hrest
      split at h
      · rename_i hd
        subst hd
        exact ⟨[d], ds, [], by simp [hrest], ⟨rfl, rfl⟩, by simpa [lastOr] using h⟩
      · exact absurd h (by simp)
  | cls cc =>
    intro s k res h
    simp only [Regex.run] at h
    split at h
    · exact absurd h (by simp)
    · rename_i d ds hrest
      split at h
      · rename_i hd
        exact ⟨[d], ds, [], by simp [hrest], ⟨d, rfl, hd, rfl⟩, by simpa [lastOr] using h⟩
      · exact absurd h (by simp)
  | seq a b iha ihb =>
    intro s k res h
    simp only [Regex.run] at h
    obtain ⟨x, rest, c, hx, hp, hk⟩ := iha s _ res h
    obtain ⟨y, rest2, c2, hy, hp2, hk2⟩ := ihb _ k res hk
    simp only at hy hp2 hk2
    subst hy
    refine ⟨x ++ y, rest2, c2 ++ c, by rw [hx, List.append_assoc],
      ⟨x, y, c, c2, rfl, hp, hp2, rfl⟩, ?_⟩
    rw [lastOr_append, List.length_append, ← Nat.add_assoc, List.append_assoc]
    exact hk2
  | alt a b iha ihb =>
    intro s k res h
    simp only [Regex.run] at h
    cases hrun : a.run s k with
    | some r2 =>
      rw [hrun] at h
      simp only [Option.some.injEq] at h
      subst h
      obtain ⟨x, rest, c, hx, hp, hk⟩ := iha s k _ hrun
      exact ⟨x, rest, c, hx, Or.inl hp, hk⟩
    | none =>
      rw [hrun] at h
      obtain ⟨x, rest, c, hx, hp, hk⟩ := ihb s k _ h
      exact ⟨x, rest, c, hx, Or.inr hp, hk⟩
  | star g r ih =>
    intro s k res h
    simp only [Regex.run] at h
    exact starLoop_parses g r ih _ s k res h
  | cap i r ih =>
    intro s k res h
    simp only [Regex.run] at h
    obtain ⟨x, rest, c, hx, hp, hk⟩ := ih s _ res h
    simp only at hk
    exact ⟨x, rest, (i, s.pos, s.pos + x.length) :: c, hx, ⟨c, hp, rfl⟩, hk⟩
  | bol m =>
    intro s k res h
    simp only [Regex.run] at h
    split at h
    · rename_i hc
      exact ⟨[], s.rest, [], rfl, ⟨rfl, rfl, hc⟩, by simpa [lastOr] using h⟩
    · exact absurd h (by simp)
  | eol m =>
    intro s k res h
    simp only [Regex.run] at h
    split at h
    · rename_i hc
      exact ⟨[], s.rest, [], rfl, ⟨rfl, rfl, hc⟩, by simpa [lastOr] using h⟩
    · exact absurd h (by simp)
  | wordB =>
    intro s k res h
    simp only [Regex.run] at h
    split at h
    · rename_i hc
      exact ⟨[], s.rest, [], rfl, ⟨rfl, rfl, hc⟩, by simpa [lastOr] using h⟩
    · exact absurd h (by simp)

/-- What a successful search returns, captures included. -/
theorem Regex.searchFrom_parses (re : Regex) :
    ∀ (rest : List Char) (prev : Option Char) (pos : Nat) (m : Match),
      re.searchFrom prev rest pos = some m →
      ∃ pre x rest2, rest = pre ++ x ++ rest2 ∧ m.start = pos + pre.length ∧
        m.stop = m.start + x.length ∧ re.Parses (lastOr prev pre) x rest2 m.start m.caps := by
  intro rest
  induction rest with
  | nil =>
    intro prev pos m h
    simp only [Regex.searchFrom] at h
    split at h
    · rename_i t ht
      simp only [Option.some.injEq] at h
      subst h
      obtain ⟨x, rest2, c, hx, hp, hk⟩ := re.run_parses _ _ _ ht
      simp only [Option.some.injEq] at hk
      subst hk
      exact ⟨[], x, rest2, by simpa using hx, by simp, rfl, by simpa [lastOr] using hp⟩
    · exact absurd h (by simp)
  | cons c cs ih =>
    intro prev pos m h
    simp only [Regex.searchFrom] at h
    split at h
    · rename_i t ht
      simp only [Option.some.injEq] at h
      subst h
      obtain ⟨x, rest2, c2, hx, hp, hk⟩ := re.run_parses _ _ _ ht
      simp only [Option.some.injEq] at hk
      subst hk
      exact ⟨[], x, rest2, by simpa using hx, by simp, rfl, by simpa [lastOr] using hp⟩
    · obtain ⟨pre, x, rest2, hx, h1, h2, hp⟩ := ih _ _ m h
      refine ⟨c :: pre, x, rest2, by simp [hx], by simp [h1]; omega, h2, ?_⟩
      rw [lastOr_cons]
      exact hp

theorem prevAt_eq (src : List Char) (p : Nat) (hp : p ≤ src.length) :
    prevAt src p = lastOr none (src.take p) := by
  unfold prevAt lastOr
  by_cases h0 : p = 0
  · subst h0
    simp
  · rw [if_neg h0, List.getLast?_eq_getElem?, List.length_take, Nat.min_eq_left hp,
      List.getElem?_take_of_lt (by omega), List.get?_eq_getElem?]
    cases src[p - 1]? <;> rfl

/-- What `exec` returns: a match of a substring the pattern parses in its
context. -/
theorem Regex.exec_parses (re : Regex) (src : List Char) (p : Nat) (m : Match)
    (h : re.exec src p = some m) (hp : p ≤ src.length) :
    ∃ pre x post, src = pre ++ x ++ post ∧ m.start = pre.length ∧
      m.stop = pre.length + x.length ∧ p ≤ m.start ∧
      re.Parses (lastOr none pre) x post pre.length m.caps := by
  obtain ⟨pre, x, rest2, hx, h1, h2, hpar⟩ := re.searchFrom_parses _ _ _ _ h
  have hl : (src.take p ++ pre).length = m.start := by
    rw [List.length_append, List.length_take, Nat.min_eq_left hp, h1]
  refine ⟨src.take p ++ pre, x, rest2, ?_, hl.symm, by rw [hl]; exact h2, by omega, ?_⟩
  · conv_lhs => rw [← List.take_append_drop p src, hx]
    simp
  · rw [lastOr_append, ← prevAt_eq src p hp, hl]
    exact hpar

theorem match_text_mid (pre x post : List Char) (caps : List (Nat × Nat × Nat)) :
    (⟨pre.length, pre.length + x.length, caps⟩ : Match).text (pre ++ x ++ post) = x :=
  slice_mid pre x post

/-- `replaceAll` when the replacement function is known on every parse of a
substring of the text. -/
theorem replaceAll_of_parses (re : Regex) (src : List Char)
    (repl : Match → Option (List Char)) (Q : List Char → List Char → Prop)
    (h : ∀ pre x post caps, src = pre ++ x ++ post →
      re.Parses (lastOr none pre) x post pre.length caps →
      ∃ r, repl ⟨pre.length, pre.length + x.length, caps⟩ = some r ∧ Q x r) :
    ∃ out n, replaceAllLoop re src repl (src.length + 2) 0 0 [] = some out ∧
      Rewrite Q n src out := by
  obtain ⟨out, n, h1, h2, _⟩ := replaceAllLoop_rewrite re src repl Q
    (fun p m hp hm => by
      obtain ⟨pre, x, post, hsrc, hs, ht, _, hpar⟩ := re.exec_parses src p m hm hp
      obtain ⟨r, hr, hq⟩ := h pre x post m.caps hsrc hpar
      have hm2 : m = ⟨pre.length, pre.length + x.length, m.caps⟩ := by
        cases m
        simp only at hs ht
        simp [hs, ht]
      refine ⟨r, by rw [hm2]; exact hr, ?_⟩
      rw [hm2, hsrc, match_text_mid]
      exact hq)
    (src.length + 2) 0 0 [] (Nat.le_refl _) (by omega) (by omega)
  exact ⟨out, n, by simpa using h1, by simpa using h2⟩

/-- `replaceAll` leaves the text alone when every match is replaced by itself. -/
theorem replaceAll_identity (re : Regex) (src : List Char)
    (repl : Match → Option (List Char))
    (h : ∀ pre x post caps, src = pre ++ x ++ post →
      re.Parses (lastOr none pre) x post pre.length caps →
      repl ⟨pre.length, pre.length + x.length, caps⟩ = some x) :
    replaceAllLoop re src repl (src.length + 2) 0 0 [] = some src := by
  obtain ⟨out, n, h1, h2⟩ := replaceAll_of_parses re src repl (fun x r => r = x)
    (fun pre x post caps hs hp => ⟨x, h pre x post caps hs hp, rfl⟩)
  rw [h1, Rewrite_eq_of_id (fun _ _ e => e) h2]

/-! ## `processPunctuation` -/

/-- The passes of `processPunctuation`, one after the other. -/
theorem processPunctuation_steps (t0 t1 t2 t3 t4 t5 t6 t7 t8 t9 t10 t11 t12 : List Char)
    (h1 : reDots.ReplaceAllStringFunc t0 (fun m => some (removeSpaces m ++ [' '])) = some t1)
    (h2 : (reAttachMark '!').ReplaceAllString t1 [.group 1, .group 2] = some t2)
    (h3 : (reSpaceAfterMark '!').ReplaceAllString t2 [.group 1, .text [' '], .group 2] = some t3)
    (h4 : (reAttachMark '?').ReplaceAllString t3 [.group 1, .group 2] = some t4)
    (h5 : (reSpaceAfterMark '?').ReplaceAllString t4 [.group 1, .text [' '], .group 2] = some t5)
    (h6 : (reMarkPair '!' '?').ReplaceAllString t5 [.text "!? ".toList] = some t6)
    (h7 : (reMarkPair '?' '!').ReplaceAllString t6 [.text "?! ".toList] = some t7)
    (h8 : reMarksDot.ReplaceAllString t7 [.group 1, .text ['.']] = some t8)
    (h9 : reSeparators.ReplaceAllStringFunc t8 (fun m => some (TrimSpace m ++ [' '])) = some t9)
    (h10 : reTwoMarks.ReplaceAllString t9 [.group 1, .group 2] = some t10)
    (h11 : reFinalMark.ReplaceAllString t10 [.group 1, .text [' ']] = some t11)
    (h12 : reSpaceRun.ReplaceAllString t11 [.text [' ']] = some t12) :
    processPunctuation t0 = some (TrimSpace t12) := by
  simp only [processPunctuation, h1, h2, h3, h4, h5, h6, h7, h8, h9, h10, h11, h12,
    Option.bind_eq_bind, Option.some_bind]
  rfl

theorem stop_reDots : reDots.needs isStop = true := by rfl
theorem stop_reAttachBang : (reAttachMark '!').needs isStop = true := by rfl
theorem stop_reAttachQuery : (reAttachMark '?').needs isStop = true := by rfl
theorem stop_reSpaceAfterBang : (reSpaceAfterMark '!').needs isStop = true := by rfl
theorem stop_reSpaceAfterQuery : (reSpaceAfterMark '?').needs isStop = true := by rfl
theorem stop_reBangQuery : (reMarkPair '!' '?').needs isStop = true := by rfl
theorem stop_reQueryBang : (reMarkPair '?' '!').needs isStop = true := by rfl
theorem stop_reMarksDot : reMarksDot.needs isStop = true := by rfl
theorem stop_reTwoMarks : reTwoMarks.needs isStop = true := by rfl
theorem stop_reFinalMark : reFinalMark.needs isStop = true := by rfl
theorem separator_reSeparators : reSeparators.needs isSeparatorMark = true := by rfl

theorem NoAdjacent_of_left (f g : Char → Bool) (t : List Char) (h : ∀ c ∈ t, f c = false) :
    NoAdjacent f g t := by
  intro pre c d post e hf _
  have := h c (by rw [e]; simp)
  rw [hf] at this
  exact absurd this (by simp)

theorem NoAdjacent_of_right (f g : Char → Bool) (t : List Char) (h : ∀ c ∈ t, g c = false) :
    NoAdjacent f g t := by
  intro pre c d post e _ hg
  have := h d (by rw [e]; simp)
  rw [hg] at this
  exact absurd this (by simp)

/-- Adjacent runes of `a ++ b` lie in `a`, in `b`, or are the last rune of `a`
and the first of `b`. -/
theorem NoAdjacent_append (f g : Char → Bool) : ∀ (a b : List Char), NoAdjacent f g a →
    NoAdjacent f g b →
    (∀ c d, a.getLast? = some c → b.head? = some d → f c = true → g d = true → False) →
    NoAdjacent f g (a ++ b) := by
  intro a
  induction a with
  | nil => intro b _ hb _; simpa using hb
  | cons x xs ih =>
    intro b ha hb hab pre c d post e hf hg
    cases pre with
    | nil =>
      simp only [List.nil_append, List.cons_append, List.cons.injEq] at e
      obtain ⟨rfl, e2⟩ := e
      cases xs with
      | nil =>
        simp only [List.nil_append] at e2
        exact hab x d (by simp) (by rw [e2]; simp) hf hg
      | cons y ys =>
        simp only [List.cons_append, List.cons.injEq] at e2
        obtain ⟨rfl, _⟩ := e2
        exact ha [] x y ys rfl hf hg
    | cons p ps =>
      simp only [List.cons_append, List.cons.injEq] at e
      obtain ⟨rfl, e2⟩ := e
      refine ih b (fun pre2 c2 d2 post2 e3 => ha (x :: pre2) c2 d2 post2 (by simp [e3])) hb
        (fun c2 d2 h1 h2 => hab c2 d2 ?_ h2) ps c d post e2 hf hg
      cases xs with
      | nil => simp at h1
      | cons y ys => simpa using h1

theorem Regex.exec_none_of_needs_from (re : Regex) (p : Char → Bool)
    (hre : re.needs p = true) (src : List Char) (pos : Nat)
    (h : ∀ c ∈ src.drop pos, p c = false) : re.exec src pos = none :=
  re.searchFrom_none_of_needs p hre _ h _ _

/-- `replaceAll` when the only match is the text `x` between `pre`, at whose
runes the pattern cannot start, and `post`, which lacks a rune the pattern
needs. -/
theorem replaceAll_middle (re : Regex) (p : Char → Bool) (hre : re.needs p = true)
    (pre x post : List Char) (repl : Match → Option (List Char)) (r : List Char)
    (hskip : ∀ c ∈ pre, ∀ prev cs pos, Fails re ⟨prev, c :: cs, pos, []⟩)
    (t : MState) (hdet : DetOK re ⟨lastOr none pre, x ++ post, 0 + pre.length, []⟩ t)
    (hpos : t.pos = pre.length + x.length) (hx : x ≠ [])
    (hpost : ∀ c ∈ post, p c = false)
    (hr : repl ⟨0 + pre.length, t.pos, t.caps⟩ = some r) :
    replaceAllLoop re (pre ++ (x ++ post)) repl ((pre ++ (x ++ post)).length + 2) 0 0 [] =
      some (pre ++ (r ++ post)) := by
  have h0 : re.exec (pre ++ (x ++ post)) 0 = some ⟨0 + pre.length, t.pos, t.caps⟩ := by
    rw [re.exec_zero, re.searchFrom_skip pre hskip _ none 0]
    exact re.searchFrom_of_detOK _ _ _ t hdet
  have hxl : 0 < x.length := List.length_pos.2 hx
  have hd : (pre ++ (x ++ post)).drop (pre.length + x.length) = post := by
    rw [← List.append_assoc, ← List.length_append, List.drop_left]
  have := replaceAll_single re (pre ++ (x ++ post)) repl _ r h0
    (by simp only; omega) (by simp only [List.length_append]; omega)
    (by
      simp only
      rw [hpos]
      exact re.exec_none_of_needs_from p hre _ _ (by rw [hd]; exact hpost)) hr
  rw [this]
  simp only [Nat.zero_add, hpos, hd, List.take_left, List.append_assoc]

theorem stop_of_word {c : Char} (h : isWordChar c = true) : isStop c = false := by
  have := ascii_cases (fun c => isWordChar c = true → isStop c = false) (by decide) c
    (word_lt c h)
  exact this h

theorem separator_of_word {c : Char} (h : isWordChar c = true) : isSeparatorMark c = false := by
  have := ascii_cases (fun c => isWordChar c = true → isSeparatorMark c = false) (by decide) c
    (word_lt c h)
  exact this h

theorem space_lt (c : Char) (h : clsSpace.test c = true) : c.toNat < 128 := by
  simp only [CClass.test, clsSpace, List.any_cons, List.any_nil, Bool.or_false, Bool.false_bne,
    Bool.or_eq_true, Bool.and_eq_true, decide_eq_true_eq] at h
  omega

theorem stop_of_space {c : Char} (h : clsSpace.test c = true) : isStop c = false := by
  have := ascii_cases (fun c => clsSpace.test c = true → isStop c = false) (by decide) c
    (space_lt c h)
  exact this h

theorem separator_of_space {c : Char} (h : clsSpace.test c = true) :
    isSeparatorMark c = false := by
  have := ascii_cases (fun c => clsSpace.test c = true → isSeparatorMark c = false)
    (by decide) c (space_lt c h)
  exact this h

theorem dropWhile_all (p : Char → Bool) : ∀ (a b : List Char), (∀ c ∈ a, p c = true) →
    (a ++ b).dropWhile p = b.dropWhile p := by
  intro a
  induction a with
  | nil => intro b _; rfl
  | cons c cs ih =>
    intro b h
    rw [List.cons_append, List.dropWhile_cons_of_pos (h c (by simp))]
    exact ih b (fun d hd => h d (by simp [hd]))

/-- `strings.TrimSpace` removes white space around a text whose first and last
rune are no white space. -/
theorem TrimSpace_around (s1 core s2 : List Char) (h1 : ∀ c ∈ s1, unicodeIsSpace c = true)
    (h2 : ∀ c ∈ s2, unicodeIsSpace c = true)
    (hh : ∀ c ∈ core.head?, unicodeIsSpace c = false)
    (hl : ∀ c ∈ core.getLast?, unicodeIsSpace c = false) :
    TrimSpace (s1 ++ (core ++ s2)) = core := by
  unfold TrimSpace
  rw [dropWhile_all _ s1 _ h1]
  by_cases hc : core = []
  · subst hc
    rw [List.nil_append]
    have : s2.dropWhile unicodeIsSpace = [] := by
      have := dropWhile_all unicodeIsSpace s2 [] h2
      simpa using this
    rw [this]
    rfl
  · have e1 : (core ++ s2).dropWhile unicodeIsSpace = core ++ s2 :=
      dropWhile_of_head _ _ (by
        cases core with
        | nil => exact absurd rfl hc
        | cons x xs => simpa using hh)
    rw [e1, List.reverse_append, dropWhile_all _ s2.reverse _
      (fun c hcs => h2 c (List.mem_reverse.1 hcs)),
      dropWhile_of_head _ _ (by rw [List.head?_reverse]; exact hl), List.reverse_reverse]

/-- `\s{2,}` finds nothing in a text without two adjacent runes of `\s`. -/
theorem spaceRun_search_none : ∀ (rest : List Char),
    NoAdjacent clsSpace.test clsSpace.test rest → ∀ (prev : Option Char) (pos : Nat),
      reSpaceRun.searchFrom prev rest pos = none := by
  intro rest
  induction rest with
  | nil =>
    intro _ prev pos
    exact reSpaceRun.searchFrom_nil_of_fails prev pos (Fails_seq_left _ (Fails_cls_nil _ _ _ _))
  | cons c cs ih =>
    intro h prev pos
    have hf : Fails reSpaceRun ⟨prev, c :: cs, pos, []⟩ := by
      cases hc : clsSpace.test c with
      | false => exact Fails_seq_left _ (Fails_cls_ne _ c hc _ _ _ _)
      | true =>
        refine Fails_seq_right (Exact_cls _ c hc _ _ _ _) (Fails_seq_left _ ?_)
        cases cs with
        | nil => exact Fails_cls_nil _ _ _ _
        | cons d ds =>
          refine Fails_cls_ne _ d ?_ _ _ _ _
          cases hd : clsSpace.test d with
          | false => rfl
          | true => exact (h [] c d ds rfl hc hd).elim
    rw [reSpaceRun.searchFrom_cons_of_fails prev c cs pos hf]
    exact ih (fun pre c2 d2 post e => h (c :: pre) c2 d2 post (by simp [e])) _ _

theorem spaceRun_none (t : List Char) (h : NoAdjacent clsSpace.test clsSpace.test t) :
    reSpaceRun.ReplaceAllString t [.text [' ']] = some t := by
  refine Regex.ReplaceAllString_of_no_match _ _ _ ?_
  rw [Regex.exec_zero]
  exact spaceRun_search_none t h _ _

theorem word_not_unicodeSpace {c : Char} (h : isWordChar c = true) :
    unicodeIsSpace c = false := by
  have := ascii_cases (fun c => isWordChar c = true → unicodeIsSpace c = false) (by decide) c
    (word_lt c h)
  exact this h

theorem separator_facts {p : Char} (h : isSeparatorMark p = true) :
    clsSpace.test p = false ∧ unicodeIsSpace p = false ∧ isStop p = false ∧
      (⟨false, [(44, 44), (58, 59)]⟩ : CClass).test p = true := by
  have hp : p = ',' ∨ p = ';' ∨ p = ':' := by
    simpa [isSeparatorMark, or_assoc] using h
  rcases hp with rfl | rfl | rfl <;> decide

theorem blank_facts {c : Char} (h : c = ' ') :
    clsSpace.test c = true ∧ unicodeIsSpace c = true ∧ isStop c = false ∧
      isSeparatorMark c = false := by
  subst h
  decide

theorem separators_fails_word (c : Char) (hc : isWordChar c = true) (prev : Option Char)
    (cs : List Char) (pos : Nat) : Fails reSeparators ⟨prev, c :: cs, pos, []⟩ :=
  Fails_seq_right (Exact_star_cls_stop true clsSpace c (word_not_space c hc) prev cs pos [])
    (Fails_seq_left _ (Fails_cap 1 (Fails_cls_ne _ c (by
      have := ascii_cases (fun c => isWordChar c = true →
        (⟨false, [(44, 44), (58, 59)]⟩ : CClass).test c = false) (by decide) c (word_lt c hc)
      exact this hc) prev cs pos [])))

/-- The one match of `\s*([,;:])\s*` around a separator between two words. -/
theorem separators_detOK (s1 s2 v : List Char) (p : Char) (hp : isSeparatorMark p = true)
    (h1 : ∀ c ∈ s1, c = ' ') (h2 : ∀ c ∈ s2, c = ' ') (hv : ∀ c ∈ v, isWordChar c = true)
    (prev : Option Char) (pos : Nat) :
    DetOK reSeparators ⟨prev, (s1 ++ ([p] ++ s2)) ++ v, pos, []⟩
      ⟨lastOr (some p) s2, v, pos + s1.length + 1 + s2.length,
        [(1, pos + s1.length, pos + s1.length + 1)]⟩ := by
  obtain ⟨hp1, _, _, hp4⟩ := separator_facts hp
  have a1 := DetOK_star_cls clsSpace s1 (fun c hc => (blank_facts (h1 c hc)).1)
    (p :: (s2 ++ v)) (stopsAt_cons _ p _ hp1) prev pos []
  have a2 := DetOK_cap 1 (Exact_detOK (Exact_cls ⟨false, [(44, 44), (58, 59)]⟩ p hp4
    (lastOr prev s1) (s2 ++ v) (pos + s1.length) []))
  have hstop : StopsAt clsSpace v := by
    intro d hd
    cases v with
    | nil => simp at hd
    | cons x xs =>
      simp only [List.head?_cons, Option.mem_def, Option.some.injEq] at hd
      subst hd
      exact word_not_space _ (hv _ (by simp))
  have a3 := DetOK_star_cls clsSpace s2 (fun c hc => (blank_facts (h2 c hc)).1) v hstop
    (some p) (pos + s1.length + 1) ((1, pos + s1.length, pos + s1.length + 1) :: [])
  have e : (s1 ++ ([p] ++ s2)) ++ v = s1 ++ p :: (s2 ++ v) := by simp
  rw [e]
  exact DetOK_seq a1 (DetOK_seq a2 (DetOK_seq a3 (Exact_detOK (Exact_eps _))))

theorem stopsAt_word (cc : CClass) (v : List Char) (h : ∀ c ∈ v, cc.test c = false) :
    StopsAt cc v := by
  intro d hd
  cases v with
  | nil => simp at hd
  | cons x xs =>
    simp only [List.head?_cons, Option.mem_def, Option.some.injEq] at hd
    subst hd
    exact h _ (by simp)

/-- The pass of `processPunctuation` for `,`, `;` and `:` on one separator
between two words. -/
theorem separators_pass (u s1 s2 v : List Char) (p : Char) (hp : isSeparatorMark p = true)
    (hu : ∀ c ∈ u, isWordChar c = true) (hv : ∀ c ∈ v, isWordChar c = true)
    (h1 : ∀ c ∈ s1, c = ' ') (h2 : ∀ c ∈ s2, c = ' ') :
    reSeparators.ReplaceAllStringFunc (u ++ ((s1 ++ ([p] ++ s2)) ++ v))
      (fun m => some (TrimSpace m ++ [' '])) = some (u ++ ([p, ' '] ++ v)) := by
  obtain ⟨_, hp2, _, _⟩ := separator_facts hp
  have hd := separators_detOK s1 s2 v p hp h1 h2 hv (lastOr none u) (0 + u.length)
  refine replaceAll_middle reSeparators isSeparatorMark separator_reSeparators u
    (s1 ++ ([p] ++ s2)) v _ [p, ' ']
    (fun c hc prev cs pos => separators_fails_word c (hu c hc) prev cs pos) _ hd
    (by simp only [List.length_append, List.length_cons, List.length_nil]; omega) (by simp)
    (fun c hc => separator_of_word (hv c hc)) ?_
  have e : (⟨0 + u.length, 0 + u.length + s1.length + 1 + s2.length,
      [(1, 0 + u.length + s1.length, 0 + u.length + s1.length + 1)]⟩ : Match).text
      (u ++ ((s1 ++ ([p] ++ s2)) ++ v)) = s1 ++ ([p] ++ s2) :=
    slice_at _ u _ v _ _ (by simp) (by simp)
      (by simp only [List.length_append, List.length_cons, List.length_nil]; omega)
  simp only [e]
  rw [TrimSpace_around s1 [p] s2 (fun c hc => (blank_facts (h1 c hc)).2.1)
    (fun c hc => (blank_facts (h2 c hc)).2.1) (by simpa using hp2) (by simpa using hp2)]
  rfl

theorem NoAdjacent_singleton (f g : Char → Bool) (x : Char) : NoAdjacent f g [x] := by
  intro pre c d post e _ _
  have := congrArg List.length e
  simp only [List.length_cons, List.length_nil, List.length_append] at this
  omega

theorem no_match_of_stop (re : Regex) (hre : re.needs isStop = true) (t : List Char)
    (h : ∀ c ∈ t, isStop c = false) : re.exec t 0 = none :=
  re.exec_none_of_needs isStop hre t h 0

theorem getLast_mem_of_append (a b : List Char) (hb : b ≠ []) :
    ∀ c ∈ (a ++ b).getLast?, c ∈ b := by
  intro c hc
  rw [List.getLast?_append_of_ne_nil _ hb] at hc
  exact List.mem_of_mem_getLast? hc

/-- `processPunctuation` on two words with one of `,`, `;`, `:` between them. -/
theorem processPunctuation_separator (u s1 s2 v : List Char) (p : Char)
    (hp : isSeparatorMark p = true) (hu : ∀ c ∈ u, isWordChar c = true)
    (hv : ∀ c ∈ v, isWordChar c = true) (hvne : v ≠ [])
    (h1 : ∀ c ∈ s1, c = ' ') (h2 : ∀ c ∈ s2, c = ' ') :
    processPunctuation (u ++ ((s1 ++ ([p] ++ s2)) ++ v)) = some (u ++ ([p, ' '] ++ v)) := by
  obtain ⟨hp1, hp2, hp3, _⟩ := separator_facts hp
  have hs0 : ∀ c ∈ u ++ ((s1 ++ ([p] ++ s2)) ++ v), isStop c = false := by
    intro c hc
    simp only [List.mem_append, List.mem_singleton] at hc
    rcases hc with hc | (hc | hc | hc) | hc
    · exact stop_of_word (hu c hc)
    · exact (blank_facts (h1 c hc)).2.2.1
    · rw [hc]; exact hp3
    · exact (blank_facts (h2 c hc)).2.2.1
    · exact stop_of_word (hv c hc)
  have hs9 : ∀ c ∈ u ++ ([p, ' '] ++ v), isStop c = false := by
    intro c hc
    simp only [List.mem_append, List.mem_cons, List.mem_singleton, List.not_mem_nil,
      or_false] at hc
    rcases hc with hc | (hc | hc) | hc
    · exact stop_of_word (hu c hc)
    · rw [hc]; exact hp3
    · rw [hc]; decide
    · exact stop_of_word (hv c hc)
  have hadj : NoAdjacent clsSpace.test clsSpace.test (u ++ ([p, ' '] ++ v)) := by
    have e : u ++ ([p, ' '] ++ v) = (u ++ [p]) ++ ([' '] ++ v) := by simp
    rw [e]
    refine NoAdjacent_append _ _ _ _ (NoAdjacent_of_left _ _ _ ?_)
      (NoAdjacent_append _ _ _ _ (NoAdjacent_singleton _ _ _)
        (NoAdjacent_of_left _ _ _ (fun c hc => word_not_space c (hv c hc))) ?_) ?_
    · intro c hc
      simp only [List.mem_append, List.mem_singleton] at hc
      rcases hc with hc | hc
      · exact word_not_space c (hu c hc)
      · rw [hc]; exact hp1
    · intro c d _ hd _ hg
      have := word_not_space d (hv d (List.mem_of_mem_head? hd))
      rw [hg] at this
      exact absurd this (by simp)
    · intro c d hc _ hf _
      rw [List.getLast?_append_of_ne_nil _ (by simp)] at hc
      simp only [List.getLast?_singleton, Option.some.injEq] at hc
      rw [← hc, hp1] at hf
      exact absurd hf (by simp)
  have h := processPunctuation_steps (u ++ ((s1 ++ ([p] ++ s2)) ++ v)) _ _ _ _ _ _ _ _
    (u ++ ([p, ' '] ++ v)) _ _ _
    (Regex.ReplaceAllStringFunc_of_no_match _ _ _ (no_match_of_stop _ stop_reDots _ hs0))
    (Regex.ReplaceAllString_of_no_match _ _ _ (no_match_of_stop _ stop_reAttachBang _ hs0))
    (Regex.ReplaceAllString_of_no_match _ _ _ (no_match_of_stop _ stop_reSpaceAfterBang _ hs0))
    (Regex.ReplaceAllString_of_no_match _ _ _ (no_match_of_stop _ stop_reAttachQuery _ hs0))
    (Regex.ReplaceAllString_of_no_match _ _ _ (no_match_of_stop _ stop_reSpaceAfterQuery _ hs0))
    (Regex.ReplaceAllString_of_no_match _ _ _ (no_match_of_stop _ stop_reBangQuery _ hs0))
    (Regex.ReplaceAllString_of_no_match _ _ _ (no_match_of_stop _ stop_reQueryBang _ hs0))
    (Regex.ReplaceAllString_of_no_match _ _ _ (no_match_of_stop _ stop_reMarksDot _ hs0))
    (separators_pass u s1 s2 v p hp hu hv h1 h2)
    (Regex.ReplaceAllString_of_no_match _ _ _ (no_match_of_stop _ stop_reTwoMarks _ hs9))
    (Regex.ReplaceAllString_of_no_match _ _ _ (no_match_of_stop _ stop_reFinalMark _ hs9))
    (spaceRun_none _ hadj)
  rw [h, TrimSpace_of_ends]
  · intro c hc
    cases u with
    | nil =>
      simp only [List.nil_append, List.cons_append, List.head?_cons, Option.mem_def,
        Option.some.injEq] at hc
      rw [← hc]; exact hp2
    | cons x xs =>
      simp only [List.cons_append, List.head?_cons, Option.mem_def, Option.some.injEq] at hc
      rw [← hc]; exact word_not_unicodeSpace (hu x (by simp))
  · intro c hc
    rw [← List.append_assoc] at hc
    exact word_not_unicodeSpace (hv c (getLast_mem_of_append _ v hvne c hc))

/-! ## The passes of `processPunctuation` for `!` and `?` -/

/-- Iterations of a one-rune pattern parse a text of such runes and capture
nothing. -/
theorem StarParses_rune (r : Regex) (f : Char → Bool)
    (hr : ∀ prev x rest off c, r.Parses prev x rest off c → ∃ d, x = [d] ∧ f d = true ∧ c = []) :
    ∀ prev x rest off caps, StarParses r.Parses prev x rest off caps →
      (∀ c ∈ x, f c = true) ∧ caps = [] := by
  intro prev x rest off caps h
  induction h with
  | nil => exact ⟨by simp, rfl⟩
  | cons prev u v rest off cu cv hu _ ih =>
    obtain ⟨d, rfl, hd, rfl⟩ := hr _ _ _ _ _ hu
    obtain ⟨h1, rfl⟩ := ih
    refine ⟨?_, rfl⟩
    intro c hc
    simp only [List.singleton_append, List.mem_cons] at hc
    rcases hc with rfl | hc
    · exact hd
    · exact h1 c hc

theorem parses_chr (m : Char) : ∀ prev x rest off c, (Regex.chr m).Parses prev x rest off c →
    ∃ d, x = [d] ∧ (d == m) = true ∧ c = [] := by
  intro prev x rest off c h
  simp only [Regex.Parses] at h
  exact ⟨m, h.1, by simp, h.2⟩

theorem parses_cls (cc : CClass) : ∀ prev x rest off c, (Regex.cls cc).Parses prev x rest off c →
    ∃ d, x = [d] ∧ cc.test d = true ∧ c = [] := by
  intro prev x rest off c h
  simp only [Regex.Parses] at h
  exact h

theorem star_parses_rune (g : Bool) (r : Regex) (f : Char → Bool)
    (hr : ∀ prev x rest off c, r.Parses prev x rest off c → ∃ d, x = [d] ∧ f d = true ∧ c = [])
    (prev : Option Char) (x rest : List Char) (off : Nat) (caps : List (Nat × Nat × Nat))
    (h : (Regex.star g r).Parses prev x rest off caps) : (∀ c ∈ x, f c = true) ∧ caps = [] := by
  simp only [Regex.Parses] at h
  exact StarParses_rune r f hr _ _ _ _ _ h

theorem plus_parses_rune (r : Regex) (f : Char → Bool)
    (hr : ∀ prev x rest off c, r.Parses prev x rest off c → ∃ d, x = [d] ∧ f d = true ∧ c = [])
    (prev : Option Char) (x rest : List Char) (off : Nat) (caps : List (Nat × Nat × Nat))
    (h : (Regex.plus r).Parses prev x rest off caps) :
    ∃ d v, x = d :: v ∧ f d = true ∧ (∀ c ∈ v, f c = true) ∧ caps = [] := by
  simp only [Regex.plus, Regex.Parses] at h
  obtain ⟨u, v, cu, cv, rfl, hu, hv, rfl⟩ := h
  obtain ⟨d, rfl, hd, rfl⟩ := hr _ _ _ _ _ hu
  obtain ⟨h1, rfl⟩ := StarParses_rune r f hr _ _ _ _ _ hv
  exact ⟨d, v, rfl, hd, h1, rfl⟩

/-- Greedy `r*` over a one-rune pattern runs to the end of the run of its runes. -/
theorem DetOK_star_rune (r : Regex) (f : Char → Bool) (hr : IsRune r f) (xs : List Char)
    (hxs : ∀ c ∈ xs, f c = true) (rest : List Char) (hrest : HeadNot f rest)
    (prev : Option Char) (pos : Nat) (caps : List (Nat × Nat × Nat)) :
    DetOK (.star true r) ⟨prev, xs ++ rest, pos, caps⟩
      ⟨lastOr prev xs, rest, pos + xs.length, caps⟩ := by
  intro k res hk
  rw [run_star_greedy r f hr xs hxs rest hrest]
  have := findSome_greedyStates_split caps k res xs [] rest prev pos
    (by simpa [afterPrefix] using hk)
    (fun a2 b2 e hlt => by
      have := congrArg List.length e
      simp only [List.length_append, List.length_nil] at this
      omega)
  simpa using this

theorem DetOK_plus_rune (r : Regex) (f : Char → Bool) (hr : IsRune r f) (xs : List Char)
    (hne : xs ≠ []) (hxs : ∀ c ∈ xs, f c = true) (rest : List Char) (hrest : HeadNot f rest)
    (prev : Option Char) (pos : Nat) (caps : List (Nat × Nat × Nat)) :
    DetOK (Regex.plus r) ⟨prev, xs ++ rest, pos, caps⟩
      ⟨lastOr prev xs, rest, pos + xs.length, caps⟩ := by
  cases xs with
  | nil => exact absurd rfl hne
  | cons c cs =>
    intro k res hk
    rw [List.cons_append, run_plus_greedy r f hr c cs hxs rest hrest]
    have := DetOK_star_rune r f hr cs (fun d hd => hxs d (by simp [hd])) rest hrest (some c)
      (pos + 1) caps k res (by
        rw [lastOr_cons, show pos + (c :: cs).length = pos + 1 + cs.length by
          simp only [List.length_cons]; omega] at hk
        exact hk)
    rw [run_star_greedy r f hr cs (fun d hd => hxs d (by simp [hd])) rest hrest] at this
    exact this

/-- The pass `(\S+)\s*(!+)` to `$1$2` (also for `?`) leaves a text alone in which
no rune of `\s` stands directly before the mark. -/
theorem attach_identity (m : Char) (t : List Char)
    (h : NoAdjacent clsSpace.test (fun c => c == m) t) :
    (reAttachMark m).ReplaceAllString t [.group 1, .group 2] = some t := by
  refine replaceAll_identity _ _ _ ?_
  intro pre x post caps hsrc hpar
  simp only [reAttachMark, Regex.cat] at hpar
  obtain ⟨u1, v1, cu, cv, rfl, ⟨c1, hp1, rfl⟩, hv1, rfl⟩ := hpar
  obtain ⟨sp, v2, csp, cv2, rfl, hsp, hv2, rfl⟩ := hv1
  obtain ⟨g2, e, cg, ce, rfl, ⟨c2, hp2, rfl⟩, ⟨rfl, rfl⟩, rfl⟩ := hv2
  obtain ⟨_, _, _, _, _, rfl⟩ := plus_parses_rune _ _ (parses_cls clsNonSpace) _ _ _ _ _ hp1
  obtain ⟨hs, rfl⟩ := star_parses_rune _ _ _ (parses_cls clsSpace) _ _ _ _ _ hsp
  obtain ⟨d, gv, rfl, hd, _, rfl⟩ := plus_parses_rune _ _ (parses_chr m) _ _ _ _ _ hp2
  have hsp0 : sp = [] := by
    rcases List.eq_nil_or_concat sp with e | ⟨sp0, c, rfl⟩
    · exact e
    · exact (h (pre ++ u1 ++ sp0) c d (gv ++ post) (by rw [hsrc]; simp)
        (hs c (by simp)) hd).elim
  subst hsp0
  have e1 : slice t pre.length (pre.length + u1.length) = u1 :=
    slice_at t pre u1 (d :: gv ++ post) _ _ (by rw [hsrc]; simp) rfl rfl
  have e2 : slice t (pre.length + u1.length + 0)
      (pre.length + u1.length + 0 + (d :: gv ++ []).length) = d :: gv :=
    slice_at t (pre ++ u1) (d :: gv) post _ _ (by rw [hsrc]; simp)
      (by simp) (by simp)
  simp only [List.nil_append, List.append_nil, List.length_nil, Nat.add_zero,
    List.cons_append] at e2 ⊢
  simp only [expandTemplate, Match.group, capSpan, List.map_cons, List.map_nil,
    List.flatten_cons, List.flatten_nil, List.append_nil, OfNat.ofNat_ne_one,
    if_false, if_true, one_ne_zero, OfNat.ofNat_ne_zero, e1, e2, List.nil_append]

/-- The pass `([!?])\s*([!?])` to `$1$2` leaves a text alone in which no rune of
`\s` stands directly before a mark. -/
theorem twoMarks_identity (t : List Char)
    (h : NoAdjacent clsSpace.test clsBangQuery.test t) :
    reTwoMarks.ReplaceAllString t [.group 1, .group 2] = some t := by
  refine replaceAll_identity _ _ _ ?_
  intro pre x post caps hsrc hpar
  simp only [reTwoMarks, Regex.cat] at hpar
  obtain ⟨u1, v1, cu, cv, rfl, ⟨c1, hp1, rfl⟩, hv1, rfl⟩ := hpar
  obtain ⟨sp, v2, csp, cv2, rfl, hsp, hv2, rfl⟩ := hv1
  obtain ⟨g2, e, cg, ce, rfl, ⟨c2, hp2, rfl⟩, ⟨rfl, rfl⟩, rfl⟩ := hv2
  obtain ⟨a, rfl, _, rfl⟩ := parses_cls _ _ _ _ _ _ hp1
  obtain ⟨hs, rfl⟩ := star_parses_rune _ _ _ (parses_cls clsSpace) _ _ _ _ _ hsp
  obtain ⟨d, rfl, hd, rfl⟩ := parses_cls _ _ _ _ _ _ hp2
  have hsp0 : sp = [] := by
    rcases List.eq_nil_or_concat sp with e | ⟨sp0, c, rfl⟩
    · exact e
    · exact (h (pre ++ [a] ++ sp0) c d post (by rw [hsrc]; simp)
        (hs c (by simp)) hd).elim
  subst hsp0
  have e1 : slice t pre.length (pre.length + [a].length) = [a] :=
    slice_at t pre [a] (d :: post) _ _ (by rw [hsrc]; simp) rfl rfl
  have e2 : slice t (pre.length + [a].length + 0)
      (pre.length + [a].length + 0 + ([d] ++ []).length) = [d] :=
    slice_at t (pre ++ [a]) [d] post _ _ (by rw [hsrc]; simp)
      (by simp) (by simp)
  simp only [List.nil_append, List.append_nil, List.length_nil, Nat.add_zero,
    List.cons_append] at e2 ⊢
  simp only [expandTemplate, Match.group, capSpan, List.map_cons, List.map_nil,
    List.flatten_cons, List.flatten_nil, List.append_nil, OfNat.ofNat_ne_one,
    if_false, if_true, one_ne_zero, OfNat.ofNat_ne_zero, e1, e2, List.nil_append]
  rfl

/-- The pattern `([!?])\s*$` finds nothing in a text whose last rune is neither
a mark nor of `\s`. -/
theorem finalMark_none (t : List Char)
    (h : ∀ c ∈ t.getLast?, clsBangQuery.test c = false ∧ clsSpace.test c = false) :
    reFinalMark.ReplaceAllString t [.group 1, .text [' ']] = some t := by
  refine Regex.ReplaceAllString_of_no_match _ _ _ ?_
  cases hm : reFinalMark.exec t 0 with
  | none => rfl
  | some m =>
    exfalso
    obtain ⟨pre, x, post, hsrc, _, _, _, hpar⟩ := reFinalMark.exec_parses t 0 m hm (by omega)
    simp only [reFinalMark, Regex.cat] at hpar
    generalize m.caps = caps at hpar
    obtain ⟨u1, v1, cu, cv, rfl, ⟨c1, hp1, rfl⟩, hv1, rfl⟩ := hpar
    obtain ⟨sp, v2, csp, cv2, rfl, hsp, hv2, rfl⟩ := hv1
    obtain ⟨g2, e, cg, ce, rfl, hp2, ⟨rfl, rfl⟩, rfl⟩ := hv2
    obtain ⟨a, rfl, ha, rfl⟩ := parses_cls _ _ _ _ _ _ hp1
    obtain ⟨hs, rfl⟩ := star_parses_rune _ _ _ (parses_cls clsSpace) _ _ _ _ _ hsp
    simp only [Regex.Parses, Bool.false_and, Bool.or_false, List.isEmpty_iff,
      List.append_nil] at hp2
    obtain ⟨rfl, _, rfl⟩ := hp2
    rcases List.eq_nil_or_concat sp with rfl | ⟨sp0, c, rfl⟩
    · have := h a (by rw [hsrc]; simp)
      rw [ha] at this
      exact absurd this.1 (by simp)
    · have e : t = (pre ++ a :: sp0) ++ [c] := by rw [hsrc]; simp
      have := h c (by rw [e, List.getLast?_append_of_ne_nil _ (by simp)]; rfl)
      rw [hs c (by simp)] at this
      exact absurd this.2 (by simp)

theorem nonSpace_of_not_space {c : Char} (h : clsSpace.test c = false) :
    clsNonSpace.test c = true := by
  simp only [CClass.test, clsSpace, clsNonSpace] at h ⊢
  cases hx : List.any [(9, 10), (12, 13), (32, 32)]
    (fun r : Nat × Nat => decide (r.1 ≤ c.toNat) && decide (c.toNat ≤ r.2)) with
  | false => rfl
  | true => rw [hx] at h; exact absurd h (by decide)

theorem not_nonSpace_of_space {c : Char} (h : clsSpace.test c = true) :
    clsNonSpace.test c = false := by
  simp only [CClass.test, clsSpace, clsNonSpace] at h ⊢
  cases hx : List.any [(9, 10), (12, 13), (32, 32)]
    (fun r : Nat × Nat => decide (r.1 ≤ c.toNat) && decide (c.toNat ≤ r.2)) with
  | false => rw [hx] at h; exact absurd h (by decide)
  | true => rfl

theorem mark_facts {m : Char} (hm : m = '!' ∨ m = '?') :
    clsSpace.test m = false ∧ clsNonSpace.test m = true ∧ isWordChar m = false ∧
      clsBangQuery.test m = true ∧ isSeparatorMark m = false ∧ (m == '.') = false ∧
      unicodeIsSpace m = false := by
  rcases hm with rfl | rfl <;> decide

theorem NoAdjacent_of_parts (f g : Char → Bool) (a b : List Char)
    (ha : ∀ c ∈ a, f c = false) (hb : ∀ c ∈ b, g c = false) : NoAdjacent f g (a ++ b) := by
  refine NoAdjacent_append f g a b (NoAdjacent_of_left f g a ha) (NoAdjacent_of_right f g b hb) ?_
  intro c d hc _ hf _
  have := ha c (List.mem_of_mem_getLast? hc)
  rw [hf] at this
  exact absurd this (by simp)

theorem headNot_of_all (f : Char → Bool) (v : List Char) (h : ∀ c ∈ v, f c = false) :
    HeadNot f v := by
  intro d hd
  exact h d (List.mem_of_mem_head? hd)

theorem needs_mark_reAttachMark (m : Char) : (reAttachMark m).needs (fun c => c == m) = true := by
  simp [reAttachMark, Regex.cat, Regex.needs, Regex.plus]

theorem needs_space_reSpaceAfterMark (m : Char) :
    (reSpaceAfterMark m).needs clsSpace.test = true := by
  have : clsSpace.allSat clsSpace.test = true := by rfl
  simp [reSpaceAfterMark, Regex.cat, Regex.needs, Regex.plus, reSpaces1, this]

/-- The match of `(\S+)\s*(!+)` (also for `?`) at a word, blanks and a run of
marks. -/
theorem attach_detOK (m : Char) (hm : m = '!' ∨ m = '?') (u s1 r rest : List Char)
    (hu : ∀ c ∈ u, isWordChar c = true) (hune : u ≠ []) (h1 : ∀ c ∈ s1, c = ' ')
    (hs1 : s1 ≠ []) (hr : ∀ c ∈ r, c = m) (hrne : r ≠ [])
    (hrest : ∀ c ∈ rest, (c == m) = false) (prev : Option Char) (pos : Nat) :
    DetOK (reAttachMark m) ⟨prev, u ++ (s1 ++ (r ++ rest)), pos, []⟩
      ⟨lastOr (lastOr (lastOr prev u) s1) r, rest, pos + u.length + s1.length + r.length,
        [(2, pos + u.length + s1.length, pos + u.length + s1.length + r.length),
          (1, pos, pos + u.length)]⟩ := by
  obtain ⟨hm1, hm2, hm3, _, _, _, _⟩ := mark_facts hm
  have d1 := DetOK_cap 1 (DetOK_plus_cls clsNonSpace u hune
    (fun c hc => nonSpace_of_not_space (word_not_space c (hu c hc))) (s1 ++ (r ++ rest))
    (by
      cases s1 with
      | nil => exact absurd rfl hs1
      | cons x xs =>
        exact stopsAt_cons _ x _ (not_nonSpace_of_space (blank_facts (h1 x (by simp))).1))
    prev pos [])
  have d2 := DetOK_star_cls clsSpace s1 (fun c hc => (blank_facts (h1 c hc)).1)
    (r ++ rest) (by
      cases r with
      | nil => exact absurd rfl hrne
      | cons x xs =>
        rw [hr x (by simp)]
        exact stopsAt_cons _ m _ hm1)
    (lastOr prev u) (pos + u.length) [(1, pos, pos + u.length)]
  have d3 := DetOK_cap 2 (DetOK_plus_rune (.chr m) _ (isRune_chr m) r hrne
    (fun c hc => by rw [hr c hc]; simp) rest (headNot_of_all _ _ hrest)
    (lastOr (lastOr prev u) s1) (pos + u.length + s1.length) [(1, pos, pos + u.length)])
  exact DetOK_seq d1 (DetOK_seq d2 (DetOK_seq d3 (Exact_detOK (Exact_eps _))))

/-- The pass `(\S+)\s*(!+)` to `$1$2` (also for `?`) on a run of marks between
two words. -/
theorem attach_pass (m : Char) (hm : m = '!' ∨ m = '?') (u s1 r s2 v : List Char)
    (hu : ∀ c ∈ u, isWordChar c = true) (hune : u ≠ [])
    (hv : ∀ c ∈ v, isWordChar c = true)
    (h1 : ∀ c ∈ s1, c = ' ') (h2 : ∀ c ∈ s2, c = ' ')
    (hr : ∀ c ∈ r, c = m) (hrne : r ≠ []) :
    (reAttachMark m).ReplaceAllString (u ++ (s1 ++ (r ++ (s2 ++ v)))) [.group 1, .group 2] =
      some (u ++ (r ++ (s2 ++ v))) := by
  obtain ⟨hm1, hm2, hm3, _, _, _, _⟩ := mark_facts hm
  have hrest : ∀ c ∈ s2 ++ v, (c == m) = false := by
    intro c hc
    rcases List.mem_append.1 hc with hc | hc
    · rw [h2 c hc]
      rcases hm with rfl | rfl <;> decide
    · cases hcm : c == m with
      | false => rfl
      | true =>
        have := hv c hc
        rw [beq_iff_eq.1 hcm, hm3] at this
        exact absurd this (by simp)
  by_cases hs1 : s1 = []
  · subst hs1
    rw [List.nil_append]
    refine attach_identity m _ ?_
    rw [← List.append_assoc]
    refine NoAdjacent_of_parts _ _ _ _ ?_ hrest
    intro c hc
    rcases List.mem_append.1 hc with hc | hc
    · exact word_not_space c (hu c hc)
    · rw [hr c hc]; exact hm1
  · have hd := attach_detOK m hm u s1 r (s2 ++ v) hu hune h1 hs1 hr hrne hrest
      (lastOr none []) (0 + ([] : List Char).length)
    have e : u ++ (s1 ++ (r ++ (s2 ++ v))) = [] ++ ((u ++ (s1 ++ r)) ++ (s2 ++ v)) := by simp
    rw [show u ++ (s1 ++ (r ++ (s2 ++ v))) = (u ++ (s1 ++ r)) ++ (s2 ++ v) by simp] at hd
    have := replaceAll_middle (reAttachMark m) (fun c => c == m) (needs_mark_reAttachMark m)
      [] (u ++ (s1 ++ r)) (s2 ++ v)
      (fun mt => some (expandTemplate [.group 1, .group 2] (u ++ (s1 ++ (r ++ (s2 ++ v)))) mt))
      (u ++ r) (by simp) _ hd
      (by simp only [List.length_append, List.length_nil]; omega) (by simp [hune])
      hrest (by
        have e1 : slice (u ++ (s1 ++ (r ++ (s2 ++ v)))) 0 u.length = u :=
          slice_prefix u _
        have e2 : slice (u ++ (s1 ++ (r ++ (s2 ++ v)))) (u.length + s1.length)
            (u.length + s1.length + r.length) = r :=
          slice_at _ (u ++ s1) r (s2 ++ v) _ _ (by simp) (by simp) (by simp)
        simp only [expandTemplate, Match.group, capSpan, List.map_cons, List.map_nil,
          List.flatten_cons, List.flatten_nil, List.append_nil, OfNat.ofNat_ne_one,
          if_false, if_true, one_ne_zero, OfNat.ofNat_ne_zero, List.length_nil, Nat.add_zero,
          Nat.zero_add, e1, e2])
    rw [← e, List.nil_append, List.append_assoc] at this
    exact this

/-- The match of `(!+)\s+(\S+)` (also for `?`) at a run of marks, blanks and a
word. -/
theorem spaceAfter_detOK (m : Char) (hm : m = '!' ∨ m = '?') (r s2 v rest : List Char)
    (hr : ∀ c ∈ r, c = m) (hrne : r ≠ []) (h2 : ∀ c ∈ s2, c = ' ') (hs2 : s2 ≠ [])
    (hv : ∀ c ∈ v, isWordChar c = true) (hvne : v ≠ []) (hrest : StopsAt clsNonSpace rest)
    (prev : Option Char) (pos : Nat) :
    DetOK (reSpaceAfterMark m) ⟨prev, r ++ (s2 ++ (v ++ rest)), pos, []⟩
      ⟨lastOr (lastOr (lastOr prev r) s2) v, rest, pos + r.length + s2.length + v.length,
        [(2, pos + r.length + s2.length, pos + r.length + s2.length + v.length),
          (1, pos, pos + r.length)]⟩ := by
  obtain ⟨hm1, hm2, hm3, _, _, _, _⟩ := mark_facts hm
  have d1 := DetOK_cap 1 (DetOK_plus_rune (.chr m) _ (isRune_chr m) r hrne
    (fun c hc => by rw [hr c hc]; simp) (s2 ++ (v ++ rest)) (by
      cases s2 with
      | nil => exact absurd rfl hs2
      | cons x xs =>
        intro d hd
        simp only [List.cons_append, List.head?_cons, Option.mem_def, Option.some.injEq] at hd
        rw [← hd, h2 x (by simp)]
        rcases hm with rfl | rfl <;> decide)
    prev pos [])
  have d2 := DetOK_plus_cls clsSpace s2 hs2 (fun c hc => (blank_facts (h2 c hc)).1)
    (v ++ rest) (by
      cases v with
      | nil => exact absurd rfl hvne
      | cons x xs => exact stopsAt_cons _ x _ (word_not_space x (hv x (by simp))))
    (lastOr prev r) (pos + r.length) [(1, pos, pos + r.length)]
  have d3 := DetOK_cap 2 (DetOK_plus_cls clsNonSpace v hvne
    (fun c hc => nonSpace_of_not_space (word_not_space c (hv c hc))) rest hrest
    (lastOr (lastOr prev r) s2) (pos + r.length + s2.length) [(1, pos, pos + r.length)])
  exact DetOK_seq d1 (DetOK_seq d2 (DetOK_seq d3 (Exact_detOK (Exact_eps _))))

theorem spaceAfter_fails_word (m : Char) (hm : m = '!' ∨ m = '?') (c : Char)
    (hc : isWordChar c = true) (prev : Option Char) (cs : List Char) (pos : Nat) :
    Fails (reSpaceAfterMark m) ⟨prev, c :: cs, pos, []⟩ := by
  refine Fails_seq_left _ (Fails_cap 1 (Fails_seq_left _ (Fails_chr_ne m c ?_ prev cs pos [])))
  intro e
  rw [e, (mark_facts hm).2.2.1] at hc
  exact absurd hc (by simp)

/-- The pass `(!+)\s+(\S+)` to `$1 $2` (also for `?`) on a run of marks between
two words. -/
theorem spaceAfter_pass (m : Char) (hm : m = '!' ∨ m = '?') (u r s2 v : List Char)
    (hu : ∀ c ∈ u, isWordChar c = true) (hv : ∀ c ∈ v, isWordChar c = true) (hvne : v ≠ [])
    (h2 : ∀ c ∈ s2, c = ' ') (hr : ∀ c ∈ r, c = m) (hrne : r ≠ []) :
    (reSpaceAfterMark m).ReplaceAllString (u ++ (r ++ (s2 ++ v)))
      [.group 1, .text [' '], .group 2] =
      some (u ++ (r ++ ((if s2 = [] then [] else [' ']) ++ v))) := by
  obtain ⟨hm1, hm2, hm3, _, _, _, _⟩ := mark_facts hm
  by_cases hs2 : s2 = []
  · subst hs2
    rw [if_pos rfl]
    refine Regex.ReplaceAllString_of_no_match _ _ _
      (Regex.exec_none_of_needs _ clsSpace.test (needs_space_reSpaceAfterMark m) _ ?_ 0)
    intro c hc
    simp only [List.nil_append, List.mem_append] at hc
    rcases hc with hc | hc | hc
    · exact word_not_space c (hu c hc)
    · rw [hr c hc]; exact hm1
    · exact word_not_space c (hv c hc)
  · rw [if_neg hs2]
    have hd := spaceAfter_detOK m hm r s2 v [] hr hrne h2 hs2 hv hvne (by intro d hd; simp at hd)
      (lastOr none u) (0 + u.length)
    have e : u ++ (r ++ (s2 ++ v)) = u ++ ((r ++ (s2 ++ v)) ++ []) := by simp
    rw [show r ++ (s2 ++ (v ++ [])) = (r ++ (s2 ++ v)) ++ [] by simp] at hd
    have := replaceAll_middle (reSpaceAfterMark m) clsSpace.test
      (needs_space_reSpaceAfterMark m) u (r ++ (s2 ++ v)) []
      (fun mt => some (expandTemplate [.group 1, .text [' '], .group 2]
        (u ++ (r ++ (s2 ++ v))) mt))
      (r ++ ([' '] ++ v)) (fun c hc prev cs pos => spaceAfter_fails_word m hm c (hu c hc) prev cs pos)
      _ hd
      (by simp only [List.length_append]; omega) (by simp [hrne])
      (by simp) (by
        have e1 : slice (u ++ (r ++ (s2 ++ v))) u.length (u.length + r.length) = r :=
          slice_at _ u r (s2 ++ v) _ _ (by simp) rfl rfl
        have e2 : slice (u ++ (r ++ (s2 ++ v))) (u.length + r.length + s2.length)
            (u.length + r.length + s2.length + v.length) = v :=
          slice_at _ (u ++ (r ++ s2)) v [] _ _ (by simp) (by simp; omega) (by simp; omega)
        simp only [expandTemplate, Match.group, capSpan, List.map_cons, List.map_nil,
          List.flatten_cons, List.flatten_nil, List.append_nil, OfNat.ofNat_ne_one,
          if_false, if_true, one_ne_zero, OfNat.ofNat_ne_zero, List.length_nil, Nat.add_zero,
          Nat.zero_add, e1, e2])
    rw [← e, List.append_nil] at this
    exact this

theorem needs_dot_reDots : reDots.needs (fun c => c == '.') = true := by rfl
theorem needs_dot_reMarksDot : reMarksDot.needs (fun c => c == '.') = true := by rfl
theorem needs_mark_reSpaceAfterMark (m : Char) :
    (reSpaceAfterMark m).needs (fun c => c == m) = true := by
  simp [reSpaceAfterMark, Regex.cat, Regex.needs, Regex.plus]
theorem needs_left_reMarkPair (a b : Char) : (reMarkPair a b).needs (fun c => c == a) = true := by
  simp [reMarkPair, Regex.cat, Regex.needs]
theorem needs_right_reMarkPair (a b : Char) : (reMarkPair a b).needs (fun c => c == b) = true := by
  simp [reMarkPair, Regex.cat, Regex.needs]

theorem word_ne_of_not_word {x c : Char} (hx : isWordChar x = false) (hc : isWordChar c = true) :
    (c == x) = false := by
  cases h : c == x with
  | false => rfl
  | true =>
    rw [beq_iff_eq.1 h, hx] at hc
    exact absurd hc (by simp)

/-- A predicate that holds of no word rune, not of the blank and not of the mark
holds of no rune of a text `word blanks marks blanks word`. -/
theorem marks_text_no (q : Char → Bool) (m : Char) (u a r b v : List Char)
    (hu : ∀ c ∈ u, isWordChar c = true) (hv : ∀ c ∈ v, isWordChar c = true)
    (ha : ∀ c ∈ a, c = ' ') (hb : ∀ c ∈ b, c = ' ') (hr : ∀ c ∈ r, c = m)
    (hq1 : ∀ c, isWordChar c = true → q c = false) (hq2 : q ' ' = false) (hq3 : q m = false) :
    ∀ c ∈ u ++ (a ++ (r ++ (b ++ v))), q c = false := by
  intro c hc
  simp only [List.mem_append] at hc
  rcases hc with hc | hc | hc | hc | hc
  · exact hq1 c (hu c hc)
  · rw [ha c hc]; exact hq2
  · rw [hr c hc]; exact hq3
  · rw [hb c hc]; exact hq2
  · exact hq1 c (hv c hc)

/-- The passes of `processPunctuation` after those for `!` and `?`, on a run of
marks attached to a word and at most one blank before the next word. -/
theorem punctuation_tail_marks (m : Char) (hm : m = '!' ∨ m = '?') (u r sp v : List Char)
    (hu : ∀ c ∈ u, isWordChar c = true) (hune : u ≠ [])
    (hv : ∀ c ∈ v, isWordChar c = true) (hvne : v ≠ [])
    (hr : ∀ c ∈ r, c = m) (hsp : sp = [] ∨ sp = [' ']) :
    reMarksDot.ReplaceAllString (u ++ ([] ++ (r ++ (sp ++ v)))) [.group 1, .text ['.']] =
        some (u ++ ([] ++ (r ++ (sp ++ v)))) ∧
      reSeparators.ReplaceAllStringFunc (u ++ ([] ++ (r ++ (sp ++ v))))
        (fun m => some (TrimSpace m ++ [' '])) = some (u ++ ([] ++ (r ++ (sp ++ v)))) ∧
      reTwoMarks.ReplaceAllString (u ++ ([] ++ (r ++ (sp ++ v)))) [.group 1, .group 2] =
        some (u ++ ([] ++ (r ++ (sp ++ v)))) ∧
      reFinalMark.ReplaceAllString (u ++ ([] ++ (r ++ (sp ++ v)))) [.group 1, .text [' ']] =
        some (u ++ ([] ++ (r ++ (sp ++ v)))) ∧
      reSpaceRun.ReplaceAllString (u ++ ([] ++ (r ++ (sp ++ v)))) [.text [' ']] =
        some (u ++ ([] ++ (r ++ (sp ++ v)))) ∧
      TrimSpace (u ++ ([] ++ (r ++ (sp ++ v)))) = u ++ ([] ++ (r ++ (sp ++ v))) := by
  obtain ⟨hm1, hm2, hm3, hm4, hm5, hm6, hm7⟩ := mark_facts hm
  have hb : ∀ c ∈ sp, c = ' ' := by
    rcases hsp with rfl | rfl <;> simp
  have hno := fun q hq1 hq2 hq3 =>
    marks_text_no q m u [] r sp v hu hv (by simp) hb hr hq1 hq2 hq3
  have hur : ∀ c ∈ u ++ r, clsSpace.test c = false := by
    intro c hc
    rcases List.mem_append.1 hc with hc | hc
    · exact word_not_space c (hu c hc)
    · rw [hr c hc]; exact hm1
  have hlast : ∀ c ∈ (u ++ ([] ++ (r ++ (sp ++ v)))).getLast?, isWordChar c = true := by
    intro c hc
    rw [show u ++ ([] ++ (r ++ (sp ++ v))) = (u ++ r ++ sp) ++ v by simp] at hc
    exact hv c (getLast_mem_of_append _ v hvne c hc)
  refine ⟨?_, ?_, ?_, ?_, ?_, ?_⟩
  · exact Regex.ReplaceAllString_of_no_match _ _ _
      (Regex.exec_none_of_needs _ _ needs_dot_reMarksDot _
        (hno _ (fun c hc => word_ne_of_not_word (by decide) hc) (by decide) hm6) 0)
  · exact Regex.ReplaceAllStringFunc_of_no_match _ _ _
      (Regex.exec_none_of_needs _ _ separator_reSeparators _
        (hno _ (fun c hc => separator_of_word hc) (by decide) hm5) 0)
  · refine twoMarks_identity _ ?_
    rw [List.nil_append, ← List.append_assoc]
    refine NoAdjacent_of_parts _ _ _ _ hur ?_
    intro c hc
    rcases List.mem_append.1 hc with hc | hc
    · rw [hb c hc]; decide
    · have := ascii_cases (fun c => isWordChar c = true → clsBangQuery.test c = false)
        (by decide) c (word_lt c (hv c hc))
      exact this (hv c hc)
  · refine finalMark_none _ ?_
    intro c hc
    have hw := hlast c hc
    have := ascii_cases (fun c => isWordChar c = true → clsBangQuery.test c = false)
      (by decide) c (word_lt c hw)
    exact ⟨this hw, word_not_space c hw⟩
  · refine spaceRun_none _ ?_
    rw [List.nil_append, ← List.append_assoc]
    refine NoAdjacent_append _ _ _ _ (NoAdjacent_of_left _ _ _ hur) ?_ ?_
    · rcases hsp with rfl | rfl
      · exact NoAdjacent_of_left _ _ _ (fun c hc => word_not_space c (hv c hc))
      · refine NoAdjacent_append _ _ _ _ (NoAdjacent_singleton _ _ _)
          (NoAdjacent_of_left _ _ _ (fun c hc => word_not_space c (hv c hc))) ?_
        intro c d _ hd _ hg
        have := word_not_space d (hv d (List.mem_of_mem_head? hd))
        rw [hg] at this
        exact absurd this (by simp)
    · intro c d hc _ hf _
      have := hur c (List.mem_of_mem_getLast? hc)
      rw [hf] at this
      exact absurd this (by simp)
  · refine TrimSpace_of_ends _ ?_ ?_
    · intro c hc
      cases u with
      | nil => exact absurd rfl hune
      | cons x xs =>
        simp only [List.cons_append, List.head?_cons, Option.mem_def, Option.some.injEq] at hc
        rw [← hc]; exact word_not_unicodeSpace (hu x (by simp))
    · intro c hc
      exact word_not_unicodeSpace (hlast c hc)

/-- `processPunctuation` on a run of `!` or of `?` between two words: the run is
attached to the first word, and the blanks before the second word, if there
are any, become one blank. -/
theorem processPunctuation_marks (m : Char) (hm : m = '!' ∨ m = '?') (u s1 r s2 v : List Char)
    (hu : ∀ c ∈ u, isWordChar c = true) (hune : u ≠ [])
    (hv : ∀ c ∈ v, isWordChar c = true) (hvne : v ≠ [])
    (h1 : ∀ c ∈ s1, c = ' ') (h2 : ∀ c ∈ s2, c = ' ')
    (hr : ∀ c ∈ r, c = m) (hrne : r ≠ []) :
    processPunctuation (u ++ (s1 ++ (r ++ (s2 ++ v)))) =
      some (u ++ (r ++ ((if s2 = [] then [] else [' ']) ++ v))) := by
  obtain ⟨hm1, hm2, hm3, hm4, hm5, hm6, hm7⟩ := mark_facts hm
  have hsp : (if s2 = [] then [] else [' ']) = ([] : List Char) ∨
      (if s2 = [] then [] else [' ']) = [' '] := by
    by_cases h : s2 = []
    · exact Or.inl (if_pos h)
    · exact Or.inr (if_neg h)
  have hb : ∀ c ∈ (if s2 = [] then [] else [' ']), c = ' ' := by
    rcases hsp with e | e <;> rw [e] <;> simp
  have tail := punctuation_tail_marks m hm u r _ v hu hune hv hvne hr hsp
  simp only [List.nil_append] at tail
  obtain ⟨p8, p9, p10, p11, p12, ptrim⟩ := tail
  have a := attach_pass m hm u s1 r s2 v hu hune hv h1 h2 hr hrne
  have b := spaceAfter_pass m hm u r s2 v hu hv hvne h2 hr hrne
  have no0 := fun q hq1 hq2 hq3 =>
    marks_text_no q m u s1 r s2 v hu hv h1 h2 hr hq1 hq2 hq3
  have no3 := fun q hq1 hq2 hq3 =>
    marks_text_no q m u [] r _ v hu hv (by simp) hb hr hq1 hq2 hq3
  simp only [List.nil_append] at no3
  have p1 : reDots.ReplaceAllStringFunc (u ++ (s1 ++ (r ++ (s2 ++ v))))
      (fun m => some (removeSpaces m ++ [' '])) = some (u ++ (s1 ++ (r ++ (s2 ++ v)))) :=
    Regex.ReplaceAllStringFunc_of_no_match _ _ _
      (Regex.exec_none_of_needs _ _ needs_dot_reDots _
        (no0 _ (fun c hc => word_ne_of_not_word (by decide) hc) (by decide) hm6) 0)
  rcases hm with rfl | rfl
  · have hq := no3 (fun c => c == '?') (fun c hc => word_ne_of_not_word (by decide) hc)
      (by decide) (by decide)
    have h := processPunctuation_steps _ _ _ _ _ _ _ _ _ _ _ _ _ p1 a b
      (Regex.ReplaceAllString_of_no_match _ _ _
        (Regex.exec_none_of_needs _ _ (needs_mark_reAttachMark '?') _ hq 0))
      (Regex.ReplaceAllString_of_no_match _ _ _
        (Regex.exec_none_of_needs _ _ (needs_mark_reSpaceAfterMark '?') _ hq 0))
      (Regex.ReplaceAllString_of_no_match _ _ _
        (Regex.exec_none_of_needs _ _ (needs_right_reMarkPair '!' '?') _ hq 0))
      (Regex.ReplaceAllString_of_no_match _ _ _
        (Regex.exec_none_of_needs _ _ (needs_left_reMarkPair '?' '!') _ hq 0))
      p8 p9 p10 p11 p12
    rw [h, ptrim]
  · have hq0 := no0 (fun c => c == '!') (fun c hc => word_ne_of_not_word (by decide) hc)
      (by decide) (by decide)
    have hq := no3 (fun c => c == '!') (fun c hc => word_ne_of_not_word (by decide) hc)
      (by decide) (by decide)
    have h := processPunctuation_steps _ _ _ _ _ _ _ _ _ _ _ _ _ p1
      (Regex.ReplaceAllString_of_no_match _ _ _
        (Regex.exec_none_of_needs _ _ (needs_mark_reAttachMark '!') _ hq0 0))
      (Regex.ReplaceAllString_of_no_match _ _ _
        (Regex.exec_none_of_needs _ _ (needs_mark_reSpaceAfterMark '!') _ hq0 0))
      a b
      (Regex.ReplaceAllString_of_no_match _ _ _
        (Regex.exec_none_of_needs _ _ (needs_left_reMarkPair '!' '?') _ hq 0))
      (Regex.ReplaceAllString_of_no_match _ _ _
        (Regex.exec_none_of_needs _ _ (needs_right_reMarkPair '?' '!') _ hq 0))
      p8 p9 p10 p11 p12
    rw [h, ptrim]

/-! ## The pass of `processPunctuation` for runs of periods -/

theorem Regex.exec_at_prefix (re : Regex) (pre rest : List Char) :
    re.exec (pre ++ rest) pre.length = re.searchFrom (lastOr none pre) rest pre.length := by
  unfold Regex.exec
  rw [prevAt_eq _ _ (by simp), List.take_left, List.drop_left]

/-- One iteration of `replaceAll` at a non-empty match. -/
theorem replaceAllLoop_step (re : Regex) (src : List Char) (repl : Match → Option (List Char))
    (fuel pos lastEnd : Nat) (buf : List Char) (m : Match) (r : List Char)
    (hpos : pos ≤ src.length) (h : re.exec src pos = some m) (h1 : pos ≤ m.start)
    (h2 : m.start < m.stop) (h3 : lastEnd ≤ m.start) (hr : repl m = some r) :
    replaceAllLoop re src repl (fuel + 1) pos lastEnd buf =
      replaceAllLoop re src repl fuel m.stop m.stop (buf ++ slice src lastEnd m.start ++ r) := by
  have a1 : ¬ (src.length < pos) := by omega
  have a2 : ¬ (m.stop < pos + 1) := by omega
  have a3 : (lastEnd < m.stop ∨ m.start = 0) := Or.inl (by omega)
  simp only [replaceAllLoop, a1, if_false, h, a2, a3, if_true, hr]

/-- The last iteration of `replaceAll`, at the end of the text. -/
theorem replaceAllLoop_end (re : Regex) (p : Char → Bool) (hre : re.needs p = true)
    (src : List Char) (repl : Match → Option (List Char)) (fuel : Nat) (buf : List Char) :
    replaceAllLoop re src repl (fuel + 1) src.length src.length buf = some buf := by
  have a1 : ¬ (src.length < src.length) := by omega
  simp only [replaceAllLoop, a1, if_false, re.exec_end_none p hre src, List.drop_length,
    List.append_nil]

theorem headNot_dot_of_blank (s rest : List Char) (hs : ∀ c ∈ s, c = ' ')
    (h : s ≠ [] ∨ rest = []) : HeadNot (fun d => d == '.') (s ++ rest) := by
  intro d hd
  cases s with
  | nil =>
    rcases h with h | h
    · exact absurd rfl h
    · subst h
      simp at hd
  | cons x xs =>
    simp only [List.cons_append, List.head?_cons, Option.mem_def, Option.some.injEq] at hd
    rw [← hd, hs x (by simp)]
    decide

/-- The pattern `\.*\.` takes a whole run of periods. -/
theorem DetOK_dot_run (k : Nat) (rest : List Char) (hrest : HeadNot (fun d => d == '.') rest)
    (prev : Option Char) (pos : Nat) (caps : List (Nat × Nat × Nat)) :
    DetOK (.seq (.star true (.chr '.')) (.chr '.'))
      ⟨prev, List.replicate (k + 1) '.' ++ rest, pos, caps⟩
      ⟨some '.', rest, pos + (k + 1), caps⟩ := by
  intro K res hK
  have hall : ∀ c ∈ List.replicate (k + 1) '.', (fun d => d == '.') c = true := by
    intro c hc
    rw [List.eq_of_mem_replicate hc]
    rfl
  rw [Regex.run, run_star_greedy (.chr '.') _ (isRune_chr '.') _ hall rest hrest,
    List.replicate_succ']
  refine findSome_greedyStates_split caps _ res (List.replicate k '.') ['.'] rest prev pos ?_ ?_
  · rw [isRune_chr]
    simp only [afterPrefix, List.singleton_append, beq_self_eq_true, if_true,
      List.length_replicate]
    rw [← hK, Nat.add_assoc]
  · intro a2 b2 e hlt
    have hl := congrArg List.length e
    simp only [List.length_append, List.length_replicate, List.length_singleton] at hl hlt
    have hb : b2 = [] := List.length_eq_zero.1 (by omega)
    subst hb
    rw [isRune_chr]
    simp only [afterPrefix, List.nil_append]
    cases rest with
    | nil => rfl
    | cons d ds =>
      have := hrest d (by simp)
      simp only [this, Bool.false_eq_true, if_false]

theorem Exact_star_rune_stop (r : Regex) (f : Char → Bool) (hr : IsRune r f) (rest : List Char)
    (hrest : HeadNot f rest) (prev : Option Char) (pos : Nat) (caps : List (Nat × Nat × Nat)) :
    Exact (.star true r) ⟨prev, rest, pos, caps⟩ ⟨prev, rest, pos, caps⟩ := by
  intro k
  have := run_star_greedy r f hr [] (by simp) rest hrest prev pos caps k
  rw [List.nil_append] at this
  rw [this]
  exact findSome_singleton k _

theorem dots_fails_word (c : Char) (hc : isWordChar c = true) (prev : Option Char)
    (cs : List Char) (pos : Nat) : Fails reDots ⟨prev, c :: cs, pos, []⟩ := by
  have hne : c ≠ '.' := by
    intro e
    rw [e] at hc
    exact absurd hc (by decide)
  refine Fails_seq_right (Exact_star_cls_stop true clsSpace c (word_not_space c hc) prev cs pos [])
    (Fails_seq_left _ (Fails_cap 1 (Fails_seq_right
      (Exact_star_rune_stop (.chr '.') _ (isRune_chr '.') (c :: cs) ?_ prev pos [])
      (Fails_chr_ne '.' c hne prev cs pos []))))
  intro d hd
  simp only [List.head?_cons, Option.mem_def, Option.some.injEq] at hd
  rw [← hd]
  simpa using hne

/-- The match of `\s*(\.*\.)\s*` at blanks, a run of periods and blanks. -/
theorem dots_detOK (a s1 rest : List Char) (k : Nat) (ha : ∀ c ∈ a, c = ' ')
    (hs1 : ∀ c ∈ s1, c = ' ') (h : s1 ≠ [] ∨ rest = []) (hrest : StopsAt clsSpace rest)
    (prev : Option Char) (pos : Nat) :
    DetOK reDots ⟨prev, a ++ (List.replicate (k + 1) '.' ++ (s1 ++ rest)), pos, []⟩
      ⟨lastOr (some '.') s1, rest, pos + a.length + (k + 1) + s1.length,
        [(1, pos + a.length, pos + a.length + (k + 1))]⟩ := by
  have d1 := DetOK_star_cls clsSpace a (fun c hc => (blank_facts (ha c hc)).1)
    (List.replicate (k + 1) '.' ++ (s1 ++ rest)) (by
      rw [List.replicate_succ, List.cons_append]
      exact stopsAt_cons _ _ _ (by decide)) prev pos []
  have d2 := DetOK_cap 1 (DetOK_dot_run k (s1 ++ rest) (headNot_dot_of_blank s1 rest hs1 h)
    (lastOr prev a) (pos + a.length) [])
  have d3 := DetOK_star_cls clsSpace s1 (fun c hc => (blank_facts (hs1 c hc)).1) rest hrest
    (some '.') (pos + a.length + (k + 1)) [(1, pos + a.length, pos + a.length + (k + 1))]
  exact DetOK_seq d1 (DetOK_seq d2 (DetOK_seq d3 (Exact_detOK (Exact_eps _))))

theorem removeSpaces_blanks (a : List Char) (ha : ∀ c ∈ a, c = ' ') (b : List Char) :
    removeSpaces (a ++ b) = removeSpaces b := by
  induction a with
  | nil => rfl
  | cons x xs ih =>
    have := ha x (by simp)
    subst this
    simp only [removeSpaces, List.cons_append] at ih ⊢
    rw [List.filter_cons_of_neg (by decide)]
    exact ih (fun c hc => ha c (by simp [hc]))

theorem removeSpaces_dots (k : Nat) (b : List Char) :
    removeSpaces (List.replicate k '.' ++ b) = List.replicate k '.' ++ removeSpaces b := by
  induction k with
  | zero => rfl
  | succ n ih =>
    simp only [removeSpaces, List.replicate_succ, List.cons_append] at ih ⊢
    rw [List.filter_cons_of_pos (by decide), ih]

theorem removeSpaces_match (a s1 : List Char) (k : Nat) (ha : ∀ c ∈ a, c = ' ')
    (hs1 : ∀ c ∈ s1, c = ' ') :
    removeSpaces (a ++ (List.replicate k '.' ++ s1)) = List.replicate k '.' := by
  rw [removeSpaces_blanks a ha, removeSpaces_dots]
  have := removeSpaces_blanks s1 hs1 []
  rw [List.append_nil] at this
  rw [this]
  simp [removeSpaces]

theorem needs_dot_reDots2 : reDots.needs (fun c => c == '.') = true := by rfl

/-- The loop of `replaceAll` for `\s*(\.*\.)\s*` over runs of periods that blanks
separate: every run is one match, with the blanks on its right. -/
theorem dots_loop : ∀ (rs : List (List Char × Nat)),
    (∀ p ∈ rs, p.1 ≠ [] ∧ ∀ c ∈ p.1, c = ' ') →
    ∀ (pre skip a : List Char) (k : Nat) (buf : List Char) (fuel : Nat),
    (∀ c ∈ skip, isWordChar c = true) → (∀ c ∈ a, c = ' ') → rs.length + 2 ≤ fuel →
    replaceAllLoop reDots (pre ++ (skip ++ (a ++ (List.replicate (k + 1) '.' ++ dotRuns rs))))
      (fun m => some (removeSpaces
        (m.text (pre ++ (skip ++ (a ++ (List.replicate (k + 1) '.' ++ dotRuns rs))))) ++ [' ']))
      fuel pre.length pre.length buf =
    some (buf ++ (skip ++ (List.replicate (k + 1) '.' ++ (blankDotRuns rs ++ [' '])))) := by
  intro rs
  induction rs with
  | nil =>
    intro _ pre skip a k buf fuel hskip ha hf
    obtain ⟨f2, rfl⟩ : ∃ f2, fuel = f2 + 1 + 1 := ⟨fuel - 2, by
      simp only [List.length_nil] at hf; omega⟩
    simp only [dotRuns, blankDotRuns, List.append_nil, List.nil_append]
    generalize hsrc : pre ++ (skip ++ (a ++ List.replicate (k + 1) '.')) = src
    have hd := dots_detOK a [] [] k ha (by simp) (Or.inr rfl) (by intro d hd; simp at hd)
      (lastOr (lastOr none pre) skip) (pre.length + skip.length)
    simp only [List.append_nil, List.length_nil, Nat.add_zero] at hd
    have hex : reDots.exec src pre.length = some ⟨pre.length + skip.length,
        pre.length + skip.length + a.length + (k + 1),
        [(1, pre.length + skip.length + a.length,
          pre.length + skip.length + a.length + (k + 1))]⟩ := by
      rw [← hsrc, Regex.exec_at_prefix, Regex.searchFrom_skip reDots skip
        (fun c hc prev cs pos => dots_fails_word c (hskip c hc) prev cs pos)]
      exact reDots.searchFrom_of_detOK _ _ _ _ hd
    have hlen : src.length = pre.length + skip.length + a.length + (k + 1) := by
      rw [← hsrc]
      simp only [List.length_append, List.length_replicate]
      omega
    have htext : (⟨pre.length + skip.length, pre.length + skip.length + a.length + (k + 1),
        [(1, pre.length + skip.length + a.length,
          pre.length + skip.length + a.length + (k + 1))]⟩ : Match).text src =
        a ++ (List.replicate (k + 1) '.' ++ []) :=
      slice_at src (pre ++ skip) _ [] _ _ (by rw [← hsrc]; simp) (by simp)
        (by simp only [List.length_append, List.length_replicate, List.length_nil]; omega)
    rw [replaceAllLoop_step reDots src _ (f2 + 1) pre.length pre.length buf _
      (List.replicate (k + 1) '.' ++ [' ']) (by omega) hex (by simp only; omega)
      (by simp only; omega) (by simp only; omega)
      (by simp only [htext]; rw [removeSpaces_match a [] (k + 1) ha (by simp)])]
    simp only
    rw [← hlen, replaceAllLoop_end reDots _ needs_dot_reDots2]
    have hs : slice src pre.length (pre.length + skip.length) = skip :=
      slice_at src pre skip (a ++ List.replicate (k + 1) '.') _ _ (by rw [← hsrc]; simp) rfl rfl
    rw [hs]
    simp
  | cons p rs ih =>
    intro hrs pre skip a k buf fuel hskip ha hf
    obtain ⟨s1, k1⟩ := p
    obtain ⟨hs1ne, hs1⟩ := hrs (s1, k1) (by simp)
    simp only at hs1ne hs1
    obtain ⟨f2, rfl⟩ : ∃ f2, fuel = f2 + 1 := ⟨fuel - 1, by
      simp only [List.length_cons] at hf; omega⟩
    simp only [dotRuns, blankDotRuns]
    generalize hsrc : pre ++ (skip ++ (a ++ (List.replicate (k + 1) '.' ++
      (s1 ++ (List.replicate (k1 + 1) '.' ++ dotRuns rs))))) = src
    have hd := dots_detOK a s1 (List.replicate (k1 + 1) '.' ++ dotRuns rs) k ha hs1
      (Or.inl hs1ne) (by
        rw [List.replicate_succ, List.cons_append]
        exact stopsAt_cons _ _ _ (by decide))
      (lastOr (lastOr none pre) skip) (pre.length + skip.length)
    have hex : reDots.exec src pre.length = some ⟨pre.length + skip.length,
        pre.length + skip.length + a.length + (k + 1) + s1.length,
        [(1, pre.length + skip.length + a.length,
          pre.length + skip.length + a.length + (k + 1))]⟩ := by
      rw [← hsrc, Regex.exec_at_prefix, Regex.searchFrom_skip reDots skip
        (fun c hc prev cs pos => dots_fails_word c (hskip c hc) prev cs pos)]
      exact reDots.searchFrom_of_detOK _ _ _ _ hd
    have hlen : pre.length + skip.length + a.length + (k + 1) + s1.length ≤ src.length := by
      rw [← hsrc]
      simp only [List.length_append, List.length_replicate]
      omega
    have htext : (⟨pre.length + skip.length,
        pre.length + skip.length + a.length + (k + 1) + s1.length,
        [(1, pre.length + skip.length + a.length,
          pre.length + skip.length + a.length + (k + 1))]⟩ : Match).text src =
        a ++ (List.replicate (k + 1) '.' ++ s1) :=
      slice_at src (pre ++ skip) _ (List.replicate (k1 + 1) '.' ++ dotRuns rs) _ _
        (by rw [← hsrc]; simp) (by simp)
        (by simp only [List.length_append, List.length_replicate]; omega)
    rw [replaceAllLoop_step reDots src _ f2 pre.length pre.length buf _
      (List.replicate (k + 1) '.' ++ [' ']) (by omega) hex (by simp only; omega)
      (by simp only; omega) (by simp only; omega)
      (by simp only [htext]; rw [removeSpaces_match a s1 (k + 1) ha hs1])]
    simp only
    have hs : slice src pre.length (pre.length + skip.length) = skip :=
      slice_at src pre skip (a ++ (List.replicate (k + 1) '.' ++
        (s1 ++ (List.replicate (k1 + 1) '.' ++ dotRuns rs)))) _ _ (by rw [← hsrc]; simp) rfl rfl
    have key : (pre ++ (skip ++ (a ++ (List.replicate (k + 1) '.' ++ s1)))) ++
        ([] ++ ([] ++ (List.replicate (k1 + 1) '.' ++ dotRuns rs))) = src := by
      rw [← hsrc]; simp
    have hl2 : (pre ++ (skip ++ (a ++ (List.replicate (k + 1) '.' ++ s1)))).length =
        pre.length + skip.length + a.length + (k + 1) + s1.length := by
      simp only [List.length_append, List.length_replicate]
      omega
    have := ih (fun p hp => hrs p (by simp [hp]))
      (pre ++ (skip ++ (a ++ (List.replicate (k + 1) '.' ++ s1)))) [] [] k1
      (buf ++ slice src pre.length (pre.length + skip.length) ++
        (List.replicate (k + 1) '.' ++ [' '])) f2 (by simp) (by simp)
      (by simp only [List.length_cons] at hf; omega)
    rw [key, hl2] at this
    rw [this, hs]
    simp

theorem dotRuns_length : ∀ (rs : List (List Char × Nat)), rs.length ≤ (dotRuns rs).length := by
  intro rs
  induction rs with
  | nil => simp
  | cons p rs ih =>
    obtain ⟨s, k⟩ := p
    simp only [dotRuns, List.length_cons, List.length_append, List.length_replicate]
    omega

/-- The first pass of `processPunctuation` on a word and runs of periods. -/
theorem dots_pass (w s0 : List Char) (k : Nat) (rs : List (List Char × Nat))
    (hw : ∀ c ∈ w, isWordChar c = true) (h0 : ∀ c ∈ s0, c = ' ')
    (hrs : ∀ p ∈ rs, p.1 ≠ [] ∧ ∀ c ∈ p.1, c = ' ') :
    reDots.ReplaceAllStringFunc (w ++ (s0 ++ (List.replicate (k + 1) '.' ++ dotRuns rs)))
      (fun m => some (removeSpaces m ++ [' '])) =
      some (w ++ (List.replicate (k + 1) '.' ++ (blankDotRuns rs ++ [' ']))) := by
  have := dots_loop rs hrs [] w s0 k []
    (([] ++ (w ++ (s0 ++ (List.replicate (k + 1) '.' ++ dotRuns rs)))).length + 2) hw h0 (by
      have := dotRuns_length rs
      simp only [List.nil_append, List.length_append, List.length_replicate]
      omega)
  simp only [List.nil_append, List.length_nil] at this
  exact this

theorem mem_blankDotRuns : ∀ (rs : List (List Char × Nat)), ∀ c ∈ blankDotRuns rs,
    c = ' ' ∨ c = '.' := by
  intro rs
  induction rs with
  | nil => intro c hc; simp [blankDotRuns] at hc
  | cons p rs ih =>
    obtain ⟨s, k⟩ := p
    intro c hc
    simp only [blankDotRuns, List.mem_cons, List.mem_append] at hc
    rcases hc with hc | hc | hc
    · exact Or.inl hc
    · exact Or.inr (List.eq_of_mem_replicate hc)
    · exact ih c hc

/-- A predicate that holds of no word rune, not of the blank and not of the
period holds of no rune of a word followed by runs of periods. -/
theorem dots_text_no (q : Char → Bool) (w : List Char) (k : Nat) (rs : List (List Char × Nat))
    (a : List Char) (ha : ∀ c ∈ a, c = ' ')
    (hw : ∀ c ∈ w, isWordChar c = true) (hq1 : ∀ c, isWordChar c = true → q c = false)
    (hq2 : q ' ' = false) (hq3 : q '.' = false) :
    ∀ c ∈ w ++ (List.replicate (k + 1) '.' ++ (blankDotRuns rs ++ a)), q c = false := by
  intro c hc
  simp only [List.mem_append] at hc
  rcases hc with hc | hc | hc | hc
  · exact hq1 c (hw c hc)
  · rw [List.eq_of_mem_replicate hc]; exact hq3
  · rcases mem_blankDotRuns rs c hc with e | e <;> rw [e]
    · exact hq2
    · exact hq3
  · rw [ha c hc]; exact hq2

theorem NoAdjacent_left_part (f g : Char → Bool) (a b : List Char)
    (ha : ∀ c ∈ a, f c = false) (hb : NoAdjacent f g b) : NoAdjacent f g (a ++ b) := by
  refine NoAdjacent_append f g a b (NoAdjacent_of_left f g a ha) hb ?_
  intro c d hc _ hf _
  have := ha c (List.mem_of_mem_getLast? hc)
  rw [hf] at this
  exact absurd this (by simp)

theorem not_space_of_replicate_dot (k : Nat) : ∀ c ∈ List.replicate k '.',
    clsSpace.test c = false := by
  intro c hc
  rw [List.eq_of_mem_replicate hc]
  decide

/-- In runs of periods separated by single blanks, no rune of `\s` stands
directly before a rune that satisfies `g`, when the period does not. -/
theorem noAdjacent_blankDotRuns (g : Char → Bool) (hg : g '.' = false) (b : List Char)
    (hb : NoAdjacent clsSpace.test g b) :
    ∀ (rs : List (List Char × Nat)) (k : Nat),
      NoAdjacent clsSpace.test g (List.replicate (k + 1) '.' ++ (blankDotRuns rs ++ b)) := by
  intro rs
  induction rs with
  | nil =>
    intro k
    exact NoAdjacent_left_part _ _ _ _ (not_space_of_replicate_dot _) hb
  | cons p rs ih =>
    obtain ⟨s, k1⟩ := p
    intro k
    refine NoAdjacent_left_part _ _ _ _ (not_space_of_replicate_dot _) ?_
    simp only [blankDotRuns, List.cons_append, List.append_assoc]
    have := ih k1
    rw [show ' ' :: (List.replicate (k1 + 1) '.' ++ (blankDotRuns rs ++ b)) =
      [' '] ++ (List.replicate (k1 + 1) '.' ++ (blankDotRuns rs ++ b)) from rfl]
    refine NoAdjacent_append _ _ _ _ (NoAdjacent_singleton _ _ _) this ?_
    intro c d _ hd _ hgd
    rw [List.replicate_succ, List.cons_append, List.head?_cons, Option.some.injEq] at hd
    rw [← hd, hg] at hgd
    exact absurd hgd (by simp)

theorem getLast_dots_runs : ∀ (rs : List (List Char × Nat)) (k : Nat),
    (List.replicate (k + 1) '.' ++ blankDotRuns rs).getLast? = some '.' := by
  intro rs
  induction rs with
  | nil =>
    intro k
    simp only [blankDotRuns, List.append_nil, List.replicate_succ']
    rw [List.getLast?_append_of_ne_nil _ (by simp)]
    rfl
  | cons p rs ih =>
    obtain ⟨s, k1⟩ := p
    intro k
    simp only [blankDotRuns]
    rw [List.getLast?_append_of_ne_nil _ (by simp)]
    show ([' '] ++ (List.replicate (k1 + 1) '.' ++ blankDotRuns rs)).getLast? = some '.'
    rw [List.getLast?_append_of_ne_nil _ (by simp [List.replicate_succ])]
    exact ih k1

theorem needs_bang_reMarksDot : reMarksDot.needs (fun c => c == '!') = true := by rfl
theorem needs_mark_reTwoMarks : reTwoMarks.needs clsBangQuery.test = true := by rfl
theorem needs_mark_reFinalMark : reFinalMark.needs clsBangQuery.test = true := by rfl

/-- `processPunctuation` on a word followed by runs of periods: the first run is
attached to the word and every later run follows after exactly one blank. -/
theorem processPunctuation_dots (w s0 : List Char) (k : Nat) (rs : List (List Char × Nat))
    (hw : ∀ c ∈ w, isWordChar c = true) (h0 : ∀ c ∈ s0, c = ' ')
    (hrs : ∀ p ∈ rs, p.1 ≠ [] ∧ ∀ c ∈ p.1, c = ' ') :
    processPunctuation (w ++ (s0 ++ (List.replicate (k + 1) '.' ++ dotRuns rs))) =
      some (w ++ (List.replicate (k + 1) '.' ++ blankDotRuns rs)) := by
  have hno := fun q hq1 hq2 hq3 =>
    dots_text_no q w k rs [' '] (by simp) hw hq1 hq2 hq3
  have hb := fun (x : Char) (hx : isWordChar x = false) =>
    hno (fun c => c == x) (fun c hc => word_ne_of_not_word hx hc)
  have hmark := hno clsBangQuery.test (fun c hc => by
    have := ascii_cases (fun c => isWordChar c = true → clsBangQuery.test c = false)
      (by decide) c (word_lt c hc)
    exact this hc) (by decide) (by decide)
  have h := processPunctuation_steps _ _ _ _ _ _ _ _ _ _ _ _ _
    (dots_pass w s0 k rs hw h0 hrs)
    (Regex.ReplaceAllString_of_no_match _ _ _
      (Regex.exec_none_of_needs _ _ (needs_mark_reAttachMark '!') _
        (hb '!' (by decide) (by decide) (by decide)) 0))
    (Regex.ReplaceAllString_of_no_match _ _ _
      (Regex.exec_none_of_needs _ _ (needs_mark_reSpaceAfterMark '!') _
        (hb '!' (by decide) (by decide) (by decide)) 0))
    (Regex.ReplaceAllString_of_no_match _ _ _
      (Regex.exec_none_of_needs _ _ (needs_mark_reAttachMark '?') _
        (hb '?' (by decide) (by decide) (by decide)) 0))
    (Regex.ReplaceAllString_of_no_match _ _ _
      (Regex.exec_none_of_needs _ _ (needs_mark_reSpaceAfterMark '?') _
        (hb '?' (by decide) (by decide) (by decide)) 0))
    (Regex.ReplaceAllString_of_no_match _ _ _
      (Regex.exec_none_of_needs _ _ (needs_left_reMarkPair '!' '?') _
        (hb '!' (by decide) (by decide) (by decide)) 0))
    (Regex.ReplaceAllString_of_no_match _ _ _
      (Regex.exec_none_of_needs _ _ (needs_left_reMarkPair '?' '!') _
        (hb '?' (by decide) (by decide) (by decide)) 0))
    (Regex.ReplaceAllString_of_no_match _ _ _
      (Regex.exec_none_of_needs _ _ needs_bang_reMarksDot _
        (hb '!' (by decide) (by decide) (by decide)) 0))
    (Regex.ReplaceAllStringFunc_of_no_match _ _ _
      (Regex.exec_none_of_needs _ _ separator_reSeparators _
        (hno _ (fun c hc => separator_of_word hc) (by decide) (by decide)) 0))
    (Regex.ReplaceAllString_of_no_match _ _ _
      (Regex.exec_none_of_needs _ _ needs_mark_reTwoMarks _ hmark 0))
    (Regex.ReplaceAllString_of_no_match _ _ _
      (Regex.exec_none_of_needs _ _ needs_mark_reFinalMark _ hmark 0))
    (spaceRun_none _ (NoAdjacent_left_part _ _ _ _
      (fun c hc => word_not_space c (hw c hc))
      (noAdjacent_blankDotRuns clsSpace.test (by decide) [' '] (NoAdjacent_singleton _ _ _) rs k)))
  rw [h]
  have e : w ++ (List.replicate (k + 1) '.' ++ (blankDotRuns rs ++ [' '])) =
      [] ++ ((w ++ (List.replicate (k + 1) '.' ++ blankDotRuns rs)) ++ [' ']) := by simp
  rw [e, TrimSpace_around [] _ [' '] (by simp) (by
    intro c hc
    rw [List.mem_singleton.1 hc]
    decide)]
  · intro c hc
    cases w with
    | nil =>
      simp only [List.nil_append, List.replicate_succ, List.cons_append, List.head?_cons,
        Option.mem_def, Option.some.injEq] at hc
      rw [← hc]; decide
    | cons x xs =>
      simp only [List.cons_append, List.head?_cons, Option.mem_def, Option.some.injEq] at hc
      rw [← hc]; exact word_not_unicodeSpace (hw x (by simp))
  · intro c hc
    rw [List.getLast?_append_of_ne_nil _ (by simp [List.replicate_succ]),
      getLast_dots_runs rs k] at hc
    simp only [Option.mem_def, Option.some.injEq] at hc
    rw [← hc]; decide

/-! ## The pipeline on texts without `(` -/

theorem paren_reBinCount : reBinCount.needs isOpenParen = true := by rfl
theorem paren_reHexCount : reHexCount.needs isOpenParen = true := by rfl
theorem paren_reBinNum : reBinNum.needs isOpenParen = true := by rfl
theorem paren_reHexNum : reHexNum.needs isOpenParen = true := by rfl
theorem paren_reMarker (name : List Char) : (reMarker name).needs isOpenParen = true := by rfl
theorem paren_reWordMarker (name : List Char) : (reWordMarker name).needs isOpenParen = true := by
  rfl
theorem paren_reStandaloneLine : reStandaloneLine.needs isOpenParen = true := by rfl
theorem paren_reStandaloneInline : reStandaloneInline.needs isOpenParen = true := by rfl
theorem paren_reCaseCount : reCaseCount.needs isOpenParen = true := by rfl
theorem paren_reCaseWord : reCaseWord.needs isOpenParen = true := by rfl
theorem paren_reMultiModifiers : reMultiModifiers.needs isOpenParen = true := by rfl

/-- A text without `(` passes unchanged through the passes before
`processPunctuation`. -/
theorem number_passes_of_no_paren (U : UnicodeTables) (t : List Char)
    (hn : ∀ c ∈ t, isOpenParen c = false) :
    processMultipleTypes U t = some t ∧ processConversion t = some t ∧
    processConversioncount t = some t ∧ processHexNumbers t = some t ∧
    processBinaryNumbers t = some t ∧ processCaseModifiers U t = some t ∧
    processMultiModifiers U t = some t ∧ processNestedModifiers U t = some t := by
  refine ⟨?_, ?_, ?_, ?_, ?_, ?_, ?_, ?_⟩
  · exact Regex.ReplaceAllStringFunc_of_no_match _ _ _
      (Regex.exec_none_of_needs _ isOpenParen multipleTypes_needs_paren t hn 0)
  · exact Regex.ReplaceAllStringFunc_of_no_match _ _ _
      (Regex.exec_none_of_needs _ isOpenParen conversion_needs_paren t hn 0)
  · unfold processConversioncount
    rw [Regex.ReplaceAllStringFunc_of_no_match _ _ _
      (Regex.exec_none_of_needs _ isOpenParen paren_reBinCount t hn 0)]
    exact Regex.ReplaceAllStringFunc_of_no_match _ _ _
      (Regex.exec_none_of_needs _ isOpenParen paren_reHexCount t hn 0)
  · unfold processHexNumbers
    rw [fixLoop_of_fixed _ t (Regex.ReplaceAllStringFunc_of_no_match _ _ _
      (Regex.exec_none_of_needs _ isOpenParen paren_reHexNum t hn 0))]
    simp only [Option.bind_eq_bind, Option.some_bind]
    rw [Regex.ReplaceAllString_of_no_match _ _ _
      (Regex.exec_none_of_needs _ isOpenParen (paren_reMarker _) t hn 0)]
    exact Regex.ReplaceAllString_of_no_match _ _ _
      (Regex.exec_none_of_needs _ isOpenParen (paren_reWordMarker _) t hn 0)
  · unfold processBinaryNumbers
    rw [fixLoop_of_fixed _ t (Regex.ReplaceAllStringFunc_of_no_match _ _ _
      (Regex.exec_none_of_needs _ isOpenParen paren_reBinNum t hn 0))]
    simp only [Option.bind_eq_bind, Option.some_bind]
    rw [Regex.ReplaceAllString_of_no_match _ _ _
      (Regex.exec_none_of_needs _ isOpenParen (paren_reMarker _) t hn 0)]
    exact Regex.ReplaceAllString_of_no_match _ _ _
      (Regex.exec_none_of_needs _ isOpenParen (paren_reWordMarker _) t hn 0)
  · unfold processCaseModifiers
    split
    · rfl
    · rw [Regex.ReplaceAllStringFunc_of_no_match _ _ _
        (Regex.exec_none_of_needs _ isOpenParen paren_reCaseCount t hn 0)]
      exact Regex.ReplaceAllStringFunc_of_no_match _ _ _
        (Regex.exec_none_of_needs _ isOpenParen paren_reCaseWord t hn 0)
  · exact Regex.ReplaceAllStringFunc_of_no_match _ _ _
      (Regex.exec_none_of_needs _ isOpenParen paren_reMultiModifiers t hn 0)
  · simp [processNestedModifiers, nestedLoop, Regex.MatchString,
      Regex.exec_none_of_needs _ isOpenParen nested_needs_paren t hn 0]

theorem processStandaloneModifiers_no_paren (t : List Char)
    (hn : ∀ c ∈ t, isOpenParen c = false) : processStandaloneModifiers t = some t := by
  unfold processStandaloneModifiers
  rw [Regex.ReplaceAllString_of_no_match _ _ _
    (Regex.exec_none_of_needs _ isOpenParen paren_reStandaloneLine _ hn 0)]
  exact Regex.ReplaceAllString_of_no_match _ _ _
    (Regex.exec_none_of_needs _ isOpenParen paren_reStandaloneInline _ hn 0)

theorem needs_quote_reQuoted (q : Char) : (reQuoted q).needs (fun c => c == q) = true := by
  simp [reQuoted, Regex.cat, Regex.needs]

theorem processQuotes_no_quote (t : List Char)
    (h1 : ∀ c ∈ t, (c == Char.ofNat 39) = false) (h2 : ∀ c ∈ t, (c == Char.ofNat 34) = false) :
    processQuotes t = some t := by
  unfold processQuotes
  rw [Regex.ReplaceAllStringFunc_of_no_match _ _ _
    (Regex.exec_none_of_needs _ _ (needs_quote_reQuoted _) _ h1 0)]
  exact Regex.ReplaceAllStringFunc_of_no_match _ _ _
    (Regex.exec_none_of_needs _ _ (needs_quote_reQuoted _) _ h2 0)

/-- The pattern of `processArticles` finds nothing in a text in which no rune of
`\s` stands directly before a word rune. -/
theorem processArticles_no_space_word (U : UnicodeTables) (t : List Char)
    (h : NoAdjacent clsSpace.test clsWord.test t) : processArticles U t = some t := by
  refine Regex.ReplaceAllStringFunc_of_no_match _ _ _ ?_
  cases hm : reArticle.exec t 0 with
  | none => rfl
  | some m =>
    exfalso
    obtain ⟨pre, x, post, hsrc, _, _, _, hpar⟩ := reArticle.exec_parses t 0 m hm (by omega)
    simp only [reArticle, Regex.cat] at hpar
    generalize m.caps = caps at hpar
    obtain ⟨u0, v0, cu0, cv0, rfl, _, hv0, rfl⟩ := hpar
    obtain ⟨u1, v1, cu, cv, rfl, _, hv1, rfl⟩ := hv0
    obtain ⟨sp, v2, csp, cv2, rfl, hsp, hv2, rfl⟩ := hv1
    obtain ⟨g2, e, cg, ce, rfl, ⟨c2, hp2, rfl⟩, _, rfl⟩ := hv2
    obtain ⟨d, sv, rfl, hd, hs, _⟩ := plus_parses_rune _ _ (parses_cls clsSpace) _ _ _ _ _ hsp
    obtain ⟨d2, gv, rfl, hd2, _, _⟩ := plus_parses_rune _ _ (parses_cls clsWord) _ _ _ _ _ hp2
    rcases List.eq_nil_or_concat sv with rfl | ⟨sp0, c, rfl⟩
    · exact h (pre ++ u0 ++ u1) d d2 (gv ++ e ++ post) (by rw [hsrc]; simp) hd hd2
    · exact h (pre ++ u0 ++ u1 ++ d :: sp0) c d2 (gv ++ e ++ post) (by rw [hsrc]; simp)
        (hs c (by simp)) hd2

/-- The pipeline on a text without `(`: only `processPunctuation`, `processQuotes`
and `processArticles` can change it. -/
theorem Process_no_paren (U : UnicodeTables) (t t2 : List Char)
    (hn : ∀ c ∈ t, isOpenParen c = false) (hp : processPunctuation t = some t2)
    (hn2 : ∀ c ∈ t2, isOpenParen c = false)
    (h1 : ∀ c ∈ t2, (c == Char.ofNat 39) = false) (h2 : ∀ c ∈ t2, (c == Char.ofNat 34) = false)
    (h : NoAdjacent clsSpace.test clsWord.test t2) : Process U t = some t2 := by
  obtain ⟨a1, a2, a3, a4, a5, a6, a7, a8⟩ := number_passes_of_no_paren U t hn
  simp only [Process, a1, a2, a3, a4, a5, a6, a7, a8, hp, processQuotes_no_quote t2 h1 h2,
    processArticles_no_space_word U t2 h, processStandaloneModifiers_no_paren t2 hn2,
    Option.bind_eq_bind, Option.some_bind]

theorem NoAdjacent_nil (f g : Char → Bool) : NoAdjacent f g [] := by
  intro pre c d post e _ _
  have := congrArg List.length e
  simp only [List.length_nil, List.length_append, List.length_cons] at this
  omega

/-- The pipeline on a word followed by runs of periods. -/
theorem Process_dots (U : UnicodeTables) (w s0 : List Char) (k : Nat)
    (rs : List (List Char × Nat)) (hw : ∀ c ∈ w, isWordChar c = true) (h0 : ∀ c ∈ s0, c = ' ')
    (hrs : ∀ p ∈ rs, p.1 ≠ [] ∧ ∀ c ∈ p.1, c = ' ') :
    Process U (w ++ (s0 ++ (List.replicate (k + 1) '.' ++ dotRuns rs))) =
      some (w ++ (List.replicate (k + 1) '.' ++ blankDotRuns rs)) := by
  have hword : ∀ (x : Char), isWordChar x = false → ∀ c, isWordChar c = true →
      (c == x) = false := fun x hx c hc => word_ne_of_not_word hx hc
  have hno := fun q hq1 hq2 hq3 => dots_text_no q w k rs [] (by simp) hw hq1 hq2 hq3
  simp only [List.append_nil] at hno
  refine Process_no_paren U _ _ ?_ (processPunctuation_dots w s0 k rs hw h0 hrs)
    (hno isOpenParen (hword '(' (by decide)) (by decide) (by decide))
    (hno _ (hword (Char.ofNat 39) (by decide)) (by decide) (by decide))
    (hno _ (hword (Char.ofNat 34) (by decide)) (by decide) (by decide)) ?_
  · intro c hc
    simp only [List.mem_append] at hc
    rcases hc with hc | hc | hc | hc
    · exact hword '(' (by decide) c (hw c hc)
    · rw [h0 c hc]; decide
    · rw [List.eq_of_mem_replicate hc]; decide
    · have : ∀ (rs : List (List Char × Nat)), (∀ p ∈ rs, ∀ c ∈ p.1, c = ' ') →
          ∀ c ∈ dotRuns rs, isOpenParen c = false := by
        intro rs
        induction rs with
        | nil => intro _ c hc; simp [dotRuns] at hc
        | cons p rs ih =>
          obtain ⟨s, k1⟩ := p
          intro h c hc
          simp only [dotRuns, List.mem_append] at hc
          rcases hc with hc | hc | hc
          · rw [h (s, k1) (by simp) c hc]; decide
          · rw [List.eq_of_mem_replicate hc]; decide
          · exact ih (fun p hp => h p (by simp [hp])) c hc
      exact this rs (fun p hp => (hrs p hp).2) c hc
  · have := noAdjacent_blankDotRuns clsWord.test (by decide) [] (NoAdjacent_nil _ _) rs k
    rw [List.append_nil] at this
    exact NoAdjacent_left_part _ _ _ _ (fun c hc => word_not_space c (hw c hc)) this

/-! ## `processQuotes` on one quoted text -/

/-- The end `\s*'` of the quote pattern does not match before a text in which a
rune outside `\s` comes before the first quote. -/
theorem quote_tail_fails (q : Char) (b0 : List Char) (l : Char) (R : List Char)
    (hl : clsSpace.test l = false) (hlq : l ≠ q) (hb0 : ∀ c ∈ b0, c ≠ q)
    (prev : Option Char) (pos : Nat) (caps : List (Nat × Nat × Nat))
    (K : MState → Option MState) :
    (Regex.cat [reSpaces, .chr q]).run ⟨prev, b0 ++ l :: R, pos, caps⟩ K = none := by
  cases h : (Regex.cat [reSpaces, .chr q]).run ⟨prev, b0 ++ l :: R, pos, caps⟩ K with
  | none => rfl
  | some res =>
    exfalso
    obtain ⟨x, rest2, c, hx, hpar, _⟩ := Regex.run_parses _ _ _ _ h
    simp only [Regex.cat] at hpar
    obtain ⟨sp, v, cu, cv, rfl, hsp, hv, _⟩ := hpar
    obtain ⟨g, e, cg, ce, rfl, hg, _, _⟩ := hv
    obtain ⟨d, rfl, hd, _⟩ := parses_chr q _ _ _ _ _ hg
    have hdq : d = q := beq_iff_eq.1 hd
    subst hdq
    obtain ⟨hs, _⟩ := star_parses_rune _ _ _ (parses_cls clsSpace) _ _ _ _ _ hsp
    simp only [List.append_assoc, List.singleton_append, List.cons_append] at hx
    rcases List.append_eq_append_iff.1 hx with ⟨a2, e1, e2⟩ | ⟨c2, e1, e2⟩
    · cases a2 with
      | nil =>
        simp only [List.nil_append, List.cons.injEq] at e2
        exact hlq e2.1
      | cons y ys =>
        simp only [List.cons_append, List.cons.injEq] at e2
        have := hs l (by rw [e1, e2.1]; simp)
        rw [hl] at this
        exact absurd this (by simp)
    · cases c2 with
      | nil =>
        simp only [List.nil_append, List.cons.injEq] at e2
        exact hlq e2.1.symm
      | cons y ys =>
        simp only [List.cons_append, List.cons.injEq] at e2
        exact hb0 d (by rw [e1, e2.1]; simp) rfl

/-- The lazy group `([^"]+?)` of the quote pattern and the end `\s*'` after it:
the group ends at the last rune outside `\s` before the closing quote. -/
theorem quoted_group_detOK (q g : Char) (gs E D rest : List Char)
    (hE : E ++ rest = D ++ [q])
    (hxs : ∀ c ∈ g :: (gs ++ E), CClass.test ⟨true, [(34, 34)]⟩ c = true)
    (hrest : HeadNot (CClass.test ⟨true, [(34, 34)]⟩) rest)
    (hGq : ∀ c ∈ g :: gs, c ≠ q)
    (hGl : ∀ c ∈ (g :: gs).getLast?, clsSpace.test c = false)
    (hD : ∀ c ∈ D, clsSpace.test c = true) (hqs : clsSpace.test q = false)
    (prev : Option Char) (pos : Nat) (caps : List (Nat × Nat × Nat)) :
    DetOK (Regex.cat [.cap 1 (Regex.plusLazy (.cls ⟨true, [(34, 34)]⟩)), reSpaces, .chr q])
      ⟨prev, g :: ((gs ++ E) ++ rest), pos, caps⟩
      ⟨some q, [], pos + 1 + gs.length + D.length + 1,
        (1, pos, pos + 1 + gs.length) :: caps⟩ := by
  intro K res hK
  simp only [Regex.cat]
  rw [Regex.run, Regex.run, run_plus_lazy _ _ (isRune_cls _) g (gs ++ E) hxs rest hrest]
  refine findSome_lazyStates_split caps _ res gs E rest (some g) (pos + 1) ?_ ?_
  · simp only [afterPrefix]
    rw [hE]
    have d1 := DetOK_star_cls clsSpace D hD [q] (stopsAt_cons _ q _ hqs) (lastOr (some g) gs)
      (pos + 1 + gs.length) ((1, pos, pos + 1 + gs.length) :: caps)
    have d2 := Exact_detOK (Exact_chr q (lastOr (lastOr (some g) gs) D) [] 
      (pos + 1 + gs.length + D.length) ((1, pos, pos + 1 + gs.length) :: caps))
    exact DetOK_seq d1 (DetOK_seq d2 (Exact_detOK (Exact_eps _))) K res hK
  · intro a2 b2 e hlt
    simp only [afterPrefix]
    obtain ⟨m, hm1, hm2⟩ : ∃ m, gs = a2 ++ m ∧ b2 = m ++ E := by
      rcases List.append_eq_append_iff.1 e with ⟨a3, e1, e2⟩ | ⟨c3, e1, e2⟩
      · exact ⟨a3, e1, e2⟩
      · have := congrArg List.length e1
        simp only [List.length_append] at this
        omega
    have hmne : m ≠ [] := by
      intro hm
      subst hm
      rw [List.append_nil] at hm1
      rw [hm1] at hlt
      omega
    obtain ⟨m0, l, rfl⟩ : ∃ m0 l, m = m0 ++ [l] := by
      rcases List.eq_nil_or_concat m with h | ⟨m0, l, h⟩
      · exact absurd h hmne
      · exact ⟨m0, l, by rw [h, List.concat_eq_append]⟩
    have hlast : (g :: gs).getLast? = some l := by
      rw [hm1, show g :: (a2 ++ (m0 ++ [l])) = (g :: (a2 ++ m0)) ++ [l] by simp,
        List.getLast?_append_of_ne_nil _ (by simp)]
      rfl
    have hl := hGl l hlast
    have hlq : l ≠ q := hGq l (List.mem_of_mem_getLast? hlast)
    rw [hm2, show (m0 ++ [l] ++ E) ++ rest = m0 ++ l :: (E ++ rest) by simp]
    exact quote_tail_fails q m0 l _ hl hlq
      (fun c hc => hGq c (by rw [hm1]; simp [hc])) _ _ _ _

theorem quote_facts {q : Char} (hq : q = Char.ofNat 39 ∨ q = Char.ofNat 34) :
    clsSpace.test q = false ∧ unicodeIsSpace q = false := by
  rcases hq with rfl | rfl <;> decide

theorem reQuoted_numGroups (q : Char) : (reQuoted q).numGroups = 1 := by
  simp [reQuoted, Regex.cat, Regex.numGroups, Regex.plusLazy, reSpaces]

/-- The match of the quote pattern on a quoted text: the group is the text
between the runes of `\s` after the opening quote and those before the
closing quote. -/
theorem quoted_detOK (q : Char) (hq : q = Char.ofNat 39 ∨ q = Char.ofNat 34) (g : Char)
    (A gs D : List Char) (hA : ∀ c ∈ A, clsSpace.test c = true)
    (hG : ∀ c ∈ g :: gs, c ≠ Char.ofNat 34 ∧ c ≠ q) (hGh : clsSpace.test g = false)
    (hGl : ∀ c ∈ (g :: gs).getLast?, clsSpace.test c = false)
    (hD : ∀ c ∈ D, clsSpace.test c = true) (prev : Option Char) (pos : Nat) :
    DetOK (reQuoted q) ⟨prev, q :: (A ++ (g :: (gs ++ (D ++ [q])))), pos, []⟩
      ⟨some q, [], pos + 1 + A.length + 1 + gs.length + D.length + 1,
        [(1, pos + 1 + A.length, pos + 1 + A.length + 1 + gs.length)]⟩ := by
  have hqs := (quote_facts hq).1
  have hne : ∀ c : Char, c ≠ Char.ofNat 34 → CClass.test ⟨true, [(34, 34)]⟩ c = true := by
    intro c hc
    have h1 : c.toNat ≠ 34 := by
      intro e
      have := Char.ofNat_toNat c
      rw [e] at this
      exact hc this.symm
    simp only [CClass.test, List.any_cons, List.any_nil, Bool.or_false, Bool.true_bne,
      Bool.not_eq_true', Bool.and_eq_false_imp, decide_eq_true_eq, decide_eq_false_iff_not]
    omega
  have d0 := Exact_detOK (Exact_chr q prev (A ++ (g :: (gs ++ (D ++ [q])))) pos [])
  have d1 := DetOK_star_cls clsSpace A hA (g :: (gs ++ (D ++ [q]))) (stopsAt_cons _ g _ hGh)
    (some q) (pos + 1) []
  have hDq : ∀ c ∈ D, c ≠ Char.ofNat 34 := by
    intro c hc e
    have := hD c hc
    rw [e] at this
    exact absurd this (by decide)
  rcases hq with rfl | rfl
  · have d2 := quoted_group_detOK (Char.ofNat 39) g gs (D ++ [Char.ofNat 39]) D []
      (by simp)
      (by
        intro c hc
        simp only [List.mem_cons, List.mem_append, List.mem_singleton, List.not_mem_nil,
          or_false] at hc
        rcases hc with rfl | hc | hc | rfl
        · exact hne _ (hG _ (by simp)).1
        · exact hne _ (hG _ (by simp [hc])).1
        · exact hne _ (hDq c hc)
        · decide)
      (by intro d hd; simp at hd) (fun c hc => (hG c hc).2) hGl hD hqs
      (lastOr (some (Char.ofNat 39)) A) (pos + 1 + A.length) []
    rw [show (gs ++ (D ++ [Char.ofNat 39])) ++ [] = gs ++ (D ++ [Char.ofNat 39]) by simp] at d2
    exact DetOK_seq d0 (DetOK_seq d1 d2)
  · have d2 := quoted_group_detOK (Char.ofNat 34) g gs D D [Char.ofNat 34] rfl
      (by
        intro c hc
        simp only [List.mem_cons, List.mem_append] at hc
        rcases hc with rfl | hc | hc
        · exact hne _ (hG _ (by simp)).1
        · exact hne _ (hG _ (by simp [hc])).1
        · exact hne _ (hDq c hc))
      (by
        intro d hd
        simp only [List.head?_cons, Option.mem_def, Option.some.injEq] at hd
        rw [← hd]
        decide)
      (fun c hc => (hG c hc).2) hGl hD hqs
      (lastOr (some (Char.ofNat 34)) A) (pos + 1 + A.length) []
    rw [show (gs ++ D) ++ [Char.ofNat 34] = gs ++ (D ++ [Char.ofNat 34]) by simp] at d2
    exact DetOK_seq d0 (DetOK_seq d1 d2)

/-- One pass of `processQuotes` on a quoted text. -/
theorem quoted_pass (q : Char) (hq : q = Char.ofNat 39 ∨ q = Char.ofNat 34) (g : Char)
    (A gs D : List Char) (hA : ∀ c ∈ A, clsSpace.test c = true)
    (hG : ∀ c ∈ g :: gs, c ≠ Char.ofNat 34 ∧ c ≠ q) (hGh : clsSpace.test g = false)
    (hGl : ∀ c ∈ (g :: gs).getLast?, clsSpace.test c = false)
    (hD : ∀ c ∈ D, clsSpace.test c = true) :
    (reQuoted q).ReplaceAllStringFunc (q :: (A ++ (g :: (gs ++ (D ++ [q])))))
      (quotedCallback q) = some ([q] ++ TrimSpace (g :: gs) ++ [q]) := by
  have hd := quoted_detOK q hq g A gs D hA hG hGh hGl hD none 0
  rw [replaceAll_whole (reQuoted q) (fun c => c == q) (needs_quote_reQuoted q) _ (by simp) _ hd
    (by simp only [List.length_cons, List.length_append, List.length_nil]; omega)]
  have hex : (reQuoted q).exec (q :: (A ++ (g :: (gs ++ (D ++ [q]))))) 0 =
      some ⟨0, 0 + 1 + A.length + 1 + gs.length + D.length + 1,
        [(1, 0 + 1 + A.length, 0 + 1 + A.length + 1 + gs.length)]⟩ := by
    rw [Regex.exec_zero]
    exact (reQuoted q).searchFrom_of_detOK _ _ _ _ hd
  have hg : slice (q :: (A ++ (g :: (gs ++ (D ++ [q]))))) (0 + 1 + A.length)
      (0 + 1 + A.length + 1 + gs.length) = g :: gs :=
    slice_at _ (q :: A) (g :: gs) (D ++ [q]) _ _ (by simp)
      (by simp only [List.length_cons]; omega) (by simp only [List.length_cons]; omega)
  have hr : List.range 1 = [0] := rfl
  simp only [quotedCallback, Regex.FindStringSubmatch, hex, reQuoted_numGroups, hr,
    List.map_cons, List.map_nil, Match.group, capSpan, if_true, hg, Option.bind_eq_bind,
    Option.some_bind, List.get?_cons_succ, List.get?_cons_zero, Nat.zero_add]
  rfl

theorem head_dropWhile_not (p : Char → Bool) : ∀ (l : List Char),
    ∀ c ∈ (l.dropWhile p).head?, p c = false := by
  intro l
  induction l with
  | nil => intro c hc; simp at hc
  | cons x xs ih =>
    intro c hc
    cases hx : p x with
    | true =>
      rw [List.dropWhile_cons_of_pos hx] at hc
      exact ih c hc
    | false =>
      rw [List.dropWhile_cons_of_neg (by simp [hx])] at hc
      simp only [List.head?_cons, Option.mem_def, Option.some.injEq] at hc
      rw [← hc]; exact hx

theorem not_clsSpace_of_not_space {c : Char} (h : unicodeIsSpace c = false) :
    clsSpace.test c = false := by
  cases hc : clsSpace.test c with
  | false => rfl
  | true =>
    rw [isSpace_of_clsSpace c hc] at h
    exact absurd h (by simp)

/-- `processQuotes` on a text between two quotes of the same kind, with white
space inside the quotes. -/
theorem processQuotes_quoted (q : Char) (hq : q = Char.ofNat 39 ∨ q = Char.ofNat 34)
    (s1 t s2 : List Char) (hne : t ≠ [])
    (ht : ∀ c ∈ t, c ≠ Char.ofNat 39 ∧ c ≠ Char.ofNat 34)
    (hth : ∀ c ∈ t.head?, unicodeIsSpace c = false)
    (htl : ∀ c ∈ t.getLast?, unicodeIsSpace c = false)
    (h1 : ∀ c ∈ s1, unicodeIsSpace c = true) (h2 : ∀ c ∈ s2, unicodeIsSpace c = true) :
    processQuotes (q :: (s1 ++ (t ++ (s2 ++ [q])))) = some (q :: (t ++ [q])) := by
  have hsq : ∀ c, unicodeIsSpace c = true → c ≠ Char.ofNat 39 ∧ c ≠ Char.ofNat 34 := by
    intro c hc
    constructor <;> intro e <;> rw [e] at hc <;> exact absurd hc (by decide)
  -- the runes of `\s` next to the quotes, and the rest of the white space
  obtain ⟨A, B, hAB, hA, hB⟩ : ∃ A B, s1 = A ++ B ∧ (∀ c ∈ A, clsSpace.test c = true) ∧
      ∀ c ∈ B.head?, clsSpace.test c = false :=
    ⟨s1.takeWhile clsSpace.test, s1.dropWhile clsSpace.test,
      (List.takeWhile_append_dropWhile _ _).symm, fun c hc => List.mem_takeWhile_imp hc,
      head_dropWhile_not _ _⟩
  obtain ⟨C, D, hCD, hD, hC⟩ : ∃ C D, s2 = C ++ D ∧ (∀ c ∈ D, clsSpace.test c = true) ∧
      ∀ c ∈ C.getLast?, clsSpace.test c = false := by
    refine ⟨(s2.reverse.dropWhile clsSpace.test).reverse,
      (s2.reverse.takeWhile clsSpace.test).reverse, ?_, ?_, ?_⟩
    · rw [← List.reverse_append, List.takeWhile_append_dropWhile, List.reverse_reverse]
    · intro c hc
      exact List.mem_takeWhile_imp (List.mem_reverse.1 hc)
    · intro c hc
      rw [List.getLast?_reverse] at hc
      exact head_dropWhile_not _ _ c hc
  have hBs : ∀ c ∈ B, unicodeIsSpace c = true := fun c hc => h1 c (by rw [hAB]; simp [hc])
  have hCs : ∀ c ∈ C, unicodeIsSpace c = true := fun c hc => h2 c (by rw [hCD]; simp [hc])
  obtain ⟨g, gs, hG⟩ : ∃ g gs, B ++ (t ++ C) = g :: gs := by
    cases hb : B ++ (t ++ C) with
    | nil =>
      simp only [List.append_eq_nil] at hb
      exact absurd hb.2.1 hne
    | cons g gs => exact ⟨g, gs, rfl⟩
  have hGq : ∀ c ∈ g :: gs, c ≠ Char.ofNat 39 ∧ c ≠ Char.ofNat 34 := by
    intro c hc
    rw [← hG] at hc
    simp only [List.mem_append] at hc
    rcases hc with hc | hc | hc
    · exact hsq c (hBs c hc)
    · exact ht c hc
    · exact hsq c (hCs c hc)
  have hGh : clsSpace.test g = false := by
    cases B with
    | nil =>
      cases t with
      | nil => exact absurd rfl hne
      | cons x xs =>
        simp only [List.nil_append, List.cons_append, List.cons.injEq] at hG
        rw [← hG.1]
        exact not_clsSpace_of_not_space (hth x (by simp))
    | cons x xs =>
      simp only [List.cons_append, List.cons.injEq] at hG
      rw [← hG.1]
      exact hB x (by simp)
  have hGl : ∀ c ∈ (g :: gs).getLast?, clsSpace.test c = false := by
    intro c hc
    rw [← hG, ← List.append_assoc] at hc
    by_cases hCe : C = []
    · subst hCe
      rw [List.append_nil, List.getLast?_append_of_ne_nil _ hne] at hc
      exact not_clsSpace_of_not_space (htl c hc)
    · rw [List.getLast?_append_of_ne_nil _ hCe] at hc
      exact hC c hc
  have htrim : TrimSpace (g :: gs) = t := by
    rw [← hG]
    exact TrimSpace_around B t C hBs hCs hth htl
  have hsrc : q :: (s1 ++ (t ++ (s2 ++ [q]))) = q :: (A ++ (g :: (gs ++ (D ++ [q])))) := by
    rw [hAB, hCD, ← List.cons_append g gs, ← hG]
    simp
  have hno : ∀ (x : Char), (x = Char.ofNat 39 ∨ x = Char.ofNat 34) → x ≠ q →
      ∀ (a b : List Char), (∀ c ∈ a, unicodeIsSpace c = true) →
        (∀ c ∈ b, unicodeIsSpace c = true) →
        ∀ c ∈ q :: (a ++ (t ++ (b ++ [q]))), (c == x) = false := by
    intro x hx hxq a b ha hb c hc
    cases hcx : c == x with
    | false => rfl
    | true =>
      exfalso
      have e := beq_iff_eq.1 hcx
      subst e
      simp only [List.mem_cons, List.mem_append, List.mem_singleton, List.not_mem_nil,
        or_false] at hc
      rcases hc with hc | hc | hc | hc | hc
      · exact hxq hc
      · rcases hx with e | e
        · exact (hsq c (ha c hc)).1 e
        · exact (hsq c (ha c hc)).2 e
      · rcases hx with e | e
        · exact (ht c hc).1 e
        · exact (ht c hc).2 e
      · rcases hx with e | e
        · exact (hsq c (hb c hc)).1 e
        · exact (hsq c (hb c hc)).2 e
      · exact hxq hc
  unfold processQuotes
  rcases hq with rfl | rfl
  · have p1 := quoted_pass (Char.ofNat 39) (Or.inl rfl) g A gs D hA
      (fun c hc => ⟨(hGq c hc).2, (hGq c hc).1⟩) hGh hGl hD
    rw [← hsrc, htrim] at p1
    rw [p1]
    simp only [Option.bind_eq_bind, Option.some_bind]
    have := hno (Char.ofNat 34) (Or.inr rfl) (by decide) [] [] (by simp) (by simp)
    simp only [List.nil_append] at this
    exact Regex.ReplaceAllStringFunc_of_no_match _ _ _
      (Regex.exec_none_of_needs _ _ (needs_quote_reQuoted _) _ this 0)
  · rw [Regex.ReplaceAllStringFunc_of_no_match _ _ _
      (Regex.exec_none_of_needs _ _ (needs_quote_reQuoted (Char.ofNat 39)) _
        (hno (Char.ofNat 39) (Or.inl rfl) (by decide) s1 s2 h1 h2) 0)]
    simp only [Option.bind_eq_bind, Option.some_bind]
    have p2 := quoted_pass (Char.ofNat 34) (Or.inr rfl) g A gs D hA
      (fun c hc => ⟨(hGq c hc).2, (hGq c hc).2⟩) hGh hGl hD
    rw [← hsrc, htrim] at p2
    exact p2

/-! ## Totality of the passes -/

/-- `ReplaceAllStringFunc` never fails when its callback succeeds on every string
of the language of the pattern. -/
theorem Regex.ReplaceAllStringFunc_total (re : Regex) (f : List Char → Option (List Char))
    (hf : ∀ x, re.Lang x → ∃ r, f x = some r) (src : List Char) :
    ∃ out, re.ReplaceAllStringFunc src f = some out := by
  obtain ⟨out, _, h, _⟩ := re.ReplaceAllStringFunc_rewrite src f (fun _ _ => True)
    (fun x hx => by
      obtain ⟨r, hr⟩ := hf x hx
      exact ⟨r, hr, trivial⟩)
  exact ⟨out, h⟩

/-- `ReplaceAllString` never fails. -/
theorem Regex.ReplaceAllString_total (re : Regex) (src : List Char) (tpl : List TPiece) :
    ∃ out, re.ReplaceAllString src tpl = some out := by
  obtain ⟨out, _, h, _⟩ := replaceAllLoop_rewrite re src
    (fun m => some (expandTemplate tpl src m)) (fun _ _ => True)
    (fun p m _ _ => ⟨_, rfl, trivial⟩) (src.length + 2) 0 0 [] (Nat.le_refl _) (by omega)
    (by omega)
  exact ⟨out, by simpa [Regex.ReplaceAllString] using h⟩

/-- The loop of `FindAllStringSubmatch` ends within its iteration bound. -/
theorem allMatchesLoop_total (re : Regex) (s : List Char) :
    ∀ (fuel pos : Nat) (prev : Option Nat), pos ≤ s.length + 1 → s.length + 2 ≤ fuel + pos →
      ∃ ms, allMatchesLoop re s fuel pos prev = some ms := by
  intro fuel
  induction fuel with
  | zero => intro pos prev h1 h2; omega
  | succ fuel ih =>
    intro pos prev h1 h2
    simp only [allMatchesLoop]
    by_cases hend : s.length < pos
    · rw [if_pos hend]
      exact ⟨[], rfl⟩
    · rw [if_neg hend]
      cases hex : re.exec s pos with
      | none => exact ⟨[], rfl⟩
      | some m =>
        obtain ⟨b1, b2, b3, _⟩ := re.exec_sound s pos m hex (by omega)
        simp only
        obtain ⟨ms, hms⟩ := ih (if m.stop = pos then pos + 1 else m.stop) (some m.stop)
          (by split <;> omega) (by split <;> omega)
        rw [hms]
        exact ⟨_, rfl⟩

/-- `FindAllStringSubmatch` never fails, and each of its entries has the matched
text and one text per capturing group. -/
theorem Regex.FindAllStringSubmatch_total (re : Regex) (s : List Char) :
    ∃ subs, re.FindAllStringSubmatch s = some subs ∧
      ∀ sub ∈ subs, sub.length = re.numGroups + 1 := by
  obtain ⟨ms, hms⟩ := allMatchesLoop_total re s (s.length + 2) 0 none (by omega) (by omega)
  refine ⟨_, by rw [Regex.FindAllStringSubmatch, hms]; rfl, ?_⟩
  intro sub hsub
  simp only [List.mem_map] at hsub
  obtain ⟨m, _, rfl⟩ := hsub
  simp

theorem get_of_length {α : Type} (l : List α) (i : Nat) (h : i < l.length) :
    ∃ x, l.get? i = some x := by
  rw [List.get?_eq_getElem?]
  exact ⟨l[i], List.getElem?_eq_getElem h⟩

/-- A fold with a step that may fail succeeds when the step succeeds on every
element. -/
theorem foldlM_total {σ α : Type} (step : σ → α → Option σ) :
    ∀ (l : List α) (s : σ), (∀ a ∈ l, ∀ s, ∃ r, step s a = some r) →
      ∃ r, l.foldlM step s = some r := by
  intro l
  induction l with
  | nil => intro s _; exact ⟨s, rfl⟩
  | cons a as ih =>
    intro s h
    obtain ⟨r, hr⟩ := h a (by simp) s
    obtain ⟨r2, hr2⟩ := ih r (fun b hb => h b (by simp [hb]))
    exact ⟨r2, by rw [List.foldlM_cons, hr]; exact hr2⟩

/-- `FindStringSubmatch` on a text of the language of a pattern without context
assertions: every group index up to the number of groups is present. -/
theorem Regex.FindStringSubmatch_parts (re : Regex) (hp : re.plain = true) (x : List Char)
    (hx : re.Lang x) :
    ∃ m parts, re.exec x 0 = some m ∧ re.FindStringSubmatch x = some parts ∧
      parts.length = re.numGroups + 1 ∧
      ∀ i, i < re.numGroups → parts.get? (i + 1) = some (m.group x (i + 1)) := by
  obtain ⟨m, hm, hf⟩ := re.FindStringSubmatch_of_lang hp x hx
  refine ⟨m, _, hm, hf, by simp, ?_⟩
  intro i hi
  simp [List.getElem?_map, List.getElem?_range hi]

theorem StarLang_rune {P : List Char → Prop} (f : Char → Bool)
    (hP : ∀ y, P y → ∃ d, y = [d] ∧ f d = true) {x : List Char} (h : StarLang P x) :
    ∀ c ∈ x, f c = true := by
  induction h with
  | nil => intro c hc; simp at hc
  | cons y z hy _ ih =>
    obtain ⟨d, rfl, hd⟩ := hP y hy
    intro c hc
    simp only [List.singleton_append, List.mem_cons] at hc
    rcases hc with rfl | hc
    · exact hd
    · exact ih c hc

theorem lang_star_cls (g : Bool) (cc : CClass) (x : List Char)
    (h : (Regex.star g (.cls cc)).Lang x) : ∀ c ∈ x, cc.test c = true :=
  StarLang_rune cc.test (fun _ hy => hy) h

theorem lang_plus_cls (cc : CClass) (x : List Char) (h : (Regex.plus (.cls cc)).Lang x) :
    x ≠ [] ∧ ∀ c ∈ x, cc.test c = true := by
  obtain ⟨u, v, rfl, ⟨d, rfl, hd⟩, hv⟩ := h
  refine ⟨by simp, ?_⟩
  intro c hc
  simp only [List.singleton_append, List.mem_cons] at hc
  rcases hc with rfl | hc
  · exact hd
  · exact lang_star_cls true cc v hv c hc

theorem lang_lit : ∀ (l x : List Char), (Regex.lit l).Lang x → x = l := by
  intro l
  induction l with
  | nil => intro x h; exact h
  | cons c cs ih =>
    intro x h
    obtain ⟨u, v, rfl, hu, hv⟩ := h
    have hu2 : u = [c] := hu
    rw [hu2, ih v hv]
    rfl

theorem multiCaseStep_total (U : UnicodeTables) (v : List Char) (op : List (List Char))
    (h : op.length = 2) : ∃ r, multiCaseStep U v op = some r := by
  obtain ⟨o, ho⟩ := get_of_length op 1 (by omega)
  simp only [multiCaseStep, ho, Option.bind_eq_bind, Option.some_bind]
  split
  · exact ⟨_, rfl⟩
  · split
    · exact ⟨_, rfl⟩
    · split <;> exact ⟨_, rfl⟩

theorem multiConvStep_total (st : List Char × Bool) (op : List (List Char))
    (h : op.length = 2) : ∃ r, multiConvStep st op = some r := by
  obtain ⟨o, ho⟩ := get_of_length op 1 (by omega)
  simp only [multiConvStep, ho, Option.bind_eq_bind, Option.some_bind]
  split
  · split
    · split <;> exact ⟨_, rfl⟩
    · split <;> exact ⟨_, rfl⟩
  · exact ⟨_, rfl⟩

/-- The callback of `processMultipleTypes` never fails: every entry of
`FindAllStringSubmatch` has its index 1. -/
theorem multipleTypesCallback_total (U : UnicodeTables) (m : List Char) :
    ∃ r, multipleTypesCallback U m = some r := by
  obtain ⟨subs, hs, hlen⟩ := reOperation.FindAllStringSubmatch_total m
  have hn : reOperation.numGroups = 1 := by rfl
  obtain ⟨v, hv⟩ := foldlM_total (multiCaseStep U) subs (reHexRun.FindString m)
    (fun op hop s => multiCaseStep_total U s op (by rw [hlen op hop, hn]))
  obtain ⟨st, hst⟩ := foldlM_total multiConvStep subs (v, false)
    (fun op hop s => multiConvStep_total s op (by rw [hlen op hop, hn]))
  exact ⟨st.1, by
    simp only [multipleTypesCallback, hs, hv, hst, Option.bind_eq_bind, Option.some_bind]
    rfl⟩

theorem processMultipleTypes_total (U : UnicodeTables) (text : List Char) :
    ∃ out, processMultipleTypes U text = some out :=
  Regex.ReplaceAllStringFunc_total _ _ (fun x _ => multipleTypesCallback_total U x) text

/-- The callback of `processConversion` never fails on a match: the three
submatches it reads are present. -/
theorem conversionCallback_total (x : List Char) (hx : reConversion.Lang x) :
    ∃ r, conversionCallback x = some r := by
  obtain ⟨m, parts, _, hf, _, hg⟩ := reConversion.FindStringSubmatch_parts rfl x hx
  have h1 := hg 0 (by decide)
  have h2 := hg 1 (by decide)
  have h3 := hg 2 (by decide)
  simp only [conversionCallback, hf, h1, h2, h3, Option.bind_eq_bind, Option.some_bind]
  split_ifs <;> exact ⟨_, rfl⟩

theorem processConversion_total (text : List Char) : ∃ out, processConversion text = some out :=
  Regex.ReplaceAllStringFunc_total _ _ conversionCallback_total text

/-- The callbacks of `processConversioncount` never fail: they test the length
of the submatch list before they read its index 1. -/
theorem conversionCountCallback_total (re : Regex) (base : Nat) (m : List Char) :
    ∃ r, conversionCountCallback re base m = some r := by
  unfold conversionCountCallback
  cases re.FindStringSubmatch m with
  | none => exact ⟨_, rfl⟩
  | some parts =>
    simp only
    by_cases h : parts.length < 2
    · rw [if_pos h]; exact ⟨_, rfl⟩
    · rw [if_neg h]
      obtain ⟨p, hp⟩ := get_of_length parts 1 (by omega)
      simp only [hp, Option.bind_eq_bind, Option.some_bind]
      split <;> exact ⟨_, rfl⟩

theorem processConversioncount_total (text : List Char) :
    ∃ out, processConversioncount text = some out := by
  obtain ⟨t1, h1⟩ := Regex.ReplaceAllStringFunc_total reBinCount _
    (fun x _ => conversionCountCallback_total reBinCount 2 x) text
  obtain ⟨t2, h2⟩ := Regex.ReplaceAllStringFunc_total reHexCount _
    (fun x _ => conversionCountCallback_total reHexCount 16 x) t1
  exact ⟨t2, by simp only [processConversioncount, h1, Option.bind_eq_bind, Option.some_bind, h2]⟩

/-- The loop over the window `[start, len(words))` never leaves the word list
when `start` is not negative. -/
theorem forLoop_window_total (f : List Char → List Char) (ws : List (List Char)) (a : Int)
    (h0 : 0 ≤ a) :
    ∃ r, forLoop (updateWord f) ((ws.length : Int) - a).toNat a ws = some r := by
  obtain ⟨a2, rfl⟩ : ∃ a2 : Nat, a = a2 := ⟨a.toNat, by omega⟩
  by_cases h : (ws.length : Int) ≤ (a2 : Int)
  · rw [show ((ws.length : Int) - (a2 : Int)).toNat = 0 by omega]
    exact ⟨ws, rfl⟩
  · exact ⟨_, forLoop_updateWord f _ a2 ws (by omega)⟩

/-- The callback of the first replacement of `processCaseModifiers` never fails
on a match: the submatches are present and, the count being cut down to the
number of words, the window lies inside the word list. -/
theorem caseCountCallback_total (U : UnicodeTables) (x : List Char) (hx : reCaseCount.Lang x) :
    ∃ r, caseCountCallback U x = some r := by
  obtain ⟨m, parts, _, hf, _, hg⟩ := reCaseCount.FindStringSubmatch_parts rfl x hx
  have h1 := hg 0 (by decide)
  have h2 := hg 1 (by decide)
  have h3 := hg 2 (by decide)
  simp only [caseCountCallback, hf, h1, h2, h3, Option.bind_eq_bind, Option.some_bind]
  cases caseOf U (m.group x (1 + 1)) with
  | none =>
    simp only
    split_ifs <;> exact ⟨_, rfl⟩
  | some f =>
    simp only
    generalize Fields (m.group x (0 + 1)) = ws
    generalize (Atoi (m.group x (2 + 1))).val = v
    have hs : (0 : Int) ≤ (ws.length : Int) - (if (ws.length : Int) < v then (ws.length : Int)
        else v) := by
      split <;> omega
    obtain ⟨r, hr⟩ := forLoop_window_total f ws _ hs
    rw [hr]
    exact ⟨_, rfl⟩

theorem caseWordCallback_total (U : UnicodeTables) (x : List Char) (hx : reCaseWord.Lang x) :
    ∃ r, caseWordCallback U x = some r := by
  obtain ⟨m, parts, _, hf, _, hg⟩ := reCaseWord.FindStringSubmatch_parts rfl x hx
  have h1 := hg 0 (by decide)
  have h2 := hg 1 (by decide)
  simp only [caseWordCallback, hf, h1, h2, Option.bind_eq_bind, Option.some_bind]
  cases caseOf U (m.group x (1 + 1)) <;> exact ⟨_, rfl⟩

theorem processCaseModifiers_total (U : UnicodeTables) (text : List Char) :
    ∃ out, processCaseModifiers U text = some out := by
  unfold processCaseModifiers
  split
  · exact ⟨_, rfl⟩
  · obtain ⟨t1, h1⟩ := Regex.ReplaceAllStringFunc_total reCaseCount _
      (caseCountCallback_total U) text
    obtain ⟨t2, h2⟩ := Regex.ReplaceAllStringFunc_total reCaseWord _
      (caseWordCallback_total U) t1
    exact ⟨t2, by simp only [h1, Option.bind_eq_bind, Option.some_bind, h2]⟩

theorem multiModStep_total (U : UnicodeTables) (v : List Char) (op : List (List Char))
    (h : op.length = 2) : ∃ r, multiModStep U v op = some r := by
  obtain ⟨o, ho⟩ := get_of_length op 1 (by omega)
  simp only [multiModStep, ho, Option.bind_eq_bind, Option.some_bind]
  split_ifs
  · exact ⟨_, rfl⟩
  · exact ⟨_, rfl⟩
  · cases v <;> exact ⟨_, rfl⟩
  · exact ⟨_, rfl⟩

theorem multiModifiersCallback_total (U : UnicodeTables) (m : List Char) :
    ∃ r, multiModifiersCallback U m = some r := by
  obtain ⟨subs, hs, hlen⟩ := reCaseOperation.FindAllStringSubmatch_total m
  have hn : reCaseOperation.numGroups = 1 := by rfl
  obtain ⟨v, hv⟩ := foldlM_total (multiModStep U) subs (reWordRun.FindString m)
    (fun op hop s => multiModStep_total U s op (by rw [hlen op hop, hn]))
  exact ⟨_, by
    simp only [multiModifiersCallback, hs, hv, Option.bind_eq_bind, Option.some_bind]
    rfl⟩

theorem processMultiModifiers_total (U : UnicodeTables) (text : List Char) :
    ∃ out, processMultiModifiers U text = some out :=
  Regex.ReplaceAllStringFunc_total _ _ (fun x _ => multiModifiersCallback_total U x) text

theorem reQuoted_plain (q : Char) : (reQuoted q).plain = true := by rfl

theorem quotedCallback_total (q : Char) (x : List Char) (hx : (reQuoted q).Lang x) :
    ∃ r, quotedCallback q x = some r := by
  obtain ⟨m, parts, _, hf, _, hg⟩ := (reQuoted q).FindStringSubmatch_parts (reQuoted_plain q) x hx
  have h1 := hg 0 (by rw [reQuoted_numGroups]; decide)
  simp only [quotedCallback, hf, h1, Option.bind_eq_bind, Option.some_bind]
  exact ⟨_, rfl⟩

theorem processQuotes_total (text : List Char) : ∃ out, processQuotes text = some out := by
  obtain ⟨t1, h1⟩ := Regex.ReplaceAllStringFunc_total (reQuoted (Char.ofNat 39)) _
    (quotedCallback_total _) text
  obtain ⟨t2, h2⟩ := Regex.ReplaceAllStringFunc_total (reQuoted (Char.ofNat 34)) _
    (quotedCallback_total _) t1
  exact ⟨t2, by simp only [processQuotes, h1, Option.bind_eq_bind, Option.some_bind, h2]⟩

theorem processStandaloneModifiers_total (text : List Char) :
    ∃ out, processStandaloneModifiers text = some out := by
  obtain ⟨t1, h1⟩ := reStandaloneLine.ReplaceAllString_total text []
  obtain ⟨t2, h2⟩ := reStandaloneInline.ReplaceAllString_total t1 []
  exact ⟨t2, by
    simp only [processStandaloneModifiers, h1, Option.bind_eq_bind, Option.some_bind, h2]⟩

theorem processPunctuation_total (text : List Char) :
    ∃ out, processPunctuation text = some out := by
  obtain ⟨t1, h1⟩ := Regex.ReplaceAllStringFunc_total reDots
    (fun m => some (removeSpaces m ++ [' '])) (fun _ _ => ⟨_, rfl⟩) text
  obtain ⟨t2, h2⟩ := (reAttachMark '!').ReplaceAllString_total t1 [.group 1, .group 2]
  obtain ⟨t3, h3⟩ := (reSpaceAfterMark '!').ReplaceAllString_total t2
    [.group 1, .text [' '], .group 2]
  obtain ⟨t4, h4⟩ := (reAttachMark '?').ReplaceAllString_total t3 [.group 1, .group 2]
  obtain ⟨t5, h5⟩ := (reSpaceAfterMark '?').ReplaceAllString_total t4
    [.group 1, .text [' '], .group 2]
  obtain ⟨t6, h6⟩ := (reMarkPair '!' '?').ReplaceAllString_total t5 [.text "!? ".toList]
  obtain ⟨t7, h7⟩ := (reMarkPair '?' '!').ReplaceAllString_total t6 [.text "?! ".toList]
  obtain ⟨t8, h8⟩ := reMarksDot.ReplaceAllString_total t7 [.group 1, .text ['.']]
  obtain ⟨t9, h9⟩ := Regex.ReplaceAllStringFunc_total reSeparators
    (fun m => some (TrimSpace m ++ [' '])) (fun _ _ => ⟨_, rfl⟩) t8
  obtain ⟨t10, h10⟩ := reTwoMarks.ReplaceAllString_total t9 [.group 1, .group 2]
  obtain ⟨t11, h11⟩ := reFinalMark.ReplaceAllString_total t10 [.group 1, .text [' ']]
  obtain ⟨t12, h12⟩ := reSpaceRun.ReplaceAllString_total t11 [.text [' ']]
  exact ⟨_, processPunctuation_steps text t1 t2 t3 t4 t5 t6 t7 t8 t9 t10 t11 t12 h1 h2 h3 h4 h5
    h6 h7 h8 h9 h10 h11 h12⟩

theorem fieldsLoop_skip_spaces : ∀ (sp rest : List Char), (∀ c ∈ sp, unicodeIsSpace c = true) →
    fieldsLoop (sp ++ rest) [] = fieldsLoop rest [] := by
  intro sp
  induction sp with
  | nil => intro rest _; rfl
  | cons c cs ih =>
    intro rest h
    rw [List.cons_append, fieldsLoop]
    simp only [h c (by simp), if_true, List.isEmpty_nil]
    exact ih rest (fun d hd => h d (by simp [hd]))

/-- `strings.Fields` on two texts without white space that white space
separates. -/
theorem Fields_two_spaced (a sp b : List Char) (ha : a ≠ []) (hsp : sp ≠ []) (hb : b ≠ [])
    (hsa : ∀ c ∈ a, unicodeIsSpace c = false) (hss : ∀ c ∈ sp, unicodeIsSpace c = true)
    (hsb : ∀ c ∈ b, unicodeIsSpace c = false) : Fields (a ++ (sp ++ b)) = [a, b] := by
  unfold Fields
  rw [fieldsLoop_run a _ [] hsa, List.nil_append]
  cases sp with
  | nil => exact absurd rfl hsp
  | cons c cs =>
    rw [List.cons_append, fieldsLoop]
    have h2 : a.isEmpty = false := by cases a <;> simp_all
    simp only [hss c (by simp), if_true, h2, Bool.false_eq_true, if_false]
    rw [fieldsLoop_skip_spaces cs b (fun d hd => hss d (by simp [hd]))]
    have := fieldsLoop_run b [] [] hsb
    rw [List.append_nil, List.nil_append] at this
    rw [this, fieldsLoop]
    have h3 : b.isEmpty = false := by cases b <;> simp_all
    simp [h3]

theorem article_lang_shape (x : List Char) (hx : reArticle.Lang x) :
    ∃ a sp b, x = a ++ (sp ++ b) ∧ a ≠ [] ∧ sp ≠ [] ∧ b ≠ [] ∧
      (∀ c ∈ a, unicodeIsSpace c = false) ∧ (∀ c ∈ sp, unicodeIsSpace c = true) ∧
      (∀ c ∈ b, unicodeIsSpace c = false) := by
  simp only [reArticle, Regex.cat, Regex.Lang] at hx
  obtain ⟨u0, v0, rfl, rfl, u1, v1, rfl, ⟨a1, a2, rfl, ⟨d, rfl, hd⟩, ha2⟩,
    sp, v2, rfl, hsp, w, e, rfl, hw, rfl⟩ := hx
  obtain ⟨hspne, hsp2⟩ := lang_plus_cls clsSpace sp hsp
  obtain ⟨hwne, hw2⟩ := lang_plus_cls clsWord w hw
  have hart : ∀ c : Char, (CClass.test ⟨false, [(65, 65), (97, 97)]⟩ c = true ∨
      CClass.test ⟨false, [(78, 78), (110, 110)]⟩ c = true) → unicodeIsSpace c = false := by
    intro c hc
    simp only [CClass.test, List.any_cons, List.any_nil, Bool.or_false, Bool.false_bne,
      Bool.and_eq_true, Bool.or_eq_true, decide_eq_true_eq] at hc
    simp only [unicodeIsSpace, Bool.or_eq_false_iff, Bool.and_eq_false_iff,
      decide_eq_false_iff_not, beq_eq_false_iff_ne, ne_eq]
    omega
  refine ⟨[d] ++ a2, sp, w, by simp, by simp, hspne, hwne, ?_,
    fun c hc => isSpace_of_clsSpace c (hsp2 c hc),
    fun c hc => word_not_unicodeSpace (by rw [← word_test]; exact hw2 c hc)⟩
  intro c hc
  simp only [List.singleton_append, List.mem_cons] at hc
  rcases hc with rfl | hc
  · exact hart _ (Or.inl hd)
  · rcases ha2 with ⟨d2, rfl, hd2⟩ | rfl
    · rw [List.mem_singleton.1 hc]
      exact hart _ (Or.inr hd2)
    · simp at hc

/-- The callback of `processArticles` never fails on a match: the match has two
fields. -/
theorem articleCallback_total (U : UnicodeTables) (x : List Char) (hx : reArticle.Lang x) :
    ∃ r, articleCallback U x = some r := by
  obtain ⟨a, sp, b, rfl, ha, hsp, hb, hsa, hss, hsb⟩ := article_lang_shape x hx
  simp only [articleCallback, Fields_two_spaced a sp b ha hsp hb hsa hss hsb,
    List.get?_cons_zero, List.get?_cons_succ, Option.bind_eq_bind, Option.some_bind]
  exact ⟨_, rfl⟩

theorem processArticles_total (U : UnicodeTables) (text : List Char) :
    ∃ out, processArticles U text = some out :=
  Regex.ReplaceAllStringFunc_total _ _ (articleCallback_total U) text

theorem processNestedModifiers_total (U : UnicodeTables) (hU : ParenFree U) (text : List Char) :
    ∃ out, processNestedModifiers U text = some out := by
  obtain ⟨out, h, _⟩ := nestedLoop_terminates U hU (text.length + 1) text (by
    have := List.count_le_length (a := '(') (l := text)
    omega)
  exact ⟨out, h⟩

/-! ## The markers `(hex)` and `(bin)` as a measure of the conversion loops -/

theorem reMarker_plain (name : List Char) : (reMarker name).plain = true := by
  have : ∀ l : List Char, (Regex.lit l).plain = true := by
    intro l
    induction l with
    | nil => rfl
    | cons c cs ih => simp [Regex.lit, Regex.plain, ih]
  simp [reMarker, Regex.cat, Regex.plain, reSpaces, this]

/-- The strings of the pattern of a marker. -/
theorem marker_lang_iff (name M : List Char) :
    (reMarker name).Lang M ↔ ∃ sp1 sp2, M = '(' :: (sp1 ++ (name ++ (sp2 ++ [')']))) ∧
      (∀ c ∈ sp1, clsSpace.test c = true) ∧ (∀ c ∈ sp2, clsSpace.test c = true) := by
  constructor
  · intro h
    simp only [reMarker, Regex.cat] at h
    obtain ⟨u0, v0, rfl, hu0, sp1, v1, rfl, h1, n, v2, rfl, hn, sp2, v3, rfl, h2, u4, v4, rfl,
      hu4, hv4⟩ := h
    have e0 : u0 = ['('] := hu0
    have e4 : u4 = [')'] := hu4
    have e5 : v4 = [] := hv4
    subst e0 e4 e5
    rw [lang_lit name n hn]
    exact ⟨sp1, sp2, by simp, lang_star_cls _ _ _ h1, lang_star_cls _ _ _ h2⟩
  · rintro ⟨sp1, sp2, rfl, h1, h2⟩
    have hstar : ∀ sp : List Char, (∀ c ∈ sp, clsSpace.test c = true) → reSpaces.Lang sp := by
      intro sp
      induction sp with
      | nil => intro _; exact StarLang.nil
      | cons c cs ih =>
        intro h
        exact StarLang.cons [c] cs ⟨c, rfl, h c (by simp)⟩ (ih (fun d hd => h d (by simp [hd])))
    have hlit : ∀ l : List Char, (Regex.lit l).Lang l := by
      intro l
      induction l with
      | nil => exact rfl
      | cons c cs ih => exact ⟨[c], cs, rfl, rfl, ih⟩
    exact ⟨['('], _, rfl, rfl, sp1, _, rfl, hstar sp1 h1, name, _, rfl, hlit name, sp2, _, rfl,
      hstar sp2 h2, [')'], [], rfl, rfl, rfl⟩

/-- A marker starts a text exactly when a string of the pattern of the marker
is a prefix of the text. -/
theorem markerAt_iff (name s : List Char) :
    markerAt name s = true ↔ ∃ M post, s = M ++ post ∧ (reMarker name).Lang M := by
  unfold markerAt
  constructor
  · intro h
    cases hr : (reMarker name).run ⟨none, s, 0, []⟩ some with
    | none => rw [hr] at h; exact absurd h (by simp)
    | some res =>
      obtain ⟨x, rest, _, hx, hl, _⟩ := Regex.run_sound _ _ _ _ hr
      exact ⟨x, rest, hx, hl⟩
  · rintro ⟨M, post, rfl, hM⟩
    exact (reMarker name).run_complete (reMarker_plain name) M hM none post 0 [] some
      (fun _ => rfl)

theorem markerAt_open (name s : List Char) (h : markerAt name s = true) :
    ∃ t, s = '(' :: t := by
  obtain ⟨M, post, rfl, hM⟩ := (markerAt_iff name s).1 h
  obtain ⟨sp1, sp2, rfl, _, _⟩ := (marker_lang_iff name M).1 hM
  exact ⟨_, rfl⟩

theorem markerAt_of_not_open (name : List Char) (c : Char) (cs : List Char) (hc : c ≠ '(') :
    markerAt name (c :: cs) = false := by
  cases h : markerAt name (c :: cs) with
  | false => rfl
  | true =>
    obtain ⟨t, ht⟩ := markerAt_open name _ h
    simp only [List.cons.injEq] at ht
    exact absurd ht.1 hc

theorem markerAt_nil (name : List Char) : markerAt name [] = false := by
  cases h : markerAt name [] with
  | false => rfl
  | true =>
    obtain ⟨t, ht⟩ := markerAt_open name _ h
    exact absurd ht (by simp)

/-- Runes other than `(` start no marker. -/
theorem markerCount_no_open (name : List Char) : ∀ (u rest : List Char), '(' ∉ u →
    markerCount name (u ++ rest) = markerCount name rest := by
  intro u
  induction u with
  | nil => intro rest _; rfl
  | cons c cs ih =>
    intro rest h
    have hc : c ≠ '(' := fun e => h (by rw [e]; simp)
    rw [List.cons_append, markerCount, markerAt_of_not_open name c _ hc,
      ih rest (fun h2 => h (by simp [h2]))]
    simp

/-- The markers of `a ++ b` are those of `a` and those of `b` when no marker
that starts in `a` reaches into `b`. -/
theorem markerCount_cut (name : List Char) (b : List Char)
    (h : ∀ s, s ≠ [] → markerAt name (s ++ b) = markerAt name s) :
    ∀ a, markerCount name (a ++ b) = markerCount name a + markerCount name b := by
  intro a
  induction a with
  | nil => simp [markerCount]
  | cons c cs ih =>
    rw [List.cons_append, markerCount, markerCount, ih, ← List.cons_append,
      h (c :: cs) (by simp)]
    omega

theorem markerCount_le_length (name : List Char) : ∀ t, markerCount name t ≤ t.length := by
  intro t
  induction t with
  | nil => simp [markerCount]
  | cons c cs ih =>
    rw [markerCount, List.length_cons]
    split <;> omega

theorem markerAt_extend (name s b : List Char) (h : markerAt name s = true) :
    markerAt name (s ++ b) = true := by
  obtain ⟨M, post, rfl, hM⟩ := (markerAt_iff name s).1 h
  exact (markerAt_iff name _).2 ⟨M, post ++ b, by simp, hM⟩

/-- No marker that starts before the text `y ++ d :: t` reaches into it, when `y`
has no `)` and the rune `d` cannot stand in a marker. -/
theorem markerAt_cut_alien (name y : List Char) (hy : ')' ∉ y) (d : Char)
    (hd1 : clsSpace.test d = false) (hd2 : d ∉ name) (hd3 : d ≠ ')') (t : List Char) :
    ∀ s, s ≠ [] → markerAt name (s ++ (y ++ d :: t)) = markerAt name s := by
  intro s hs
  rw [Bool.eq_iff_iff]
  refine ⟨fun h => ?_, fun h => markerAt_extend name s _ h⟩
  obtain ⟨M, post, e, hM⟩ := (markerAt_iff name _).1 h
  obtain ⟨sp1, sp2, rfl, h1, h2⟩ := (marker_lang_iff name M).1 hM
  refine (markerAt_iff name s).2 ?_
  cases s with
  | nil => exact absurd rfl hs
  | cons c0 s2 =>
    simp only [List.cons_append, List.cons.injEq] at e
    obtain ⟨rfl, e⟩ := e
    have hT0 : ∀ c ∈ sp1 ++ (name ++ sp2), clsSpace.test c = true ∨ c ∈ name := by
      intro c hc
      simp only [List.mem_append] at hc
      rcases hc with hc | hc | hc
      · exact Or.inl (h1 c hc)
      · exact Or.inr hc
      · exact Or.inl (h2 c hc)
    have e2 : (s2 ++ y) ++ (d :: t) = (sp1 ++ (name ++ sp2)) ++ (')' :: post) := by
      rw [List.append_assoc, e]; simp
    rcases List.append_eq_append_iff.1 e2 with ⟨a2, ea, eb⟩ | ⟨c2, ea, eb⟩
    · -- the marker continues after `d`
      exfalso
      cases a2 with
      | nil =>
        simp only [List.nil_append, List.cons.injEq] at eb
        exact hd3 eb.1
      | cons x xs =>
        simp only [List.cons_append, List.cons.injEq] at eb
        obtain ⟨rfl, _⟩ := eb
        rcases hT0 d (by rw [ea]; simp) with h | h
        · rw [hd1] at h; exact absurd h (by simp)
        · exact hd2 h
    · cases c2 with
      | nil =>
        exfalso
        simp only [List.nil_append, List.cons.injEq] at eb
        exact hd3 eb.1.symm
      | cons x xs =>
        simp only [List.cons_append, List.cons.injEq] at eb
        obtain ⟨rfl, _⟩ := eb
        have e3 : s2 ++ y = (sp1 ++ (name ++ (sp2 ++ [')']))) ++ xs := by
          rw [ea]; simp
        rcases List.append_eq_append_iff.1 e3 with ⟨a3, ea3, eb3⟩ | ⟨c3, ea3, _⟩
        · rcases List.eq_nil_or_concat a3 with rfl | ⟨a4, l, rfl⟩
          · refine ⟨_, [], ?_, hM⟩
            rw [List.append_nil] at ea3
            rw [ea3]; simp
          · exfalso
            have hl : (sp1 ++ (name ++ (sp2 ++ [')']))).getLast? = some l := by
              rw [ea3, List.concat_eq_append, ← List.append_assoc,
                List.getLast?_append_of_ne_nil _ (by simp)]
              rfl
            have hl2 : (sp1 ++ (name ++ (sp2 ++ [')']))).getLast? = some ')' := by
              rw [← List.append_assoc, ← List.append_assoc,
                List.getLast?_append_of_ne_nil _ (by simp)]
              rfl
            rw [hl2] at hl
            simp only [Option.some.injEq] at hl
            exact hy (by rw [eb3, hl]; simp)
        · exact ⟨_, c3, by rw [ea3]; simp, hM⟩

/-- No marker that starts before two hexadecimal digits reaches into them, when
the name of the marker has no two hexadecimal digits in a row. -/
theorem markerAt_cut_pair (name : List Char) (hadj : NoAdjacent clsHex.test clsHex.test name)
    (d1 d2 : Char) (h1 : clsHex.test d1 = true) (h2 : clsHex.test d2 = true) (t : List Char) :
    ∀ s, s ≠ [] → markerAt name (s ++ (d1 :: d2 :: t)) = markerAt name s := by
  intro s hs
  rw [Bool.eq_iff_iff]
  refine ⟨fun h => ?_, fun h => markerAt_extend name s _ h⟩
  obtain ⟨M, post, e, hM⟩ := (markerAt_iff name _).1 h
  obtain ⟨sp1, sp2, rfl, hs1, hs2⟩ := (marker_lang_iff name M).1 hM
  refine (markerAt_iff name s).2 ?_
  have hT : NoAdjacent clsHex.test clsHex.test (sp1 ++ (name ++ (sp2 ++ [')']))) := by
    have hr : ∀ c ∈ sp2 ++ [')'], clsHex.test c = false := by
      intro c hc
      simp only [List.mem_append, List.mem_singleton] at hc
      rcases hc with hc | rfl
      · exact space_not_hex c (hs2 c hc)
      · decide
    refine NoAdjacent_left_part _ _ _ _ (fun c hc => space_not_hex c (hs1 c hc))
      (NoAdjacent_append _ _ _ _ hadj (NoAdjacent_of_left _ _ _ hr) ?_)
    intro c d _ hd _ hg
    have := hr d (List.mem_of_mem_head? hd)
    rw [hg] at this
    exact absurd this (by simp)
  cases s with
  | nil => exact absurd rfl hs
  | cons c0 s2 =>
    simp only [List.cons_append, List.cons.injEq] at e
    obtain ⟨rfl, e⟩ := e
    rcases List.append_eq_append_iff.1 e with ⟨a2, ea, eb⟩ | ⟨c2, ea, _⟩
    · cases a2 with
      | nil =>
        rw [List.append_nil] at ea
        exact ⟨_, [], by rw [ea]; simp, hM⟩
      | cons x xs =>
        exfalso
        simp only [List.cons_append, List.cons.injEq] at eb
        obtain ⟨rfl, eb⟩ := eb
        cases xs with
        | nil =>
          have hl2 : (sp1 ++ (name ++ (sp2 ++ [')']))).getLast? = some ')' := by
            rw [← List.append_assoc, ← List.append_assoc,
              List.getLast?_append_of_ne_nil _ (by simp)]
            rfl
          rw [ea, List.getLast?_append_of_ne_nil _ (by simp)] at hl2
          simp only [List.getLast?_singleton, Option.some.injEq] at hl2
          rw [hl2] at h1
          exact absurd h1 (by decide)
        | cons x2 xs2 =>
          simp only [List.cons_append, List.cons.injEq] at eb
          obtain ⟨rfl, _⟩ := eb
          exact hT s2 d1 d2 xs2 ea h1 h2
    · exact ⟨_, c2, by rw [ea]; simp, hM⟩

theorem marker_tail_no_open (name : List Char) (hopen : '(' ∉ name) (sp1 sp2 : List Char)
    (h1 : ∀ c ∈ sp1, clsSpace.test c = true) (h2 : ∀ c ∈ sp2, clsSpace.test c = true) :
    '(' ∉ sp1 ++ (name ++ (sp2 ++ [')'])) := by
  intro h
  simp only [List.mem_append, List.mem_singleton] at h
  rcases h with h | h | h | h
  · exact absurd (h1 _ h) (by decide)
  · exact hopen h
  · exact absurd (h2 _ h) (by decide)
  · exact absurd h (by decide)

/-- The markers of a text with a match of a conversion pattern in it: those
before the match, the marker of the match, and those after it. -/
theorem markerCount_match (name : List Char) (hopen : '(' ∉ name) (pre y M z : List Char)
    (hM : (reMarker name).Lang M) (hy : ')' ∉ y) (hy2 : '(' ∉ y) :
    markerCount name (pre ++ (y ++ M) ++ z) =
      markerCount name pre + 1 + markerCount name z := by
  obtain ⟨sp1, sp2, rfl, h1, h2⟩ := (marker_lang_iff name M).1 hM
  have e : pre ++ (y ++ '(' :: (sp1 ++ (name ++ (sp2 ++ [')'])))) ++ z =
      pre ++ (y ++ '(' :: ((sp1 ++ (name ++ (sp2 ++ [')']))) ++ z)) := by simp
  rw [e, markerCount_cut name _ (markerAt_cut_alien name y hy '(' (by decide) hopen (by decide) _)
    pre, markerCount_no_open name y _ hy2, markerCount]
  have hm : markerAt name ('(' :: ((sp1 ++ (name ++ (sp2 ++ [')']))) ++ z)) = true :=
    (markerAt_iff name _).2 ⟨_, z, by simp, hM⟩
  rw [hm, if_pos rfl, markerCount_no_open name _ z (marker_tail_no_open name hopen sp1 sp2 h1 h2)]
  omega

/-- One pass of replacements over the matches of a conversion pattern: when
every match is kept or replaced by a text without `(` into which no marker
reaches, the text stays the same or loses a marker. -/
theorem markerCount_rewrite (name : List Char) (hopen : '(' ∉ name)
    {Q : List Char → List Char → Prop}
    (hQ : ∀ x r, Q x r → (∃ y M, x = y ++ M ∧ (reMarker name).Lang M ∧ ')' ∉ y ∧ '(' ∉ y) ∧
      (r = x ∨ ('(' ∉ r ∧
        ∀ t s, s ≠ [] → markerAt name (s ++ (r ++ t)) = markerAt name s)))
    {n : Nat} {src out : List Char} (h : Rewrite Q n src out) :
    markerCount name out ≤ markerCount name src ∧
      (out = src ∨ markerCount name out < markerCount name src) := by
  induction h with
  | done s => exact ⟨Nat.le_refl _, Or.inl rfl⟩
  | step pre x r rest out n hq _ ih =>
    obtain ⟨⟨y, M, rfl, hM, hy, hy2⟩, hr⟩ := hQ x r hq
    obtain ⟨ih1, ih2⟩ := ih
    have hsrc := markerCount_match name hopen pre y M rest hM hy hy2
    rcases hr with rfl | ⟨hr1, hr2⟩
    · have hout := markerCount_match name hopen pre y M out hM hy hy2
      refine ⟨by omega, ?_⟩
      rcases ih2 with rfl | ih2
      · exact Or.inl rfl
      · exact Or.inr (by omega)
    · have hout : markerCount name (pre ++ r ++ out) =
          markerCount name pre + markerCount name out := by
        rw [List.append_assoc, markerCount_cut name _ (hr2 out) pre,
          markerCount_no_open name r out hr1]
      exact ⟨by omega, Or.inr (by omega)⟩

/-- A loop `for prevText != text` ends when its body never fails and either
keeps the text or lowers a measure of it: at most `μ text + 1` iterations. -/
theorem fixLoop_terminates (step : List Char → Option (List Char)) (μ : List Char → Nat)
    (hstep : ∀ t, ∃ t2, step t = some t2 ∧ (t2 = t ∨ μ t2 < μ t)) :
    ∀ (fuel : Nat) (prev text : List Char), μ text + 2 ≤ fuel →
      ∃ out, fixLoop step fuel prev text = some out := by
  intro fuel
  induction fuel with
  | zero => intro prev text h; omega
  | succ fuel ih =>
    intro prev text h
    unfold fixLoop
    by_cases hp : prev ≠ text
    · rw [if_pos hp]
      obtain ⟨t2, h1, h2⟩ := hstep text
      rw [h1, Option.some_bind]
      rcases h2 with rfl | h2
      · obtain ⟨f2, rfl⟩ : ∃ f2, fuel = f2 + 1 := ⟨fuel - 1, by omega⟩
        exact ⟨t2, by simp [fixLoop]⟩
      · exact ih text t2 (by omega)
    · rw [if_neg hp]
      exact ⟨text, rfl⟩

/-- More iterations than needed give the same result. -/
theorem fixLoop_mono (step : List Char → Option (List Char)) :
    ∀ (fuel : Nat) (prev text out : List Char), fixLoop step fuel prev text = some out →
      ∀ fuel2, fuel ≤ fuel2 → fixLoop step fuel2 prev text = some out := by
  intro fuel
  induction fuel with
  | zero => intro prev text out h; simp [fixLoop] at h
  | succ fuel ih =>
    intro prev text out h fuel2 hle
    obtain ⟨g, rfl⟩ : ∃ g, fuel2 = g + 1 := ⟨fuel2 - 1, by omega⟩
    unfold fixLoop at h ⊢
    by_cases hp : prev ≠ text
    · rw [if_pos hp] at h ⊢
      cases hs : step text with
      | none => rw [hs] at h; simp at h
      | some t2 =>
        rw [hs, Option.some_bind] at h
        rw [Option.some_bind]
        exact ih text t2 out h g (by omega)
    · rw [if_neg hp] at h ⊢
      exact h

theorem lit_parses : ∀ (l : List Char) (prev : Option Char) (x rest : List Char) (off : Nat)
    (caps : List (Nat × Nat × Nat)), (Regex.lit l).Parses prev x rest off caps →
    x = l ∧ caps = [] := by
  intro l
  induction l with
  | nil =>
    intro prev x rest off caps h
    exact h
  | cons c cs ih =>
    intro prev x rest off caps h
    obtain ⟨u, v, cu, cv, rfl, ⟨rfl, rfl⟩, hv, rfl⟩ := h
    obtain ⟨rfl, rfl⟩ := ih _ _ _ _ _ hv
    exact ⟨rfl, rfl⟩

/-- The first submatch of a match of `(\d+)\s*\(\s*bin\s*\)` or of
`([0-9A-Fa-f]+)\s*\(\s*hex\s*\)`: a non-empty string of digits. -/
theorem numMarker_group (cc : CClass) (name x : List Char) (m : Match)
    (hm : (Regex.cat [.cap 1 (Regex.plus (.cls cc)), reSpaces, reMarker name]).exec x 0 = some m) :
    m.group x 1 ≠ [] ∧ ∀ c ∈ m.group x 1, cc.test c = true := by
  obtain ⟨pre, x2, post, hsrc, _, _, _, hpar⟩ := Regex.exec_parses _ x 0 m hm (by omega)
  generalize hc : m.caps = caps at hpar
  simp only [Regex.cat, reMarker] at hpar
  obtain ⟨u, v, cu, cv, rfl, ⟨c1, hp1, rfl⟩, hv, rfl⟩ := hpar
  obtain ⟨d, us, rfl, hd, hus, rfl⟩ := plus_parses_rune _ _ (parses_cls cc) _ _ _ _ _ hp1
  obtain ⟨sp, v2, csp, cv2, rfl, hsp, hv2, rfl⟩ := hv
  obtain ⟨_, rfl⟩ := star_parses_rune _ _ _ (parses_cls clsSpace) _ _ _ _ _ hsp
  obtain ⟨mk, e, cm, ce, rfl, hmk, ⟨rfl, rfl⟩, rfl⟩ := hv2
  obtain ⟨o, v3, co, cv3, rfl, ⟨_, rfl⟩, hv3, rfl⟩ := hmk
  obtain ⟨s1, v4, cs1, cv4, rfl, hs1, hv4, rfl⟩ := hv3
  obtain ⟨_, rfl⟩ := star_parses_rune _ _ _ (parses_cls clsSpace) _ _ _ _ _ hs1
  obtain ⟨nm, v5, cn, cv5, rfl, hnm, hv5, rfl⟩ := hv4
  obtain ⟨_, rfl⟩ := lit_parses _ _ _ _ _ _ hnm
  obtain ⟨s2, v6, cs2, cv6, rfl, hs2, hv6, rfl⟩ := hv5
  obtain ⟨_, rfl⟩ := star_parses_rune _ _ _ (parses_cls clsSpace) _ _ _ _ _ hs2
  obtain ⟨cl, v7, ccl, cv7, rfl, ⟨_, rfl⟩, ⟨_, rfl⟩, rfl⟩ := hv6
  have hg : m.group x 1 = d :: us := by
    unfold Match.group
    rw [hc]
    simp only [List.append_nil, List.nil_append, capSpan, if_true]
    exact slice_at x pre (d :: us) ((sp ++ (o ++ (s1 ++ (nm ++ (s2 ++ (cl ++ v7)))) ++ [])) ++ post)
      _ _ (by rw [hsrc]; simp) rfl rfl
  rw [hg]
  refine ⟨by simp, ?_⟩
  intro c hcm
  simp only [List.mem_cons] at hcm
  rcases hcm with rfl | hcm
  · exact hd
  · exact hus c hcm

/-- A match of `(\d+)\s*\(\s*bin\s*\)` or of `([0-9A-Fa-f]+)\s*\(\s*hex\s*\)` is a
text without parentheses followed by a marker. -/
theorem numMarker_lang_shape (cc : CClass) (name x : List Char)
    (hcc : ∀ c, cc.test c = true → c ≠ '(' ∧ c ≠ ')')
    (hx : (Regex.cat [.cap 1 (Regex.plus (.cls cc)), reSpaces, reMarker name]).Lang x) :
    ∃ y M, x = y ++ M ∧ (reMarker name).Lang M ∧ ')' ∉ y ∧ '(' ∉ y := by
  simp only [Regex.cat] at hx
  obtain ⟨D, v, rfl, hD, sp, v2, rfl, hsp, M, e, rfl, hM, he⟩ := hx
  have he2 : e = [] := he
  subst he2
  obtain ⟨_, hD2⟩ := lang_plus_cls cc D hD
  have hsp2 := lang_star_cls _ _ _ hsp
  refine ⟨D ++ sp, M, by simp, hM, ?_, ?_⟩
  · intro h
    rcases List.mem_append.1 h with h | h
    · exact (hcc _ (hD2 _ h)).2 rfl
    · exact absurd (hsp2 _ h) (by decide)
  · intro h
    rcases List.mem_append.1 h with h | h
    · exact (hcc _ (hD2 _ h)).1 rfl
    · exact absurd (hsp2 _ h) (by decide)

theorem ParseInt_nonneg (s : List Char) (base : Nat) (h : ∀ c ∈ s.head?, c ≠ '+' ∧ c ≠ '-') :
    0 ≤ (ParseInt s base).val := by
  cases s with
  | nil => simp [ParseInt]
  | cons c cs =>
    obtain ⟨h1, h2⟩ := h c (by simp)
    rw [ParseInt_unsigned base c cs h1 h2]
    split_ifs with a b
    · simp
    · simp
    · simp only
      rw [wrap64_of_range _ (by omega) (by omega)]
      omega

/-- No marker reaches into a non-empty string of decimal digits, when the name
of the marker has no decimal digit. -/
theorem good_of_digits (name : List Char) (hname : ∀ c ∈ name, isAsciiDigit c = false)
    (r : List Char) (hr : r ≠ []) (hd : ∀ c ∈ r, isAsciiDigit c = true) :
    '(' ∉ r ∧ ∀ t s, s ≠ [] → markerAt name (s ++ (r ++ t)) = markerAt name s := by
  refine ⟨fun h => absurd (hd _ h) (by decide), ?_⟩
  intro t s hs
  cases r with
  | nil => exact absurd rfl hr
  | cons d ds =>
    have hdd := hd d (by simp)
    have h1 : clsSpace.test d = false := by
      have := ascii_cases (fun c => isAsciiDigit c = true → clsSpace.test c = false)
        (by decide) d (by
          simp only [isAsciiDigit, Bool.and_eq_true, decide_eq_true_eq] at hdd
          omega)
      exact this hdd
    have h2 : d ∉ name := by
      intro hm
      rw [hname d hm] at hdd
      exact absurd hdd (by simp)
    have h3 : d ≠ ')' := by
      intro e
      rw [e] at hdd
      exact absurd hdd (by decide)
    exact markerAt_cut_alien name [] (by simp) d h1 h2 h3 (ds ++ t) s hs

theorem fmtInt_digits (v : Int) (hv : 0 ≤ v) :
    fmtInt 10 v ≠ [] ∧ ∀ c ∈ fmtInt 10 v, isAsciiDigit c = true := by
  obtain ⟨n, rfl⟩ : ∃ n : Nat, v = n := ⟨v.toNat, by omega⟩
  rw [fmtInt_ten_nat]
  exact ⟨toDigits_ne_nil n, toDigits_isDigit n⟩

theorem hex_name_noAdjacent : NoAdjacent clsHex.test clsHex.test "hex".toList := by
  intro pre c d post e hc hd
  cases pre with
  | nil =>
    have e2 : ['h', 'e', 'x'] = c :: d :: post := e
    simp only [List.cons.injEq] at e2
    rw [← e2.1] at hc
    exact absurd hc (by decide)
  | cons p ps =>
    cases ps with
    | nil =>
      have e2 : ['h', 'e', 'x'] = p :: c :: d :: post := e
      simp only [List.cons.injEq] at e2
      rw [← e2.2.2.1] at hd
      exact absurd hd (by decide)
    | cons p2 ps2 =>
      have := congrArg List.length e
      have hl : "hex".toList.length = 3 := rfl
      simp only [hl, List.length_cons, List.length_append] at this
      omega

set_option maxRecDepth 100000 in
theorem ParseInt_hex_single : ∀ n, n < 128 → clsHex.test (Char.ofNat n) = true →
    (ParseInt [Char.ofNat n] 16).err = none := by
  decide

theorem hex_unsigned (g : List Char) (hg : ∀ c ∈ g, clsHex.test c = true) :
    ∀ c ∈ g.head?, c ≠ '+' ∧ c ≠ '-' := by
  intro c hc
  have := hex_not_sign c (hg c (List.mem_of_mem_head? hc))
  exact ⟨this.1, this.2.1⟩

/-- The callback of the loop of `processHexNumbers` never fails on a match, and
what it returns is a text without `(` into which no marker `(hex)` reaches. -/
theorem hexNumCallback_good (x : List Char) (hx : reHexNum.Lang x) :
    ∃ r, hexNumCallback x = some r ∧ '(' ∉ r ∧
      ∀ t s, s ≠ [] → markerAt "hex".toList (s ++ (r ++ t)) = markerAt "hex".toList s := by
  obtain ⟨m, parts, hm, hf, _, hg⟩ := reHexNum.FindStringSubmatch_parts rfl x hx
  have h1 := hg 0 (by decide)
  obtain ⟨gne, ghex⟩ := numMarker_group clsHex "hex".toList x m hm
  simp only [hexNumCallback, hf, h1, Option.bind_eq_bind, Option.some_bind]
  rw [Nat.zero_add]
  generalize m.group x 1 = g at gne ghex
  by_cases herr : (ParseInt g 16).err ≠ none
  · rw [if_pos herr]
    refine ⟨g, rfl, fun h => (hex_not_sign _ (ghex _ h)).2.2 rfl, ?_⟩
    intro t s hs
    cases g with
    | nil => exact absurd rfl gne
    | cons d1 g2 =>
      cases g2 with
      | nil =>
        exfalso
        have := ascii_cases (fun c => clsHex.test c = true → (ParseInt [c] 16).err = none)
          ParseInt_hex_single d1 (hex_lt d1 (ghex d1 (by simp)))
        exact herr (this (ghex d1 (by simp)))
      | cons d2 g3 =>
        exact markerAt_cut_pair "hex".toList hex_name_noAdjacent d1 d2 (ghex d1 (by simp))
          (ghex d2 (by simp)) (g3 ++ t) s hs
  · rw [if_neg herr]
    obtain ⟨hn, hd⟩ := fmtInt_digits _ (ParseInt_nonneg g 16 (hex_unsigned g ghex))
    exact ⟨_, rfl, good_of_digits "hex".toList (by decide) _ hn hd⟩

theorem digit_hex (c : Char) (h : clsDigit.test c = true) : clsHex.test c = true := by
  simp only [CClass.test, clsDigit, clsHex, List.any_cons, List.any_nil, Bool.or_false,
    Bool.false_bne, Bool.and_eq_true, Bool.or_eq_true, decide_eq_true_eq] at h ⊢
  omega

/-- The callback of the loop of `processBinaryNumbers` never fails on a match;
it returns the match itself or a text without `(` into which no marker `(bin)`
reaches. -/
theorem binNumCallback_good (x : List Char) (hx : reBinNum.Lang x) :
    ∃ r, binNumCallback x = some r ∧ (r = x ∨ ('(' ∉ r ∧
      ∀ t s, s ≠ [] → markerAt "bin".toList (s ++ (r ++ t)) = markerAt "bin".toList s)) := by
  obtain ⟨m, parts, hm, hf, _, hg⟩ := reBinNum.FindStringSubmatch_parts rfl x hx
  have h1 := hg 0 (by decide)
  obtain ⟨gne, gdig⟩ := numMarker_group clsDigit "bin".toList x m hm
  simp only [binNumCallback, hf, h1, Option.bind_eq_bind, Option.some_bind]
  rw [Nat.zero_add]
  generalize m.group x 1 = g at gne gdig
  by_cases herr : (ParseInt g 2).err ≠ none
  · rw [if_pos herr]
    exact ⟨x, rfl, Or.inl rfl⟩
  · rw [if_neg herr]
    obtain ⟨hn, hd⟩ := fmtInt_digits _ (ParseInt_nonneg g 2
      (hex_unsigned g (fun c hc => digit_hex c (gdig c hc))))
    exact ⟨_, rfl, Or.inr (good_of_digits "bin".toList (by decide) _ hn hd)⟩

theorem hex_not_paren (c : Char) (h : clsHex.test c = true) : c ≠ '(' ∧ c ≠ ')' := by
  have := ascii_cases (fun c => clsHex.test c = true → c ≠ '(' ∧ c ≠ ')') (by decide) c
    (hex_lt c h)
  exact this h

/-- One iteration of the loop of `processHexNumbers` never fails; it leaves the
text unchanged or lowers the number of markers `(hex)`. -/
theorem hexStep_measure (t : List Char) :
    ∃ t2, hexStep t = some t2 ∧
      (t2 = t ∨ markerCount "hex".toList t2 < markerCount "hex".toList t) := by
  obtain ⟨out, n, h1, h2, _⟩ := reHexNum.ReplaceAllStringFunc_rewrite t hexNumCallback
    (fun x r => (∃ y M, x = y ++ M ∧ (reMarker "hex".toList).Lang M ∧ ')' ∉ y ∧ '(' ∉ y) ∧
      (r = x ∨ ('(' ∉ r ∧ ∀ t s, s ≠ [] →
        markerAt "hex".toList (s ++ (r ++ t)) = markerAt "hex".toList s)))
    (fun x hx => by
      obtain ⟨r, hr, hg⟩ := hexNumCallback_good x hx
      exact ⟨r, hr, numMarker_lang_shape clsHex "hex".toList x hex_not_paren hx, Or.inr hg⟩)
  exact ⟨out, h1, (markerCount_rewrite "hex".toList (by decide) (fun _ _ h => h) h2).2⟩

/-- One iteration of the loop of `processBinaryNumbers` never fails; it leaves
the text unchanged or lowers the number of markers `(bin)`. -/
theorem binStep_measure (t : List Char) :
    ∃ t2, binStep t = some t2 ∧
      (t2 = t ∨ markerCount "bin".toList t2 < markerCount "bin".toList t) := by
  obtain ⟨out, n, h1, h2, _⟩ := reBinNum.ReplaceAllStringFunc_rewrite t binNumCallback
    (fun x r => (∃ y M, x = y ++ M ∧ (reMarker "bin".toList).Lang M ∧ ')' ∉ y ∧ '(' ∉ y) ∧
      (r = x ∨ ('(' ∉ r ∧ ∀ t s, s ≠ [] →
        markerAt "bin".toList (s ++ (r ++ t)) = markerAt "bin".toList s)))
    (fun x hx => by
      obtain ⟨r, hr, hg⟩ := binNumCallback_good x hx
      exact ⟨r, hr, numMarker_lang_shape clsDigit "bin".toList x
        (fun c hc => hex_not_paren c (digit_hex c hc)) hx, hg⟩)
  exact ⟨out, h1, (markerCount_rewrite "bin".toList (by decide) (fun _ _ h => h) h2).2⟩

/-- The loop of `processHexNumbers` ends within `markerCount + 1` iterations, and
so within the bound of the model. -/
theorem hexLoop_terminates (text : List Char) :
    ∃ out, fixLoop hexStep (markerCount "hex".toList text + 2) [] text = some out ∧
      fixLoop hexStep (text.length + 2) [] text = some out := by
  obtain ⟨out, h⟩ := fixLoop_terminates hexStep (markerCount "hex".toList) hexStep_measure
    (markerCount "hex".toList text + 2) [] text (Nat.le_refl _)
  exact ⟨out, h, fixLoop_mono hexStep _ _ _ _ h _ (by
    have := markerCount_le_length "hex".toList text
    omega)⟩

theorem binLoop_terminates (text : List Char) :
    ∃ out, fixLoop binStep (markerCount "bin".toList text + 2) [] text = some out ∧
      fixLoop binStep (text.length + 2) [] text = some out := by
  obtain ⟨out, h⟩ := fixLoop_terminates binStep (markerCount "bin".toList) binStep_measure
    (markerCount "bin".toList text + 2) [] text (Nat.le_refl _)
  exact ⟨out, h, fixLoop_mono binStep _ _ _ _ h _ (by
    have := markerCount_le_length "bin".toList text
    omega)⟩

theorem processHexNumbers_total (text : List Char) :
    ∃ out, processHexNumbers text = some out := by
  obtain ⟨t1, _, h1⟩ := hexLoop_terminates text
  obtain ⟨t2, h2⟩ := (reMarker "hex".toList).ReplaceAllString_total t1 []
  obtain ⟨t3, h3⟩ := (reWordMarker "hex".toList).ReplaceAllString_total t2 [.group 1]
  refine ⟨t3, ?_⟩
  have e : processHexNumbers text =
      (fixLoop hexStep (text.length + 2) [] text).bind (fun t =>
        ((reMarker "hex".toList).ReplaceAllString t []).bind (fun t =>
          (reWordMarker "hex".toList).ReplaceAllString t [.group 1])) := rfl
  rw [e, h1, Option.some_bind, h2, Option.some_bind, h3]

theorem processBinaryNumbers_total (text : List Char) :
    ∃ out, processBinaryNumbers text = some out := by
  obtain ⟨t1, _, h1⟩ := binLoop_terminates text
  obtain ⟨t2, h2⟩ := (reMarker "bin".toList).ReplaceAllString_total t1 []
  obtain ⟨t3, h3⟩ := (reWordMarker "bin".toList).ReplaceAllString_total t2 [.group 1]
  refine ⟨t3, ?_⟩
  have e : processBinaryNumbers text =
      (fixLoop binStep (text.length + 2) [] text).bind (fun t =>
        ((reMarker "bin".toList).ReplaceAllString t []).bind (fun t =>
          (reWordMarker "bin".toList).ReplaceAllString t [.group 1])) := rfl
  rw [e, h1, Option.some_bind, h2, Option.some_bind, h3]

/-- The pipeline never fails, for case tables that map no rune to `(`. -/
theorem Process_total (U : UnicodeTables) (hU : ParenFree U) (text : List Char) :
    ∃ out, Process U text = some out := by
  obtain ⟨t1, h1⟩ := processMultipleTypes_total U text
  obtain ⟨t2, h2⟩ := processConversion_total t1
  obtain ⟨t3, h3⟩ := processConversioncount_total t2
  obtain ⟨t4, h4⟩ := processHexNumbers_total t3
  obtain ⟨t5, h5⟩ := processBinaryNumbers_total t4
  obtain ⟨t6, h6⟩ := processCaseModifiers_total U t5
  obtain ⟨t7, h7⟩ := processMultiModifiers_total U t6
  obtain ⟨t8, h8⟩ := processNestedModifiers_total U hU t7
  obtain ⟨t9, h9⟩ := processPunctuation_total t8
  obtain ⟨t10, h10⟩ := processQuotes_total t9
  obtain ⟨t11, h11⟩ := processArticles_total U t10
  obtain ⟨t12, h12⟩ := processStandaloneModifiers_total t11
  exact ⟨t12, by
    simp only [Process, h1, h2, h3, h4, h5, h6, h7, h8, h9, h10, h11, h12, Option.bind_eq_bind,
      Option.some_bind]⟩

/-! ## The counted case directive of `processCaseModifiers` -/

theorem afterPrefix_append (prev : Option Char) (pos : Nat) (caps : List (Nat × Nat × Nat))
    (a b c : List Char) :
    afterPrefix prev pos caps (a ++ b) c =
      afterPrefix (lastOr prev a) (pos + a.length) caps b c := by
  simp only [afterPrefix, lastOr_append, List.length_append, Nat.add_assoc]

/-- The pattern `\w+\s+` on a word and one blank before a rune outside `\s`: it
can only take the word and the blank. -/
theorem Exact_word_blank (w : List Char) (hne : w ≠ []) (hw : ∀ c ∈ w, isWordChar c = true)
    (rest : List Char) (hrest : StopsAt clsSpace rest) (prev : Option Char) (pos : Nat)
    (caps : List (Nat × Nat × Nat)) :
    Exact (.seq (Regex.plus (.cls clsWord)) (Regex.plus (.cls clsSpace)))
      ⟨prev, w ++ ' ' :: rest, pos, caps⟩ (afterPrefix prev pos caps (w ++ [' ']) rest) := by
  intro k
  cases w with
  | nil => exact absurd rfl hne
  | cons c cs =>
    have hxs : ∀ d ∈ c :: cs, clsWord.test d = true := fun d hd => by
      rw [word_test]; exact hw d hd
    have hsp : Exact (Regex.plus (.cls clsSpace))
        ⟨lastOr (some c) cs, ' ' :: rest, pos + 1 + cs.length, caps⟩
        ⟨some ' ', rest, pos + 1 + cs.length + 1, caps⟩ :=
      Exact_seq (Exact_cls clsSpace ' ' (by decide) _ _ _ _)
        (Exact_star_cls_stops true clsSpace rest hrest _ _ _)
    have hend : afterPrefix prev pos caps (c :: cs ++ [' ']) rest =
        ⟨some ' ', rest, pos + 1 + cs.length + 1, caps⟩ := by
      simp only [afterPrefix, MState.mk.injEq, List.length_append, List.length_cons,
        List.length_nil, true_and, and_true]
      constructor
      · rw [lastOr_append]; rfl
      · omega
    rw [hend, Regex.run, List.cons_append,
      run_plus_greedy (.cls clsWord) clsWord.test (isRune_cls _) c cs hxs (' ' :: rest)
        (by intro d hd; simp only [List.head?_cons, Option.mem_def, Option.some.injEq] at hd
            rw [← hd]; decide)]
    cases hk : k ⟨some ' ', rest, pos + 1 + cs.length + 1, caps⟩ with
    | none =>
      refine findSome_greedyStates_none caps _ cs (' ' :: rest) (some c) (pos + 1) ?_
      intro a b e
      cases b with
      | nil =>
        rw [List.append_nil] at e
        subst e
        simp only [afterPrefix, List.nil_append]
        rw [hsp k, hk]
      | cons x xs =>
        simp only [afterPrefix]
        exact Fails_plus_cls clsSpace _ (stopsAt_cons _ x _ (word_not_space x
          (hw x (by rw [← e]; simp)))) _ _ _ k
    | some r =>
      have := findSome_greedyStates_split caps (fun t => (Regex.plus (.cls clsSpace)).run t k) r
        cs [] (' ' :: rest) (some c) (pos + 1)
        (by simp only [afterPrefix, List.nil_append]; rw [hsp k, hk])
        (fun a2 b2 e hlt => by
          have := congrArg List.length e
          simp only [List.length_append, List.length_nil] at this
          omega)
      rw [List.append_nil] at this
      exact this

theorem stopsAt_wordsSp (ws : List (List Char)) (rest : List Char)
    (hws : ∀ w ∈ ws, w ≠ [] ∧ ∀ c ∈ w, isWordChar c = true) (hrest : StopsAt clsSpace rest) :
    StopsAt clsSpace (wordsSp ws ++ rest) := by
  cases ws with
  | nil => exact hrest
  | cons w ws2 =>
    obtain ⟨hne, hw⟩ := hws w (by simp)
    cases w with
    | nil => exact absurd rfl hne
    | cons c cs =>
      simp only [wordsSp, List.cons_append]
      exact stopsAt_cons _ c _ (word_not_space c (hw c (by simp)))

/-- The lazy `(?:\w+\s+){0,j}?` on words with single blanks after them: it takes
the fewest words after which the rest of the pattern matches. -/
theorem upTo_run : ∀ (ws : List (List Char)) (j : Nat), ws.length ≤ j →
    (∀ w ∈ ws, w ≠ [] ∧ ∀ c ∈ w, isWordChar c = true) →
    ∀ (rest : List Char), StopsAt clsSpace rest →
    ∀ (prev : Option Char) (pos : Nat) (caps : List (Nat × Nat × Nat))
      (K : MState → Option MState) (res : MState),
    (∀ pre suf, ws = pre ++ suf → suf ≠ [] →
      K (afterPrefix prev pos caps (wordsSp pre) (wordsSp suf ++ rest)) = none) →
    K (afterPrefix prev pos caps (wordsSp ws) rest) = some res →
    (Regex.upToLazy (.seq (Regex.plus (.cls clsWord)) (Regex.plus (.cls clsSpace))) j).run
      ⟨prev, wordsSp ws ++ rest, pos, caps⟩ K = some res := by
  intro ws
  induction ws with
  | nil =>
    intro j _ _ rest _ prev pos caps K res _ hK
    simp only [wordsSp, afterPrefix_nil, List.nil_append] at hK ⊢
    cases j with
    | zero => simpa [Regex.upToLazy, Regex.run] using hK
    | succ j => simp [Regex.upToLazy, Regex.run, hK]
  | cons w ws ih =>
    intro j hj hws rest hrest prev pos caps K res hfail hK
    obtain ⟨j2, rfl⟩ : ∃ j2, j = j2 + 1 := ⟨j - 1, by simp only [List.length_cons] at hj; omega⟩
    obtain ⟨hne, hw⟩ := hws w (by simp)
    have h0 := hfail [] (w :: ws) rfl (by simp)
    simp only [wordsSp, afterPrefix_nil, List.append_assoc, List.cons_append] at h0
    have hex := Exact_word_blank w hne hw (wordsSp ws ++ rest)
      (stopsAt_wordsSp ws rest (fun v hv => hws v (by simp [hv])) hrest) prev pos caps
    simp only [wordsSp, Regex.upToLazy, List.append_assoc, List.cons_append]
    rw [Regex.run, Regex.run, h0]
    simp only
    rw [Regex.run, hex]
    have e1 : ∀ (a b : List Char), afterPrefix prev pos caps (w ++ ' ' :: a) b =
        afterPrefix (lastOr prev (w ++ [' '])) (pos + (w ++ [' ']).length) caps a b := by
      intro a b
      rw [← afterPrefix_append]
      simp
    refine ih j2 (by simp only [List.length_cons] at hj; omega)
      (fun v hv => hws v (by simp [hv])) rest hrest _ _ caps K res ?_ ?_
    · intro pre suf e hs
      have := hfail (w :: pre) suf (by rw [e]; rfl) hs
      simp only [wordsSp] at this
      rw [e1] at this
      exact this
    · simp only [wordsSp] at hK
      rw [e1] at hK
      exact hK

theorem wordsSp_append (a b : List (List Char)) : wordsSp (a ++ b) = wordsSp a ++ wordsSp b := by
  induction a with
  | nil => rfl
  | cons w ws ih =>
    show w ++ ' ' :: wordsSp (ws ++ b) = (w ++ ' ' :: wordsSp ws) ++ wordsSp b
    rw [ih, List.append_assoc, List.cons_append]

theorem word_not_open (c : Char) (h : isWordChar c = true) : c ≠ '(' := by
  intro e
  subst e
  exact absurd h (by decide)

theorem space_not_open (c : Char) (h : clsSpace.test c = true) : c ≠ '(' := by
  intro e
  subst e
  exact absurd h (by decide)

/-- The pattern `\s*\(...` fails on blanks followed by a rune other than `(`. -/
theorem Fails_spaces_paren (Y : Regex) (sp : List Char) (hsp : ∀ c ∈ sp, clsSpace.test c = true)
    (rest : List Char) (hrest : ∀ d ∈ rest.head?, clsSpace.test d = false ∧ d ≠ '(')
    (prev : Option Char) (pos : Nat) (caps : List (Nat × Nat × Nat)) :
    Fails (.seq reSpaces (.seq (.chr '(') Y)) ⟨prev, sp ++ rest, pos, caps⟩ := by
  intro k
  rw [Regex.run]
  unfold reSpaces
  rw [run_star_greedy (.cls clsSpace) clsSpace.test (isRune_cls _) sp hsp rest
    (fun d hd => (hrest d hd).1) prev pos caps]
  apply findSome_greedyStates_none
  intro a b hab
  unfold afterPrefix
  cases b with
  | nil =>
    cases rest with
    | nil => exact Fails_seq_left _ (Fails_chr_nil _ _ _ _) k
    | cons d ds =>
      exact Fails_seq_left _ (Fails_chr_ne '(' d (hrest d (by simp)).2 _ _ _ _) k
  | cons d bs =>
    have hd : d ∈ sp := by rw [← hab]; simp
    exact Fails_seq_left _ (Fails_chr_ne '(' d (space_not_open d (hsp d hd)) _ _ _ _) k

/-- After a word that is followed by a blank and a further word, `\w+` followed
by `\s*\(...` fails, whatever end of the word the iteration backtracks to. -/
theorem word_then_paren_fails (Y : Regex) (v : List Char) (hne : v ≠ [])
    (hv : ∀ c ∈ v, isWordChar c = true) (c2 : Char) (hc2 : isWordChar c2 = true)
    (tl : List Char) (prev : Option Char) (pos p0 : Nat) (caps : List (Nat × Nat × Nat))
    (k : MState → Option MState) :
    (Regex.plus (.cls clsWord)).run ⟨prev, v ++ ' ' :: c2 :: tl, pos, caps⟩
      (fun t => (Regex.seq reSpaces (.seq (.chr '(') Y)).run
        ⟨t.prev, t.rest, t.pos, (1, p0, t.pos) :: t.caps⟩ k) = none := by
  cases v with
  | nil => exact absurd rfl hne
  | cons c cs =>
    rw [List.cons_append, run_plus_greedy (.cls clsWord) clsWord.test (isRune_cls _) c cs
      (fun d hd => by rw [word_test]; exact hv d hd) (' ' :: c2 :: tl)
      (fun d hd => by
        simp only [List.head?_cons, Option.mem_def, Option.some.injEq] at hd
        subst hd
        decide) prev pos caps]
    apply findSome_greedyStates_none
    intro a b hab
    unfold afterPrefix
    cases b with
    | nil =>
      exact Fails_spaces_paren Y [' '] (fun d hd => by rw [List.mem_singleton.1 hd]; decide)
        (c2 :: tl) (fun d hd => by
          simp only [List.head?_cons, Option.mem_def, Option.some.injEq] at hd
          subst hd
          exact ⟨word_not_space _ hc2, word_not_open _ hc2⟩) _ _ _ k
    | cons e es =>
      have he : isWordChar e = true := hv e (by rw [← hab]; simp)
      exact Fails_spaces_paren Y [] (fun d hd => by simp at hd)
        (e :: (es ++ ' ' :: c2 :: tl)) (fun d hd => by
          simp only [List.head?_cons, Option.mem_def, Option.some.injEq] at hd
          subst hd
          exact ⟨word_not_space _ he, word_not_open _ he⟩) _ _ _ k

theorem upLowCap_detOK (m : List Char)
    (hm : m = "up".toList ∨ m = "low".toList ∨ m = "cap".toList) (prev : Option Char)
    (rest : List Char) (pos : Nat) (caps : List (Nat × Nat × Nat)) :
    DetOK reUpLowCap ⟨prev, m ++ rest, pos, caps⟩ ⟨lastOr prev m, rest, pos + m.length, caps⟩ := by
  rcases hm with rfl | rfl | rfl
  · exact DetOK_alt_left _ (Exact_detOK (Exact_lit _ prev rest pos caps))
  · exact DetOK_alt_right (Fails_lit_ne 'u' 'l' _ (by decide) prev _ pos caps)
      (DetOK_alt_left _ (Exact_detOK (Exact_lit _ prev rest pos caps)))
  · exact DetOK_alt_right (Fails_lit_ne 'u' 'c' _ (by decide) prev _ pos caps)
      (DetOK_alt_right (Fails_lit_ne 'l' 'c' _ (by decide) prev _ pos caps)
        (Exact_detOK (Exact_lit _ prev rest pos caps)))

theorem wordsSp_head (ws : List (List Char))
    (hws : ∀ w ∈ ws, w ≠ [] ∧ ∀ c ∈ w, isWordChar c = true) (wn : List Char) (hne : wn ≠ [])
    (hwn : ∀ c ∈ wn, isWordChar c = true) (tl : List Char) :
    ∃ c2 tl2, wordsSp ws ++ (wn ++ tl) = c2 :: tl2 ∧ isWordChar c2 = true := by
  cases ws with
  | nil =>
    cases wn with
    | nil => exact absurd rfl hne
    | cons c cs => exact ⟨c, cs ++ tl, rfl, hwn c (by simp)⟩
  | cons w ws2 =>
    obtain ⟨hne2, hw⟩ := hws w (by simp)
    cases w with
    | nil => exact absurd rfl hne2
    | cons c cs => exact ⟨c, _, rfl, hw c (by simp)⟩

/-- The lazy `(?:\w+\s+){0,j}?` fails when more than `j` words have to be taken
before the rest of the pattern can match. -/
theorem upTo_fail : ∀ (ws : List (List Char)) (j : Nat), j < ws.length →
    (∀ w ∈ ws, w ≠ [] ∧ ∀ c ∈ w, isWordChar c = true) →
    ∀ (rest : List Char), StopsAt clsSpace rest →
    ∀ (prev : Option Char) (pos : Nat) (caps : List (Nat × Nat × Nat))
      (K : MState → Option MState),
    (∀ pre suf, ws = pre ++ suf → suf ≠ [] →
      K (afterPrefix prev pos caps (wordsSp pre) (wordsSp suf ++ rest)) = none) →
    (Regex.upToLazy (.seq (Regex.plus (.cls clsWord)) (Regex.plus (.cls clsSpace))) j).run
      ⟨prev, wordsSp ws ++ rest, pos, caps⟩ K = none := by
  intro ws
  induction ws with
  | nil => intro j hj; simp at hj
  | cons w ws ih =>
    intro j hj hws rest hrest prev pos caps K hfail
    obtain ⟨hne, hw⟩ := hws w (by simp)
    have h0 := hfail [] (w :: ws) rfl (by simp)
    simp only [wordsSp, afterPrefix_nil, List.append_assoc, List.cons_append] at h0
    cases j with
    | zero =>
      simp only [wordsSp, Regex.upToLazy, List.append_assoc, List.cons_append]
      rw [Regex.run]
      exact h0
    | succ j2 =>
      have hex := Exact_word_blank w hne hw (wordsSp ws ++ rest)
        (stopsAt_wordsSp ws rest (fun v hv => hws v (by simp [hv])) hrest) prev pos caps
      simp only [wordsSp, Regex.upToLazy, List.append_assoc, List.cons_append]
      rw [Regex.run, Regex.run, h0]
      simp only
      rw [Regex.run, hex]
      have e1 : ∀ (a b : List Char), afterPrefix prev pos caps (w ++ ' ' :: a) b =
          afterPrefix (lastOr prev (w ++ [' '])) (pos + (w ++ [' ']).length) caps a b := by
        intro a b
        rw [← afterPrefix_append]
        simp
      refine ih j2 (by simp only [List.length_cons] at hj; omega)
        (fun v hv => hws v (by simp [hv])) rest hrest _ _ caps K ?_
      intro pre suf e hs
      have := hfail (w :: pre) suf (by rw [e]; rfl) hs
      simp only [wordsSp] at this
      rw [e1] at this
      exact this

theorem caseCount_tail_detOK (m d : List Char)
    (hm : m = "up".toList ∨ m = "low".toList ∨ m = "cap".toList) (hd : d ≠ [])
    (hdig : ∀ c ∈ d, clsDigit.test c = true) (prev : Option Char) (pos : Nat)
    (caps : List (Nat × Nat × Nat)) :
    ∃ t, DetOK (Regex.cat [reSpaces, .chr '(', reSpaces, .cap 2 reUpLowCap, .chr ',', reSpaces,
        .cap 3 (Regex.plus (.cls clsDigit)), reSpaces, .chr ')'])
        ⟨prev, ' ' :: '(' :: (m ++ ',' :: ' ' :: (d ++ [')'])), pos, caps⟩ t ∧
      t.pos = pos + 2 + m.length + 2 + d.length + 1 ∧
      t.caps = (3, pos + 2 + m.length + 2, pos + 2 + m.length + 2 + d.length) ::
        (2, pos + 2, pos + 2 + m.length) :: caps := by
  have hstopm : StopsAt clsSpace (m ++ ',' :: ' ' :: (d ++ [')'])) := by
    rcases hm with rfl | rfl | rfl <;> exact stopsAt_cons _ _ _ (by decide)
  have hstopd : StopsAt clsSpace (d ++ [')']) := by
    cases d with
    | nil => exact absurd rfl hd
    | cons c cs =>
      refine stopsAt_cons _ _ _ ?_
      have := hdig c (by simp)
      simp only [CClass.test, clsDigit, List.any_cons, List.any_nil, Bool.or_false,
        Bool.false_bne, Bool.and_eq_true, decide_eq_true_eq] at this
      simp only [CClass.test, clsSpace, List.any_cons, List.any_nil, Bool.or_false,
        Bool.false_bne, Bool.or_eq_false_iff, Bool.and_eq_false_imp, decide_eq_true_eq,
        decide_eq_false_iff_not]
      omega
  refine ⟨_, DetOK_seq (DetOK_star_cls clsSpace [' ']
      (fun c hc => by rw [List.mem_singleton.1 hc]; decide) _
      (stopsAt_cons _ _ _ (by decide)) prev pos caps)
    (DetOK_seq (Exact_detOK (Exact_chr '(' _ _ _ _))
    (DetOK_seq (Exact_detOK (Exact_star_cls_stops true clsSpace _ hstopm _ _ _))
    (DetOK_seq (DetOK_cap 2 (upLowCap_detOK m hm _ _ _ _))
    (DetOK_seq (Exact_detOK (Exact_chr ',' _ _ _ _))
    (DetOK_seq (DetOK_star_cls clsSpace [' ']
      (fun c hc => by rw [List.mem_singleton.1 hc]; decide) _ hstopd _ _ _)
    (DetOK_seq (DetOK_cap 3 (DetOK_plus_cls clsDigit d hd hdig [')']
      (stopsAt_cons _ _ _ (by decide)) _ _ _))
    (DetOK_seq (Exact_detOK (Exact_star_cls_stops true clsSpace [')']
      (stopsAt_cons _ _ _ (by decide)) _ _ _))
    (DetOK_seq (Exact_detOK (Exact_chr ')' _ [] _ _)) (Exact_detOK (Exact_eps _)))))))))),
    ?_, ?_⟩
  · simp only [List.length_singleton]
  · simp only [List.length_singleton]

theorem reCaseCount_run (s : MState) (k : MState → Option MState) :
    reCaseCount.run s k =
      (Regex.upToLazy (.seq (Regex.plus (.cls clsWord)) (Regex.plus (.cls clsSpace))) 10).run s
        (fun u => (Regex.plus (.cls clsWord)).run u (fun t =>
          (Regex.seq reSpaces (.seq (.chr '(') (Regex.cat [reSpaces, .cap 2 reUpLowCap, .chr ',',
            reSpaces, .cap 3 (Regex.plus (.cls clsDigit)), reSpaces, .chr ')']))).run
            ⟨t.prev, t.rest, t.pos, (1, s.pos, t.pos) :: t.caps⟩ k)) := by
  have e : reCaseCount = .seq (.cap 1 (.seq
      (Regex.upToLazy (.seq (Regex.plus (.cls clsWord)) (Regex.plus (.cls clsSpace))) 10)
      (Regex.plus (.cls clsWord))))
      (Regex.seq reSpaces (.seq (.chr '(') (Regex.cat [reSpaces, .cap 2 reUpLowCap, .chr ',',
        reSpaces, .cap 3 (Regex.plus (.cls clsDigit)), reSpaces, .chr ')']))) := rfl
  rw [e, Regex.run, Regex.run, Regex.run]

/-- Between two words of a phrase the rest of the first pattern of
`processCaseModifiers` cannot match. -/
theorem caseCount_mid_fails (ws : List (List Char))
    (hws : ∀ w ∈ ws, w ≠ [] ∧ ∀ c ∈ w, isWordChar c = true) (wn : List Char) (hne : wn ≠ [])
    (hwn : ∀ c ∈ wn, isWordChar c = true) (tl : List Char) (prev : Option Char) (pos p0 : Nat)
    (caps : List (Nat × Nat × Nat)) (Y : Regex) (k : MState → Option MState)
    (pre suf : List (List Char)) (e : ws = pre ++ suf) (hs : suf ≠ []) :
    (fun u => (Regex.plus (.cls clsWord)).run u (fun t =>
      (Regex.seq reSpaces (.seq (.chr '(') Y)).run
        ⟨t.prev, t.rest, t.pos, (1, p0, t.pos) :: t.caps⟩ k))
      (afterPrefix prev pos caps (wordsSp pre) (wordsSp suf ++ (wn ++ tl))) = none := by
  cases suf with
  | nil => exact absurd rfl hs
  | cons v suf2 =>
    obtain ⟨hvne, hv⟩ := hws v (by rw [e]; simp)
    obtain ⟨c2, tl2, e2, hc2⟩ := wordsSp_head suf2
      (fun w hw => hws w (by rw [e]; simp [hw])) wn hne hwn tl
    simp only [wordsSp, List.append_assoc, List.cons_append]
    rw [e2]
    unfold afterPrefix
    exact word_then_paren_fails Y v hvne hv c2 hc2 tl2 _ _ p0 caps k

theorem stopsAt_space_word (wn : List Char) (hne : wn ≠ [])
    (hwn : ∀ c ∈ wn, isWordChar c = true) (tl : List Char) : StopsAt clsSpace (wn ++ tl) := by
  cases wn with
  | nil => exact absurd rfl hne
  | cons c cs => exact stopsAt_cons _ c _ (word_not_space c (hwn c (by simp)))

/-- The first pattern of `processCaseModifiers` on at most eleven words followed
by a directive `(m, d)`: it matches all of the text, the words being group 1. -/
theorem caseCount_detOK (ws0 : List (List Char)) (h10 : ws0.length ≤ 10)
    (hws : ∀ w ∈ ws0, w ≠ [] ∧ ∀ c ∈ w, isWordChar c = true) (wn : List Char) (hne : wn ≠ [])
    (hwn : ∀ c ∈ wn, isWordChar c = true) (m d : List Char)
    (hm : m = "up".toList ∨ m = "low".toList ∨ m = "cap".toList) (hd : d ≠ [])
    (hdig : ∀ c ∈ d, clsDigit.test c = true) (prev : Option Char) (pos : Nat) :
    ∃ t, DetOK reCaseCount
        ⟨prev, wordsSp ws0 ++ (wn ++ ' ' :: '(' :: (m ++ ',' :: ' ' :: (d ++ [')']))), pos, []⟩ t ∧
      t.pos = pos + (wordsSp ws0).length + wn.length + 2 + m.length + 2 + d.length + 1 ∧
      t.caps = [(3, pos + (wordsSp ws0).length + wn.length + 2 + m.length + 2,
          pos + (wordsSp ws0).length + wn.length + 2 + m.length + 2 + d.length),
        (2, pos + (wordsSp ws0).length + wn.length + 2,
          pos + (wordsSp ws0).length + wn.length + 2 + m.length),
        (1, pos, pos + (wordsSp ws0).length + wn.length)] := by
  obtain ⟨t, ht, hp, hc⟩ := caseCount_tail_detOK m d hm hd hdig
    (lastOr (lastOr prev (wordsSp ws0)) wn) (pos + (wordsSp ws0).length + wn.length)
    [(1, pos, pos + (wordsSp ws0).length + wn.length)]
  refine ⟨t, ?_, hp, hc⟩
  intro k r hk
  rw [reCaseCount_run]
  refine upTo_run ws0 10 h10 hws _ (stopsAt_space_word wn hne hwn _) prev pos [] _ r ?_ ?_
  · intro pre suf e hs
    exact caseCount_mid_fails ws0 hws wn hne hwn _ prev pos _ [] _ k pre suf e hs
  · have hPW := DetOK_plus_cls clsWord wn hne (fun c hc => by rw [word_test]; exact hwn c hc)
      (' ' :: '(' :: (m ++ ',' :: ' ' :: (d ++ [')']))) (stopsAt_cons _ _ _ (by decide))
      (lastOr prev (wordsSp ws0)) (pos + (wordsSp ws0).length) []
    exact hPW _ r (ht k r hk)

/-- With more than eleven words before the directive, the first pattern of
`processCaseModifiers` does not match from the first word. -/
theorem caseCount_fails (ws : List (List Char)) (h11 : 10 < ws.length)
    (hws : ∀ w ∈ ws, w ≠ [] ∧ ∀ c ∈ w, isWordChar c = true) (wn : List Char) (hne : wn ≠ [])
    (hwn : ∀ c ∈ wn, isWordChar c = true) (tl : List Char) (prev : Option Char) (pos : Nat) :
    Fails reCaseCount ⟨prev, wordsSp ws ++ (wn ++ tl), pos, []⟩ := by
  intro k
  rw [reCaseCount_run]
  refine upTo_fail ws 10 h11 hws _ (stopsAt_space_word wn hne hwn _) prev pos [] _ ?_
  intro pre suf e hs
  exact caseCount_mid_fails ws hws wn hne hwn _ prev pos _ [] _ k pre suf e hs

/-- The first pattern of `processCaseModifiers` does not match where no word
begins. -/
theorem caseCount_fails_nonword (rest : List Char) (h : StopsAt clsWord rest)
    (prev : Option Char) (pos : Nat) : Fails reCaseCount ⟨prev, rest, pos, []⟩ := by
  intro k
  rw [reCaseCount_run]
  have e : Regex.upToLazy (.seq (Regex.plus (.cls clsWord)) (Regex.plus (.cls clsSpace))) 10 =
      .alt .eps (.seq (.seq (Regex.plus (.cls clsWord)) (Regex.plus (.cls clsSpace)))
        (Regex.upToLazy (.seq (Regex.plus (.cls clsWord)) (Regex.plus (.cls clsSpace))) 9)) := rfl
  rw [e, Regex.run, Regex.run, Fails_plus_cls clsWord rest h prev pos []]
  simp only
  exact Fails_seq_left _ (Fails_seq_left _ (Fails_plus_cls clsWord rest h prev pos [])) _

/-- `ParseInt` on an unsigned numeral: its value, cut down to the greatest
`int64` when it is out of range. -/
theorem ParseInt_val_of_numeral (base : Nat) (hb : 1 ≤ base) (s : List Char) (hs : Unsigned s)
    (n : Nat) (hv : numeralValue base s = some n) :
    (ParseInt s base).val = if n < 2 ^ 63 then (n : Int) else 2 ^ 63 - 1 := by
  by_cases hn : n < 2 ^ 63
  · rw [ParseInt_of_value base hb s hs n hv hn, if_pos hn]
  · rw [if_neg hn]
    cases s with
    | nil => simp [numeralValue] at hv
    | cons c cs =>
      obtain ⟨h1, h2⟩ := hs c (by simp)
      simp only [numeralValue, if_neg (List.cons_ne_nil c cs)] at hv
      rw [ParseInt_unsigned base c cs h1 h2]
      by_cases hmm : n ≤ maxUint64
      · rw [parseUintLoop_of_value base hb _ _ _ hv hmm]
        simp only [Option.some_ne_none, reduceCtorEq, if_false]
        rw [if_pos (by omega)]
      · rw [parseUintLoop_of_big base _ _ _ hv (by unfold maxUint64; omega) (by omega)]
        simp [maxUint64]

theorem isEmpty_of_ne_nil (a : List Char) (h : a ≠ []) : a.isEmpty = false := by
  cases a with
  | nil => exact absurd rfl h
  | cons c cs => rfl

/-- `strings.Fields` on words separated by single blanks. -/
theorem fieldsLoop_wordsSp : ∀ (ws : List (List Char)),
    (∀ w ∈ ws, w ≠ [] ∧ ∀ c ∈ w, isWordChar c = true) →
    ∀ (wn : List Char), wn ≠ [] → (∀ c ∈ wn, isWordChar c = true) →
      fieldsLoop (wordsSp ws ++ wn) [] = ws ++ [wn] := by
  intro ws
  induction ws with
  | nil =>
    intro _ wn hne hwn
    have := fieldsLoop_run wn [] [] (fun c hc => word_not_unicodeSpace (hwn c hc))
    rw [List.append_nil, List.nil_append] at this
    simp only [wordsSp, List.nil_append]
    rw [this, fieldsLoop, isEmpty_of_ne_nil wn hne]
    rfl
  | cons w ws ih =>
    intro hws wn hne hwn
    obtain ⟨hwne, hw⟩ := hws w (by simp)
    have h1 : unicodeIsSpace ' ' = true := by decide
    simp only [wordsSp, List.append_assoc, List.cons_append]
    rw [fieldsLoop_run w _ [] (fun c hc => word_not_unicodeSpace (hw c hc)), List.nil_append,
      fieldsLoop]
    simp only [h1, if_true, isEmpty_of_ne_nil w hwne, Bool.false_eq_true, if_false]
    rw [ih (fun v hv => hws v (by simp [hv])) wn hne hwn]

theorem caseCountCallback_of_parts (U : UnicodeTables) (x p0 p1 p2 p3 : List Char)
    (h : reCaseCount.FindStringSubmatch x = some [p0, p1, p2, p3]) :
    caseCountCallback U x =
      match caseOf U p2 with
      | some f =>
        (forLoop (updateWord f)
          (((Fields p1).length : Int) - (((Fields p1).length : Int) -
            (if ((Fields p1).length : Int) < (Atoi p3).val then ((Fields p1).length : Int)
              else (Atoi p3).val))).toNat
          (((Fields p1).length : Int) -
            (if ((Fields p1).length : Int) < (Atoi p3).val then ((Fields p1).length : Int)
              else (Atoi p3).val))
          (Fields p1)).map (fun ws => Join ws " ".toList)
      | none =>
        if ((Fields p1).length : Int) -
            (if ((Fields p1).length : Int) < (Atoi p3).val then ((Fields p1).length : Int)
              else (Atoi p3).val) < ((Fields p1).length : Int) then some x
        else some (Join (Fields p1) " ".toList) := by
  unfold caseCountCallback
  rw [h]
  rfl

theorem caseOf_name (U : UnicodeTables) (m : List Char) (f : List Char → List Char)
    (h : caseOf U m = some f) : m = "up".toList ∨ m = "low".toList ∨ m = "cap".toList := by
  unfold caseOf at h
  split_ifs at h with h1 h2 h3
  · exact Or.inl h1
  · exact Or.inr (Or.inl h2)
  · exact Or.inr (Or.inr h3)

/-- What `FindStringSubmatch` of the first pattern of `processCaseModifiers`
returns on at most eleven words followed by a directive `(m, d)`. -/
theorem caseCount_submatch (ws0 : List (List Char)) (h10 : ws0.length ≤ 10)
    (hws : ∀ w ∈ ws0, w ≠ [] ∧ ∀ c ∈ w, isWordChar c = true) (wn : List Char) (hne : wn ≠ [])
    (hwn : ∀ c ∈ wn, isWordChar c = true) (m d : List Char)
    (hm : m = "up".toList ∨ m = "low".toList ∨ m = "cap".toList) (hd : d ≠ [])
    (hdig : ∀ c ∈ d, clsDigit.test c = true) :
    reCaseCount.FindStringSubmatch
        (wordsSp ws0 ++ (wn ++ ' ' :: '(' :: (m ++ ',' :: ' ' :: (d ++ [')'])))) =
      some [wordsSp ws0 ++ (wn ++ ' ' :: '(' :: (m ++ ',' :: ' ' :: (d ++ [')']))),
        wordsSp ws0 ++ wn, m, d] := by
  obtain ⟨t, hdet, hp, hc⟩ := caseCount_detOK ws0 h10 hws wn hne hwn m d hm hd hdig none 0
  have h0 := reCaseCount.searchFrom_of_detOK none _ 0 _ hdet
  have hn : reCaseCount.numGroups = 3 := by rfl
  have c1 : capSpan t.caps 1 = some (0, 0 + (wordsSp ws0).length + wn.length) := by
    rw [hc]; rfl
  have c2 : capSpan t.caps 2 = some (0 + (wordsSp ws0).length + wn.length + 2,
      0 + (wordsSp ws0).length + wn.length + 2 + m.length) := by
    rw [hc]; rfl
  have c3 : capSpan t.caps 3 = some (0 + (wordsSp ws0).length + wn.length + 2 + m.length + 2,
      0 + (wordsSp ws0).length + wn.length + 2 + m.length + 2 + d.length) := by
    rw [hc]; rfl
  have e0 : slice (wordsSp ws0 ++ (wn ++ ' ' :: '(' :: (m ++ ',' :: ' ' :: (d ++ [')']))))
      0 t.pos = wordsSp ws0 ++ (wn ++ ' ' :: '(' :: (m ++ ',' :: ' ' :: (d ++ [')']))) := by
    rw [hp]
    exact slice_at _ [] _ [] _ _ (by simp) rfl (by simp; omega)
  have e1 : slice (wordsSp ws0 ++ (wn ++ ' ' :: '(' :: (m ++ ',' :: ' ' :: (d ++ [')']))))
      0 (0 + (wordsSp ws0).length + wn.length) = wordsSp ws0 ++ wn :=
    slice_at _ [] (wordsSp ws0 ++ wn) (' ' :: '(' :: (m ++ ',' :: ' ' :: (d ++ [')'])))
      _ _ (by simp) rfl (by simp)
  have e2 : slice (wordsSp ws0 ++ (wn ++ ' ' :: '(' :: (m ++ ',' :: ' ' :: (d ++ [')']))))
      (0 + (wordsSp ws0).length + wn.length + 2)
      (0 + (wordsSp ws0).length + wn.length + 2 + m.length) = m :=
    slice_at _ (wordsSp ws0 ++ wn ++ [' ', '(']) m (',' :: ' ' :: (d ++ [')']))
      _ _ (by simp) (by simp; omega) (by simp; omega)
  have e3 : slice (wordsSp ws0 ++ (wn ++ ' ' :: '(' :: (m ++ ',' :: ' ' :: (d ++ [')']))))
      (0 + (wordsSp ws0).length + wn.length + 2 + m.length + 2)
      (0 + (wordsSp ws0).length + wn.length + 2 + m.length + 2 + d.length) = d :=
    slice_at _ (wordsSp ws0 ++ wn ++ [' ', '('] ++ m ++ [',', ' ']) d [')']
      _ _ (by simp) (by simp; omega) (by simp; omega)
  generalize wordsSp ws0 ++ (wn ++ ' ' :: '(' :: (m ++ ',' :: ' ' :: (d ++ [')']))) = x
    at h0 e0 e1 e2 e3 ⊢
  simp only [Regex.FindStringSubmatch, Regex.exec_zero, h0, hn, Match.text, Match.group, c1, c2,
    c3, List.range, List.range.loop, List.map_cons, List.map_nil, e0, e1, e2, e3]
  try rfl

/-- The callback of the first replacement of `processCaseModifiers` on at most
eleven words followed by a directive `(m, d)`: the words, the last `min c n` of
the `n` of them rewritten. -/
theorem caseCount_callback (U : UnicodeTables) (ws0 : List (List Char)) (h10 : ws0.length ≤ 10)
    (hws : ∀ w ∈ ws0, w ≠ [] ∧ ∀ c ∈ w, isWordChar c = true) (wn : List Char) (hne : wn ≠ [])
    (hwn : ∀ c ∈ wn, isWordChar c = true) (m d : List Char) (f : List Char → List Char)
    (hf : caseOf U m = some f) (c : Nat) (hv : numeralValue 10 d = some c) :
    caseCountCallback U
        (wordsSp ws0 ++ (wn ++ ' ' :: '(' :: (m ++ ',' :: ' ' :: (d ++ [')'])))) =
      some (Join (mapWindow f (ws0.length + 1 - min c (ws0.length + 1)) (ws0.length + 1) 0
        (ws0 ++ [wn])) " ".toList) := by
  obtain ⟨hd, hdig⟩ := digits_of_numeral d c hv
  have hm := caseOf_name U m f hf
  rw [caseCountCallback_of_parts U _ _ _ _ _
    (caseCount_submatch ws0 h10 hws wn hne hwn m d hm hd hdig), hf]
  have hF : Fields (wordsSp ws0 ++ wn) = ws0 ++ [wn] := fieldsLoop_wordsSp ws0 hws wn hne hwn
  have hval := ParseInt_val_of_numeral 10 (by omega) d (unsigned_of_digits d hdig) c hv
  have hlen : (ws0 ++ [wn]).length = ws0.length + 1 := by simp
  simp only [hF, Atoi, hval, hlen]
  have hcount : (if ((ws0.length + 1 : Nat) : Int) < (if c < 2 ^ 63 then (c : Int) else 2 ^ 63 - 1)
      then ((ws0.length + 1 : Nat) : Int) else (if c < 2 ^ 63 then (c : Int) else 2 ^ 63 - 1)) =
      ((min c (ws0.length + 1) : Nat) : Int) := by
    split_ifs <;> omega
  rw [hcount]
  have hstart : ((ws0.length + 1 : Nat) : Int) - ((min c (ws0.length + 1) : Nat) : Int) =
      ((ws0.length + 1 - min c (ws0.length + 1) : Nat) : Int) := by omega
  rw [hstart]
  have hk : (((ws0.length + 1 : Nat) : Int) -
      ((ws0.length + 1 - min c (ws0.length + 1) : Nat) : Int)).toNat = min c (ws0.length + 1) := by
    omega
  rw [hk, forLoop_updateWord f _ _ (ws0 ++ [wn]) (by rw [hlen]; omega)]
  rw [show ws0.length + 1 - min c (ws0.length + 1) + min c (ws0.length + 1) = ws0.length + 1
    by omega]
  rfl

/-- The three case functions map a word of `\w` runes to such a word. -/
theorem caseOf_word (U : UnicodeTables) (m : List Char) (f : List Char → List Char)
    (hf : caseOf U m = some f) (w : List Char) (hw : ∀ c ∈ w, isWordChar c = true) :
    ∀ c ∈ f w, isWordChar c = true := by
  unfold caseOf at hf
  split_ifs at hf with h1 h2 h3
  · obtain rfl := Option.some.inj hf
    intro c hc
    obtain ⟨e, he, rfl⟩ := List.mem_map.1 hc
    exact word_upper U e (hw e he)
  · obtain rfl := Option.some.inj hf
    intro c hc
    obtain ⟨e, he, rfl⟩ := List.mem_map.1 hc
    exact word_lower U e (hw e he)
  · obtain rfl := Option.some.inj hf
    intro c hc
    simp only at hc
    rw [Title_ToLower_word U w hw] at hc
    cases w with
    | nil => simp [capitalize] at hc
    | cons a as =>
      simp only [capitalize, List.mem_cons] at hc
      rcases hc with rfl | hc
      · exact word_upper U a (hw a (by simp))
      · obtain ⟨e, he, rfl⟩ := List.mem_map.1 hc
        exact word_lower U e (hw e (by simp [he]))

theorem Regex.searchFrom_skip_at (re : Regex) (rest : List Char) :
    ∀ (mid : List Char),
      (∀ a b, a ++ b = mid → b ≠ [] → ∀ prev pos, Fails re ⟨prev, b ++ rest, pos, []⟩) →
      ∀ (prev : Option Char) (pos : Nat),
        re.searchFrom prev (mid ++ rest) pos =
          re.searchFrom (lastOr prev mid) rest (pos + mid.length) := by
  intro mid
  induction mid with
  | nil => intro _ prev pos; rfl
  | cons c cs ih =>
    intro h prev pos
    have h0 : Fails re ⟨prev, c :: (cs ++ rest), pos, []⟩ :=
      h [] (c :: cs) rfl (by simp) prev pos
    rw [List.cons_append, re.searchFrom_cons_of_fails prev c _ pos h0,
      ih (fun a b hab hb => h (c :: a) b (by simp [hab]) hb), lastOr_cons]
    rw [show pos + 1 + cs.length = pos + (c :: cs).length by simp; omega]

/-- A non-empty suffix of words with blanks after them begins with a blank or
with the non-empty end of a word. -/
theorem wordsSp_suffix : ∀ (pws : List (List Char)),
    (∀ w ∈ pws, w ≠ [] ∧ ∀ c ∈ w, isWordChar c = true) →
    ∀ (a b : List Char), a ++ b = wordsSp pws → b ≠ [] →
      (∃ tl, b = ' ' :: tl) ∨
      (∃ w2 pws2, w2 ≠ [] ∧ (∀ c ∈ w2, isWordChar c = true) ∧
        (∀ w ∈ pws2, w ≠ [] ∧ ∀ c ∈ w, isWordChar c = true) ∧ b = wordsSp (w2 :: pws2)) := by
  intro pws
  induction pws with
  | nil =>
    intro _ a b hab hb
    simp only [wordsSp, List.append_eq_nil] at hab
    exact absurd hab.2 hb
  | cons p ps ih =>
    intro hws a b hab hb
    obtain ⟨_, hp⟩ := hws p (by simp)
    simp only [wordsSp] at hab
    rcases List.append_eq_append_iff.1 hab with ⟨a2, e1, e2⟩ | ⟨c2, e1, e2⟩
    · cases a2 with
      | nil => exact Or.inl ⟨_, e2⟩
      | cons x xs =>
        refine Or.inr ⟨x :: xs, ps, by simp, ?_, fun w hw => hws w (by simp [hw]), ?_⟩
        · intro c hc
          exact hp c (by rw [e1]; exact List.mem_append_right _ hc)
        · rw [e2]; rfl
    · cases c2 with
      | nil =>
        rw [List.nil_append] at e2
        exact Or.inl ⟨_, e2.symm⟩
      | cons x xs =>
        rw [List.cons_append] at e2
        obtain ⟨_, e3⟩ := List.cons.inj e2
        exact ih (fun w hw => hws w (by simp [hw])) xs b e3.symm hb

/-- With ten words between them and the last word, the words `pws` are skipped
by the search for the first pattern of `processCaseModifiers`. -/
theorem caseCount_skip (pws ws0 : List (List Char)) (hsplit : pws = [] ∨ ws0.length = 10)
    (hpws : ∀ w ∈ pws, w ≠ [] ∧ ∀ c ∈ w, isWordChar c = true)
    (hws : ∀ w ∈ ws0, w ≠ [] ∧ ∀ c ∈ w, isWordChar c = true) (wn : List Char) (hne : wn ≠ [])
    (hwn : ∀ c ∈ wn, isWordChar c = true) (tl : List Char) (prev : Option Char) (pos : Nat) :
    reCaseCount.searchFrom prev (wordsSp pws ++ (wordsSp ws0 ++ (wn ++ tl))) pos =
      reCaseCount.searchFrom (lastOr prev (wordsSp pws)) (wordsSp ws0 ++ (wn ++ tl))
        (pos + (wordsSp pws).length) := by
  refine reCaseCount.searchFrom_skip_at _ (wordsSp pws) ?_ prev pos
  intro a b hab hb prev2 pos2
  have h10 : ws0.length = 10 := by
    rcases hsplit with rfl | h
    · exact absurd (List.append_eq_nil.1 (show a ++ b = [] from hab)).2 hb
    · exact h
  rcases wordsSp_suffix pws hpws a b hab hb with ⟨tl2, rfl⟩ | ⟨w2, pws2, h1, h2, h3, rfl⟩
  · exact caseCount_fails_nonword _ (stopsAt_cons _ _ _ (by decide)) prev2 pos2
  · rw [← List.append_assoc, ← wordsSp_append]
    refine caseCount_fails _ (by simp; omega) ?_ wn hne hwn tl prev2 pos2
    intro w hw
    rcases List.mem_append.1 hw with hw | hw
    · rcases List.mem_cons.1 hw with rfl | hw
      · exact ⟨h1, h2⟩
      · exact h3 w hw
    · exact hws w hw

theorem wordsSp_noOpen : ∀ (pws : List (List Char)),
    (∀ w ∈ pws, w ≠ [] ∧ ∀ c ∈ w, isWordChar c = true) → '(' ∉ wordsSp pws := by
  intro pws
  induction pws with
  | nil => intro _; simp [wordsSp]
  | cons p ps ih =>
    intro h
    simp only [wordsSp, List.mem_append, List.mem_cons, not_or]
    refine ⟨fun hp => word_not_open _ ((h p (by simp)).2 _ hp) rfl, by decide,
      ih (fun w hw => h w (by simp [hw]))⟩

/-- The first pattern of `processCaseModifiers` reaches back over at most
eleven words: of the words before a directive `(m, d)` the last eleven at most
are its phrase, and of these the last `min c n` are rewritten. -/
theorem processCaseModifiers_count (U : UnicodeTables) (pws ws0 : List (List Char))
    (hsplit : pws = [] ∨ ws0.length = 10) (h10 : ws0.length ≤ 10)
    (hpws : ∀ w ∈ pws, w ≠ [] ∧ ∀ c ∈ w, isWordChar c = true)
    (hws : ∀ w ∈ ws0, w ≠ [] ∧ ∀ c ∈ w, isWordChar c = true) (wn : List Char) (hne : wn ≠ [])
    (hwn : ∀ c ∈ wn, isWordChar c = true) (m d : List Char) (f : List Char → List Char)
    (hf : caseOf U m = some f) (c : Nat) (hv : numeralValue 10 d = some c) :
    processCaseModifiers U
        (wordsSp pws ++ (wordsSp ws0 ++ (wn ++ ' ' :: '(' :: (m ++ ',' :: ' ' :: (d ++ [')']))))) =
      some (wordsSp pws ++ Join (mapWindow f (ws0.length + 1 - min c (ws0.length + 1))
        (ws0.length + 1) 0 (ws0 ++ [wn])) " ".toList) := by
  obtain ⟨hd, hdig⟩ := digits_of_numeral d c hv
  have hm := caseOf_name U m f hf
  have hopen : '(' ∈ wordsSp pws ++
      (wordsSp ws0 ++ (wn ++ ' ' :: '(' :: (m ++ ',' :: ' ' :: (d ++ [')'])))) := by simp
  have hall : ∀ w ∈ pws ++ ws0, w ≠ [] ∧ ∀ c ∈ w, isWordChar c = true := by
    intro w hw
    rcases List.mem_append.1 hw with hw | hw
    · exact hpws w hw
    · exact hws w hw
  have herr : ¬ ((Atoi (wordsSp pws ++
      (wordsSp ws0 ++ (wn ++ ' ' :: '(' :: (m ++ ',' :: ' ' :: (d ++ [')'])))))).err = none) := by
    refine ParseInt_err 10 (by omega) _ ?_ ?_
    · obtain ⟨c2, tl2, e2, hc2⟩ := wordsSp_head (pws ++ ws0) hall wn hne hwn
        (' ' :: '(' :: (m ++ ',' :: ' ' :: (d ++ [')'])))
      rw [wordsSp_append, List.append_assoc] at e2
      rw [e2]
      intro x hx
      simp only [List.head?_cons, Option.mem_def, Option.some.injEq] at hx
      subst hx
      exact ⟨fun e => by subst e; exact absurd hc2 (by decide),
        fun e => by subst e; exact absurd hc2 (by decide)⟩
    · intro n hn
      unfold numeralValue at hn
      split at hn
      · exact absurd hn (by simp)
      · have hbad : digitVal '(' = none := by decide
        rw [numFold_none_of_bad 10 '(' (fun x hx => by rw [hbad] at hx; exact absurd hx (by simp))
          _ 0 hopen] at hn
        exact absurd hn (by simp)
  obtain ⟨t, hdet, hp, hc⟩ := caseCount_detOK ws0 h10 hws wn hne hwn m d hm hd hdig
    (lastOr none (wordsSp pws)) (0 + (wordsSp pws).length)
  have h0 : reCaseCount.exec (wordsSp pws ++
      (wordsSp ws0 ++ (wn ++ ' ' :: '(' :: (m ++ ',' :: ' ' :: (d ++ [')']))))) 0 =
      some ⟨0 + (wordsSp pws).length, t.pos, t.caps⟩ := by
    rw [reCaseCount.exec_zero, caseCount_skip pws ws0 hsplit hpws hws wn hne hwn _ none 0]
    exact reCaseCount.searchFrom_of_detOK _ _ _ t hdet
  have hcb := caseCount_callback U ws0 h10 hws wn hne hwn m d f hf c hv
  have hlenT : (wordsSp pws ++
      (wordsSp ws0 ++ (wn ++ ' ' :: '(' :: (m ++ ',' :: ' ' :: (d ++ [')']))))).length =
      t.pos := by
    rw [hp]
    simp only [List.length_append, List.length_cons, List.length_nil]
    omega
  have htext : Match.text ⟨0 + (wordsSp pws).length, t.pos, t.caps⟩ (wordsSp pws ++
      (wordsSp ws0 ++ (wn ++ ' ' :: '(' :: (m ++ ',' :: ' ' :: (d ++ [')']))))) =
      wordsSp ws0 ++ (wn ++ ' ' :: '(' :: (m ++ ',' :: ' ' :: (d ++ [')']))) := by
    unfold Match.text
    exact slice_at _ (wordsSp pws) _ [] _ _ (by simp) (by simp) (by
      rw [← hlenT]
      simp only [List.length_append])
  have hfirst : reCaseCount.ReplaceAllStringFunc (wordsSp pws ++
      (wordsSp ws0 ++ (wn ++ ' ' :: '(' :: (m ++ ',' :: ' ' :: (d ++ [')'])))))
      (caseCountCallback U) =
      some (wordsSp pws ++ Join (mapWindow f (ws0.length + 1 - min c (ws0.length + 1))
        (ws0.length + 1) 0 (ws0 ++ [wn])) " ".toList) := by
    have := replaceAll_single reCaseCount _ (fun a => caseCountCallback U (a.text (wordsSp pws ++
      (wordsSp ws0 ++ (wn ++ ' ' :: '(' :: (m ++ ',' :: ' ' :: (d ++ [')'])))))))
      ⟨0 + (wordsSp pws).length, t.pos, t.caps⟩ _ h0
      (by simp only; rw [hp]; omega) (by simp only; rw [hlenT])
      (by
        simp only
        rw [← hlenT]
        exact reCaseCount.exec_end_none isOpenParen paren_reCaseCount _)
      (by simp only; rw [htext]; exact hcb)
    unfold Regex.ReplaceAllStringFunc
    rw [this]
    simp only [Nat.zero_add, List.take_left, ← hlenT, List.drop_length, List.append_nil]
  unfold processCaseModifiers
  rw [if_neg herr, hfirst]
  refine Regex.ReplaceAllStringFunc_of_no_match _ _ _
    (Regex.exec_none_of_needs _ isOpenParen paren_reCaseWord _ ?_ 0)
  intro x hx
  have hxne : x ≠ '(' := by
    intro e
    subst e
    rcases List.mem_append.1 hx with hx | hx
    · exact wordsSp_noOpen pws hpws hx
    · refine Join_noOpen _ ?_ hx
      intro w2 hw2 hin
      obtain ⟨w, hw, e⟩ := mapWindow_mem f _ _ _ _ w2 hw2
      have hword : ∀ c ∈ w, isWordChar c = true := by
        rcases List.mem_append.1 hw with hw | hw
        · exact (hws w hw).2
        · rw [List.mem_singleton.1 hw]; exact hwn
      rcases e with rfl | rfl
      · exact word_not_open _ (caseOf_word U m f hf w hword _ hin) rfl
      · exact word_not_open _ (hword _ hin) rfl
  simp [isOpenParen, hxne]

theorem mapWindow_append {α : Type} (f : α → α) (lo hi : Nat) :
    ∀ (a b : List α) (j : Nat),
      mapWindow f lo hi j (a ++ b) = mapWindow f lo hi j a ++ mapWindow f lo hi (j + a.length) b := by
  intro a
  induction a with
  | nil => intro b j; rfl
  | cons w ws ih =>
    intro b j
    show (if lo ≤ j ∧ j < hi then f w else w) :: mapWindow f lo hi (j + 1) (ws ++ b) =
      ((if lo ≤ j ∧ j < hi then f w else w) :: mapWindow f lo hi (j + 1) ws) ++
        mapWindow f lo hi (j + (ws.length + 1)) b
    rw [ih b (j + 1), show j + 1 + ws.length = j + (ws.length + 1) by omega]
    rfl

theorem mapWindow_below {α : Type} (f : α → α) (lo hi : Nat) :
    ∀ (a : List α) (j : Nat), j + a.length ≤ lo → mapWindow f lo hi j a = a := by
  intro a
  induction a with
  | nil => intro j _; rfl
  | cons w ws ih =>
    intro j h
    simp only [List.length_cons] at h
    have : ¬ (lo ≤ j ∧ j < hi) := by omega
    simp only [mapWindow, this, if_false]
    rw [ih (j + 1) (by omega)]

theorem mapWindow_shift {α : Type} (f : α → α) (lo hi k : Nat) :
    ∀ (b : List α) (j : Nat),
      mapWindow f (lo + k) (hi + k) (j + k) b = mapWindow f lo hi j b := by
  intro b
  induction b with
  | nil => intro j; rfl
  | cons w ws ih =>
    intro j
    have e : (lo + k ≤ j + k ∧ j + k < hi + k) ↔ (lo ≤ j ∧ j < hi) := by omega
    simp only [mapWindow, e]
    rw [show j + k + 1 = j + 1 + k by omega, ih (j + 1)]

theorem mapWindow_ne_nil {α : Type} (f : α → α) (lo hi j : Nat) (b : List α) (h : b ≠ []) :
    mapWindow f lo hi j b ≠ [] := by
  cases b with
  | nil => exact absurd rfl h
  | cons w ws => simp [mapWindow]

theorem Join_wordsSp : ∀ (a b : List (List Char)), b ≠ [] →
    Join (a ++ b) " ".toList = wordsSp a ++ Join b " ".toList := by
  intro a
  induction a with
  | nil => intro b _; rfl
  | cons w ws ih =>
    intro b hb
    have hne : ws ++ b ≠ [] := by simp [hb]
    obtain ⟨x, xs, e⟩ := List.exists_cons_of_ne_nil hne
    have e2 : Join (w :: x :: xs) " ".toList = w ++ " ".toList ++ Join (x :: xs) " ".toList := rfl
    rw [List.cons_append, e, e2, ← e, ih b hb]
    simp [wordsSp]

/-- A non-empty word list splits into the words the pattern skips, at most ten
words it takes before the last, and the last word. -/
theorem words_split (ws : List (List Char)) (hne : ws ≠ []) :
    ∃ pws ws0 wn, ws = pws ++ (ws0 ++ [wn]) ∧ (pws = [] ∨ ws0.length = 10) ∧ ws0.length ≤ 10 := by
  rcases List.eq_nil_or_concat ws with h | ⟨init, wn, rfl⟩
  · exact absurd h hne
  · refine ⟨init.take (init.length - 10), init.drop (init.length - 10), wn, ?_, ?_, ?_⟩
    · rw [← List.append_assoc, List.take_append_drop]
      simp
    · by_cases h : init.length ≤ 10
      · left
        rw [show init.length - 10 = 0 by omega]
        rfl
      · right
        rw [List.length_drop]
        omega
    · rw [List.length_drop]
      omega

/-- `processCaseModifiers` on a phrase of words separated by single blanks and
followed by a directive `(m, d)`: the last `min c (min n 11)` of the `n` words
are rewritten, the directive is removed. -/
theorem processCaseModifiers_last_words (U : UnicodeTables) (ws : List (List Char))
    (hne : ws ≠ []) (hws : ∀ w ∈ ws, w ≠ [] ∧ ∀ c ∈ w, isWordChar c = true)
    (m d : List Char) (f : List Char → List Char) (hf : caseOf U m = some f) (c : Nat)
    (hv : numeralValue 10 d = some c) :
    processCaseModifiers U
        (Join ws " ".toList ++ (' ' :: '(' :: (m ++ ',' :: ' ' :: (d ++ [')'])))) =
      some (Join (mapWindow f (ws.length - min c (min ws.length 11)) ws.length 0 ws)
        " ".toList) := by
  obtain ⟨pws, ws0, wn, rfl, hsplit, h10⟩ := words_split ws hne
  obtain ⟨hwne, hwn⟩ := hws wn (by simp)
  have hpws : ∀ w ∈ pws, w ≠ [] ∧ ∀ c ∈ w, isWordChar c = true :=
    fun w hw => hws w (by simp [hw])
  have hws0 : ∀ w ∈ ws0, w ≠ [] ∧ ∀ c ∈ w, isWordChar c = true :=
    fun w hw => hws w (by simp [hw])
  have main := processCaseModifiers_count U pws ws0 hsplit h10 hpws hws0 wn hwne hwn m d f hf c hv
  have hj : Join [wn] " ".toList = wn := rfl
  rw [Join_wordsSp pws _ (by simp), Join_wordsSp ws0 [wn] (by simp), hj, List.append_assoc,
    List.append_assoc, main]
  have hN : (pws ++ (ws0 ++ [wn])).length = ws0.length + 1 + pws.length := by
    simp only [List.length_append, List.length_cons, List.length_nil]
    omega
  have hk : min c (min (ws0.length + 1 + pws.length) 11) = min c (ws0.length + 1) := by
    rcases hsplit with rfl | h
    · simp only [List.length_nil]
      omega
    · omega
  rw [hN, hk, mapWindow_append f _ _ pws (ws0 ++ [wn]) 0,
    mapWindow_below f _ _ pws 0 (by omega), Nat.zero_add,
    show ws0.length + 1 + pws.length - min c (ws0.length + 1) =
      (ws0.length + 1 - min c (ws0.length + 1)) + pws.length by omega]
  have hs := mapWindow_shift f (ws0.length + 1 - min c (ws0.length + 1)) (ws0.length + 1)
    pws.length (ws0 ++ [wn]) 0
  rw [Nat.zero_add] at hs
  rw [hs, Join_wordsSp pws _ (mapWindow_ne_nil f _ _ _ _ (by simp))]

/-! ## Scoped groups in a text, and a binary numeral with the conversions set apart -/

/-- A scoped group starts a text exactly when a string of the pattern of
`processNestedModifiers` is a prefix of the text. -/
theorem scopedGroupAt_iff (s : List Char) :
    scopedGroupAt s = true ↔ ∃ x post, s = x ++ post ∧ reNested.Lang x := by
  unfold scopedGroupAt
  constructor
  · intro h
    cases hr : reNested.run ⟨none, s, 0, []⟩ some with
    | none => rw [hr] at h; exact absurd h (by simp)
    | some res =>
      obtain ⟨x, rest, _, hx, hl, _⟩ := Regex.run_sound _ _ _ _ hr
      exact ⟨x, rest, hx, hl⟩
  · rintro ⟨M, post, rfl, hM⟩
    exact reNested.run_complete rfl M hM none post 0 [] some (fun _ => rfl)

/-- Every string the pattern of `processMultipleTypes` matches has a hexadecimal
digit directly before a `(`. -/
theorem needsAdjacent_reMultipleTypes :
    reMultipleTypes.needsSeq clsHex.test (fun _ => false) '(' = true := by rfl

theorem NoSeq_of_noAdjacent (q : Char → Bool) (c1 : Char) (t : List Char)
    (h : NoAdjacent q (fun d => d == c1) t) : NoSeq q (fun _ => false) c1 t := by
  intro pre c s post e hq hs
  cases s with
  | nil => exact h pre c c1 post e hq (by simp)
  | cons d ds => exact absurd (hs d (by simp)) (by simp)

theorem NoAdjacent_cons_right (f g : Char → Bool) (x : Char) (t : List Char)
    (h : ∀ c ∈ t, g c = false) : NoAdjacent f g (x :: t) := by
  intro pre c d post e _ hd
  have hmem : d ∈ t := by
    cases pre with
    | nil =>
      simp only [List.nil_append, List.cons.injEq] at e
      rw [e.2]
      simp
    | cons p ps =>
      simp only [List.cons_append, List.cons.injEq] at e
      rw [e.2]
      simp
  rw [h d hmem] at hd
  exact absurd hd (by simp)

theorem hex_not_space (c : Char) (h : clsHex.test c = true) : clsSpace.test c = false :=
  word_not_space c (hex_word c h)

/-- In a run of hexadecimal digits, blanks, `(bin)`, blanks and `(hex)` no
hexadecimal digit stands directly before a `(`, when the first blanks are not
empty. -/
theorem noAdjacent_spaced (b sp1 sp2 : List Char) (hb : ∀ c ∈ b, clsHex.test c = true)
    (h1 : sp1 ≠ []) (hs1 : ∀ c ∈ sp1, clsSpace.test c = true)
    (hs2 : ∀ c ∈ sp2, clsSpace.test c = true) :
    NoAdjacent clsHex.test (fun d => d == '(')
      (b ++ (sp1 ++ ("(bin)".toList ++ (sp2 ++ "(hex)".toList)))) := by
  have hsp : ∀ (sp : List Char), (∀ c ∈ sp, clsSpace.test c = true) →
      ∀ c ∈ sp, clsHex.test c = false := fun sp h c hc => space_not_hex c (h c hc)
  have hhex : NoAdjacent clsHex.test (fun d => d == '(') "(hex)".toList :=
    NoAdjacent_cons_right _ _ '(' "hex)".toList (by decide)
  have hbin : NoAdjacent clsHex.test (fun d => d == '(') "(bin)".toList :=
    NoAdjacent_cons_right _ _ '(' "bin)".toList (by decide)
  have h2 := NoAdjacent_left_part clsHex.test (fun d => d == '(') sp2 "(hex)".toList
    (hsp sp2 hs2) hhex
  have h3 := NoAdjacent_append clsHex.test (fun d => d == '(') "(bin)".toList
    (sp2 ++ "(hex)".toList) hbin h2 (fun c d hc _ hf _ => by
      have e : c = ')' := by
        have : "(bin)".toList.getLast? = some ')' := by decide
        rw [this] at hc
        exact (Option.some.inj hc).symm
      subst e
      exact absurd hf (by decide))
  have h4 := NoAdjacent_left_part clsHex.test (fun d => d == '(') sp1 _ (hsp sp1 hs1) h3
  refine NoAdjacent_append clsHex.test (fun d => d == '(') b _
    (NoAdjacent_of_right _ _ b (fun c hc => ?_)) h4 (fun c d _ hd _ hg => ?_)
  · have := (hex_not_sign c (hb c hc)).2.2
    simpa using this
  · cases sp1 with
    | nil => exact absurd rfl h1
    | cons x xs =>
      simp only [List.cons_append, List.head?_cons, Option.some.injEq] at hd
      subst hd
      have hx := hs1 x (by simp)
      simp only [beq_iff_eq] at hg
      subst hg
      exact absurd hx (by decide)

theorem digitChar_word (d : Nat) (hd : d < 16) : isWordChar (digitChar d) = true := by
  interval_cases d <;> decide

theorem digitsRev_word (base : Nat) (hb : 0 < base) (hb2 : base ≤ 16) :
    ∀ (fuel n : Nat), ∀ c ∈ digitsRev base fuel n, isWordChar c = true := by
  intro fuel
  induction fuel with
  | zero => intro n c hc; simp [digitsRev] at hc
  | succ f ih =>
    intro n c hc
    simp only [digitsRev, List.mem_cons] at hc
    rcases hc with rfl | hc
    · exact digitChar_word _ (Nat.lt_of_lt_of_le (Nat.mod_lt _ hb) hb2)
    · split at hc
      · simp at hc
      · exact ih _ c hc

theorem fmtInt_word (base : Nat) (hb : 0 < base) (hb2 : base ≤ 16) (n : Nat) :
    ∀ c ∈ fmtInt base (n : Int), isWordChar c = true := by
  intro c hc
  rw [fmtInt_nat] at hc
  exact digitsRev_word base hb hb2 _ _ c (by simpa [fmtNat] using hc)

/-- If the first pass leaves `text` alone and the second turns it into a text
of word characters, that text is the result of the pipeline. -/
theorem Process_of_second_pass (U : UnicodeTables) (text t : List Char)
    (h1 : processMultipleTypes U text = some text) (h2 : processConversion text = some t)
    (ht : ∀ c ∈ t, isWordChar c = true) : Process U text = some t := by
  have := Process_word U t ht
  simp only [Process, processMultipleTypes_word U t (nonWord_of_word ht),
    processConversion_word t (nonWord_of_word ht), Option.bind_eq_bind, Option.some_bind] at this
  simp only [Process, h1, h2, Option.bind_eq_bind, Option.some_bind]
  exact this

theorem spaced_text (b sp1 sp2 : List Char) :
    b ++ sp1 ++ "(bin)".toList ++ sp2 ++ "(hex)".toList =
      b ++ (sp1 ++ '(' :: ("bin".toList ++ ')' :: (sp2 ++ '(' :: ("hex".toList ++ [')'])))) := by
  simp [String.toList]

/-- The callback of `processConversion` on `b (bin) (hex)`. -/
theorem processConversion_bin_hex_spaced (b sp1 sp2 : List Char) (hv : b ≠ [])
    (hhex : ∀ c ∈ b, clsHex.test c = true) (hs1 : ∀ c ∈ sp1, clsSpace.test c = true)
    (hs2 : ∀ c ∈ sp2, clsSpace.test c = true) :
    processConversion (b ++ sp1 ++ "(bin)".toList ++ sp2 ++ "(hex)".toList) =
      some (if (ParseInt b 2).err ≠ none then b ++ sp1 ++ "(bin)".toList ++ sp2 ++ "(hex)".toList
        else fmtInt 16 (ParseInt b 2).val) := by
  have h := processConversion_whole b sp1 "bin".toList sp2 "hex".toList hv hhex hs1
    (by decide) bin_word hs2 (by decide) hex_word_name
  have hsub := conversion_submatch b sp1 "bin".toList sp2 "hex".toList hv hhex hs1
    (by decide) bin_word hs2 (by decide) hex_word_name
  rw [← spaced_text] at h hsub
  rw [h, conversionCallback_of_parts _ _ _ _ hsub, if_pos rfl, if_neg hex_ne_bin, if_pos rfl,
    if_pos rfl]

/-- The pipeline on a binary numeral followed by blanks, `(bin)`, blanks and
`(hex)`: with a blank after the numeral the first pass finds nothing and
`processConversion` renders the number in upper-case hexadecimal. -/
theorem Process_bin_hex_spaced (U : UnicodeTables) (b sp1 sp2 : List Char) (n : Nat)
    (hb : numeralValue 2 b = some n) (hn : n < 2 ^ 63) (h1 : sp1 ≠ [])
    (hs1 : ∀ c ∈ sp1, c = ' ') (hs2 : ∀ c ∈ sp2, c = ' ') :
    Process U (b ++ sp1 ++ "(bin)".toList ++ sp2 ++ "(hex)".toList) =
      some ((Nat.toDigits 16 n).map Char.toUpper) := by
  obtain ⟨hne, hhex⟩ := hex_of_numeral 2 (by omega) b n hb
  have hc1 : ∀ c ∈ sp1, clsSpace.test c = true := fun c hc => by rw [hs1 c hc]; decide
  have hc2 : ∀ c ∈ sp2, clsSpace.test c = true := fun c hc => by rw [hs2 c hc]; decide
  have hna := noAdjacent_spaced b sp1 sp2 hhex h1 hc1 hc2
  have e : b ++ sp1 ++ "(bin)".toList ++ sp2 ++ "(hex)".toList =
      b ++ (sp1 ++ ("(bin)".toList ++ (sp2 ++ "(hex)".toList))) := by
    simp only [List.append_assoc]
  have hp1 : processMultipleTypes U (b ++ sp1 ++ "(bin)".toList ++ sp2 ++ "(hex)".toList) =
      some (b ++ sp1 ++ "(bin)".toList ++ sp2 ++ "(hex)".toList) := by
    rw [e]
    exact Regex.ReplaceAllStringFunc_of_no_match _ _ _
      (Regex.exec_none_of_needsSeq reMultipleTypes clsHex.test (fun _ => false) '('
        needsAdjacent_reMultipleTypes _ (NoSeq_of_noAdjacent _ _ _ hna))
  have hp2 := processConversion_bin_hex_spaced b sp1 sp2 hne hhex hc1 hc2
  rw [ParseInt_of_value 2 (by omega) b (unsigned_of_hex b hhex) n hb hn] at hp2
  dsimp only at hp2
  rw [if_neg (by simp), fmtInt_hex_nat] at hp2
  refine Process_of_second_pass U _ _ hp1 hp2 ?_
  intro c hc
  rw [← fmtInt_hex_nat] at hc
  exact fmtInt_word 16 (by omega) (by omega) n c hc

/-! ## The claims -/

set_option maxRecDepth 100000 in
/-- C1: for the count `-2^63`, the least value of a 64-bit `int`, `-count` wraps
around to `-2^63`, the window `[0, end)` of `applyModifier` is empty and no word
is rewritten, whereas every other negative count rewrites the first words:
`applyModifier("hello", "up", -9223372036854775808)` is `"hello"` while
`applyModifier("hello", "up", -1)` is `"HELLO"`. -/
theorem C1_applyModifier_min_count (U : UnicodeTables) :
    applyModifier U "hello".toList "up".toList (-9223372036854775808) = some "hello".toList ∧
    applyModifier U "hello".toList "up".toList (-1) = some "HELLO".toList := by
  constructor <;> rfl

/-- C2: for a binary numeral `b` of a number `n < 2^63` the pipeline turns
`b(bin)(hex)` into the decimal string of `n`, not into its hexadecimal string:
the first pass, `processMultipleTypes`, matches the numeral with the chain and
applies the first conversion only. The pass written for a numeral with two
conversions, `processConversion`, turns the same text into the upper-case
hexadecimal string of `n`, and so does the pipeline as soon as a blank after the
numeral keeps the first pass from matching. -/
theorem C2_bin_hex (U : UnicodeTables) (b : List Char) (n : Nat)
    (hb : numeralValue 2 b = some n) (hn : n < 2 ^ 63) :
    Process U (b ++ "(bin)(hex)".toList) = some (Nat.toDigits 10 n) ∧
    processConversion (b ++ "(bin)(hex)".toList) =
      some ((Nat.toDigits 16 n).map Char.toUpper) ∧
    (∀ sp1 sp2 : List Char, sp1 ≠ [] → (∀ c ∈ sp1, c = ' ') → (∀ c ∈ sp2, c = ' ') →
      Process U (b ++ sp1 ++ "(bin)".toList ++ sp2 ++ "(hex)".toList) =
        some ((Nat.toDigits 16 n).map Char.toUpper)) := by
  obtain ⟨hne, hhex⟩ := hex_of_numeral 2 (by omega) b n hb
  refine ⟨Process_bin_hex_numeral U b n hn hb, ?_,
    fun sp1 sp2 h1 hs1 hs2 => Process_bin_hex_spaced U b sp1 sp2 n hb hn h1 hs1 hs2⟩
  rw [processConversion_bin_hex b hne hhex,
    ParseInt_of_value 2 (by omega) b (unsigned_of_hex b hhex) n hb hn]
  dsimp only
  rw [if_neg (by simp), fmtInt_hex_nat]

set_option maxRecDepth 100000 in
/-- C2, witness: `1010` is the binary numeral of ten, whose decimal string is
`10` and whose hexadecimal string is `A`; the pipeline turns `1010(bin)(hex)`
into `10` and `1010 (bin) (hex)` into `A`. -/
theorem C2_bin_hex_witness :
    numeralValue 2 "1010".toList = some 10 ∧ 10 < 2 ^ 63 ∧
    Nat.toDigits 10 10 = "10".toList ∧
    (Nat.toDigits 16 10).map Char.toUpper = "A".toList ∧ "10".toList ≠ "A".toList ∧
    "1010".toList ++ "(bin)(hex)".toList = "1010(bin)(hex)".toList ∧
    "1010".toList ++ " ".toList ++ "(bin)".toList ++ " ".toList ++ "(hex)".toList =
      "1010 (bin) (hex)".toList ∧
    Process asciiTables ("1010".toList ++ "(bin)(hex)".toList) = some (Nat.toDigits 10 10) ∧
    processConversion ("1010".toList ++ "(bin)(hex)".toList) =
      some ((Nat.toDigits 16 10).map Char.toUpper) ∧
    Process asciiTables
        ("1010".toList ++ " ".toList ++ "(bin)".toList ++ " ".toList ++ "(hex)".toList) =
      some ((Nat.toDigits 16 10).map Char.toUpper) :=
  ⟨by decide, by decide, by decide, by decide, by decide, by decide, by decide,
    (C2_bin_hex asciiTables "1010".toList 10 (by decide) (by decide)).1,
    (C2_bin_hex asciiTables "1010".toList 10 (by decide) (by decide)).2.1,
    (C2_bin_hex asciiTables "1010".toList 10 (by decide) (by decide)).2.2 " ".toList " ".toList
      (by decide) (by decide) (by decide)⟩

/-- C3: for a hexadecimal numeral `s` (upper or lower case digits) of a number
`n < 2^63` the pipeline turns `s(hex)` into the decimal string of `n`, and for a
binary numeral `s` of `n` it turns `s(bin)` into the decimal string of `n`. -/
theorem C3_single_base_to_decimal (U : UnicodeTables) (s : List Char) (n : Nat)
    (hn : n < 2 ^ 63) :
    (numeralValue 16 s = some n → Process U (s ++ "(hex)".toList) = some (Nat.toDigits 10 n)) ∧
    (numeralValue 2 s = some n → Process U (s ++ "(bin)".toList) = some (Nat.toDigits 10 n)) :=
  ⟨Process_hex_numeral U s n hn, Process_bin_numeral U s n hn⟩

set_option maxRecDepth 100000 in
/-- C3, witness: `1E` is the hexadecimal numeral of thirty and `10` the binary
numeral of two. -/
theorem C3_single_base_to_decimal_witness :
    (30 < 2 ^ 63 ∧ numeralValue 16 "1E".toList = some 30 ∧
      Process asciiTables ("1E".toList ++ "(hex)".toList) = some (Nat.toDigits 10 30)) ∧
    (2 < 2 ^ 63 ∧ numeralValue 2 "10".toList = some 2 ∧
      Process asciiTables ("10".toList ++ "(bin)".toList) = some (Nat.toDigits 10 2)) :=
  ⟨⟨by decide, by decide,
      (C3_single_base_to_decimal asciiTables "1E".toList 30 (by decide)).1 (by decide)⟩,
    ⟨by decide, by decide,
      (C3_single_base_to_decimal asciiTables "10".toList 2 (by decide)).2 (by decide)⟩⟩

set_option maxRecDepth 100000 in
/-- C4, counterexample: the pipeline turns `x,(up)y` into `x,y`, and run on that
output it returns `x, y`: the output of the pipeline is not a fixed point. -/
theorem C4_counterexample :
    Process asciiTables "x,(up)y".toList = some "x,y".toList ∧
    Process asciiTables "x,y".toList = some "x, y".toList ∧
    "x, y".toList ≠ "x,y".toList := by
  decide

/-- C4, amended: on words of `[0-9A-Za-z_]` separated by single blanks, none of
the words being an article (`a` or `an` in any case), the pipeline is the
identity, and so running it on its own output changes nothing. -/
theorem C4_identity_on_clean_words (U : UnicodeTables) (ws : List (List Char))
    (h : CleanWords ws) :
    Process U (Join ws " ".toList) = some (Join ws " ".toList) ∧
    (Process U (Join ws " ".toList)).bind (Process U) = Process U (Join ws " ".toList) := by
  have h1 := Process_clean U ws h
  refine ⟨h1, ?_⟩
  rw [h1, Option.some_bind, h1]

set_option maxRecDepth 100000 in
/-- C4, witness: the text `banana split 42`. -/
theorem C4_identity_on_clean_words_witness :
    CleanWords ["banana".toList, "split".toList, "42".toList] ∧
    Join ["banana".toList, "split".toList, "42".toList] " ".toList = "banana split 42".toList ∧
    Process asciiTables (Join ["banana".toList, "split".toList, "42".toList] " ".toList) =
      some (Join ["banana".toList, "split".toList, "42".toList] " ".toList) :=
  ⟨by unfold CleanWords; decide, by decide,
    (C4_identity_on_clean_words asciiTables ["banana".toList, "split".toList, "42".toList]
      (by unfold CleanWords; decide)).1⟩

set_option maxRecDepth 100000 in
/-- C5, counterexample: `12` is no binary numeral, yet the pipeline does not
return `12(bin)(hex)` unchanged: it returns `18`, the value of `12` read as a
hexadecimal numeral. -/
theorem C5_counterexample :
    Process asciiTables "12(bin)(hex)".toList = some "18".toList ∧
    "18".toList ≠ "12(bin)(hex)".toList := by
  decide

/-- C5, amended: for a string `d` of decimal digits that contains a digit from 2
to 9, the pass `processConversion` returns `d(bin)(hex)` unchanged. -/
theorem C5_processConversion_invalid_binary (d : List Char)
    (hd : ∀ c ∈ d, isAsciiDigit c = true) (c : Char) (hc : c ∈ d) (hc2 : 50 ≤ c.toNat) :
    processConversion (d ++ "(bin)(hex)".toList) = some (d ++ "(bin)(hex)".toList) := by
  have hhex : ∀ c ∈ d, clsHex.test c = true := by
    intro e he
    have := hd e he
    simp only [isAsciiDigit, Bool.and_eq_true, decide_eq_true_eq] at this
    simp only [CClass.test, clsHex, List.any_cons, List.any_nil, Bool.or_false, Bool.false_bne,
      Bool.or_eq_true, Bool.and_eq_true, decide_eq_true_eq]
    exact Or.inl this
  have hne : d ≠ [] := List.ne_nil_of_mem hc
  have hbad : ∀ k, digitVal c = some k → 2 ≤ k := by
    intro k hk
    have h1 := hd c hc
    unfold digitVal at hk
    rw [if_pos h1] at hk
    simp only [Option.some.injEq] at hk
    omega
  have hval : numeralValue 2 d = none := by
    unfold numeralValue
    rw [if_neg hne]
    exact numFold_none_of_bad 2 c hbad d 0 hc
  have herr := ParseInt_err 2 (by omega) d (unsigned_of_hex d hhex)
    (fun n h => by rw [hval] at h; exact absurd h (by simp))
  rw [processConversion_bin_hex d hne hhex, if_pos herr]

set_option maxRecDepth 100000 in
/-- C5, witness: the digit string `12`. -/
theorem C5_processConversion_invalid_binary_witness :
    (∀ c ∈ "12".toList, isAsciiDigit c = true) ∧ '2' ∈ "12".toList ∧ 50 ≤ '2'.toNat ∧
    processConversion ("12".toList ++ "(bin)(hex)".toList) =
      some ("12".toList ++ "(bin)(hex)".toList) :=
  ⟨by decide, by decide, by decide,
    C5_processConversion_invalid_binary "12".toList (by decide) '2' (by decide) (by decide)⟩

/-- C6: for every word `w` of `[0-9A-Za-z_]` whose last character is not a
hexadecimal digit, the pipeline turns `w(hex)` into `w` and `w(bin)` into `w`. -/
theorem C6_word_marker_removed (U : UnicodeTables) (w : List Char)
    (hw : ∀ c ∈ w, isWordChar c = true)
    (hl : ∀ c, w.getLast? = some c → clsHex.test c = false) :
    Process U (w ++ "(hex)".toList) = some w ∧ Process U (w ++ "(bin)".toList) = some w :=
  ⟨Process_word_hex U w hw hl, Process_word_bin U w hw hl⟩

set_option maxRecDepth 100000 in
/-- C6, witness: `xyz(hex)` and `xyz(bin)` both give `xyz`. -/
theorem C6_word_marker_removed_witness :
    "xyz".toList ≠ [] ∧ (∀ c ∈ "xyz".toList, isWordChar c = true) ∧
    (∀ c, "xyz".toList.getLast? = some c → clsHex.test c = false) ∧
    Process asciiTables ("xyz".toList ++ "(hex)".toList) = some "xyz".toList ∧
    Process asciiTables ("xyz".toList ++ "(bin)".toList) = some "xyz".toList :=
  ⟨by decide, by decide, by decide,
    C6_word_marker_removed asciiTables "xyz".toList (by decide) (by decide)⟩

set_option maxRecDepth 100000 in
/-- C7: the pipeline turns `ha(up)` into `hA`, not `HA`: the first pass matches
only the hexadecimal-digit tail `a` of the word. The pass `processCaseModifiers`
alone turns `ha(up)` into `HA`. -/
theorem C7_case_on_hex_tail (U : UnicodeTables) :
    Process U "ha(up)".toList = some "hA".toList ∧
    processCaseModifiers U "ha(up)".toList = some "HA".toList ∧
    ToUpper U "ha".toList = "HA".toList := by
  refine ⟨?_, ?_, ?_⟩ <;> rfl

/-- C8: for a non-empty value `v` of hexadecimal digits followed by a non-empty
chain `ds` of directives from `up`, `low`, `cap`, `hex`, `bin`,
`processMultipleTypes` returns `chainResult U v ds`: the value with all case
modifiers of the chain applied in order and then, if some conversion directive
of the chain parses that value as a signed 64-bit number, its decimal string
under the first such directive, otherwise the case-modified value. -/
theorem C8_processMultipleTypes_chain (U : UnicodeTables) (v : List Char) (hv : v ≠ [])
    (hhex : ∀ c ∈ v, clsHex.test c = true) (ds : List Directive) (hds : ds ≠ []) :
    processMultipleTypes U (v ++ renderChain ds) = some (chainResult U v ds) :=
  processMultipleTypes_chain U v hv hhex ds hds

set_option maxRecDepth 100000 in
/-- C8, witness: `ff(hex)(up)` and `ff(cap)(hex)` both give `255`. -/
theorem C8_processMultipleTypes_chain_witness :
    ("ff".toList ≠ [] ∧ (∀ c ∈ "ff".toList, clsHex.test c = true) ∧
      [Directive.hex, Directive.up] ≠ [] ∧
      processMultipleTypes asciiTables ("ff".toList ++ renderChain [.hex, .up]) =
        some (chainResult asciiTables "ff".toList [.hex, .up])) ∧
    "ff".toList ++ renderChain [.hex, .up] = "ff(hex)(up)".toList ∧
    chainResult asciiTables "ff".toList [.hex, .up] = "255".toList ∧
    "ff".toList ++ renderChain [.cap, .hex] = "ff(cap)(hex)".toList ∧
    chainResult asciiTables "ff".toList [.cap, .hex] = "255".toList :=
  ⟨⟨by decide, by decide, by decide,
      C8_processMultipleTypes_chain asciiTables "ff".toList (by decide) (by decide)
        [.hex, .up] (by decide)⟩,
    by decide, by decide, by decide, by decide⟩

set_option maxRecDepth 100000 in
/-- C9, counterexample: `(up(up, 1 ,) 1 x)` has one scoped group, `(up, 1 ,)`,
and needs two iterations. The first iteration replaces the group by `,`, which
completes the scoped group `(up, 1 x)` around it; the loop has not ended after
one iteration (two evaluations of its condition) and ends after two, with
`X`. -/
theorem C9_counterexample :
    scopedGroupCount "(up(up, 1 ,) 1 x)".toList = 1 ∧
    reNested.ReplaceAllStringFunc "(up(up, 1 ,) 1 x)".toList (nestedCallback asciiTables) =
      some "(up, 1 x)".toList ∧
    reNested.MatchString "(up, 1 x)".toList = true ∧
    nestedLoop asciiTables (1 + 1) "(up(up, 1 ,) 1 x)".toList = none ∧
    nestedLoop asciiTables (2 + 1) "(up(up, 1 ,) 1 x)".toList = some "X".toList ∧
    processNestedModifiers asciiTables "(up(up, 1 ,) 1 x)".toList = some "X".toList := by
  decide

/-- C9, amended: `processNestedModifiers` terminates on every input, for case
tables that map no rune to `(`, within as many iterations as the input has `(`;
the number of scoped groups of the input is no bound, because replacing a group
can complete a group around it. Every text the pattern matches is `(`, a body
without parentheses and `)`, so the groups replaced are innermost ones; an
iteration of
the loop on a text that matches never panics and strictly decreases the number
of `(`; the loop ends after at most as many iterations as the input has `(`
(`nestedLoop` with one more evaluation of the loop condition returns the result
of `processNestedModifiers`); and no substring of the result is matched by the
pattern. -/
theorem C9_processNestedModifiers_terminates (U : UnicodeTables) (hU : ParenFree U)
    (input : List Char) :
    (∀ x, reNested.Lang x → ∃ b, x = '(' :: (b ++ [')']) ∧ '(' ∉ b ∧ ')' ∉ b) ∧
    (reNested.MatchString input = true →
      ∃ next, reNested.ReplaceAllStringFunc input (nestedCallback U) = some next ∧
        next.count '(' < input.count '(') ∧
    ∃ out, processNestedModifiers U input = some out ∧
      nestedLoop U (input.count '(' + 1) input = some out ∧
      reNested.MatchString out = false ∧
      ∀ pre x post, out = pre ++ x ++ post → ¬ reNested.Lang x := by
  refine ⟨fun x hx => ?_, fun hm => ?_, ?_⟩
  · obtain ⟨b, hb, _, h1, h2⟩ := nested_lang_shape x hx
    exact ⟨b, hb, h1, h2⟩
  · obtain ⟨next, n, h1, h2, h3⟩ := nested_step U hU input
    have := h3 hm
    exact ⟨next, h1, by omega⟩
  · obtain ⟨out, ho, hno⟩ := nestedLoop_terminates U hU (input.count '(' + 1) input
      (Nat.lt_succ_self _)
    refine ⟨out, nestedLoop_mono U _ input out ho _ ?_, ho, hno, ?_⟩
    · have := List.count_le_length '(' input
      omega
    · intro pre x post e hx
      have := Regex.MatchString_of_substring reNested rfl pre x post hx
      rw [← e, hno] at this
      exact absurd this (by simp)

set_option maxRecDepth 100000 in
/-- C9, witness: the two nested groups of `(up, 1 a (low, 1 B))` are resolved
from the inside, to `a B`. -/
theorem C9_processNestedModifiers_terminates_witness :
    ParenFree asciiTables ∧
    processNestedModifiers asciiTables "(up, 1 a (low, 1 B))".toList = some "a B".toList ∧
    "(up, 1 a (low, 1 B))".toList.count '(' = 2 ∧
    ∃ out, processNestedModifiers asciiTables "(up, 1 a (low, 1 B))".toList = some out ∧
      nestedLoop asciiTables ("(up, 1 a (low, 1 B))".toList.count '(' + 1)
        "(up, 1 a (low, 1 B))".toList = some out ∧
      reNested.MatchString out = false ∧
      ∀ pre x post, out = pre ++ x ++ post → ¬ reNested.Lang x :=
  ⟨asciiTables_parenFree, by rfl, by decide,
    (C9_processNestedModifiers_terminates asciiTables asciiTables_parenFree
      "(up, 1 a (low, 1 B))".toList).2.2⟩

set_option maxRecDepth 100000 in
/-- C10, counterexample: with count zero `(up, 0 hello world)` becomes
`HELLO WORLD`, and so does `applyModifier("hello world", "up", 0)`: the case of
both words has changed. -/
theorem C10_counterexample :
    processNestedModifiers asciiTables "(up, 0 hello world)".toList =
      some "HELLO WORLD".toList ∧
    applyModifier asciiTables "hello world".toList "up".toList 0 = some "HELLO WORLD".toList ∧
    "HELLO WORLD".toList ≠ "hello world".toList := by
  decide

/-- C10, amended: a scoped directive with count zero rewrites every word. For
every phrase `p` without parentheses and every modifier `m` among `up`, `low`,
`cap`, `processNestedModifiers` on `(m, 0 p)` and `applyModifier(p, m, 0)` both
return the words of `p`, each rewritten by the modifier (`ToUpper`, `ToLower`,
or `Title` after `ToLower`), joined by single spaces; the case tables are
assumed to map no rune to `(`. -/
theorem C10_zero_count_rewrites_every_word (U : UnicodeTables) (hU : ParenFree U)
    (m : List Char) (hm : m = "cap".toList ∨ m = "low".toList ∨ m = "up".toList)
    (p : List Char) (h1 : '(' ∉ p) (h2 : ')' ∉ p) :
    processNestedModifiers U ("(".toList ++ m ++ ", 0 ".toList ++ p ++ ")".toList) =
      some (Join ((Fields p).map (applyCase U m)) " ".toList) ∧
    applyModifier U p m 0 = some (Join ((Fields p).map (applyCase U m)) " ".toList) ∧
    (∀ w, applyCase U "cap".toList w = Title U (ToLower U w)) ∧
    (∀ w, applyCase U "low".toList w = ToLower U w) ∧
    (∀ w, applyCase U "up".toList w = ToUpper U w) :=
  ⟨scoped_zero U hU m hm p h1 h2, applyModifier_zero U p m, fun _ => rfl, fun _ => rfl,
    fun _ => rfl⟩

set_option maxRecDepth 100000 in
/-- C10, witness: the phrase `ab  cd` under `cap` becomes `Ab Cd`. -/
theorem C10_zero_count_rewrites_every_word_witness :
    ParenFree asciiTables ∧ '(' ∉ "ab  cd".toList ∧ ')' ∉ "ab  cd".toList ∧
    Join ((Fields "ab  cd".toList).map (applyCase asciiTables "cap".toList)) " ".toList =
      "Ab Cd".toList ∧
    processNestedModifiers asciiTables
        ("(".toList ++ "cap".toList ++ ", 0 ".toList ++ "ab  cd".toList ++ ")".toList) =
      some (Join ((Fields "ab  cd".toList).map (applyCase asciiTables "cap".toList))
        " ".toList) :=
  ⟨asciiTables_parenFree, by decide, by decide, by decide,
    (C10_zero_count_rewrites_every_word asciiTables asciiTables_parenFree "cap".toList
      (Or.inl rfl) "ab  cd".toList (by decide) (by decide)).1⟩

set_option maxRecDepth 100000 in
/-- C11, counterexample: `(bin, -5)` becomes `-101`, a minus sign and the digits
of 5, not the 64-digit numeral of `2^64 - 5`; `(hex, -1)` becomes `-1`, not
`FFFFFFFFFFFFFFFF`. -/
theorem C11_counterexample :
    processConversioncount "(bin, -5)".toList = some "-101".toList ∧
    Nat.toDigits 2 (2 ^ 64 - 5) ≠ "-101".toList ∧ '-' ∈ "-101".toList ∧
    processConversioncount "(hex, -1)".toList = some "-1".toList ∧
    (Nat.toDigits 16 (2 ^ 64 - 1)).map Char.toUpper = "FFFFFFFFFFFFFFFF".toList := by
  decide

/-- C11, amended: for a decimal numeral `d` of a number `n`, with or without a
minus sign `sg` in front, and `n < 2^63` (`n ≤ 2^63` after a minus sign),
`processConversioncount` turns `(bin, sg d)` into the binary digits of `n` and
`(hex, sg d)` into its upper-case hexadecimal digits, with a minus sign in front
when the number is negative. -/
theorem C11_conversioncount_sign_and_magnitude (sg d : List Char) (n : Nat)
    (hsg : sg = [] ∨ sg = ['-']) (hv : numeralValue 10 d = some n)
    (hr : n < 2 ^ 63 ∨ (sg = ['-'] ∧ n ≤ 2 ^ 63)) :
    processConversioncount ("(bin, ".toList ++ sg ++ d ++ ")".toList) =
      some ((if sg = ['-'] ∧ 0 < n then ['-'] else []) ++ Nat.toDigits 2 n) ∧
    processConversioncount ("(hex, ".toList ++ sg ++ d ++ ")".toList) =
      some ((if sg = ['-'] ∧ 0 < n then ['-'] else []) ++
        (Nat.toDigits 16 n).map Char.toUpper) :=
  processConversioncount_signed sg d n hsg hv hr

set_option maxRecDepth 100000 in
/-- C11, witness: `(bin, -9223372036854775808)` and `(hex, -9223372036854775808)`,
the least 64-bit integer. -/
theorem C11_conversioncount_sign_and_magnitude_witness :
    numeralValue 10 "9223372036854775808".toList = some (2 ^ 63) ∧
    (processConversioncount
        ("(bin, ".toList ++ ['-'] ++ "9223372036854775808".toList ++ ")".toList) =
      some ((if ['-'] = ['-'] ∧ 0 < 2 ^ 63 then ['-'] else []) ++ Nat.toDigits 2 (2 ^ 63)) ∧
    processConversioncount
        ("(hex, ".toList ++ ['-'] ++ "9223372036854775808".toList ++ ")".toList) =
      some ((if ['-'] = ['-'] ∧ 0 < 2 ^ 63 then ['-'] else []) ++
        (Nat.toDigits 16 (2 ^ 63)).map Char.toUpper)) :=
  ⟨by decide, C11_conversioncount_sign_and_magnitude ['-'] "9223372036854775808".toList
    (2 ^ 63) (Or.inr rfl) (by decide) (Or.inr ⟨rfl, Nat.le_refl _⟩)⟩

/-- C12: for every article `t` among `a`, `an`, `A`, `An`, `aN`, `AN` and every
non-empty word `w` of `[0-9A-Za-z_]`, `processArticles` turns `t w` into
`articleFor t w` followed by a blank and `w`: the `an` form exactly when `w`
begins with a vowel, in upper case exactly when `t` is `A` or `AN`. -/
theorem C12_processArticles_agreement (U : UnicodeTables) (t w : List Char)
    (ht : t = "a".toList ∨ t = "an".toList ∨ t = "A".toList ∨ t = "An".toList ∨
      t = "aN".toList ∨ t = "AN".toList)
    (hne : w ≠ []) (hw : ∀ y ∈ w, isWordChar y = true) :
    processArticles U (t ++ " ".toList ++ w) = some (articleFor t w ++ " ".toList ++ w) :=
  processArticles_article U t w ht hne hw

set_option maxRecDepth 100000 in
/-- C12, witness: `a apple` gives `an apple`, and `A Elephant` gives
`AN Elephant`. -/
theorem C12_processArticles_agreement_witness :
    (articleFor "a".toList "apple".toList ++ " ".toList ++ "apple".toList =
        "an apple".toList ∧
      processArticles asciiTables ("a".toList ++ " ".toList ++ "apple".toList) =
        some (articleFor "a".toList "apple".toList ++ " ".toList ++ "apple".toList)) ∧
    (articleFor "A".toList "Elephant".toList ++ " ".toList ++ "Elephant".toList =
        "AN Elephant".toList ∧
      processArticles asciiTables ("A".toList ++ " ".toList ++ "Elephant".toList) =
        some (articleFor "A".toList "Elephant".toList ++ " ".toList ++ "Elephant".toList)) :=
  ⟨⟨by decide, C12_processArticles_agreement asciiTables "a".toList "apple".toList
      (Or.inl rfl) (by decide) (by decide)⟩,
    ⟨by decide, C12_processArticles_agreement asciiTables "A".toList "Elephant".toList
      (Or.inr (Or.inr (Or.inl rfl))) (by decide) (by decide)⟩⟩

set_option maxRecDepth 100000 in
/-- C13, counterexample: `wait . . .` becomes `wait. . .`, not `wait...`: each of
the three periods is a match of its own and gets a blank after it, so the
periods that blanks separated stay apart. -/
theorem C13_counterexample :
    processPunctuation "wait . . .".toList = some "wait. . .".toList ∧
    Process asciiTables "wait . . .".toList = some "wait. . .".toList ∧
    "wait. . .".toList ≠ "wait...".toList := by
  decide

/-- C13, amended: for a word `w` of `[0-9A-Za-z_]`, blanks `s0`, a run of `k + 1`
periods and further runs of periods `rs`, each after one or more blanks,
`processPunctuation` and the pipeline return `w`, directly followed by the
first run, and then every later run after exactly one blank. Only periods that
stand next to each other in the input are concatenated. -/
theorem C13_period_runs (U : UnicodeTables) (w s0 : List Char) (k : Nat)
    (rs : List (List Char × Nat)) (hw : ∀ c ∈ w, isWordChar c = true)
    (h0 : ∀ c ∈ s0, c = ' ') (hrs : ∀ p ∈ rs, p.1 ≠ [] ∧ ∀ c ∈ p.1, c = ' ') :
    processPunctuation (w ++ (s0 ++ (List.replicate (k + 1) '.' ++ dotRuns rs))) =
      some (w ++ (List.replicate (k + 1) '.' ++ blankDotRuns rs)) ∧
    Process U (w ++ (s0 ++ (List.replicate (k + 1) '.' ++ dotRuns rs))) =
      some (w ++ (List.replicate (k + 1) '.' ++ blankDotRuns rs)) :=
  ⟨processPunctuation_dots w s0 k rs hw h0 hrs, Process_dots U w s0 k rs hw h0 hrs⟩

set_option maxRecDepth 100000 in
/-- C13, witness: `wait  ...` gives `wait...`, and `wait .  .. .` gives
`wait. .. .`. -/
theorem C13_period_runs_witness :
    ("wait".toList ++ ("  ".toList ++ (List.replicate (2 + 1) '.' ++ dotRuns [])) =
        "wait  ...".toList ∧
      "wait".toList ++ (List.replicate (2 + 1) '.' ++ blankDotRuns []) = "wait...".toList ∧
      processPunctuation
          ("wait".toList ++ ("  ".toList ++ (List.replicate (2 + 1) '.' ++ dotRuns []))) =
        some ("wait".toList ++ (List.replicate (2 + 1) '.' ++ blankDotRuns []))) ∧
    ("wait".toList ++ (" ".toList ++ (List.replicate (0 + 1) '.' ++
          dotRuns [("  ".toList, 1), (" ".toList, 0)])) = "wait .  .. .".toList ∧
      "wait".toList ++ (List.replicate (0 + 1) '.' ++
          blankDotRuns [("  ".toList, 1), (" ".toList, 0)]) = "wait. .. .".toList ∧
      Process asciiTables ("wait".toList ++ (" ".toList ++ (List.replicate (0 + 1) '.' ++
          dotRuns [("  ".toList, 1), (" ".toList, 0)]))) =
        some ("wait".toList ++ (List.replicate (0 + 1) '.' ++
          blankDotRuns [("  ".toList, 1), (" ".toList, 0)]))) :=
  ⟨⟨by decide, by decide,
      (C13_period_runs asciiTables "wait".toList "  ".toList 2 [] (by decide) (by decide)
        (by decide)).1⟩,
    ⟨by decide, by decide,
      (C13_period_runs asciiTables "wait".toList " ".toList 0
        [("  ".toList, 1), (" ".toList, 0)] (by decide) (by decide) (by decide)).2⟩⟩

set_option maxRecDepth 100000 in
/-- C14, counterexample: `hello!world`, where no blank follows the mark, is
returned unchanged: no blank is put before the second word. -/
theorem C14_counterexample :
    processPunctuation "hello!world".toList = some "hello!world".toList ∧
    "hello!world".toList ≠ "hello! world".toList := by
  decide

/-- C14, amended: for non-empty words `u`, `v` of `[0-9A-Za-z_]`, a non-empty run
`r` of the mark `m` (`!` or `?`) and blanks `s1`, `s2`, `processPunctuation`
attaches the run to `u` and turns the blanks `s2` before `v` into one blank;
when `s2` is empty, no blank is put before `v`. -/
theorem C14_mark_run_between_words (m : Char) (hm : m = '!' ∨ m = '?')
    (u s1 r s2 v : List Char) (hu : ∀ c ∈ u, isWordChar c = true) (hune : u ≠ [])
    (hv : ∀ c ∈ v, isWordChar c = true) (hvne : v ≠ [])
    (h1 : ∀ c ∈ s1, c = ' ') (h2 : ∀ c ∈ s2, c = ' ')
    (hr : ∀ c ∈ r, c = m) (hrne : r ≠ []) :
    processPunctuation (u ++ (s1 ++ (r ++ (s2 ++ v)))) =
      some (u ++ (r ++ ((if s2 = [] then [] else [' ']) ++ v))) :=
  processPunctuation_marks m hm u s1 r s2 v hu hune hv hvne h1 h2 hr hrne

set_option maxRecDepth 100000 in
/-- C14, witness: `hello !  world` gives `hello! world`, and `so??then` stays as
it is. -/
theorem C14_mark_run_between_words_witness :
    ("hello".toList ++ (" ".toList ++ ("!".toList ++ ("  ".toList ++ "world".toList))) =
        "hello !  world".toList ∧
      "hello".toList ++ ("!".toList ++ ((if "  ".toList = [] then [] else [' ']) ++
        "world".toList)) = "hello! world".toList ∧
      processPunctuation
          ("hello".toList ++ (" ".toList ++ ("!".toList ++ ("  ".toList ++ "world".toList)))) =
        some ("hello".toList ++ ("!".toList ++ ((if "  ".toList = [] then [] else [' ']) ++
          "world".toList)))) ∧
    processPunctuation ("so".toList ++ ([] ++ ("??".toList ++ ([] ++ "then".toList)))) =
      some ("so".toList ++ ("??".toList ++ ((if ([] : List Char) = [] then [] else [' ']) ++
        "then".toList))) :=
  ⟨⟨by decide, by decide,
      C14_mark_run_between_words '!' (Or.inl rfl) "hello".toList " ".toList "!".toList
        "  ".toList "world".toList (by decide) (by decide) (by decide) (by decide) (by decide)
        (by decide) (by decide) (by decide)⟩,
    C14_mark_run_between_words '?' (Or.inr rfl) "so".toList [] "??".toList [] "then".toList
      (by decide) (by decide) (by decide) (by decide) (by decide) (by decide) (by decide)
      (by decide)⟩

/-- C15: for words `u`, `v` of `[0-9A-Za-z_]`, `v` non-empty, a mark `p` among
`,`, `;`, `:` and blanks `s1`, `s2` (possibly none), `processPunctuation` attaches
the mark to `u` and puts exactly one blank after it. -/
theorem C15_separator_between_words (u s1 s2 v : List Char) (p : Char)
    (hp : p = ',' ∨ p = ';' ∨ p = ':') (hu : ∀ c ∈ u, isWordChar c = true)
    (hv : ∀ c ∈ v, isWordChar c = true) (hvne : v ≠ [])
    (h1 : ∀ c ∈ s1, c = ' ') (h2 : ∀ c ∈ s2, c = ' ') :
    processPunctuation (u ++ s1 ++ [p] ++ s2 ++ v) = some (u ++ [p] ++ " ".toList ++ v) := by
  have hsep : isSeparatorMark p = true := by
    rcases hp with rfl | rfl | rfl <;> decide
  have := processPunctuation_separator u s1 s2 v p hsep hu hv hvne h1 h2
  simp only [List.append_assoc] at this ⊢
  exact this

set_option maxRecDepth 100000 in
/-- C15, witness: `one  ;two` gives `one; two`. -/
theorem C15_separator_between_words_witness :
    processPunctuation ("one".toList ++ "  ".toList ++ [';'] ++ [] ++ "two".toList) =
      some ("one".toList ++ [';'] ++ " ".toList ++ "two".toList) :=
  C15_separator_between_words "one".toList "  ".toList [] "two".toList ';'
    (Or.inr (Or.inl rfl)) (by decide) (by decide) (by decide) (by decide) (by decide)

/-- C16: for a non-empty text `t` without quote runes whose first and last rune
are no white space, and white space `s1`, `s2` (in the sense of
`unicode.IsSpace`, which includes the runes of `\s`), `processQuotes` turns the
quoted text with `s1` and `s2` inside the quotes into the quoted `t`, for
single and for double quotes. -/
theorem C16_quotes_hug_text (s1 t s2 : List Char) (hne : t ≠ [])
    (ht : ∀ c ∈ t, c ≠ Char.ofNat 39 ∧ c ≠ Char.ofNat 34)
    (hth : ∀ c ∈ t.head?, unicodeIsSpace c = false)
    (htl : ∀ c ∈ t.getLast?, unicodeIsSpace c = false)
    (h1 : ∀ c ∈ s1, unicodeIsSpace c = true) (h2 : ∀ c ∈ s2, unicodeIsSpace c = true) :
    processQuotes (Char.ofNat 39 :: (s1 ++ (t ++ (s2 ++ [Char.ofNat 39])))) =
      some (Char.ofNat 39 :: (t ++ [Char.ofNat 39])) ∧
    processQuotes (Char.ofNat 34 :: (s1 ++ (t ++ (s2 ++ [Char.ofNat 34])))) =
      some (Char.ofNat 34 :: (t ++ [Char.ofNat 34])) :=
  ⟨processQuotes_quoted _ (Or.inl rfl) s1 t s2 hne ht hth htl h1 h2,
    processQuotes_quoted _ (Or.inr rfl) s1 t s2 hne ht hth htl h1 h2⟩

set_option maxRecDepth 100000 in
/-- C16, witness: the text `go home` with two blanks after the opening quote and
a tab and a blank before the closing one. -/
theorem C16_quotes_hug_text_witness :
    processQuotes (Char.ofNat 39 :: ("  ".toList ++ ("go home".toList ++
        ("\t ".toList ++ [Char.ofNat 39])))) =
      some (Char.ofNat 39 :: ("go home".toList ++ [Char.ofNat 39])) ∧
    processQuotes (Char.ofNat 34 :: ("  ".toList ++ ("go home".toList ++
        ("\t ".toList ++ [Char.ofNat 34])))) =
      some (Char.ofNat 34 :: ("go home".toList ++ [Char.ofNat 34])) :=
  C16_quotes_hug_text "  ".toList "go home".toList "\t ".toList (by decide) (by decide)
    (by decide) (by decide) (by decide) (by decide)

/-- C17: every pass is total, for case tables that map no rune to `(`. On every
text each of the twelve passes and `Process` return a string (the model returns
no result on a run-time panic and when a loop outlasts its bound). The callbacks
that index the submatches of a re-matched match return a string on every text
their pattern can match, the loop of `processCaseModifiers` over the window
`[start, len(words))` stays inside the word list for every non-negative `start`,
and `applyModifier` returns the words of its text with a window of them
rewritten for every modifier and every count. -/
theorem C17_passes_total (U : UnicodeTables) (hU : ParenFree U) (text : List Char) :
    ((∃ o, processMultipleTypes U text = some o) ∧
      (∃ o, processConversion text = some o) ∧
      (∃ o, processConversioncount text = some o) ∧
      (∃ o, processHexNumbers text = some o) ∧
      (∃ o, processBinaryNumbers text = some o) ∧
      (∃ o, processCaseModifiers U text = some o) ∧
      (∃ o, processMultiModifiers U text = some o) ∧
      (∃ o, processNestedModifiers U text = some o) ∧
      (∃ o, processPunctuation text = some o) ∧
      (∃ o, processQuotes text = some o) ∧
      (∃ o, processArticles U text = some o) ∧
      (∃ o, processStandaloneModifiers text = some o) ∧
      (∃ o, Process U text = some o)) ∧
    ((∃ r, multipleTypesCallback U text = some r) ∧
      (reConversion.Lang text → ∃ r, conversionCallback text = some r) ∧
      (∃ r, conversionCountCallback reBinCount 2 text = some r) ∧
      (∃ r, conversionCountCallback reHexCount 16 text = some r) ∧
      (reHexNum.Lang text → ∃ r, hexNumCallback text = some r) ∧
      (reBinNum.Lang text → ∃ r, binNumCallback text = some r) ∧
      (reCaseCount.Lang text → ∃ r, caseCountCallback U text = some r) ∧
      (reCaseWord.Lang text → ∃ r, caseWordCallback U text = some r) ∧
      (∃ r, multiModifiersCallback U text = some r) ∧
      (reNested.Lang text → ∃ r, nestedCallback U text = some r) ∧
      (∀ q, (reQuoted q).Lang text → ∃ r, quotedCallback q text = some r) ∧
      (reArticle.Lang text → ∃ r, articleCallback U text = some r)) ∧
    (∀ (f : List Char → List Char) (ws : List (List Char)) (start : Int), 0 ≤ start →
      ∃ r, forLoop (updateWord f) ((ws.length : Int) - start).toNat start ws = some r) ∧
    (∀ (modifier : List Char) (count : Int), ∃ lo hi,
      applyModifier U text modifier count =
        some (Join (mapWindow (applyCase U modifier) lo hi 0 (Fields text)) " ".toList)) := by
  refine ⟨⟨processMultipleTypes_total U text, processConversion_total text,
      processConversioncount_total text, processHexNumbers_total text,
      processBinaryNumbers_total text, processCaseModifiers_total U text,
      processMultiModifiers_total U text, processNestedModifiers_total U hU text,
      processPunctuation_total text, processQuotes_total text, processArticles_total U text,
      processStandaloneModifiers_total text, Process_total U hU text⟩,
    ⟨multipleTypesCallback_total U text, conversionCallback_total text,
      conversionCountCallback_total reBinCount 2 text,
      conversionCountCallback_total reHexCount 16 text, ?_, ?_,
      caseCountCallback_total U text, caseWordCallback_total U text,
      multiModifiersCallback_total U text, ?_, fun q => quotedCallback_total q text,
      articleCallback_total U text⟩,
    fun f ws start h => forLoop_window_total f ws start h,
    fun modifier count => applyModifier_total U text modifier count⟩
  · intro hx
    obtain ⟨r, hr, _⟩ := hexNumCallback_good text hx
    exact ⟨r, hr⟩
  · intro hx
    obtain ⟨r, hr, _⟩ := binNumCallback_good text hx
    exact ⟨r, hr⟩
  · intro hx
    obtain ⟨r, hr, _⟩ := nestedCallback_of_lang U hU text hx
    exact ⟨r, hr⟩

set_option maxRecDepth 100000 in
/-- C17, witness: the ASCII case tables map no rune to `(`; the pipeline returns
a string on a line with a directive whose count is beyond the 64-bit range,
and `applyModifier` returns the words of `a b` for the least 64-bit count. -/
theorem C17_passes_total_witness :
    ParenFree asciiTables ∧
    (∃ o, Process asciiTables "1E (hex) it (cap, 99999999999999999999) (up, -3 a b)".toList =
      some o) ∧
    (∃ lo hi, applyModifier asciiTables "a b".toList "up".toList (-9223372036854775808) =
      some (Join (mapWindow (applyCase asciiTables "up".toList) lo hi 0 (Fields "a b".toList))
        " ".toList)) :=
  ⟨asciiTables_parenFree,
    (C17_passes_total asciiTables asciiTables_parenFree
      "1E (hex) it (cap, 99999999999999999999) (up, -3 a b)".toList).1.2.2.2.2.2.2.2.2.2.2.2.2,
    (C17_passes_total asciiTables asciiTables_parenFree "a b".toList).2.2.2 "up".toList
      (-9223372036854775808)⟩

/-- C18: the base-reduction loops of `processHexNumbers` and
`processBinaryNumbers` terminate on every input. One iteration of either loop
never fails and either returns the text unchanged, which ends the loop, or
strictly lowers the number of positions at which a marker `(hex)`, resp. `(bin)`,
begins. Hence the loop returns when it is allowed `markerCount + 2` evaluations
of its condition, which is at most `markerCount + 1` iterations, and with the
bound `text.length + 2` of the model it returns the same text; both passes
return a string. -/
theorem C18_base_loops_terminate (text : List Char) :
    (∃ t2, hexStep text = some t2 ∧
      (t2 = text ∨ markerCount "hex".toList t2 < markerCount "hex".toList text)) ∧
    (∃ t2, binStep text = some t2 ∧
      (t2 = text ∨ markerCount "bin".toList t2 < markerCount "bin".toList text)) ∧
    (∃ out, fixLoop hexStep (markerCount "hex".toList text + 2) [] text = some out ∧
      fixLoop hexStep (text.length + 2) [] text = some out) ∧
    (∃ out, fixLoop binStep (markerCount "bin".toList text + 2) [] text = some out ∧
      fixLoop binStep (text.length + 2) [] text = some out) ∧
    processHexNumbers text = (fixLoop hexStep (text.length + 2) [] text).bind (fun t =>
      ((reMarker "hex".toList).ReplaceAllString t []).bind (fun t =>
        (reWordMarker "hex".toList).ReplaceAllString t [.group 1])) ∧
    processBinaryNumbers text = (fixLoop binStep (text.length + 2) [] text).bind (fun t =>
      ((reMarker "bin".toList).ReplaceAllString t []).bind (fun t =>
        (reWordMarker "bin".toList).ReplaceAllString t [.group 1])) ∧
    (∃ o, processHexNumbers text = some o) ∧
    (∃ o, processBinaryNumbers text = some o) :=
  ⟨hexStep_measure text, binStep_measure text, hexLoop_terminates text, binLoop_terminates text,
    rfl, rfl, processHexNumbers_total text, processBinaryNumbers_total text⟩

set_option maxRecDepth 100000 in
/-- C19, counterexample: with twelve words before `(up, 12)` the first word is
left in lower case. The pattern takes at most ten words and one more, so the
match begins at the second word and the phrase of the directive has eleven
words. -/
theorem C19_counterexample :
    processCaseModifiers asciiTables "a b c d e f g h i j k l (up, 12)".toList =
      some "a B C D E F G H I J K L".toList ∧
    "a B C D E F G H I J K L".toList ≠ "A B C D E F G H I J K L".toList := by
  decide

/-- C19, amended: for `n >= 1` non-empty words of `[0-9A-Za-z_]` separated by
single blanks, a modifier `m` among `up`, `low`, `cap` with case function `f`
and a decimal numeral `d` of a number `c`, `processCaseModifiers` turns the
phrase followed by ` (m, d)` into the phrase with `f` applied to exactly its
last `min c (min n 11)` words, the directive removed. The window is limited by
the number of words and by the eleven words the pattern can take; up to eleven
words and for `c ≤ n` it is the last `c` words. -/
theorem C19_case_count_window (U : UnicodeTables) (ws : List (List Char)) (hne : ws ≠ [])
    (hws : ∀ w ∈ ws, w ≠ [] ∧ ∀ c ∈ w, isWordChar c = true) (m d : List Char)
    (f : List Char → List Char) (hf : caseOf U m = some f) (c : Nat)
    (hv : numeralValue 10 d = some c) :
    processCaseModifiers U
        (Join ws " ".toList ++ " (".toList ++ m ++ ", ".toList ++ d ++ ")".toList) =
      some (Join (mapWindow f (ws.length - min c (min ws.length 11)) ws.length 0 ws)
        " ".toList) ∧
    (ws.length ≤ 11 → c ≤ ws.length →
      processCaseModifiers U
          (Join ws " ".toList ++ " (".toList ++ m ++ ", ".toList ++ d ++ ")".toList) =
        some (Join (mapWindow f (ws.length - c) ws.length 0 ws) " ".toList)) := by
  have e : Join ws " ".toList ++ " (".toList ++ m ++ ", ".toList ++ d ++ ")".toList =
      Join ws " ".toList ++ (' ' :: '(' :: (m ++ ',' :: ' ' :: (d ++ [')']))) := by
    simp [String.toList]
  have h := processCaseModifiers_last_words U ws hne hws m d f hf c hv
  rw [e]
  refine ⟨h, fun h1 h2 => ?_⟩
  rw [h, show min c (min ws.length 11) = c by omega]

set_option maxRecDepth 100000 in
/-- C19, witness: `one two three (cap, 2)` gives `one Two Three`, and of the
thirteen words before `(up, 13)` the last eleven are put in upper case. -/
theorem C19_case_count_window_witness :
    (Join ["one".toList, "two".toList, "three".toList] " ".toList ++ " (".toList ++
        "cap".toList ++ ", ".toList ++ "2".toList ++ ")".toList =
        "one two three (cap, 2)".toList ∧
      Join (mapWindow (fun w => Title asciiTables (ToLower asciiTables w)) (3 - 2) 3 0
        ["one".toList, "two".toList, "three".toList]) " ".toList = "one Two Three".toList ∧
      processCaseModifiers asciiTables
          (Join ["one".toList, "two".toList, "three".toList] " ".toList ++ " (".toList ++
            "cap".toList ++ ", ".toList ++ "2".toList ++ ")".toList) =
        some (Join (mapWindow (fun w => Title asciiTables (ToLower asciiTables w)) (3 - 2) 3 0
          ["one".toList, "two".toList, "three".toList]) " ".toList)) ∧
    (Join (mapWindow (ToUpper asciiTables) (13 - min 13 (min 13 11)) 13 0
        ["a".toList, "b".toList, "c".toList, "d".toList, "e".toList, "f".toList, "g".toList,
          "h".toList, "i".toList, "j".toList, "k".toList, "l".toList, "m".toList]) " ".toList =
        "a b C D E F G H I J K L M".toList ∧
      processCaseModifiers asciiTables
          (Join ["a".toList, "b".toList, "c".toList, "d".toList, "e".toList, "f".toList,
            "g".toList, "h".toList, "i".toList, "j".toList, "k".toList, "l".toList,
            "m".toList] " ".toList ++ " (".toList ++ "up".toList ++ ", ".toList ++
            "13".toList ++ ")".toList) =
        some (Join (mapWindow (ToUpper asciiTables) (13 - min 13 (min 13 11)) 13 0
          ["a".toList, "b".toList, "c".toList, "d".toList, "e".toList, "f".toList, "g".toList,
            "h".toList, "i".toList, "j".toList, "k".toList, "l".toList, "m".toList])
          " ".toList)) :=
  ⟨⟨by decide, by decide,
      (C19_case_count_window asciiTables ["one".toList, "two".toList, "three".toList]
        (by decide) (by decide) "cap".toList "2".toList
        (fun w => Title asciiTables (ToLower asciiTables w)) (by rfl) 2 (by decide)).2
        (by decide) (by decide)⟩,
    ⟨by decide,
      (C19_case_count_window asciiTables
        ["a".toList, "b".toList, "c".toList, "d".toList, "e".toList, "f".toList, "g".toList,
          "h".toList, "i".toList, "j".toList, "k".toList, "l".toList, "m".toList]
        (by decide) (by decide) "up".toList "13".toList (ToUpper asciiTables) (by rfl) 13
        (by decide)).1⟩⟩

/-- C20: for every non-empty string `d` of hexadecimal digits (the decimal digit
strings among them) and all operator words `op1`, `op2` with `op1` neither
`bin` nor `hex`, `processConversion` on `d (op1) (op2)` returns the input
unchanged only when `op2` is no base name either; when `op2` is `bin` or `hex`
it returns `0`, the value of the variable `val` that no parse has assigned. -/
theorem C20_processConversion_unknown_first_operator (d op1 op2 : List Char) (hd : d ≠ [])
    (hhex : ∀ c ∈ d, clsHex.test c = true)
    (h1 : op1 ≠ []) (hw1 : ∀ c ∈ op1, isWordChar c = true)
    (h2 : op2 ≠ []) (hw2 : ∀ c ∈ op2, isWordChar c = true)
    (hb : op1 ≠ "bin".toList) (hh : op1 ≠ "hex".toList) :
    processConversion (d ++ " (".toList ++ op1 ++ ") (".toList ++ op2 ++ ")".toList) =
      some (if op2 = "bin".toList ∨ op2 = "hex".toList then "0".toList
        else d ++ " (".toList ++ op1 ++ ") (".toList ++ op2 ++ ")".toList) :=
  processConversion_unknown_first d op1 op2 hd hhex h1 hw1 h2 hw2 hb hh

set_option maxRecDepth 100000 in
/-- C20, witness: `12 (up) (bin)` becomes `0`. -/
theorem C20_processConversion_unknown_first_operator_witness :
    "12".toList ≠ [] ∧ (∀ c ∈ "12".toList, clsHex.test c = true) ∧
    "up".toList ≠ "bin".toList ∧ "up".toList ≠ "hex".toList ∧
    "12".toList ++ " (".toList ++ "up".toList ++ ") (".toList ++ "bin".toList ++ ")".toList =
      "12 (up) (bin)".toList ∧
    (if "bin".toList = "bin".toList ∨ "bin".toList = "hex".toList then "0".toList
      else "12 (up) (bin)".toList) = "0".toList ∧
    processConversion ("12".toList ++ " (".toList ++ "up".toList ++ ") (".toList ++
        "bin".toList ++ ")".toList) =
      some (if "bin".toList = "bin".toList ∨ "bin".toList = "hex".toList then "0".toList
        else "12".toList ++ " (".toList ++ "up".toList ++ ") (".toList ++ "bin".toList ++
          ")".toList) :=
  ⟨by decide, by decide, by decide, by decide, by decide, by decide,
    C20_processConversion_unknown_first_operator "12".toList "up".toList "bin".toList
      (by decide) (by decide) (by decide) (by decide) (by decide) (by decide) (by decide)
      (by decide)⟩

end GoReloaded
